import Mathlib

/-!
# ineutil: the fuzzy search engine (`util_fuzzy_search.h`, `util_fuzzy_search.cpp`)

A shallow embedding of `Util::TokenizedValue`, `Util::TokenizedString` and
`Util::FuzzySearchEngine`, followed by theorems about them.

Conventions of the embedding

* `std::uint16_t` tokens and pattern ids and `std::uint8_t` group ids are natural numbers.
* A `QString` is the list of its characters.  The Unicode classification of Qt
  (`QChar::isPunct`, `QChar::isSpace`, `QString::toLower`) is not part of the repository and is
  a parameter (`CharOps`); `qtAscii` gives it on the characters used by the test fixtures.
* A `QHash` is an association list with unique-key update; only look-ups are observed, so the
  unspecified iteration order of the hash never matters.
* A `QMap` is an association list whose keys are strictly ascending, which is the order in
  which Qt iterates over it.
* The process-wide interner (`tokensByKeyword`, `keywordsByToken`) is passed explicitly.
* The `unsigned` hit counter wraps modulo `2^32`; `static_cast<int>` and the negation used as
  the ranking key wrap to the 32-bit two's complement range.
-/

namespace Util

/-! ## Containers -/

/-- The type `QHash<K, V>`: an association list, looked up by the first matching key. -/
abbrev QHash (K V : Type) := List (K × V)

/-- The call `QHash::value(key, defaultValue)`. -/
def QHash.value {K V : Type} [DecidableEq K] : QHash K V → K → V → V
  | [], _, d => d
  | (k', v) :: rest, k, d => if k' = k then v else QHash.value rest k d

/-- The call `QHash::contains(key)`. -/
def QHash.contains {K V : Type} [DecidableEq K] : QHash K V → K → Bool
  | [], _ => false
  | (k', _) :: rest, k => if k' = k then true else QHash.contains rest k

/-- The access `hash[key]` followed by a change of the referenced value: an absent key is
first inserted with the default-constructed value `d`. -/
def QHash.modify {K V : Type} [DecidableEq K] : QHash K V → K → V → (V → V) → QHash K V
  | [], k, d, f => [(k, f d)]
  | (k', v) :: rest, k, d, f =>
    if k' = k then (k', f v) :: rest else (k', v) :: QHash.modify rest k d f

/-- The call `QHash::insert(key, value)`: replaces the value of a present key, adds an absent
one. -/
def QHash.insert {K V : Type} [DecidableEq K] (h : QHash K V) (k : K) (v : V) : QHash K V :=
  QHash.modify h k v (fun _ => v)

/-- Change of the value of a key in a key-ordered association list; an absent key is inserted
at its place with `f d`. -/
def modifyEntry {K V : Type} [LinearOrder K] (k : K) (d : V) (f : V → V) :
    List (K × V) → List (K × V)
  | [] => [(k, f d)]
  | e :: rest =>
    if k < e.1 then (k, f d) :: e :: rest
    else if e.1 < k then e :: modifyEntry k d f rest
    else (e.1, f e.2) :: rest

/-- The type `QMap<K, V>`: the entries in iteration order, which is strictly ascending in the
key. -/
structure QMap (K V : Type) [LinearOrder K] where
  /-- Entries in iteration order. -/
  entries : List (K × V)
  /-- Keys are strictly ascending. -/
  ordered : (entries.map Prod.fst).Pairwise (· < ·)

/-- The empty map. -/
def QMap.empty {K V : Type} [LinearOrder K] : QMap K V := ⟨[], List.Pairwise.nil⟩

/-- The call `QMap::value(key, defaultValue)`. -/
def QMap.value {K V : Type} [LinearOrder K] (m : QMap K V) (k : K) (d : V) : V :=
  QHash.value m.entries k d

/-- The call `QMap::contains(key)`. -/
def QMap.contains {K V : Type} [LinearOrder K] (m : QMap K V) (k : K) : Bool :=
  QHash.contains m.entries k

/-- The call `QMap::keys()`: the keys in ascending order. -/
def QMap.keys {K V : Type} [LinearOrder K] (m : QMap K V) : List K := m.entries.map Prod.fst

/-- The access `map[key]` followed by a change of the referenced value: an absent key is first
inserted with the default-constructed value `d`. -/
def QMap.modify {K V : Type} [LinearOrder K] (m : QMap K V) (k : K) (d : V) (f : V → V) :
    QMap K V :=
  ⟨modifyEntry k d f m.entries, by
    have key : ∀ l : List (K × V), (l.map Prod.fst).Pairwise (· < ·) →
        ((modifyEntry k d f l).map Prod.fst).Pairwise (· < ·) ∧
          ∀ x ∈ (modifyEntry k d f l).map Prod.fst, x = k ∨ x ∈ l.map Prod.fst := by
      intro l
      induction l with
      | nil => intro _; simp [modifyEntry]
      | cons e rest ih =>
        intro h
        rw [List.map_cons, List.pairwise_cons] at h
        obtain ⟨h1, h2⟩ := h
        obtain ⟨ih1, ih2⟩ := ih h2
        unfold modifyEntry
        by_cases c1 : k < e.1
        · rw [if_pos c1]
          refine ⟨?_, ?_⟩
          · simp only [List.map_cons, List.pairwise_cons]
            refine ⟨?_, h1, h2⟩
            intro x hx
            rcases List.mem_cons.1 hx with hx | hx
            · rw [hx]; exact c1
            · exact lt_trans c1 (h1 x hx)
          · intro x hx
            simp only [List.map_cons, List.mem_cons] at hx ⊢
            tauto
        · rw [if_neg c1]
          by_cases c2 : e.1 < k
          · rw [if_pos c2]
            refine ⟨?_, ?_⟩
            · simp only [List.map_cons, List.pairwise_cons]
              refine ⟨?_, ih1⟩
              intro x hx
              rcases ih2 x hx with hx | hx
              · rw [hx]; exact c2
              · exact h1 x hx
            · intro x hx
              simp only [List.map_cons, List.mem_cons] at hx ⊢
              rcases hx with hx | hx
              · tauto
              · rcases ih2 x hx with hx | hx <;> tauto
          · rw [if_neg c2]
            refine ⟨?_, ?_⟩
            · simp only [List.map_cons, List.pairwise_cons]
              exact ⟨h1, h2⟩
            · intro x hx
              simp only [List.map_cons, List.mem_cons] at hx ⊢
              tauto
    exact (key m.entries m.ordered).1⟩

/-- The call `QMap::insert(key, value)`. -/
def QMap.insert {K V : Type} [LinearOrder K] (m : QMap K V) (k : K) (v : V) : QMap K V :=
  m.modify k v (fun _ => v)

/-! ## `Util::TokenizedValue` -/

/-- The type `TokenizedValue::Token` (`std::uint16_t`). -/
abbrev Token := Nat

/-- The constant `TokenizedValue::invalidToken`, `static_cast<Token>(-1)`. -/
def invalidToken : Token := 0xFFFF

/-- The constant `TokenizedValue::maximumNumberTokens`. -/
def maximumNumberTokens : Nat := 31

/-- A `TokenizedValue`: the first `currentLength` entries of `currentTokens`. -/
structure TokenizedValue where
  /-- The tokens in use, `currentTokens[0 .. currentLength)`. -/
  tokenList : List Token
  deriving DecidableEq, Repr

/-- The default constructor: no tokens. -/
def TokenizedValue.empty : TokenizedValue := ⟨[]⟩

/-- The method `TokenizedValue::length`. -/
def TokenizedValue.length (v : TokenizedValue) : Nat := v.tokenList.length

/-- The method `TokenizedValue::addToken`: the success flag and the value afterwards. -/
def TokenizedValue.addToken (v : TokenizedValue) (newToken : Token) : Bool × TokenizedValue :=
  if v.length < maximumNumberTokens then (true, ⟨v.tokenList ++ [newToken]⟩) else (false, v)

/-- The constructor `TokenizedValue(Length length, const Token* tokens)`: `currentLength` is
set to `length` and `length` tokens are copied from the array `tokens`, here the function from
the index to the token at that index.  Nothing compares `length` with
`maximumNumberTokens`. -/
def TokenizedValue.fromArray (length : Nat) (tokens : Nat → Token) : TokenizedValue :=
  ⟨(List.range length).map tokens⟩

/-- The copy constructor and the assignment operator: length and tokens of `other`. -/
def TokenizedValue.copy (other : TokenizedValue) : TokenizedValue := ⟨other.tokenList⟩

/-- Every token of the value is a value of `std::uint16_t`. -/
@[reducible]
def TokenizedValue.WellTyped (v : TokenizedValue) : Prop := ∀ t ∈ v.tokenList, t < 65536

/-- The order in which the host stores the two bytes of a `std::uint16_t`. -/
inductive ByteOrder where
  | littleEndian
  | bigEndian
  deriving DecidableEq, Repr

/-- The two bytes of a token in memory, at ascending addresses. -/
def tokenBytes (order : ByteOrder) (t : Token) : List Nat :=
  match order with
  | ByteOrder.littleEndian => [t % 256, t / 256 % 256]
  | ByteOrder.bigEndian => [t / 256 % 256, t % 256]

/-- The bytes of the used part of `currentTokens`, at ascending addresses. -/
def tokenArrayBytes (order : ByteOrder) (tokens : List Token) : List Nat :=
  tokens.flatMap (tokenBytes order)

/-- The call `std::memcmp(lhs, rhs, count)`: the sign of the difference of the first pair of
bytes that differ among the first `count` bytes, each byte an `unsigned char`; zero when there
is none. -/
def memcmp : List Nat → List Nat → Nat → Int
  | x :: xs, y :: ys, count + 1 =>
    if x < y then -1 else if y < x then 1 else memcmp xs ys count
  | _, _, _ => 0

/-- The comparison `std::memcmp(currentTokens, other.currentTokens,
sizeof(Token) * currentLength)` of the comparison operators. -/
def TokenizedValue.compareTokens (order : ByteOrder) (a b : TokenizedValue) : Int :=
  memcmp (tokenArrayBytes order a.tokenList) (tokenArrayBytes order b.tokenList) (2 * a.length)

/-- The operator `TokenizedValue::operator==`. -/
def TokenizedValue.eq (order : ByteOrder) (a b : TokenizedValue) : Bool :=
  decide (a.length = b.length) && decide (a.compareTokens order b = 0)

/-- The operator `TokenizedValue::operator!=`. -/
def TokenizedValue.ne (order : ByteOrder) (a b : TokenizedValue) : Bool := !(a.eq order b)

/-- The operator `TokenizedValue::operator<`. -/
def TokenizedValue.lt (order : ByteOrder) (a b : TokenizedValue) : Bool :=
  decide (a.length < b.length) ||
    (decide (a.length = b.length) && decide (a.compareTokens order b < 0))

/-- The operator `TokenizedValue::operator>`. -/
def TokenizedValue.gt (order : ByteOrder) (a b : TokenizedValue) : Bool :=
  decide (a.length > b.length) ||
    (decide (a.length = b.length) && decide (a.compareTokens order b > 0))

/-- The operator `TokenizedValue::operator<=`. -/
def TokenizedValue.le (order : ByteOrder) (a b : TokenizedValue) : Bool := !(a.gt order b)

/-- The operator `TokenizedValue::operator>=`. -/
def TokenizedValue.ge (order : ByteOrder) (a b : TokenizedValue) : Bool := !(a.lt order b)

/-- The number that the two stored bytes of a token spell when the byte at the lower address
is taken as the more significant one: the token itself on a big-endian host, the token with
its bytes swapped on a little-endian host. -/
def storedValue (order : ByteOrder) (t : Token) : Nat :=
  match order with
  | ByteOrder.littleEndian => t % 256 * 256 + t / 256 % 256
  | ByteOrder.bigEndian => t / 256 % 256 * 256 + t % 256

/-- The function `Util::qHash(const TokenizedValue&, HashSeed)`.  The hash `::qHash(Token,
seed)` of Qt for a single token is the parameter `tokenHash`; the accumulator is an
`unsigned`. -/
def qHash (tokenHash : Token → Nat → Nat) (tokenizedValue : TokenizedValue) (seed : Nat) : Nat :=
  tokenizedValue.tokenList.foldl (fun hash t => (hash ^^^ tokenHash t seed) % 2 ^ 32) 0x12345678

/-! ## `Util::TokenizedString`: the keyword interner and the tokenizer -/

/-- A `QString`: the list of its characters. -/
abbrev QString := List Char

/-- The operations of Qt on characters and strings that the tokenizer uses:
`QChar::isPunct`, `QChar::isSpace` and `QString::toLower`. -/
structure CharOps where
  /-- The method `QChar::isPunct`. -/
  isPunct : Char → Bool
  /-- The method `QChar::isSpace`. -/
  isSpace : Char → Bool
  /-- The method `QString::toLower`. -/
  toLower : QString → QString

/-- The static members `tokensByKeyword` and `keywordsByToken` of `TokenizedString`. -/
structure Interner where
  /-- Hash of tokens by keyword. -/
  tokensByKeyword : QHash QString Token
  /-- List of keywords by token. -/
  keywordsByToken : List QString

/-- The interner at program start: both tables empty. -/
def Interner.empty : Interner := ⟨[], []⟩

/-- The conversion `static_cast<Token>(keywordsByToken.size())`. -/
def nextToken (st : Interner) : Token := st.keywordsByToken.length % 65536

/-- The static method `TokenizedString::tokenForKeyword`: the token returned and the interner
afterwards. -/
def tokenForKeyword (ops : CharOps) (st : Interner) (keyword : QString)
    (assignNewToken : Bool) : Token × Interner :=
  let lowerCase := ops.toLower keyword
  let token := QHash.value st.tokensByKeyword lowerCase invalidToken
  if token = invalidToken ∧ assignNewToken = true then
    let newToken := nextToken st
    if newToken ≠ invalidToken then
      (newToken,
        ⟨QHash.insert st.tokensByKeyword lowerCase newToken, st.keywordsByToken ++ [lowerCase]⟩)
    else (token, st)
  else (token, st)

/-- The method `TokenizedString::addKeyword`, on the interner and the value under
construction: the success flag, the interner and the value afterwards. -/
def addKeyword (ops : CharOps) (st : Interner) (v : TokenizedValue) (keyword : QString)
    (assignNewTokens : Bool) : Bool × Interner × TokenizedValue :=
  let lowerCase := ops.toLower keyword
  if QHash.contains st.tokensByKeyword lowerCase = true then
    let token := QHash.value st.tokensByKeyword lowerCase 0
    ((v.addToken token).1, st, (v.addToken token).2)
  else if assignNewTokens = true then
    let newToken := nextToken st
    if newToken ≠ invalidToken then
      if (v.addToken newToken).1 = true then
        (true,
          ⟨QHash.insert st.tokensByKeyword lowerCase newToken, st.keywordsByToken ++ [lowerCase]⟩,
          (v.addToken newToken).2)
      else (false, st, (v.addToken newToken).2)
    else (false, st, v)
  else ((v.addToken invalidToken).1, st, (v.addToken invalidToken).2)

/-- The statement `if (!keyword.isEmpty()) { addKeyword(keyword, ...); keyword.clear(); }`,
without the clearing of the keyword. -/
def flushKeyword (ops : CharOps) (assignNewTokens : Bool) (keyword : QString)
    (acc : Interner × TokenizedValue) : Interner × TokenizedValue :=
  if keyword = [] then acc else (addKeyword ops acc.1 acc.2 keyword assignNewTokens).2

/-- The loop of the constructor `TokenizedString(const String&, bool)` over the characters
that are still to be read, with the pending keyword. -/
def tokenizeLoop (ops : CharOps) (assignNewTokens : Bool) :
    List Char → QString → Interner × TokenizedValue → Interner × TokenizedValue
  | [], keyword, acc => flushKeyword ops assignNewTokens keyword acc
  | c :: cs, keyword, acc =>
    if c = Char.ofNat 46 then
      tokenizeLoop ops assignNewTokens cs []
        (addKeyword ops (flushKeyword ops assignNewTokens keyword acc).1
          (flushKeyword ops assignNewTokens keyword acc).2 [Char.ofNat 46] assignNewTokens).2
    else if (ops.isPunct c && c != Char.ofNat 39) || ops.isSpace c then
      tokenizeLoop ops assignNewTokens cs [] (flushKeyword ops assignNewTokens keyword acc)
    else tokenizeLoop ops assignNewTokens cs (keyword ++ [c]) acc

/-- The constructor `TokenizedString(const String& str, bool assignNewTokens)`: the interner
afterwards and the tokenized string. -/
def tokenize (ops : CharOps) (st : Interner) (str : QString) (assignNewTokens : Bool) :
    Interner × TokenizedValue :=
  tokenizeLoop ops assignNewTokens str [] (st, TokenizedValue.empty)

/-! ## `Util::FuzzySearchEngine` -/

/-- The type `FuzzySearchEngine::PatternId` (`std::uint16_t`). -/
abbrev PatternId := Nat

/-- The type `FuzzySearchEngine::GroupId` (`std::uint8_t`). -/
abbrev GroupId := Nat

/-- The index of one group, `QHash<TokenizedValue, QList<PatternId>>`. -/
abbrev GroupIndex := QHash TokenizedValue (List PatternId)

/-- The data members of a `FuzzySearchEngine`. -/
structure FuzzySearchEngine where
  /-- Set of known stop words (`QSet<Token>`), as the list of its members. -/
  currentStopWords : List Token
  /-- Map of pattern ids by tokenized value, by group. -/
  patternIdsByValueByGroupId : QMap GroupId GroupIndex
  /-- Lists of pattern ids by group. -/
  patternIdsByGroupId : QMap GroupId (List PatternId)

/-- The call `QSet::insert`. -/
def insertStopWord (stopWords : List Token) (token : Token) : List Token :=
  if token ∈ stopWords then stopWords else stopWords ++ [token]

/-- The loop of the constructor `FuzzySearchEngine(const QList<String>& stopWords)`. -/
def internStopWords (ops : CharOps) : List QString → Interner × List Token →
    Interner × List Token
  | [], acc => acc
  | w :: rest, acc =>
    internStopWords ops rest
      ((tokenForKeyword ops acc.1 w true).2,
        insertStopWord acc.2 (tokenForKeyword ops acc.1 w true).1)

/-- The constructor `FuzzySearchEngine(const QList<String>& stopWords)`: the interner
afterwards and the new engine. -/
def FuzzySearchEngine.fromStopWords (ops : CharOps) (st : Interner) (stopWords : List QString) :
    Interner × FuzzySearchEngine :=
  ((internStopWords ops stopWords (st, [])).1,
    ⟨(internStopWords ops stopWords (st, [])).2, QMap.empty, QMap.empty⟩)

/-- The method `FuzzySearchEngine::clear`. -/
def FuzzySearchEngine.clear (e : FuzzySearchEngine) : FuzzySearchEngine :=
  ⟨e.currentStopWords, QMap.empty, QMap.empty⟩

/-- The loop of `removeStopWordsFrom` over the tokens still to be read. -/
def removeStopWordsLoop (stopWords : List Token) : List Token → TokenizedValue → TokenizedValue
  | [], result => result
  | token :: rest, result =>
    if token ∈ stopWords then removeStopWordsLoop stopWords rest result
    else removeStopWordsLoop stopWords rest (result.addToken token).2

/-- The method `FuzzySearchEngine::removeStopWordsFrom`. -/
def FuzzySearchEngine.removeStopWordsFrom (e : FuzzySearchEngine) (rawPattern : TokenizedValue) :
    TokenizedValue :=
  removeStopWordsLoop e.currentStopWords rawPattern.tokenList TokenizedValue.empty

/-- The statement `patternIdsByValue[s] << patternId`. -/
def appendPatternId (index : GroupIndex) (s : TokenizedValue) (patternId : PatternId) :
    GroupIndex :=
  QHash.modify index s [] (fun patternIds => patternIds ++ [patternId])

/-- The inner loop of `registerPattern`, over `tokens[right ..]`, with the value `s` built
so far. -/
def registerInner (patternId : PatternId) : TokenizedValue → List Token → GroupIndex → GroupIndex
  | _, [], index => index
  | s, token :: rest, index =>
    registerInner patternId (s.addToken token).2 rest
      (appendPatternId index (s.addToken token).2 patternId)

/-- The outer loop of `registerPattern`, over `tokens[left ..]`. -/
def registerOuter (patternId : PatternId) : List Token → GroupIndex → GroupIndex
  | [], index => index
  | token :: rest, index =>
    registerOuter patternId rest
      (registerInner patternId TokenizedValue.empty (token :: rest) index)

/-- The method `FuzzySearchEngine::registerPattern`. -/
def FuzzySearchEngine.registerPattern (e : FuzzySearchEngine) (pattern : TokenizedValue)
    (groupId : GroupId) (patternId : PatternId) : FuzzySearchEngine :=
  ⟨e.currentStopWords,
    e.patternIdsByValueByGroupId.modify groupId []
      (registerOuter patternId (e.removeStopWordsFrom pattern).tokenList),
    e.patternIdsByGroupId.modify groupId [] (fun ids => ids ++ [patternId])⟩

/-- The type `QHash<PatternId, unsigned>` of hit counters. -/
abbrev HitCounts := QHash PatternId Nat

/-- The statement `++hitCountsByPatternId[patternId]` on an `unsigned` counter. -/
def incrementHit (hitCounts : HitCounts) (patternId : PatternId) : HitCounts :=
  QHash.modify hitCounts patternId 0 (fun hitCount => (hitCount + 1) % 2 ^ 32)

/-- The inner loop of `searchGroup`, over `tokens[right ..]`, with the value `s` built so
far. -/
def searchGroupInner (index : GroupIndex) : TokenizedValue → List Token → HitCounts → HitCounts
  | _, [], hitCounts => hitCounts
  | s, token :: rest, hitCounts =>
    searchGroupInner index (s.addToken token).2 rest
      ((QHash.value index (s.addToken token).2 []).foldl incrementHit hitCounts)

/-- The outer loop of `searchGroup`, over `tokens[left ..]`. -/
def searchGroupOuter (index : GroupIndex) : List Token → HitCounts → HitCounts
  | [], hitCounts => hitCounts
  | token :: rest, hitCounts =>
    searchGroupOuter index rest
      (searchGroupInner index TokenizedValue.empty (token :: rest) hitCounts)

/-- The method `FuzzySearchEngine::searchGroup`. -/
def FuzzySearchEngine.searchGroup (e : FuzzySearchEngine) (searchPattern : TokenizedValue)
    (groupId : GroupId) (hitCounts : HitCounts) : HitCounts :=
  if e.patternIdsByValueByGroupId.contains groupId = true then
    searchGroupOuter (e.patternIdsByValueByGroupId.value groupId []) searchPattern.tokenList
      hitCounts
  else hitCounts

/-- The 32-bit two's complement value with the bits of `x`; on an `unsigned` value this is
`static_cast<int>`. -/
def wrapInt32 (x : Int) : Int := (x + 2 ^ 31) % 2 ^ 32 - 2 ^ 31

/-- The ranking key `-static_cast<int>(hitCount)`. -/
def rankKey (hitCount : Nat) : Int := wrapInt32 (-(wrapInt32 hitCount))

/-- The statement
`patternIdsByHitCount[-static_cast<int>(hitCount)].insert(patternId, hitCount)`. -/
def rankStep (patternIdsByHitCount : QMap Int (QMap PatternId Int)) (hit : PatternId × Nat) :
    QMap Int (QMap PatternId Int) :=
  patternIdsByHitCount.modify (rankKey hit.2) QMap.empty
    (fun inner => inner.insert hit.1 (wrapInt32 hit.2))

/-- The groups that `search` visits: all groups of `patternIdsByGroupId`, in ascending order,
when `groupIds` is empty, and otherwise the entries of `groupIds` as they are listed. -/
def FuzzySearchEngine.selectedGroups (e : FuzzySearchEngine) (groupIds : List GroupId) :
    List GroupId :=
  if groupIds.isEmpty = true then e.patternIdsByGroupId.keys else groupIds

/-- The hit counters that `search` has collected when the loop over the groups ends. -/
def FuzzySearchEngine.collectHits (e : FuzzySearchEngine) (searchPattern : TokenizedValue)
    (groupIds : List GroupId) : HitCounts :=
  if groupIds.isEmpty = true then
    e.patternIdsByGroupId.keys.foldl
      (fun hitCounts groupId =>
        e.searchGroup (e.removeStopWordsFrom searchPattern) groupId hitCounts) []
  else
    groupIds.foldl
      (fun hitCounts groupId =>
        e.searchGroup (e.removeStopWordsFrom searchPattern) groupId hitCounts) []

/-- The method `FuzzySearchEngine::search`. -/
def FuzzySearchEngine.search (e : FuzzySearchEngine) (searchPattern : TokenizedValue)
    (groupIds : List GroupId) : List PatternId :=
  if searchPattern.length = 0 then
    if groupIds.isEmpty = true then
      e.patternIdsByGroupId.entries.flatMap (fun entry => entry.2)
    else
      groupIds.flatMap (fun groupId => e.patternIdsByGroupId.value groupId [])
  else
    ((e.collectHits searchPattern groupIds).foldl rankStep QMap.empty).entries.flatMap
      (fun entry => entry.2.keys)

/-! ## The test fixtures of `test_fuzzy_search.cpp` -/

/-- The classification of Qt on the characters of the fixtures: the punctuation of the Basic
Latin and Latin-1 blocks (Unicode categories Pc, Pd, Ps, Pe, Pi, Pf, Po) with the dashes and
quotation marks U+2013, U+2014, U+2018, U+2019, U+201C, U+201D; the white space characters
U+0009 to U+000D, U+0020, U+0085, U+00A0; lower-casing of the letters A to Z. -/
def qtAscii : CharOps where
  isPunct := fun c =>
    decide (c.toNat ∈ [33, 34, 35, 37, 38, 39, 40, 41, 42, 44, 45, 46, 47, 58, 59, 63, 64, 91,
      92, 93, 95, 123, 125, 161, 167, 171, 182, 183, 187, 191, 8211, 8212, 8216, 8217, 8220,
      8221])
  isSpace := fun c => decide (c.toNat ∈ [9, 10, 11, 12, 13, 32, 133, 160])
  toLower := fun s => s.map Char.toLower

/-- The first string of `testTokenizedString`. -/
def testSentence : QString :=
  "This is a test -- Do not trust that it will work -- It musn't fail.".toList

/-- The array `testStrings` of `testFuzzySearch`: group id and text; the pattern id of an
entry is its position. -/
def testStrings : List (GroupId × QString) :=
  [(1, "Once upon a midnight dreary, while I pondered, weak and weary,".toList),
   (1, "Over many a quaint and curious volume of forgotten lore—".toList),
   (1, "While I nodded, nearly napping, suddenly there came a tapping,".toList),
   (1, "As of some one gently rapping, rapping at my chamber door.".toList),
   (1, "\"'Tis some visitor,\" I muttered, \"tapping at my chamber door—".toList),
   (1, "Only this and nothing more.\"".toList),
   (2, "Ah, distinctly I remember it was in the bleak December;".toList),
   (2, "And each separate dying ember wrought its ghost upon the floor.".toList),
   (2, "Eagerly I wished the morrow;—vainly I had sought to borrow".toList),
   (2, "From my books surcease of sorrow—sorrow for the lost Lenore—".toList),
   (2, "For the rare and radiant maiden whom the angels name Lenore—".toList),
   (2, "Nameless here for evermore.".toList),
   (3, "And the silken, sad, uncertain rustling of each purple curtain".toList),
   (3, "Thrilled me—filled me with fantastic terrors never felt before;".toList),
   (3, "So that now, to still the beating of my heart, I stood repeating".toList),
   (3, "\"'Tis some visitor entreating entrance at my chamber door—".toList),
   (3, "Some late visitor entreating entrance at my chamber door;—".toList),
   (3, "This it is and nothing more.\"".toList)]

/-- The registration loop of `testFuzzySearch`: each text is converted with
`TokenizedString(str, true)` and registered under the running pattern id. -/
def registerAll (ops : CharOps) : List (GroupId × QString) → PatternId →
    Interner × FuzzySearchEngine → Interner × FuzzySearchEngine
  | [], _, acc => acc
  | (groupId, str) :: rest, patternId, acc =>
    registerAll ops rest (patternId + 1)
      ((tokenize ops acc.1 str true).1,
        acc.2.registerPattern (tokenize ops acc.1 str true).2 groupId patternId)

/-- The engine of `testFuzzySearch` after its registration loop, on the interner `st`: built
from an empty stop word list, with the first `count` entries of `testStrings` registered. -/
def testEngine (st : Interner) (count : Nat) : Interner × FuzzySearchEngine :=
  registerAll qtAscii (testStrings.take count) 0 (FuzzySearchEngine.fromStopWords qtAscii st [])

/-- The call `engine.search(Util::String(text), groupIds)` of the test: the text is converted
with `TokenizedString(text, true)` on the interner left by the registrations. -/
def testSearch (st : Interner) (count : Nat) (text : QString) (groupIds : List GroupId) :
    List PatternId :=
  (testEngine st count).2.search (tokenize qtAscii (testEngine st count).1 text true).2 groupIds

/-- The token sequences of the texts of `testStrings`, tokenized in order on the empty
interner. -/
def testTokens : List TokenizedValue :=
  [⟨[0, 1, 2, 3, 4, 5, 6, 7, 8, 9, 10]⟩, ⟨[11, 12, 2, 13, 9, 14, 15, 16, 17, 18]⟩,
   ⟨[5, 6, 19, 20, 21, 22, 23, 24, 2, 25]⟩, ⟨[26, 16, 27, 28, 29, 30, 30, 31, 32, 33, 34, 35]⟩,
   ⟨[36, 27, 37, 6, 38, 25, 31, 32, 33, 34]⟩, ⟨[39, 40, 9, 41, 42, 35]⟩,
   ⟨[43, 44, 6, 45, 46, 47, 48, 49, 50, 51]⟩, ⟨[9, 52, 53, 54, 55, 56, 57, 58, 1, 49, 59, 35]⟩,
   ⟨[60, 6, 61, 49, 62, 63, 6, 64, 65, 66, 67]⟩, ⟨[68, 32, 69, 70, 16, 71, 71, 72, 49, 73, 74]⟩,
   ⟨[72, 49, 75, 9, 76, 77, 78, 49, 79, 80, 74]⟩, ⟨[81, 82, 72, 83, 35]⟩,
   ⟨[9, 49, 84, 85, 86, 87, 16, 52, 88, 89]⟩, ⟨[90, 91, 92, 91, 93, 94, 95, 96, 97, 98]⟩,
   ⟨[99, 100, 101, 66, 102, 49, 103, 16, 32, 104, 6, 105, 106]⟩,
   ⟨[36, 27, 37, 107, 108, 31, 32, 33, 34]⟩, ⟨[27, 109, 37, 107, 108, 31, 32, 33, 34]⟩,
   ⟨[40, 46, 110, 9, 41, 42, 35]⟩]

/-- The token sequences of the texts of `testStrings`, tokenized in order on the interner
that `testTokenizedString` leaves behind. -/
def testTokensLater : List TokenizedValue :=
  [⟨[19, 20, 2, 21, 22, 23, 24, 25, 26, 27, 28]⟩, ⟨[29, 30, 2, 31, 27, 32, 33, 34, 35, 36]⟩,
   ⟨[23, 24, 37, 38, 39, 40, 41, 42, 2, 43]⟩, ⟨[44, 34, 45, 46, 47, 48, 48, 49, 50, 51, 52, 13]⟩,
   ⟨[53, 45, 54, 24, 55, 43, 49, 50, 51, 52]⟩, ⟨[56, 0, 27, 57, 58, 13]⟩,
   ⟨[59, 60, 24, 61, 8, 62, 63, 15, 64, 65]⟩, ⟨[27, 66, 67, 68, 69, 70, 71, 72, 20, 15, 73, 13]⟩,
   ⟨[74, 24, 75, 15, 76, 77, 24, 78, 79, 80, 81]⟩, ⟨[82, 50, 83, 84, 34, 85, 85, 86, 15, 87, 88]⟩,
   ⟨[86, 15, 89, 27, 90, 91, 92, 15, 93, 94, 88]⟩, ⟨[95, 96, 86, 97, 13]⟩,
   ⟨[27, 15, 98, 99, 100, 101, 34, 66, 102, 103]⟩, ⟨[104, 105, 106, 105, 107, 108, 109, 110, 111, 112]⟩,
   ⟨[113, 7, 114, 80, 115, 15, 116, 34, 50, 117, 24, 118, 119]⟩,
   ⟨[53, 45, 54, 120, 121, 49, 50, 51, 52]⟩, ⟨[45, 122, 54, 120, 121, 49, 50, 51, 52]⟩,
   ⟨[0, 8, 1, 27, 57, 58, 13]⟩]

/-- The conversion of a list of texts with `TokenizedString(str, true)`, in order: the
interner afterwards and the tokenized strings. -/
def tokenizeAll (ops : CharOps) : List QString → Interner → Interner × List TokenizedValue
  | [], st => (st, [])
  | str :: rest, st =>
    ((tokenizeAll ops rest (tokenize ops st str true).1).1,
      (tokenize ops st str true).2 :: (tokenizeAll ops rest (tokenize ops st str true).1).2)

/-- The interner after `testTokenizedString`, which tokenizes three strings on the empty
interner and runs before `testFuzzySearch`. -/
def testTokenizedInterner : Interner :=
  (tokenizeAll qtAscii
    [testSentence, "A test like this will not fail.   It will do the right thing.".toList,
      "A test like this will not fail.   It will maybe do the right thing.".toList]
    Interner.empty).1

/-- The registration loop of `testFuzzySearch` on patterns that are tokenized already. -/
def registerTokenized : List (GroupId × TokenizedValue) → PatternId → FuzzySearchEngine →
    FuzzySearchEngine
  | [], _, e => e
  | (groupId, pattern) :: rest, patternId, e =>
    registerTokenized rest (patternId + 1) (e.registerPattern pattern groupId patternId)

/-! ## The enumeration of contiguous subsequences used by the statements -/

/-- The tokens `tokens[left .. right]`, both ends included, as a tokenized value. -/
def slice (tokens : List Token) (left right : Nat) : TokenizedValue :=
  ⟨(tokens.drop left).take (right + 1 - left)⟩

/-- The pairs `(left, right)` with `left ≤ right < n`, in the order in which the double loops
of `registerPattern` and `searchGroup` visit them. -/
def subsequencePairs (n : Nat) : List (Nat × Nat) :=
  (List.range n).flatMap (fun left => (List.range (n - left)).map (fun j => (left, left + j)))

/-- The contiguous non-empty subsequences of `tokens`, one for each pair of
`subsequencePairs`. -/
def subsequencesOf (tokens : List Token) : List TokenizedValue :=
  (subsequencePairs tokens.length).map (fun p => slice tokens p.1 p.2)

/-- The index of a group: the hash stored for it, the empty hash for an unknown group. -/
def FuzzySearchEngine.groupIndex (e : FuzzySearchEngine) (groupId : GroupId) : GroupIndex :=
  e.patternIdsByValueByGroupId.value groupId []

/-- The number of entries of all the lists of a group index. -/
def totalEntries (index : GroupIndex) : Nat := (index.map (fun entry => entry.2.length)).sum

/-- The hits of a pattern id in one group for the cleaned query tokens: the number of pairs of
a choice `left ≤ right` and an entry for the id in the list stored under the key
`cleaned[left .. right]`. -/
def groupHits (e : FuzzySearchEngine) (cleaned : List Token) (groupId : GroupId)
    (patternId : PatternId) : Nat :=
  ((subsequencePairs cleaned.length).map
    (fun p => (QHash.value (e.groupIndex groupId) (slice cleaned p.1 p.2) []).count patternId)).sum

/-- The total hit count of a pattern id: the hits in the groups that `search` visits, a group
counting once for each time it is visited. -/
def hitCount (e : FuzzySearchEngine) (query : TokenizedValue) (groupIds : List GroupId)
    (patternId : PatternId) : Nat :=
  ((e.selectedGroups groupIds).map
    (fun groupId => groupHits e (e.removeStopWordsFrom query).tokenList groupId patternId)).sum

/-- The common shape of the inner loops of `registerPattern` and `searchGroup`: `step` is run
on the value `s` after each `s.addToken(tokens[right])`. -/
def foldInner {A : Type} (step : A → TokenizedValue → A) :
    TokenizedValue → List Token → A → A
  | _, [], a => a
  | s, token :: rest, a =>
    foldInner step (s.addToken token).2 rest (step a (s.addToken token).2)

/-- The common shape of the outer loops of `registerPattern` and `searchGroup`. -/
def foldOuter {A : Type} (step : A → TokenizedValue → A) : List Token → A → A
  | [], a => a
  | token :: rest, a =>
    foldOuter step rest (foldInner step TokenizedValue.empty (token :: rest) a)

/-- The values that an inner loop visits when it starts from the tokens `start` and runs over
`tokens`, if no `addToken` fails. -/
def innerKeys (start tokens : List Token) : List TokenizedValue :=
  (List.range tokens.length).map (fun j => (⟨start ++ tokens.take (j + 1)⟩ : TokenizedValue))

/-- The pattern ids whose counters `searchGroup` increments for one group, in the order of the
increments, for the cleaned query tokens. -/
def groupHitList (e : FuzzySearchEngine) (cleaned : List Token) (groupId : GroupId) :
    List PatternId :=
  (subsequencesOf cleaned).flatMap (fun key => QHash.value (e.groupIndex groupId) key [])

/-- The pattern ids whose counters `search` increments, over all the groups it visits. -/
def allHitList (e : FuzzySearchEngine) (query : TokenizedValue) (groupIds : List GroupId) :
    List PatternId :=
  (e.selectedGroups groupIds).flatMap
    (fun groupId => groupHitList e (e.removeStopWordsFrom query).tokenList groupId)

/-- The two maps of the engine know the same groups.  The constructors start with both maps
empty, `registerPattern` accesses both under the same group id and `clear` empties both. -/
def FuzzySearchEngine.Consistent (e : FuzzySearchEngine) : Prop :=
  ∀ groupId : GroupId,
    e.patternIdsByValueByGroupId.contains groupId = e.patternIdsByGroupId.contains groupId

/-- The pattern ids that the registrations of `registerTokenized` append under `key` in the
index of the group `groupId`, for an engine with the stop words `stopWords`. -/
def indexedUnder (stopWords : List Token) (key : TokenizedValue) (groupId : GroupId) :
    List (GroupId × TokenizedValue) → PatternId → List PatternId
  | [], _ => []
  | (g, pattern) :: rest, patternId =>
    (if g = groupId then
      List.replicate
        ((subsequencesOf
          (removeStopWordsLoop stopWords pattern.tokenList TokenizedValue.empty).tokenList).count
          key) patternId
    else []) ++ indexedUnder stopWords key groupId rest (patternId + 1)

/-- The interner states that a program can reach: the empty interner of program start,
followed by calls of `tokenForKeyword` and by tokenizations, with any arguments. -/
inductive Interner.Reachable (ops : CharOps) : Interner → Prop
  | atStart : Interner.Reachable ops Interner.empty
  | afterTokenForKeyword (st : Interner) (keyword : QString) (assignNewToken : Bool) :
      Interner.Reachable ops st →
      Interner.Reachable ops (tokenForKeyword ops st keyword assignNewToken).2
  | afterTokenize (st : Interner) (str : QString) (assignNewTokens : Bool) :
      Interner.Reachable ops st →
      Interner.Reachable ops (tokenize ops st str assignNewTokens).1

/-- The two tables of the interner are inverse to each other: the keyword stored at each
position maps back to the position, each keyword of the hash maps to a position that stores
it, no keyword is stored twice in either table, every stored keyword is a lower-case form,
and at most 65535 keywords are stored. -/
def Interner.Inverse (ops : CharOps) (st : Interner) : Prop :=
  (∀ (t : Nat) (k : QString), st.keywordsByToken[t]? = some k →
      QHash.contains st.tokensByKeyword k = true ∧
        QHash.value st.tokensByKeyword k invalidToken = t) ∧
    (∀ k : QString, QHash.contains st.tokensByKeyword k = true →
      st.keywordsByToken[QHash.value st.tokensByKeyword k invalidToken]? = some k) ∧
    st.keywordsByToken.Nodup ∧
    (st.tokensByKeyword.map Prod.fst).Nodup ∧
    (∀ k ∈ st.keywordsByToken, ∃ w : QString, ops.toLower w = k) ∧
    st.keywordsByToken.length ≤ 65535

/-- The hits that one registration of a pattern with the cleaned tokens `cleanedPattern`
under `patternId` adds to the count of `x` for the cleaned query tokens `cleanedQuery` in the
group of the registration: for each pair `left ≤ right` of the query, the number of copies of
`patternId` equal to `x` that the registration appends under `cleanedQuery[left .. right]`. -/
def registrationHits (cleanedPattern cleanedQuery : List Token) (patternId x : PatternId) :
    Nat :=
  ((subsequencePairs cleanedQuery.length).map
    (fun p =>
      (List.replicate ((subsequencesOf cleanedPattern).count (slice cleanedQuery p.1 p.2))
        patternId).count x)).sum

/-! ## Engine states used as concrete inputs -/

/-- An engine without stop words in which nothing has been registered. -/
def emptyEngine : FuzzySearchEngine := ⟨[], QMap.empty, QMap.empty⟩

/-- Three registrations on `emptyEngine`: two patterns in group 1, one in group 2. -/
def smallEngine : FuzzySearchEngine :=
  ((emptyEngine.registerPattern ⟨[1, 2, 3]⟩ 1 10).registerPattern ⟨[2, 3]⟩ 1 11).registerPattern
    ⟨[3, 4]⟩ 2 12

/-- Two registrations on `emptyEngine`: pattern id 10 in group 1, pattern id 20 in group 2. -/
def twoGroupEngine : FuzzySearchEngine :=
  (emptyEngine.registerPattern ⟨[1]⟩ 1 10).registerPattern ⟨[2]⟩ 2 20

/-- The engine state after the one-token pattern `[7]` has been registered in group 0 once
for each entry of `ids`, under that entry as pattern id. -/
def singleKeyEngine (ids : List PatternId) : FuzzySearchEngine :=
  ⟨[], ⟨[(0, [(⟨[7]⟩, ids)])], by simp⟩, ⟨[(0, ids)], by simp⟩⟩

/-- An engine built from the stop word list `["the"]` on the empty interner, in which the
text "the raven" has been registered in group 1 under pattern id 7; with the interner after
these calls. -/
def stopWordEngine : Interner × FuzzySearchEngine :=
  ((tokenize qtAscii (FuzzySearchEngine.fromStopWords qtAscii Interner.empty ["the".toList]).1
      "the raven".toList true).1,
    (FuzzySearchEngine.fromStopWords qtAscii Interner.empty ["the".toList]).2.registerPattern
      (tokenize qtAscii (FuzzySearchEngine.fromStopWords qtAscii Interner.empty ["the".toList]).1
        "the raven".toList true).2 1 7)

/-! ## The words of a text and their interning, as the specification describes them -/

/-- A character that belongs to a word: not the period, not white space, and not punctuation
other than the apostrophe. -/
def isWordChar (ops : CharOps) (c : Char) : Bool :=
  !(decide (c = Char.ofNat 46)) && !((ops.isPunct c && c != Char.ofNat 39) || ops.isSpace c)

/-- The text starts with a character that belongs to a word. -/
def startsWithWordChar (ops : CharOps) : List Char → Bool
  | [] => false
  | c :: _ => isWordChar ops c

/-- The character `c` put in front of the first word of `words`. -/
def joinFirst (c : Char) : List QString → List QString
  | [] => [[c]]
  | w :: ws => (c :: w) :: ws

/-- The words of a text: the maximal runs of characters that belong to a word, and each
period as a word of its own, in the order of the text. -/
def specWords (ops : CharOps) : List Char → List QString
  | [] => []
  | c :: cs =>
    if c = Char.ofNat 46 then [c] :: specWords ops cs
    else if isWordChar ops c = true then
      if startsWithWordChar ops cs = true then joinFirst c (specWords ops cs)
      else [c] :: specWords ops cs
    else specWords ops cs

/-- The words that the tokenizer still has to flush when it holds the pending keyword
`keyword` and the characters `cs` are still to be read. -/
def pendingWords (ops : CharOps) (keyword : QString) (cs : List Char) : List QString :=
  if keyword = [] then specWords ops cs
  else if startsWithWordChar ops cs = true then
    match specWords ops cs with
    | [] => [keyword]
    | w :: ws => (keyword ++ w) :: ws
  else keyword :: specWords ops cs

/-- Interning the words in order with `tokenForKeyword`: the interner afterwards and the
token returned for each word. -/
def internWords (ops : CharOps) (assignNewTokens : Bool) : List QString → Interner →
    Interner × List Token
  | [], st => (st, [])
  | w :: ws, st =>
    ((internWords ops assignNewTokens ws (tokenForKeyword ops st w assignNewTokens).2).1,
      (tokenForKeyword ops st w assignNewTokens).1 ::
        (internWords ops assignNewTokens ws (tokenForKeyword ops st w assignNewTokens).2).2)

/-- The tokens that reach the tokenized string: with assignment, a word whose interning
returned the sentinel (the token space is exhausted) adds no token; without assignment every
token is kept, the sentinel too. -/
def keptTokens (assignNewTokens : Bool) (tokens : List Token) : List Token :=
  if assignNewTokens = true then tokens.filter (fun t => decide (t ≠ invalidToken)) else tokens

/-- The token that `addKeyword` appends for a word without assignment: the stored token of a
known word, the sentinel for an unknown one. -/
def lookupToken (ops : CharOps) (st : Interner) (word : QString) : Token :=
  if QHash.contains st.tokensByKeyword (ops.toLower word) = true then
    QHash.value st.tokensByKeyword (ops.toLower word) 0
  else invalidToken

/-- The keyword of `n + 1` letters `a`. -/
def unaryWord (n : Nat) : QString := List.replicate (n + 1) (Char.ofNat 97)

/-- The interner after the keywords `a`, `aa`, `aaa`, ... of 1 to `n` letters have been
interned in this order. -/
def unaryInterner (n : Nat) : Interner :=
  ⟨(List.range n).map (fun i => (unaryWord i, i)), (List.range n).map unaryWord⟩

/-- An interner whose token space is exhausted: it holds 65535 keywords. -/
def fullInterner : Interner := unaryInterner 65535

/-- A text of `n` words `b`, each followed by a space. -/
def repeatedWord (n : Nat) : QString := (List.replicate n [Char.ofNat 98, Char.ofNat 32]).flatten

/-- The second string of `testTokenizedString`. -/
def testSentenceTwo : QString :=
  "A test like this will not fail.   It will do the right thing.".toList

/-- The third string of `testTokenizedString`. -/
def testSentenceThree : QString :=
  "A test like this will not fail.   It will maybe do the right thing.".toList

/-- The sequences `a` and `b` differ, and at the first position where they differ the token
of `a` has the smaller `key`. -/
def firstDifferenceLess (key : Token → Nat) (a b : List Token) : Prop :=
  ∃ (i : Nat) (x y : Token), (∀ j, j < i → a[j]? = b[j]?) ∧ a[i]? = some x ∧ b[i]? = some y ∧
    key x < key y

/-- The value `s1` of `testTokenizedString`: the first string, tokenized on the empty
interner. -/
def testValueOne : TokenizedValue := ⟨[0, 1, 2, 3, 4, 5, 6, 7, 8, 9, 10, 8, 11, 12, 13]⟩

/-- The value `s3` of `testTokenizedString`: the second string, tokenized after the first. -/
def testValueTwo : TokenizedValue := ⟨[2, 3, 14, 0, 9, 5, 12, 13, 8, 9, 4, 15, 16, 17, 13]⟩

/-- The value `s4` of `testTokenizedString`: the third string, tokenized after the second. -/
def testValueThree : TokenizedValue :=
  ⟨[2, 3, 14, 0, 9, 5, 12, 13, 8, 9, 18, 4, 15, 16, 17, 13]⟩

/-- One flush of the tokenizer: `addKeyword(word, assignNewTokens)` on the interner and the
value under construction, its result ignored as the constructor ignores it. -/
def flushWord (ops : CharOps) (assignNewTokens : Bool) (acc : Interner × TokenizedValue)
    (word : QString) : Interner × TokenizedValue :=
  (addKeyword ops acc.1 acc.2 word assignNewTokens).2

/-! ## `approximateString`, `clear` and repeated groups -/

/-- The loop of `approximateString` from position `i` on, over the tokens still to be read:
a space is appended before every keyword but the first.  `keywordsByToken[token]` outside the
list is not defined (`none`). -/
def approximateLoop (keywordsByToken : List QString) :
    List Token → Nat → QString → Option QString
  | [], _, result => some result
  | token :: rest, i, result =>
    match keywordsByToken[token]? with
    | none => none
    | some keyword =>
      approximateLoop keywordsByToken rest (i + 1)
        ((if i ≠ 0 then result ++ [Char.ofNat 32] else result) ++ keyword)

/-- The method `TokenizedString::approximateString`. -/
def approximateString (st : Interner) (v : TokenizedValue) : Option QString :=
  approximateLoop st.keywordsByToken v.tokenList 0 []

/-- The method `FuzzySearchEngine::clear` on the state of the program: the static tables of
`TokenizedString` and the engine.  Only the two maps of the engine are touched. -/
def FuzzySearchEngine.clearIn (state : Interner × FuzzySearchEngine) :
    Interner × FuzzySearchEngine :=
  (state.1, state.2.clear)

/-- The one-token pattern `[7]` registered once in group 1 under pattern id 10 and twice in
group 2 under pattern id 20. -/
def repeatedGroupEngine : FuzzySearchEngine :=
  ((emptyEngine.registerPattern ⟨[7]⟩ 1 10).registerPattern ⟨[7]⟩ 2 20).registerPattern ⟨[7]⟩ 2 20

/-! ## `util_bit_functions` -/

/-- The function `numberOnes32`, on a value below `2^32`; the arithmetic of `std::uint32_t`
is modulo `2^32`. -/
def numberOnes32 (value : Nat) : Nat :=
  let x := value
  let x := (x + 2 ^ 32 - ((x >>> 1) &&& 0x55555555)) % 2 ^ 32
  let x := (((x >>> 2) &&& 0x33333333) + (x &&& 0x33333333)) % 2 ^ 32
  let x := (((x >>> 4) + x) % 2 ^ 32) &&& 0x0F0F0F0F
  let x := (x + (x >>> 8)) % 2 ^ 32
  let x := (x + (x >>> 16)) % 2 ^ 32
  x &&& 0x0000003f

/-- The function `numberOnes64`, on a value below `2^64`. -/
def numberOnes64 (value : Nat) : Nat :=
  let x := value
  let x := (x + 2 ^ 64 - ((x >>> 1) &&& 0x5555555555555555)) % 2 ^ 64
  let x := (((x >>> 2) &&& 0x3333333333333333) + (x &&& 0x3333333333333333)) % 2 ^ 64
  let x := (((x >>> 4) + x) % 2 ^ 64) &&& 0x0F0F0F0F0F0F0F0F
  let x := (x + (x >>> 8)) % 2 ^ 64
  let x := (x + (x >>> 16)) % 2 ^ 64
  let x := (x + (x >>> 32)) % 2 ^ 64
  x &&& 0x0000007f

/-- The count of the tests `testNumberOnes32` and `testNumberOnes64`, bit by bit: the lowest
bit of `v` is added and `v` is shifted right by one, `width` times. -/
def oneBits : Nat → Nat → Nat
  | 0, _ => 0
  | width + 1, v => v % 2 + oneBits width (v / 2)

/-- The value with the four bytes `b0` (lowest) to `b3`. -/
def bytes4 (b0 b1 b2 b3 : Nat) : Nat := b0 + 256 * (b1 + 256 * (b2 + 256 * b3))

/-- The value with the eight bytes `b0` (lowest) to `b7`. -/
def bytes8 (b0 b1 b2 b3 b4 b5 b6 b7 : Nat) : Nat :=
  b0 + 256 * (b1 + 256 * (b2 + 256 * (b3 + 256 * (b4 + 256 * (b5 + 256 * (b6 + 256 * b7))))))

/-- The first step of the SWAR count on one byte: each pair of bits holds its count. -/
def swarPairs (b : Nat) : Nat := b - ((b / 2) &&& 0x55)

/-- The second step of the SWAR count on one byte: each nibble holds its count. -/
def swarNibbles (u : Nat) : Nat := ((u / 4) &&& 0x33) + (u &&& 0x33)

/-- The third step of the SWAR count on one byte: the byte holds its count. -/
def swarByte (w : Nat) : Nat := w / 16 + w % 16

/-- What a shift yields when the count is not below the width of the operand, which C++
leaves undefined: the count taken modulo the width, as x86-64 and AArch64 do, or all bits
shifted out. -/
inductive WideShift where
  | countMasked
  | bitsLost
  deriving DecidableEq, Repr

/-- The operator `<<` on an unsigned value of `w` bits. -/
def shiftLeft (mode : WideShift) (w x count : Nat) : Nat :=
  match mode with
  | WideShift.countMasked => (x <<< (count % w)) % 2 ^ w
  | WideShift.bitsLost => (x <<< count) % 2 ^ w

/-- The operator `>>` on an unsigned value of `w` bits. -/
def shiftRight (mode : WideShift) (w x count : Nat) : Nat :=
  match mode with
  | WideShift.countMasked => x >>> (count % w)
  | WideShift.bitsLost => x >>> count

/-- The expression `((1ULL << adjustment) - 1) << adjustment` of `msbLocation32` and
`msbLocation64`, on `unsigned long long`. -/
def msbMask (mode : WideShift) (adjustment : Nat) : Nat :=
  shiftLeft mode 64 ((shiftLeft mode 64 1 adjustment + 2 ^ 64 - 1) % 2 ^ 64) adjustment

/-- The loop `while (adjustment)` of `msbLocation32` (`w = 32`) and `msbLocation64`
(`w = 64`), which differ in the type of `mask` and `runningValue` only. -/
def msbLoop (mode : WideShift) (w : Nat) (adjustment runningValue msbLocation : Nat) : Nat :=
  if adjustment = 0 then msbLocation
  else if runningValue &&& (msbMask mode adjustment % 2 ^ w) ≠ 0 then
    msbLoop mode w (adjustment >>> 1) (shiftRight mode w runningValue adjustment)
      (msbLocation + adjustment)
  else msbLoop mode w (adjustment >>> 1) runningValue msbLocation
termination_by adjustment
decreasing_by
  all_goals
    simp_wf
    rw [Nat.shiftRight_eq_div_pow]
    omega

/-- The function `msbLocation32`. -/
def msbLocation32 (mode : WideShift) (value : Nat) : Int :=
  if value ≠ 0 then (msbLoop mode 32 32 value 0 : Nat) else -1

/-- The function `msbLocation64`. -/
def msbLocation64 (mode : WideShift) (value : Nat) : Int :=
  if value ≠ 0 then (msbLoop mode 64 64 value 0 : Nat) else -1

/-- The operator `~` on an unsigned value of `w` bits. -/
def complement (w x : Nat) : Nat := 2 ^ w - 1 - x % 2 ^ w

/-- The expression `0 - x` on an unsigned value of `w` bits. -/
def negate (w x : Nat) : Nat := (2 ^ w - x % 2 ^ w) % 2 ^ w

/-- The template `maskLsbOne<T>` for an unsigned type `T` of `w` bits.  For a type narrower
than `int` the operands are promoted; the low `w` bits, which are returned, are the same. -/
def maskLsbOne (w value : Nat) : Nat := (complement w value ^^^ negate w value) &&& value

/-- The template `maskLsbZero<T>` for an unsigned type `T` of `w` bits. -/
def maskLsbZero (w value : Nat) : Nat :=
  (value ^^^ ((value + 1) % 2 ^ w)) &&& complement w value

/-- The conversion of a signed value of `w` bits to the unsigned type of the same width. -/
def toUnsigned (w : Nat) (x : Int) : Nat := (x % 2 ^ w).toNat

/-- The conversion of an unsigned value of `w` bits to the signed type of the same width
(two's complement). -/
def toSigned (w : Nat) (x : Nat) : Int :=
  if x % 2 ^ w < 2 ^ (w - 1) then (x % 2 ^ w : Nat) else (x % 2 ^ w : Nat) - 2 ^ w

/-- The unsigned branch of the template `maskMsbOne<T>` for `T` of `w` bits: the shifts by 8
and more are made for `std::uint16_t`, `std::uint32_t` and `std::uint64_t` as the source
tests the type. -/
def maskMsbOne (w value : Nat) : Nat :=
  let value := value ||| (value >>> 1)
  let value := value ||| (value >>> 2)
  let value := value ||| (value >>> 4)
  let value := if w = 16 then value ||| (value >>> 8) else value
  let value :=
    if w = 32 then
      let value := value ||| (value >>> 8)
      value ||| (value >>> 16)
    else value
  let value :=
    if w = 64 then
      let value := value ||| (value >>> 8)
      let value := value ||| (value >>> 16)
      value ||| (value >>> 32)
    else value
  value &&& complement w (value >>> 1)

/-- The template `maskMsbZero<T>` for an unsigned type of `w` bits. -/
def maskMsbZero (w value : Nat) : Nat := maskMsbOne w (complement w value)

/-- The signed branch of `maskMsbOne<T>`: the value is cast to the unsigned type, and the
result is returned as `T`. -/
def maskMsbOneSigned (w : Nat) (value : Int) : Int :=
  toSigned w (maskMsbOne w (toUnsigned w value))

/-- The template `maskMsbZero<T>` for a signed type of `w` bits; `~value` is `-value - 1`. -/
def maskMsbZeroSigned (w : Nat) (value : Int) : Int := maskMsbOneSigned w (-value - 1)

/-- The template `isPowerOf2<T>` for an unsigned type of `w` bits. -/
def isPowerOf2 (w value : Nat) : Bool := maskLsbOne w value == value

/-- Bit `i` of `x` is set exactly when one of the `n` bits of `v` from `i` upwards is set:
the state of `maskMsbOne` after the shifts that add up to `n - 1`. -/
def Smeared (v n x : Nat) : Prop :=
  ∀ i, x.testBit i = true ↔ ∃ d, d < n ∧ v.testBit (i + d) = true

/-! ## `BitArray::Private` -/

/-- The type `BitArray::Private::AllocationUnit`, `std::uint64_t`. -/
abbrev AllocationUnit := Nat

/-- The constant `allocationUnitSize`. -/
def allocationUnitSize : Nat := 64

/-- The value `static_cast<AllocationUnit>(-1)`. -/
def allOnes : AllocationUnit := 2 ^ 64 - 1

/-- The members of `BitArray::Private`: the allocation `data` (`none` is `nullptr`, otherwise
the units of the array), `dataLength` and `bitLength`. -/
structure BitArray.Private where
  /-- The allocation units; `none` is the null pointer. -/
  data : Option (List AllocationUnit)
  /-- The number of allocated units. -/
  dataLength : Nat
  /-- The length of the array in bits. -/
  bitLength : Nat
  deriving DecidableEq, Repr

/-- The static method `allocationDataSize`, on `unsigned long` values of 64 bits. -/
def allocationDataSize (bitLength : Nat) : Nat :=
  (bitLength + allocationUnitSize - 1) % 2 ^ 64 / allocationUnitSize

/-- The default constructor `Private()`. -/
def BitArray.Private.empty : BitArray.Private := ⟨none, 0, 0⟩

/-- The constructor `Private(numberBits, value)`. -/
def BitArray.Private.ofSize (numberBits : Nat) (value : Bool) : BitArray.Private :=
  if value = false then
    ⟨some (List.replicate (allocationDataSize numberBits) 0), allocationDataSize numberBits,
      numberBits⟩
  else
    ⟨some (List.replicate (numberBits / allocationUnitSize) allOnes ++
        (if numberBits % allocationUnitSize > 0 then
          [(1 <<< (numberBits % allocationUnitSize)) % 2 ^ 64 - 1]
        else [])),
      allocationDataSize numberBits, numberBits⟩

/-- The method `size`. -/
def BitArray.Private.size (b : BitArray.Private) : Nat := b.bitLength

/-- The method `clear`. -/
def BitArray.Private.clear (_b : BitArray.Private) : BitArray.Private := ⟨none, 0, 0⟩

/-- The read `data[unitIndex]`.  Outside the allocation the read is not defined; no method
reads there in a valid state. -/
def BitArray.Private.readUnit (b : BitArray.Private) (unitIndex : Nat) : AllocationUnit :=
  match b.data with
  | none => 0
  | some units => units.getD unitIndex 0

/-- The write `data[unitIndex] = unit`. -/
def BitArray.Private.writeUnit (b : BitArray.Private) (unitIndex : Nat) (unit : AllocationUnit) :
    BitArray.Private :=
  match b.data with
  | none => b
  | some units => ⟨some (units.set unitIndex unit), b.dataLength, b.bitLength⟩

/-- The method `resize`. -/
def BitArray.Private.resize (b : BitArray.Private) (newLength : Nat) : BitArray.Private :=
  if newLength ≠ b.bitLength then
    if newLength = 0 then ⟨none, 0, 0⟩
    else
      match b.data with
      | none =>
        ⟨some (List.replicate (allocationDataSize newLength) 0), allocationDataSize newLength,
          newLength⟩
      | some oldData =>
        if allocationDataSize newLength > b.dataLength then
          ⟨some (oldData.take b.dataLength ++
              List.replicate (allocationDataSize newLength - b.dataLength) 0),
            allocationDataSize newLength, newLength⟩
        else
          ⟨some (oldData.take (allocationDataSize newLength)), allocationDataSize newLength,
            newLength⟩
  else b

/-- The method `resizeToFit`; `index + 1` is computed on `unsigned long`. -/
def BitArray.Private.resizeToFit (b : BitArray.Private) (index : Nat) : BitArray.Private :=
  if index ≥ b.bitLength then b.resize ((index + 1) % 2 ^ 64) else b

/-- The method `setBit`. -/
def BitArray.Private.setBit (b : BitArray.Private) (bitIndex : Nat) (nowSet : Bool) :
    BitArray.Private :=
  let fitted := b.resizeToFit bitIndex
  let unitIndex := bitIndex / allocationUnitSize
  let bitOffset := bitIndex % allocationUnitSize
  let mask := (1 <<< bitOffset) % 2 ^ 64
  let unit := fitted.readUnit unitIndex
  fitted.writeUnit unitIndex (if nowSet = true then unit ||| mask else unit &&& complement 64 mask)

/-- The method `clearBit`. -/
def BitArray.Private.clearBit (b : BitArray.Private) (bitIndex : Nat) (nowCleared : Bool) :
    BitArray.Private :=
  b.setBit bitIndex (!nowCleared)

/-- The call `memset(data + start, fillValue, count * (allocationUnitSize / 8))`: the `count`
units from `start` on are overwritten with `fill`. -/
def fillUnits : List AllocationUnit → Nat → Nat → AllocationUnit → List AllocationUnit
  | [], _, _, _ => []
  | unit :: rest, 0, 0, _ => unit :: rest
  | _ :: rest, 0, count + 1, fill => fill :: fillUnits rest 0 count fill
  | unit :: rest, start + 1, count, fill => unit :: fillUnits rest start count fill

/-- The `memset` of `setBits` on the allocation. -/
def BitArray.Private.fill (b : BitArray.Private) (start count : Nat) (fill : AllocationUnit) :
    BitArray.Private :=
  match b.data with
  | none => b
  | some units => ⟨some (fillUnits units start count fill), b.dataLength, b.bitLength⟩

/-- The method `setBits`. -/
def BitArray.Private.setBits (b : BitArray.Private) (startingIndex endingIndex : Nat)
    (nowSet : Bool) : BitArray.Private :=
  let fitted := b.resizeToFit endingIndex
  let startingUnitIndex := startingIndex / allocationUnitSize
  let startingBitOffset := startingIndex % allocationUnitSize
  let endingUnitIndex := endingIndex / allocationUnitSize
  let endingBitOffset := endingIndex % allocationUnitSize
  if startingUnitIndex = endingUnitIndex then
    let unit := fitted.readUnit startingUnitIndex
    let startMask := (allOnes <<< startingBitOffset) % 2 ^ 64
    let endMask :=
      if endingBitOffset = allocationUnitSize - 1 then allOnes
      else complement 64 ((allOnes <<< (endingBitOffset + 1)) % 2 ^ 64)
    let mask := startMask &&& endMask
    fitted.writeUnit startingUnitIndex
      (if nowSet = true then unit ||| mask else unit &&& complement 64 mask)
  else
    let afterStart :=
      if startingBitOffset = 0 then fitted
      else
        let unit := fitted.readUnit startingUnitIndex
        let startMask := (allOnes <<< startingBitOffset) % 2 ^ 64
        fitted.writeUnit startingUnitIndex
          (if nowSet = true then unit ||| startMask else unit &&& complement 64 startMask)
    let startingWholeUnitIndex :=
      if startingBitOffset = 0 then startingUnitIndex else startingUnitIndex + 1
    let afterEnd :=
      if endingBitOffset = allocationUnitSize - 1 then afterStart
      else
        let unit := afterStart.readUnit endingUnitIndex
        let endMask := (1 <<< (endingBitOffset + 1)) % 2 ^ 64 - 1
        afterStart.writeUnit endingUnitIndex
          (if nowSet = true then unit ||| endMask else unit &&& complement 64 endMask)
    let endingWholeUnitIndex :=
      if endingBitOffset = allocationUnitSize - 1 then endingUnitIndex
      else (endingUnitIndex + 2 ^ 64 - 1) % 2 ^ 64
    if endingWholeUnitIndex ≥ startingWholeUnitIndex then
      afterEnd.fill startingWholeUnitIndex (endingWholeUnitIndex - startingWholeUnitIndex + 1)
        (if nowSet = true then allOnes else 0)
    else afterEnd

/-- The method `clearBits`. -/
def BitArray.Private.clearBits (b : BitArray.Private) (startingIndex endingIndex : Nat)
    (nowCleared : Bool) : BitArray.Private :=
  b.setBits startingIndex endingIndex (!nowCleared)

/-- The method `isSet`. -/
def BitArray.Private.isSet (b : BitArray.Private) (index : Nat) : Bool :=
  if index ≥ b.bitLength then false
  else
    b.readUnit (index / allocationUnitSize) &&&
      ((1 <<< (index % allocationUnitSize)) % 2 ^ 64) != 0

/-- The method `isClear`. -/
def BitArray.Private.isClear (b : BitArray.Private) (index : Nat) : Bool := !b.isSet index


/-- The number of units of the allocation. -/
def BitArray.Private.unitCount (b : BitArray.Private) : Nat :=
  match b.data with
  | none => 0
  | some units => units.length

/-- The invariant of `BitArray::Private`: `dataLength` units are allocated, as many as the
bits need, each unit is a 64-bit value, a null pointer goes with length zero, and the bit
length leaves room for the rounding of `allocationDataSize` on `unsigned long`. -/
def BitArray.Private.Valid (b : BitArray.Private) : Prop :=
  b.dataLength = allocationDataSize b.bitLength ∧ b.bitLength + 64 ≤ 2 ^ 64 ∧
    b.unitCount = b.dataLength ∧ (b.data = none → b.bitLength = 0) ∧
    ∀ unitIndex, b.readUnit unitIndex < 2 ^ 64

/-! ## `BitArray::Private`: the search methods and the comparison -/

/-- The constant `BitArray::invalidIndex`, `static_cast<Index>(-1)` on `unsigned long`. -/
def invalidIndex : Nat := 2 ^ 64 - 1

/-- The loop `while (index < dataLength && data[index] == skipped) ++index` of the
argument-less searches, with `remaining` the number of units from `index` to the end of the
allocation: the index at which it stops. -/
def BitArray.Private.skipUnits (b : BitArray.Private) (skipped : AllocationUnit) :
    Nat → Nat → Nat
  | 0, index => index
  | remaining + 1, index =>
    if b.readUnit index = skipped then b.skipUnits skipped remaining (index + 1) else index

/-- The statements that the four searches share once a unit has been found:
`result = allocationUnitSize * index + msbLocation64(bitMask)` on `unsigned long`, replaced by
`invalidIndex` when it is not below `bitLength`. -/
def BitArray.Private.located (mode : WideShift) (b : BitArray.Private) (index : Nat)
    (bitMask : AllocationUnit) : Nat :=
  let result := toUnsigned 64 (((allocationUnitSize * index : Nat) : Int) + msbLocation64 mode bitMask)
  if result ≥ b.bitLength then invalidIndex else result

/-- The method `firstSetBit()`. -/
def BitArray.Private.firstSetBit (mode : WideShift) (b : BitArray.Private) : Nat :=
  if b.data ≠ none then
    let index := b.skipUnits 0 b.dataLength 0
    if index < b.dataLength then b.located mode index (maskLsbOne 64 (b.readUnit index))
    else invalidIndex
  else invalidIndex

/-- The method `firstClearedBit()`. -/
def BitArray.Private.firstClearedBit (mode : WideShift) (b : BitArray.Private) : Nat :=
  if b.data ≠ none then
    let index := b.skipUnits allOnes b.dataLength 0
    if index < b.dataLength then b.located mode index (maskLsbZero 64 (b.readUnit index))
    else invalidIndex
  else invalidIndex

/-- The loop of `firstSetBit(startingIndex)`,
`while (index < dataLength && (data[index] & mask) == 0) { mask = -1; ++index; }`, with
`remaining` the number of units from `index` to the end of the allocation: the index and the
mask when it stops. -/
def BitArray.Private.skipWithoutSet (b : BitArray.Private) :
    Nat → Nat → AllocationUnit → Nat × AllocationUnit
  | 0, index, mask => (index, mask)
  | remaining + 1, index, mask =>
    if b.readUnit index &&& mask = 0 then b.skipWithoutSet remaining (index + 1) allOnes
    else (index, mask)

/-- The loop of `firstClearedBit(startingIndex)`,
`while (index < dataLength && (data[index] | mask) == -1) { mask = 0; ++index; }`: the index
and the mask when it stops. -/
def BitArray.Private.skipWithoutCleared (b : BitArray.Private) :
    Nat → Nat → AllocationUnit → Nat × AllocationUnit
  | 0, index, mask => (index, mask)
  | remaining + 1, index, mask =>
    if b.readUnit index ||| mask = allOnes then b.skipWithoutCleared remaining (index + 1) 0
    else (index, mask)

/-- The method `firstSetBit(startingIndex)`. -/
def BitArray.Private.firstSetBitFrom (mode : WideShift) (b : BitArray.Private)
    (startingIndex : Nat) : Nat :=
  if b.data ≠ none ∧ startingIndex < b.bitLength then
    let stop :=
      b.skipWithoutSet (b.dataLength - startingIndex / allocationUnitSize)
        (startingIndex / allocationUnitSize)
        ((allOnes <<< (startingIndex % allocationUnitSize)) % 2 ^ 64)
    if stop.1 < b.dataLength then
      b.located mode stop.1 (maskLsbOne 64 (b.readUnit stop.1 &&& stop.2))
    else invalidIndex
  else invalidIndex

/-- The method `firstClearedBit(startingIndex)`. -/
def BitArray.Private.firstClearedBitFrom (mode : WideShift) (b : BitArray.Private)
    (startingIndex : Nat) : Nat :=
  if b.data ≠ none ∧ startingIndex < b.bitLength then
    let stop :=
      b.skipWithoutCleared (b.dataLength - startingIndex / allocationUnitSize)
        (startingIndex / allocationUnitSize)
        ((1 <<< (startingIndex % allocationUnitSize)) % 2 ^ 64 - 1)
    if stop.1 < b.dataLength then
      b.located mode stop.1 (maskLsbZero 64 (b.readUnit stop.1 ||| stop.2))
    else invalidIndex
  else invalidIndex

/-- The loop of `Private::operator==` from the unit `index` on, entered with `isEqual` true,
with `remaining` the number of units from `index` to the end of the allocation.  The last
unit is compared under the mask of the bits in use; the source asserts that their number is
below 64 when it is not 64. -/
def BitArray.Private.equalUnits (b other : BitArray.Private) : Nat → Nat → Bool
  | 0, _ => true
  | remaining + 1, index =>
    let isEqual :=
      if index < b.dataLength - 1 then b.readUnit index == other.readUnit index
      else
        let baseBitIndex := (b.bitLength + 2 ^ 64 - (index * allocationUnitSize) % 2 ^ 64) % 2 ^ 64
        if baseBitIndex = allocationUnitSize then b.readUnit index == other.readUnit index
        else
          let mask := (1 <<< baseBitIndex) % 2 ^ 64 - 1
          (b.readUnit index &&& mask) == (other.readUnit index &&& mask)
    if isEqual = true then b.equalUnits other remaining (index + 1) else false

/-- The operator `Private::operator==`. -/
def BitArray.Private.equals (b other : BitArray.Private) : Bool :=
  match b.data with
  | none => other.data == none
  | some _ =>
    if other.bitLength = b.bitLength then b.equalUnits other b.dataLength 0 else false

/-- The operator `Private::operator!=`. -/
def BitArray.Private.differs (b other : BitArray.Private) : Bool := !b.equals other

/-- The operator `BitArray::operator==`, `impl == other.impl || *impl == *other.impl`:
`sameImpl` tells whether the two arrays share their private instance, `impl` and `otherImpl`
are the instances. -/
def BitArray.equals (sameImpl : Bool) (impl otherImpl : BitArray.Private) : Bool :=
  sameImpl || impl.equals otherImpl

/-- The operator `BitArray::operator!=`, `impl != other.impl && *impl != *other.impl`. -/
def BitArray.differs (sameImpl : Bool) (impl otherImpl : BitArray.Private) : Bool :=
  !sameImpl && impl.differs otherImpl

/-! ## `Util::BitSet` -/

/-- The type `BitSet::BitNameHash`, `QHash<QString, unsigned>`. -/
abbrev BitNameHash := QHash QString Nat

/-- The constant `BitSet::bitsPerEntry`; `BitSet::ArrayType` is `std::uint32_t`. -/
def bitsPerEntry : Nat := 32

/-- The value `static_cast<unsigned>(-1)`, the default of the look-ups of a bit name. -/
def undefinedBit : Nat := 2 ^ 32 - 1

/-- The members of a `BitSet`.  The methods that read the name table take the table that
`bitNames` points to as the argument `names`. -/
structure BitSet where
  /-- The pointer `bitNames`: `none` is `Q_NULLPTR`, otherwise the address of the table. -/
  bitNames : Option Nat
  /-- The words `bitArray`, bit number `32 * i + j` being bit `j` of word `i`. -/
  bitArray : List Nat
  deriving DecidableEq, Repr

/-- The constructor `BitSet(BitNameHash* bitHash)`. -/
def BitSet.ofTable (bitHash : Option Nat) : BitSet := ⟨bitHash, []⟩

/-- The default constructor `BitSet()`. -/
def BitSet.empty : BitSet := ⟨none, []⟩

/-- The method `setBit`: the success flag and the set afterwards. -/
def BitSet.setBit (names : BitNameHash) (s : BitSet) (bitName : QString) (isSet : Bool) :
    Bool × BitSet :=
  if s.bitNames ≠ none then
    let bitIndex := QHash.value names bitName undefinedBit
    if bitIndex ≠ undefinedBit then
      let wordIndex := bitIndex / bitsPerEntry
      let bitOffset := bitIndex % bitsPerEntry
      let grown := s.bitArray ++ List.replicate (wordIndex + 1 - s.bitArray.length) 0
      let mask := (1 <<< bitOffset) % 2 ^ 32
      let word := grown.getD wordIndex 0
      (true,
        ⟨s.bitNames,
          grown.set wordIndex
            (if isSet = true then word ||| mask else word &&& Util.complement 32 mask)⟩)
    else (false, s)
  else (false, s)

/-- The method `clearBit`. -/
def BitSet.clearBit (names : BitNameHash) (s : BitSet) (bitName : QString) (isClear : Bool) :
    Bool × BitSet :=
  s.setBit names bitName (!isClear)

/-- The method `numberSetBits`, counting on `unsigned`. -/
def BitSet.numberSetBits (s : BitSet) : Nat :=
  s.bitArray.foldl (fun countBits word => (countBits + numberOnes32 word) % 2 ^ 32) 0

/-- The method `isSet`. -/
def BitSet.isSet (names : BitNameHash) (s : BitSet) (bitName : QString) : Bool :=
  if s.bitNames ≠ none then
    let bitIndex := QHash.value names bitName undefinedBit
    if bitIndex ≠ undefinedBit then
      let wordIndex := bitIndex / bitsPerEntry
      if wordIndex < s.bitArray.length then
        s.bitArray.getD wordIndex 0 &&& ((1 <<< (bitIndex % bitsPerEntry)) % 2 ^ 32) != 0
      else false
    else false
  else false

/-- The method `intersectionBits`. -/
def BitSet.intersectionBits (s other : BitSet) : BitSet :=
  ⟨s.bitNames, List.zipWith (fun word otherWord => word &&& otherWord) s.bitArray other.bitArray⟩

/-- The method `unionBits`. -/
def BitSet.unionBits (s other : BitSet) : BitSet :=
  ⟨s.bitNames,
    List.zipWith (fun word otherWord => word ||| otherWord) s.bitArray other.bitArray ++
      (if s.bitArray.length < other.bitArray.length then other.bitArray.drop s.bitArray.length
      else if s.bitArray.length > other.bitArray.length then
        s.bitArray.drop other.bitArray.length
      else [])⟩

/-- The method `intersects`. -/
def BitSet.intersects (s other : BitSet) : Bool :=
  if s.bitNames ≠ none ∧ other.bitNames ≠ none then
    (List.zipWith (fun word otherWord => word &&& otherWord) s.bitArray other.bitArray).any
      (fun word => decide (word ≠ 0))
  else false

/-- The method `sameAs`, which is `operator==`; `operator!=` is its negation. -/
def BitSet.sameAs (s other : BitSet) : Bool :=
  if s.bitNames ≠ other.bitNames then false
  else
    (List.zipWith (fun word otherWord => decide (word = otherWord)) s.bitArray
        other.bitArray).all id &&
      (if s.bitArray.length < other.bitArray.length then
        (other.bitArray.drop s.bitArray.length).all (fun word => decide (word = 0))
      else if s.bitArray.length > other.bitArray.length then
        (s.bitArray.drop other.bitArray.length).all (fun word => decide (word = 0))
      else true)

/-- The method `fullSet`.  The last word holds `(1 << remainingBits) - 1`, a shift by fewer
than 32 bits while the table has fewer than `2^32 - 31` names. -/
def BitSet.fullSet (names : BitNameHash) (s : BitSet) : BitSet :=
  if s.bitNames ≠ none then
    let numberBits := names.length % 2 ^ 32
    let numberWords := (numberBits + bitsPerEntry - 1) % 2 ^ 32 / bitsPerEntry
    if numberBits > 0 then
      let remainingBits := (numberBits + 2 ^ 32 - (bitsPerEntry * (numberWords - 1)) % 2 ^ 32) % 2 ^ 32
      ⟨s.bitNames,
        List.replicate (numberWords - 1) (2 ^ 32 - 1) ++
          (if remainingBits = bitsPerEntry then [2 ^ 32 - 1]
          else if remainingBits > 0 then [(1 <<< remainingBits) % 2 ^ 32 - 1]
          else [])⟩
    else ⟨s.bitNames, []⟩
  else ⟨none, []⟩

/-- The method `complement`: the words of `fullSet()` at the indices of the words of this set
are overwritten with `fullValue & ~thisValue`. -/
def BitSet.complement (names : BitNameHash) (s : BitSet) : BitSet :=
  ⟨(s.fullSet names).bitNames,
    (List.range s.bitArray.length).foldl
      (fun result index =>
        result.set index (result.getD index 0 &&& Util.complement 32 (s.bitArray.getD index 0)))
      (s.fullSet names).bitArray⟩

/-- The loops `while (count > 0 && bitArray.at(count - 1) == 0) --count` of the ordering
operators: the number of words up to the last word that is not zero. -/
def nonZeroWords (bitArray : List Nat) : Nat → Nat
  | 0 => 0
  | count + 1 => if bitArray.getD count 0 = 0 then nonZeroWords bitArray count else count + 1

/-- The operator `BitSet::operator<`. -/
def BitSet.lessThan (s other : BitSet) : Bool :=
  let thisNumberNonZeroWords := nonZeroWords s.bitArray s.bitArray.length
  let otherNumberNonZeroWords := nonZeroWords other.bitArray other.bitArray.length
  if thisNumberNonZeroWords < otherNumberNonZeroWords then true
  else if thisNumberNonZeroWords = otherNumberNonZeroWords ∧ thisNumberNonZeroWords > 0 then
    decide (s.bitArray.getD (thisNumberNonZeroWords - 1) 0 <
      other.bitArray.getD (otherNumberNonZeroWords - 1) 0)
  else false

/-- The operator `BitSet::operator>`. -/
def BitSet.greaterThan (s other : BitSet) : Bool :=
  let thisNumberNonZeroWords := nonZeroWords s.bitArray s.bitArray.length
  let otherNumberNonZeroWords := nonZeroWords other.bitArray other.bitArray.length
  if thisNumberNonZeroWords > otherNumberNonZeroWords then true
  else if thisNumberNonZeroWords = otherNumberNonZeroWords ∧ thisNumberNonZeroWords > 0 then
    decide (s.bitArray.getD (thisNumberNonZeroWords - 1) 0 >
      other.bitArray.getD (otherNumberNonZeroWords - 1) 0)
  else false

/-- The operator `BitSet::operator<=`. -/
def BitSet.lessOrEqual (s other : BitSet) : Bool :=
  let thisNumberNonZeroWords := nonZeroWords s.bitArray s.bitArray.length
  let otherNumberNonZeroWords := nonZeroWords other.bitArray other.bitArray.length
  if thisNumberNonZeroWords < otherNumberNonZeroWords then true
  else if thisNumberNonZeroWords = otherNumberNonZeroWords ∧ thisNumberNonZeroWords > 0 then
    decide (s.bitArray.getD (thisNumberNonZeroWords - 1) 0 ≤
      other.bitArray.getD (otherNumberNonZeroWords - 1) 0)
  else if thisNumberNonZeroWords = 0 ∧ otherNumberNonZeroWords = 0 then true
  else false

/-- The operator `BitSet::operator>=`. -/
def BitSet.greaterOrEqual (s other : BitSet) : Bool :=
  let thisNumberNonZeroWords := nonZeroWords s.bitArray s.bitArray.length
  let otherNumberNonZeroWords := nonZeroWords other.bitArray other.bitArray.length
  if thisNumberNonZeroWords > otherNumberNonZeroWords then true
  else if thisNumberNonZeroWords = otherNumberNonZeroWords ∧ thisNumberNonZeroWords > 0 then
    decide (s.bitArray.getD (thisNumberNonZeroWords - 1) 0 ≥
      other.bitArray.getD (otherNumberNonZeroWords - 1) 0)
  else if thisNumberNonZeroWords = 0 ∧ otherNumberNonZeroWords = 0 then true
  else false

/-- The operator `BitSet::operator&=`: the words past the common ones are erased, then each
common word is combined in place. -/
def BitSet.andAssign (s other : BitSet) : BitSet :=
  let numberCommonWords := min s.bitArray.length other.bitArray.length
  let kept :=
    if s.bitArray.length > numberCommonWords then s.bitArray.take numberCommonWords
    else s.bitArray
  ⟨s.bitNames,
    (List.range numberCommonWords).foldl
      (fun bitArray index =>
        bitArray.set index (bitArray.getD index 0 &&& other.bitArray.getD index 0))
      kept⟩

/-- The operator `BitSet::operator|=`: each common word is combined in place, then the words
of `other` past the common ones are appended. -/
def BitSet.orAssign (s other : BitSet) : BitSet :=
  let numberCommonWords := min s.bitArray.length other.bitArray.length
  ⟨s.bitNames,
    (List.range numberCommonWords).foldl
        (fun bitArray index =>
          bitArray.set index (bitArray.getD index 0 ||| other.bitArray.getD index 0))
        s.bitArray ++
      other.bitArray.drop numberCommonWords⟩

/-- The bit number of a name in a table. -/
def bitNumber (names : BitNameHash) (bitName : QString) : Nat :=
  QHash.value names bitName undefinedBit

/-- The table assigns the bit numbers consecutively from 0, as the constructor of `BitSet`
expects: no name is listed twice, and the bit numbers are the numbers below the number of
names, which is below the default of the look-ups. -/
def BitNameHash.Consecutive (names : BitNameHash) : Prop :=
  (names.map Prod.fst).Nodup ∧ (names.map Prod.snd).Perm (List.range names.length) ∧
    names.length + 32 < 2 ^ 32

/-- The state of a bit set over a table of `numberBits` names: the words are 32-bit values, no
word lies past the last bit number, and no bit is set at or past `numberBits`.  The
constructors give such a set, and `setBit` on a name of the table and the operations on such
sets keep it. -/
def BitSet.WellFormed (numberBits : Nat) (s : BitSet) : Prop :=
  (∀ word ∈ s.bitArray, word < 2 ^ 32) ∧ 32 * s.bitArray.length < numberBits + 32 ∧
    ∀ i, i < s.bitArray.length → ∀ j, j < 32 → numberBits ≤ 32 * i + j →
      (s.bitArray.getD i 0).testBit j = false

/-- The bit with the number `position` of the words. -/
def wordBit (bitArray : List Nat) (position : Nat) : Bool :=
  (bitArray.getD (position / 32) 0).testBit (position % 32)

/-- The bit numbers of the set bits of the words, in ascending order. -/
def setPositions (bitArray : List Nat) : List Nat :=
  (List.range (32 * bitArray.length)).filter (wordBit bitArray)

/-- The words of a set of `numberWords` words in which the bit with the number `position` is
set and no other. -/
def singleBit (numberWords position : Nat) : List Nat :=
  (List.replicate numberWords 0).set (position / 32) (2 ^ (position % 32))

/-! ## `Util::BitSetForwardIterator` and `Util::BitSetReverseIterator` -/

/-- The loop `while (index < size && workingArray.at(index) == 0) ++index`, with `remaining`
the number of words from `index` to the end: the index at which it stops. -/
def skipZeroWords (workingArray : List Nat) : Nat → Nat → Nat
  | 0, index => index
  | remaining + 1, index =>
    if workingArray.getD index 0 = 0 then skipZeroWords workingArray remaining (index + 1)
    else index

/-- The loop `while (index > 0 && workingArray.at(index - 1) == 0) --index`: the index at
which it stops. -/
def skipZeroWordsDown (workingArray : List Nat) : Nat → Nat
  | 0 => 0
  | index + 1 =>
    if workingArray.getD index 0 = 0 then skipZeroWordsDown workingArray index else index + 1

/-- The members of a `BitSetForwardIterator`; `workingBitSet` is the set that the pointer of
the same name refers to, which the iterator does not change. -/
structure BitSetForwardIterator where
  /-- The bit set that is iterated over. -/
  workingBitSet : BitSet
  /-- The bits of the current word that are still to be reported, the reported one included. -/
  workingValue : Nat
  /-- The index of the current word. -/
  currentWord : Nat
  /-- The bit set that `operator*` returns. -/
  reportedValue : BitSet
  deriving DecidableEq, Repr

/-- The constructor `BitSetForwardIterator(const BitSet& bitSet)`. -/
def BitSetForwardIterator.start (bitSet : BitSet) : BitSetForwardIterator :=
  let workingArray := bitSet.bitArray
  let workingArraySize := workingArray.length
  let index := skipZeroWords workingArray workingArraySize 0
  if index < workingArraySize then
    ⟨bitSet, workingArray.getD index 0, index,
      ⟨bitSet.bitNames,
        List.replicate index 0 ++ [maskLsbOne 32 (workingArray.getD index 0)] ++
          List.replicate (workingArraySize - (index + 1)) 0⟩⟩
  else ⟨bitSet, 0, 0, ⟨bitSet.bitNames, List.replicate index 0⟩⟩

/-- The method `BitSetForwardIterator::isEnd`. -/
def BitSetForwardIterator.isEnd (it : BitSetForwardIterator) : Bool := it.workingValue == 0

/-- The operator `BitSetForwardIterator::operator++`. -/
def BitSetForwardIterator.next (it : BitSetForwardIterator) : BitSetForwardIterator :=
  let workingArray := it.workingBitSet.bitArray
  let workingArraySize := workingArray.length
  if it.currentWord < workingArraySize then
    let mask := it.reportedValue.bitArray.getD it.currentWord 0
    let workingValue := it.workingValue &&& complement 32 mask
    if workingValue = 0 then
      let cleared := it.reportedValue.bitArray.set it.currentWord 0
      let currentWord :=
        skipZeroWords workingArray (workingArraySize - (it.currentWord + 1)) (it.currentWord + 1)
      if currentWord < workingArraySize then
        ⟨it.workingBitSet, workingArray.getD currentWord 0, currentWord,
          ⟨it.reportedValue.bitNames,
            cleared.set currentWord (maskLsbOne 32 (workingArray.getD currentWord 0))⟩⟩
      else ⟨it.workingBitSet, workingValue, currentWord, ⟨it.reportedValue.bitNames, cleared⟩⟩
    else
      ⟨it.workingBitSet, workingValue, it.currentWord,
        ⟨it.reportedValue.bitNames,
          it.reportedValue.bitArray.set it.currentWord (maskLsbOne 32 workingValue)⟩⟩
  else it

/-- The members of a `BitSetReverseIterator`; `currentWord` is the index of the current word
plus one. -/
structure BitSetReverseIterator where
  /-- The bit set that is iterated over. -/
  workingBitSet : BitSet
  /-- The bits of the current word that are still to be reported, the reported one included. -/
  workingValue : Nat
  /-- The index of the current word plus one; zero past the last word. -/
  currentWord : Nat
  /-- The bit set that `operator*` returns. -/
  reportedValue : BitSet
  deriving DecidableEq, Repr

/-- The constructor `BitSetReverseIterator(const BitSet& bitSet)`. -/
def BitSetReverseIterator.start (bitSet : BitSet) : BitSetReverseIterator :=
  let workingArray := bitSet.bitArray
  let workingArraySize := workingArray.length
  let index := skipZeroWordsDown workingArray workingArraySize
  if index > 0 then
    ⟨bitSet, workingArray.getD (index - 1) 0, index,
      ⟨bitSet.bitNames,
        List.replicate (index - 1) 0 ++ [maskMsbOne 32 (workingArray.getD (index - 1) 0)] ++
          List.replicate (workingArraySize - index) 0⟩⟩
  else ⟨bitSet, 0, 0, ⟨bitSet.bitNames, List.replicate workingArraySize 0⟩⟩

/-- The method `BitSetReverseIterator::isEnd`. -/
def BitSetReverseIterator.isEnd (it : BitSetReverseIterator) : Bool := it.workingValue == 0

/-- The operator `BitSetReverseIterator::operator++`. -/
def BitSetReverseIterator.next (it : BitSetReverseIterator) : BitSetReverseIterator :=
  let workingArray := it.workingBitSet.bitArray
  if it.currentWord > 0 then
    let mask := it.reportedValue.bitArray.getD (it.currentWord - 1) 0
    let workingValue := it.workingValue &&& complement 32 mask
    if workingValue = 0 then
      let cleared := it.reportedValue.bitArray.set (it.currentWord - 1) 0
      let currentWord := skipZeroWordsDown workingArray (it.currentWord - 1)
      if currentWord > 0 then
        ⟨it.workingBitSet, workingArray.getD (currentWord - 1) 0, currentWord,
          ⟨it.reportedValue.bitNames,
            cleared.set (currentWord - 1)
              (maskMsbOne 32 (workingArray.getD (currentWord - 1) 0))⟩⟩
      else ⟨it.workingBitSet, workingValue, currentWord, ⟨it.reportedValue.bitNames, cleared⟩⟩
    else
      ⟨it.workingBitSet, workingValue, it.currentWord,
        ⟨it.reportedValue.bitNames,
          it.reportedValue.bitArray.set (it.currentWord - 1) (maskMsbOne 32 workingValue)⟩⟩
  else it

/-- The forward iterator reports the bit `position` of the set `s`: it is at the word of the
bit, it holds the bits of that word from the bit upwards, and its value is the set with this
one bit. -/
def ForwardAt (s : BitSet) (position : Nat) (it : BitSetForwardIterator) : Prop :=
  it.workingBitSet = s ∧ it.currentWord = position / 32 ∧
    it.reportedValue = ⟨s.bitNames, singleBit s.bitArray.length position⟩ ∧
    ∀ j, it.workingValue.testBit j =
      (decide (position % 32 ≤ j) && (s.bitArray.getD (position / 32) 0).testBit j)

/-- The reverse iterator reports the bit `position` of the set `s`: it is at the word of the
bit, it holds the bits of that word from the bit downwards, and its value is the set with
this one bit. -/
def ReverseAt (s : BitSet) (position : Nat) (it : BitSetReverseIterator) : Prop :=
  it.workingBitSet = s ∧ it.currentWord = position / 32 + 1 ∧
    it.reportedValue = ⟨s.bitNames, singleBit s.bitArray.length position⟩ ∧
    ∀ j, it.workingValue.testBit j =
      (decide (j ≤ position % 32) && (s.bitArray.getD (position / 32) 0).testBit j)

/-! ## Engines built by registrations, and the shape of the keywords -/

/-- Calls of `registerPattern` made one after the other: group id, pattern and pattern id of
each call. -/
def registerEach : List (GroupId × TokenizedValue × PatternId) → FuzzySearchEngine →
    FuzzySearchEngine
  | [], e => e
  | (groupId, pattern, patternId) :: rest, e =>
    registerEach rest (e.registerPattern pattern groupId patternId)

/-- The number of pairs of a position of `query` and a position of `pattern` that hold the
same token. -/
def sharedPositions (query pattern : List Token) : Nat :=
  (query.map (fun token => pattern.count token)).sum

/-- The keyword is one that the tokenizer flushes: the period, or a non-empty run of
characters that belong to a word. -/
def WordShaped (ops : CharOps) (word : QString) : Prop :=
  word = [Char.ofNat 46] ∨ (word ≠ [] ∧ ∀ c ∈ word, isWordChar ops c = true)

/-- Every token of the value is the position of a stored keyword that has the shape of a
word. -/
def NamesWords (ops : CharOps) (st : Interner) (v : TokenizedValue) : Prop :=
  ∀ t ∈ v.tokenList, ∃ k, st.keywordsByToken[t]? = some k ∧ WordShaped ops k

/-- The properties of `QChar` and `QString::toLower` that the round trip through
`approximateString` uses: the space is white space, lower-casing twice is lower-casing once,
the period is its own lower-case form, and the lower-case form of a non-empty run of
characters that belong to a word is such a run. -/
def CharOps.KeepsWords (ops : CharOps) : Prop :=
  ops.isSpace (Char.ofNat 32) = true ∧
    (∀ word : QString, ops.toLower (ops.toLower word) = ops.toLower word) ∧
    ops.toLower [Char.ofNat 46] = [Char.ofNat 46] ∧
    ∀ word : QString, word ≠ [] → (∀ c ∈ word, isWordChar ops c = true) →
      ops.toLower word ≠ [] ∧ ∀ c ∈ ops.toLower word, isWordChar ops c = true

/-- A name table of `numberBits` names, the name of bit `i` being `i + 1` letters `a`. -/
def unaryBitNames (numberBits : Nat) : BitNameHash :=
  (List.range numberBits).map (fun i => (unaryWord i, i))

/-- The set over the table at the address `address` in which the bits of `bitNames` have been
set one after the other with `setBit`. -/
def BitSet.withBits (names : BitNameHash) (address : Nat) (bitNames : List QString) : BitSet :=
  bitNames.foldl (fun s bitName => (s.setBit names bitName true).2) (BitSet.ofTable (some address))

/-! ## Look-ups after updates -/

theorem QHash.value_modify {K V : Type} [DecidableEq K] (h : QHash K V) (k : K) (d : V)
    (f : V → V) (k' : K) :
    QHash.value (QHash.modify h k d f) k' d =
      if k' = k then f (QHash.value h k d) else QHash.value h k' d := by
  induction h with
  | nil =>
    by_cases c : k' = k
    · simp [QHash.modify, QHash.value, c]
    · have c' : ¬ k = k' := fun x => c x.symm
      simp [QHash.modify, QHash.value, c, c']
  | cons e rest ih =>
    obtain ⟨k0, v0⟩ := e
    by_cases c0 : k0 = k
    · subst c0
      by_cases c : k' = k0
      · subst c; simp [QHash.modify, QHash.value]
      · have c' : ¬ k0 = k' := fun x => c x.symm
        simp [QHash.modify, QHash.value, c, c']
    · by_cases c : k' = k
      · subst c
        simp [QHash.modify, QHash.value, c0, ih]
      · by_cases c1 : k0 = k'
        · subst c1; simp [QHash.modify, QHash.value, c0]
        · simp [QHash.modify, QHash.value, c0, c1, c, ih]

theorem QHash.contains_modify {K V : Type} [DecidableEq K] (h : QHash K V) (k : K) (d : V)
    (f : V → V) (k' : K) :
    QHash.contains (QHash.modify h k d f) k' = (decide (k' = k) || QHash.contains h k') := by
  induction h with
  | nil =>
    by_cases c : k' = k
    · simp [QHash.modify, QHash.contains, c]
    · have c' : ¬ k = k' := fun x => c x.symm
      simp [QHash.modify, QHash.contains, c, c']
  | cons e rest ih =>
    obtain ⟨k0, v0⟩ := e
    by_cases c0 : k0 = k
    · subst c0
      by_cases c : k' = k0
      · subst c; simp [QHash.modify, QHash.contains]
      · have c' : ¬ k0 = k' := fun x => c x.symm
        simp [QHash.modify, QHash.contains, c, c']
    · by_cases c1 : k0 = k'
      · subst c1; simp [QHash.modify, QHash.contains, c0]
      · simp [QHash.modify, QHash.contains, c0, c1, ih]

theorem QHash.contains_iff_mem_keys {K V : Type} [DecidableEq K] (h : QHash K V) (k : K) :
    QHash.contains h k = true ↔ k ∈ h.map Prod.fst := by
  induction h with
  | nil => simp [QHash.contains]
  | cons e rest ih =>
    obtain ⟨k0, v0⟩ := e
    by_cases c : k0 = k
    · subst c; simp [QHash.contains]
    · have c' : ¬ k = k0 := fun x => c x.symm
      simp [QHash.contains, c, c', ih]

theorem QHash.value_of_not_contains {K V : Type} [DecidableEq K] (h : QHash K V) (k : K)
    (d : V) (hk : QHash.contains h k = false) : QHash.value h k d = d := by
  induction h with
  | nil => rfl
  | cons e rest ih =>
    obtain ⟨k0, v0⟩ := e
    by_cases c : k0 = k
    · simp [QHash.contains, c] at hk
    · simp [QHash.contains, c] at hk
      simp [QHash.value, c, ih hk]

theorem QHash.keys_modify_nodup {K V : Type} [DecidableEq K] (h : QHash K V) (k : K) (d : V)
    (f : V → V) (hn : (h.map Prod.fst).Nodup) :
    ((QHash.modify h k d f).map Prod.fst).Nodup ∧
      ∀ x, x ∈ (QHash.modify h k d f).map Prod.fst ↔ x = k ∨ x ∈ h.map Prod.fst := by
  induction h with
  | nil => simp [QHash.modify]
  | cons e rest ih =>
    obtain ⟨k0, v0⟩ := e
    rw [List.map_cons, List.nodup_cons] at hn
    obtain ⟨h1, h2⟩ := hn
    obtain ⟨ih1, ih2⟩ := ih h2
    by_cases c0 : k0 = k
    · subst c0
      refine ⟨?_, ?_⟩
      · simp only [QHash.modify, if_true, List.map_cons, List.nodup_cons]
        exact ⟨h1, h2⟩
      · intro x
        simp only [QHash.modify, if_true, List.map_cons, List.mem_cons]
        tauto
    · refine ⟨?_, ?_⟩
      · simp only [QHash.modify, if_neg c0, List.map_cons, List.nodup_cons]
        refine ⟨?_, ih1⟩
        intro hx
        rcases (ih2 k0).1 hx with hx | hx
        · exact c0 hx
        · exact h1 hx
      · intro x
        simp only [QHash.modify, if_neg c0, List.map_cons, List.mem_cons]
        rw [ih2 x]
        tauto

theorem QHash.value_of_not_mem_keys {K V : Type} [DecidableEq K] (h : QHash K V) (k : K)
    (d : V) (hk : k ∉ h.map Prod.fst) : QHash.value h k d = d := by
  apply QHash.value_of_not_contains
  cases hc : QHash.contains h k with
  | false => rfl
  | true => exact absurd ((QHash.contains_iff_mem_keys h k).1 hc) hk

theorem modifyEntry_value {K V : Type} [LinearOrder K] (k : K) (d : V) (f : V → V)
    (l : List (K × V)) (hl : (l.map Prod.fst).Pairwise (· < ·)) (k' : K) :
    QHash.value (modifyEntry k d f l) k' d =
      if k' = k then f (QHash.value l k d) else QHash.value l k' d := by
  induction l with
  | nil =>
    by_cases c : k' = k
    · simp [modifyEntry, QHash.value, c]
    · have c' : ¬ k = k' := fun x => c x.symm
      simp [modifyEntry, QHash.value, c, c']
  | cons e rest ih =>
    obtain ⟨k0, v0⟩ := e
    rw [List.map_cons, List.pairwise_cons] at hl
    obtain ⟨h1, h2⟩ := hl
    unfold modifyEntry
    by_cases c1 : k < k0
    · have hnot : k ∉ ((k0, v0) :: rest).map Prod.fst := by
        intro hx
        rcases List.mem_cons.1 hx with hx | hx
        · exact absurd hx (ne_of_lt c1)
        · exact absurd (lt_trans c1 (h1 k hx)) (lt_irrefl k)
      rw [if_pos c1, QHash.value_of_not_mem_keys _ k d hnot]
      by_cases c : k' = k
      · subst c; simp [QHash.value]
      · have c' : ¬ k = k' := fun x => c x.symm
        rw [if_neg c]
        conv_lhs => unfold QHash.value
        simp [c']
    · rw [if_neg c1]
      by_cases c2 : k0 < k
      · rw [if_pos c2]
        have hne : ¬ k0 = k := ne_of_lt c2
        by_cases c : k' = k
        · subst c
          simp [QHash.value, hne, ih h2]
        · by_cases c3 : k0 = k'
          · subst c3; simp [QHash.value, c]
          · simp [QHash.value, c3, c, ih h2]
      · rw [if_neg c2]
        have hk : k = k0 := le_antisymm (not_lt.1 c2) (not_lt.1 c1)
        subst hk
        by_cases c : k' = k
        · subst c; simp [QHash.value]
        · have c' : ¬ k = k' := fun x => c x.symm
          simp [QHash.value, c, c']

theorem modifyEntry_keys {K V : Type} [LinearOrder K] (k : K) (d : V) (f : V → V)
    (l : List (K × V)) (x : K) :
    x ∈ (modifyEntry k d f l).map Prod.fst ↔ x = k ∨ x ∈ l.map Prod.fst := by
  induction l with
  | nil => simp [modifyEntry]
  | cons e rest ih =>
    unfold modifyEntry
    by_cases c1 : k < e.1
    · rw [if_pos c1]; simp
    · rw [if_neg c1]
      by_cases c2 : e.1 < k
      · rw [if_pos c2]
        simp only [List.map_cons, List.mem_cons, ih]
        tauto
      · rw [if_neg c2]
        have hk : k = e.1 := le_antisymm (not_lt.1 c2) (not_lt.1 c1)
        simp only [List.map_cons, List.mem_cons]
        rw [← hk]
        tauto

theorem qmap_value_modify {K V : Type} [LinearOrder K] (m : QMap K V) (k : K) (d : V)
    (f : V → V) (k' : K) :
    (m.modify k d f).value k' d = if k' = k then f (m.value k d) else m.value k' d :=
  modifyEntry_value k d f m.entries m.ordered k'

theorem QMap.mem_keys_modify {K V : Type} [LinearOrder K] (m : QMap K V) (k : K) (d : V)
    (f : V → V) (x : K) : x ∈ (m.modify k d f).keys ↔ x = k ∨ x ∈ m.keys :=
  modifyEntry_keys k d f m.entries x

theorem qmap_contains_iff_mem_keys {K V : Type} [LinearOrder K] (m : QMap K V) (k : K) :
    m.contains k = true ↔ k ∈ m.keys :=
  QHash.contains_iff_mem_keys m.entries k

theorem qmap_value_of_not_mem_keys {K V : Type} [LinearOrder K] (m : QMap K V) (k : K) (d : V)
    (hk : k ∉ m.keys) : m.value k d = d :=
  QHash.value_of_not_mem_keys m.entries k d hk

theorem QMap.keys_pairwise {K V : Type} [LinearOrder K] (m : QMap K V) :
    m.keys.Pairwise (· < ·) := m.ordered

theorem QMap.keys_nodup {K V : Type} [LinearOrder K] (m : QMap K V) : m.keys.Nodup :=
  m.ordered.imp (fun h => ne_of_lt h)

/-! ## The double loop over the contiguous subsequences -/

theorem addToken_snd (v : TokenizedValue) (t : Token) (h : v.tokenList.length < 31) :
    (v.addToken t).2 = ⟨v.tokenList ++ [t]⟩ := by
  simp [TokenizedValue.addToken, TokenizedValue.length, maximumNumberTokens, h]

theorem addToken_length_le (v : TokenizedValue) (t : Token) (h : v.tokenList.length ≤ 31) :
    (v.addToken t).2.tokenList.length ≤ 31 := by
  unfold TokenizedValue.addToken
  by_cases c : v.length < maximumNumberTokens
  · rw [if_pos c]
    simp only [TokenizedValue.length, maximumNumberTokens] at c
    simp only [List.length_append, List.length_singleton]
    omega
  · rw [if_neg c]; exact h

theorem innerKeys_cons (start : List Token) (t : Token) (rest : List Token) :
    innerKeys start (t :: rest) = ⟨start ++ [t]⟩ :: innerKeys (start ++ [t]) rest := by
  unfold innerKeys
  rw [List.length_cons, List.range_succ_eq_map, List.map_cons, List.map_map]
  simp

theorem subsequencePairs_succ (n : Nat) :
    subsequencePairs (n + 1) =
      (List.range (n + 1)).map (fun j => (0, j)) ++
        (subsequencePairs n).map (fun p => (p.1 + 1, p.2 + 1)) := by
  unfold subsequencePairs
  rw [List.range_succ_eq_map n, List.flatMap_cons, List.flatMap_map, List.map_flatMap]
  congr 1
  · rw [← List.range_succ_eq_map n]
    simp only [Nat.sub_zero, Nat.zero_add]
  · apply List.flatMap_congr
    intro l _
    simp only [List.map_map]
    have h : n + 1 - Nat.succ l = n - l := by omega
    rw [h]
    apply List.map_congr_left
    intro j _
    simp only [Function.comp, Nat.succ_eq_add_one]
    congr 1
    omega

theorem subsequencesOf_cons (t : Token) (rest : List Token) :
    subsequencesOf (t :: rest) = innerKeys [] (t :: rest) ++ subsequencesOf rest := by
  unfold subsequencesOf innerKeys
  rw [List.length_cons, subsequencePairs_succ, List.map_append, List.map_map, List.map_map]
  congr 1
  apply List.map_congr_left
  intro p _
  simp [slice]

theorem foldInner_eq {A : Type} (step : A → TokenizedValue → A) (tokens : List Token) :
    ∀ (start : List Token) (a : A), start.length + tokens.length ≤ 31 →
      foldInner step ⟨start⟩ tokens a = (innerKeys start tokens).foldl step a := by
  induction tokens with
  | nil => intro start a _; simp [foldInner, innerKeys]
  | cons t rest ih =>
    intro start a h
    simp only [List.length_cons] at h
    have h1 : (⟨start⟩ : TokenizedValue).tokenList.length < 31 := by
      show start.length < 31
      omega
    rw [foldInner, addToken_snd _ _ h1, innerKeys_cons, List.foldl_cons]
    apply ih
    simp only [List.length_append, List.length_singleton]
    omega

theorem foldOuter_eq {A : Type} (step : A → TokenizedValue → A) (tokens : List Token) :
    ∀ a : A, tokens.length ≤ 31 →
      foldOuter step tokens a = (subsequencesOf tokens).foldl step a := by
  induction tokens with
  | nil => intro a _; simp [foldOuter, subsequencesOf, subsequencePairs]
  | cons t rest ih =>
    intro a h
    simp only [List.length_cons] at h
    rw [foldOuter, subsequencesOf_cons, List.foldl_append, ih _ (by omega)]
    congr 1
    exact foldInner_eq step (t :: rest) [] a (by simp only [List.length_cons, List.length_nil]; omega)

theorem registerInner_eq_fold (patternId : PatternId) (tokens : List Token) :
    ∀ (s : TokenizedValue) (index : GroupIndex),
      registerInner patternId s tokens index =
        foldInner (fun idx k => appendPatternId idx k patternId) s tokens index := by
  induction tokens with
  | nil => intro s index; rfl
  | cons t rest ih => intro s index; simp only [registerInner, foldInner, ih]

theorem registerOuter_eq_fold (patternId : PatternId) (tokens : List Token) :
    ∀ index : GroupIndex,
      registerOuter patternId tokens index =
        foldOuter (fun idx k => appendPatternId idx k patternId) tokens index := by
  induction tokens with
  | nil => intro index; rfl
  | cons t rest ih =>
    intro index
    simp only [registerOuter, foldOuter, ih, registerInner_eq_fold]

theorem searchGroupInner_eq_fold (index : GroupIndex) (tokens : List Token) :
    ∀ (s : TokenizedValue) (hitCounts : HitCounts),
      searchGroupInner index s tokens hitCounts =
        foldInner (fun hc k => (QHash.value index k []).foldl incrementHit hc) s tokens
          hitCounts := by
  induction tokens with
  | nil => intro s hc; rfl
  | cons t rest ih => intro s hc; simp only [searchGroupInner, foldInner, ih]

theorem searchGroupOuter_eq_fold (index : GroupIndex) (tokens : List Token) :
    ∀ hitCounts : HitCounts,
      searchGroupOuter index tokens hitCounts =
        foldOuter (fun hc k => (QHash.value index k []).foldl incrementHit hc) tokens
          hitCounts := by
  induction tokens with
  | nil => intro hc; rfl
  | cons t rest ih =>
    intro hc
    simp only [searchGroupOuter, foldOuter, ih, searchGroupInner_eq_fold]

theorem removeStopWordsLoop_length (stopWords : List Token) (tokens : List Token) :
    ∀ result : TokenizedValue, result.tokenList.length ≤ 31 →
      (removeStopWordsLoop stopWords tokens result).tokenList.length ≤ 31 := by
  induction tokens with
  | nil => intro result h; exact h
  | cons t rest ih =>
    intro result h
    unfold removeStopWordsLoop
    by_cases c : t ∈ stopWords
    · rw [if_pos c]; exact ih result h
    · rw [if_neg c]; exact ih _ (addToken_length_le result t h)

theorem removeStopWordsFrom_length (e : FuzzySearchEngine) (rawPattern : TokenizedValue) :
    (e.removeStopWordsFrom rawPattern).tokenList.length ≤ 31 :=
  removeStopWordsLoop_length _ _ _ (by simp [TokenizedValue.empty])

/-! ## The pairs `left ≤ right < n` -/

theorem mem_subsequencePairs (n left right : Nat) :
    (left, right) ∈ subsequencePairs n ↔ left ≤ right ∧ right < n := by
  unfold subsequencePairs
  simp only [List.mem_flatMap, List.mem_range, List.mem_map, Prod.mk.injEq]
  constructor
  · rintro ⟨l, hl, j, hj, h1, h2⟩
    omega
  · rintro ⟨h1, h2⟩
    exact ⟨left, by omega, right - left, by omega, rfl, by omega⟩

theorem subsequencePairs_nodup (n : Nat) : (subsequencePairs n).Nodup := by
  unfold subsequencePairs
  rw [List.nodup_flatMap]
  refine ⟨?_, ?_⟩
  · intro l _
    refine (List.nodup_range _).map ?_
    intro a b h
    simp only [Prod.mk.injEq, true_and] at h
    omega
  · refine (List.nodup_range n).imp ?_
    intro a b hab
    simp only [Function.onFun]
    intro p hp1 hp2
    simp only [List.mem_map, List.mem_range] at hp1 hp2
    obtain ⟨j1, _, rfl⟩ := hp1
    obtain ⟨j2, _, h⟩ := hp2
    simp only [Prod.mk.injEq] at h
    exact hab h.1.symm

theorem subsequencePairs_length (n : Nat) : (subsequencePairs n).length = n * (n + 1) / 2 := by
  induction n with
  | zero => rfl
  | succ m ih =>
    rw [subsequencePairs_succ, List.length_append, List.length_map, List.length_map,
      List.length_range, ih]
    have h2 : (m + 1) * (m + 1 + 1) = m * (m + 1) + 2 * (m + 1) := by ring
    rw [h2, Nat.add_mul_div_left _ _ (by norm_num : 0 < 2)]
    omega

theorem subsequencesOf_count (tokens : List Token) (key : TokenizedValue) :
    (subsequencesOf tokens).count key =
      (subsequencePairs tokens.length).countP
        (fun p => decide (slice tokens p.1 p.2 = key)) := by
  unfold subsequencesOf
  rw [List.count, List.countP_map]
  apply List.countP_congr
  intro p _
  simp

/-! ## Registration -/

theorem value_appendPatternId (index : GroupIndex) (s : TokenizedValue) (patternId : PatternId)
    (key : TokenizedValue) :
    QHash.value (appendPatternId index s patternId) key [] =
      if key = s then QHash.value index key [] ++ [patternId] else QHash.value index key [] := by
  unfold appendPatternId
  rw [QHash.value_modify]
  by_cases c : key = s
  · subst c; simp
  · simp [c]

theorem totalEntries_appendPatternId (index : GroupIndex) (s : TokenizedValue)
    (patternId : PatternId) :
    totalEntries (appendPatternId index s patternId) = totalEntries index + 1 := by
  unfold appendPatternId totalEntries
  induction index with
  | nil => simp [QHash.modify]
  | cons e rest ih =>
    obtain ⟨k0, v0⟩ := e
    by_cases c : k0 = s
    · simp [QHash.modify, c]; omega
    · simp only [QHash.modify, if_neg c, List.map_cons, List.sum_cons, ih]; omega

theorem value_foldl_appendPatternId (patternId : PatternId) (keys : List TokenizedValue)
    (key : TokenizedValue) :
    ∀ index : GroupIndex,
      QHash.value (keys.foldl (fun idx k => appendPatternId idx k patternId) index) key [] =
        QHash.value index key [] ++ List.replicate (keys.count key) patternId := by
  induction keys with
  | nil => intro index; simp
  | cons k rest ih =>
    intro index
    rw [List.foldl_cons, ih, value_appendPatternId]
    by_cases c : key = k
    · subst c
      simp [List.replicate_succ]
    · have c' : ¬ k = key := fun x => c x.symm
      simp [c, List.count_cons, c']

theorem totalEntries_foldl_appendPatternId (patternId : PatternId)
    (keys : List TokenizedValue) :
    ∀ index : GroupIndex,
      totalEntries (keys.foldl (fun idx k => appendPatternId idx k patternId) index) =
        totalEntries index + keys.length := by
  induction keys with
  | nil => intro index; simp
  | cons k rest ih =>
    intro index
    rw [List.foldl_cons, ih, totalEntries_appendPatternId, List.length_cons]
    omega

theorem registerOuter_eq (patternId : PatternId) (tokens : List Token) (index : GroupIndex)
    (h : tokens.length ≤ 31) :
    registerOuter patternId tokens index =
      (subsequencesOf tokens).foldl (fun idx k => appendPatternId idx k patternId) index := by
  rw [registerOuter_eq_fold, foldOuter_eq _ _ _ h]

theorem groupIndex_registerPattern (e : FuzzySearchEngine) (pattern : TokenizedValue)
    (groupId : GroupId) (patternId : PatternId) (g : GroupId) :
    (e.registerPattern pattern groupId patternId).groupIndex g =
      if g = groupId then
        (subsequencesOf (e.removeStopWordsFrom pattern).tokenList).foldl
          (fun idx k => appendPatternId idx k patternId) (e.groupIndex groupId)
      else e.groupIndex g := by
  unfold FuzzySearchEngine.groupIndex FuzzySearchEngine.registerPattern
  simp only
  rw [qmap_value_modify, registerOuter_eq _ _ _ (removeStopWordsFrom_length e pattern)]

/-! ## The hit counters -/

theorem foldl_foldl_incrementHit (f : TokenizedValue → List PatternId)
    (keys : List TokenizedValue) :
    ∀ hitCounts : HitCounts,
      keys.foldl (fun hc k => (f k).foldl incrementHit hc) hitCounts =
        (keys.flatMap f).foldl incrementHit hitCounts := by
  induction keys with
  | nil => intro hc; rfl
  | cons k rest ih =>
    intro hc
    rw [List.foldl_cons, ih, List.flatMap_cons, List.foldl_append]

theorem searchGroup_eq (e : FuzzySearchEngine) (cleaned : TokenizedValue) (groupId : GroupId)
    (hitCounts : HitCounts) (h : cleaned.tokenList.length ≤ 31) :
    e.searchGroup cleaned groupId hitCounts =
      (groupHitList e cleaned.tokenList groupId).foldl incrementHit hitCounts := by
  unfold FuzzySearchEngine.searchGroup groupHitList FuzzySearchEngine.groupIndex
  by_cases c : e.patternIdsByValueByGroupId.contains groupId = true
  · rw [if_pos c, searchGroupOuter_eq_fold, foldOuter_eq _ _ _ h, foldl_foldl_incrementHit]
  · rw [if_neg c]
    have c' : e.patternIdsByValueByGroupId.contains groupId = false := by
      simpa using c
    have h0 : e.patternIdsByValueByGroupId.value groupId [] = [] :=
      QHash.value_of_not_contains _ _ _ c'
    rw [h0]
    have h1 : (subsequencesOf cleaned.tokenList).flatMap
        (fun key => QHash.value ([] : GroupIndex) key []) = [] := by
      simp [QHash.value]
    rw [h1]
    rfl

theorem foldl_searchGroup_eq (e : FuzzySearchEngine) (cleaned : TokenizedValue)
    (h : cleaned.tokenList.length ≤ 31) (groups : List GroupId) :
    ∀ hitCounts : HitCounts,
      groups.foldl (fun hc g => e.searchGroup cleaned g hc) hitCounts =
        (groups.flatMap (fun g => groupHitList e cleaned.tokenList g)).foldl incrementHit
          hitCounts := by
  induction groups with
  | nil => intro hc; rfl
  | cons g rest ih =>
    intro hc
    rw [List.foldl_cons, ih, List.flatMap_cons, List.foldl_append, searchGroup_eq _ _ _ _ h]

theorem collectHits_eq (e : FuzzySearchEngine) (query : TokenizedValue)
    (groupIds : List GroupId) :
    e.collectHits query groupIds = (allHitList e query groupIds).foldl incrementHit [] := by
  unfold FuzzySearchEngine.collectHits allHitList FuzzySearchEngine.selectedGroups
  by_cases c : groupIds.isEmpty = true
  · rw [if_pos c, if_pos c]
    exact foldl_searchGroup_eq e _ (removeStopWordsFrom_length e query) _ _
  · rw [if_neg c, if_neg c]
    exact foldl_searchGroup_eq e _ (removeStopWordsFrom_length e query) _ _

theorem count_groupHitList (e : FuzzySearchEngine) (cleaned : List Token) (groupId : GroupId)
    (patternId : PatternId) :
    (groupHitList e cleaned groupId).count patternId = groupHits e cleaned groupId patternId := by
  unfold groupHitList groupHits subsequencesOf
  rw [List.count_flatMap, List.map_map]
  rfl

theorem count_allHitList (e : FuzzySearchEngine) (query : TokenizedValue)
    (groupIds : List GroupId) (patternId : PatternId) :
    (allHitList e query groupIds).count patternId = hitCount e query groupIds patternId := by
  unfold allHitList hitCount
  rw [List.count_flatMap]
  congr 1
  apply List.map_congr_left
  intro g _
  exact count_groupHitList e _ g patternId

theorem value_incrementHit (hitCounts : HitCounts) (x y : PatternId) :
    QHash.value (incrementHit hitCounts x) y 0 =
      if y = x then (QHash.value hitCounts x 0 + 1) % 2 ^ 32 else QHash.value hitCounts y 0 := by
  unfold incrementHit
  rw [QHash.value_modify]

theorem value_foldl_incrementHit (y : PatternId) (hits : List PatternId) :
    ∀ hitCounts : HitCounts, QHash.value hitCounts y 0 < 2 ^ 32 →
      QHash.value (hits.foldl incrementHit hitCounts) y 0 =
        (QHash.value hitCounts y 0 + hits.count y) % 2 ^ 32 := by
  induction hits with
  | nil =>
    intro hc hb
    simp only [List.foldl_nil, List.count_nil, Nat.add_zero]
    exact (Nat.mod_eq_of_lt hb).symm
  | cons x rest ih =>
    intro hc hb
    have hb' : QHash.value (incrementHit hc x) y 0 < 2 ^ 32 := by
      rw [value_incrementHit]
      by_cases c : y = x
      · rw [if_pos c]; exact Nat.mod_lt _ (by norm_num)
      · rw [if_neg c]; exact hb
    rw [List.foldl_cons, ih _ hb', value_incrementHit]
    by_cases c : y = x
    · subst c
      rw [if_pos rfl, List.count_cons_self, Nat.mod_add_mod]
      congr 1
      omega
    · rw [if_neg c, List.count_cons_of_ne c]

theorem keys_foldl_incrementHit (hits : List PatternId) :
    ∀ hitCounts : HitCounts, (hitCounts.map Prod.fst).Nodup →
      ((hits.foldl incrementHit hitCounts).map Prod.fst).Nodup ∧
        ∀ y, y ∈ (hits.foldl incrementHit hitCounts).map Prod.fst ↔
          y ∈ hitCounts.map Prod.fst ∨ y ∈ hits := by
  induction hits with
  | nil => intro hc hn; simp [hn]
  | cons x rest ih =>
    intro hc hn
    obtain ⟨h1, h2⟩ := QHash.keys_modify_nodup hc x 0 (fun c => (c + 1) % 2 ^ 32) hn
    obtain ⟨i1, i2⟩ := ih (incrementHit hc x) h1
    refine ⟨i1, ?_⟩
    intro y
    rw [List.foldl_cons, i2 y]
    unfold incrementHit
    rw [h2 y, List.mem_cons]
    tauto

theorem QHash.value_of_mem {K V : Type} [DecidableEq K] (h : QHash K V) (hn : (h.map Prod.fst).Nodup)
    (k : K) (v d : V) (hm : (k, v) ∈ h) : QHash.value h k d = v := by
  induction h with
  | nil => simp at hm
  | cons e rest ih =>
    obtain ⟨k0, v0⟩ := e
    rw [List.map_cons, List.nodup_cons] at hn
    rcases List.mem_cons.1 hm with hm | hm
    · simp only [Prod.mk.injEq] at hm
      obtain ⟨rfl, rfl⟩ := hm
      simp [QHash.value]
    · have hne : ¬ k0 = k := by
        intro c
        subst c
        exact hn.1 (List.mem_map.2 ⟨(k0, v), hm, rfl⟩)
      simp [QHash.value, hne, ih hn.2 hm]

/-! ## The ranking -/

theorem wrapInt32_of_range (x : Int) (h1 : -2 ^ 31 ≤ x) (h2 : x < 2 ^ 31) : wrapInt32 x = x := by
  unfold wrapInt32
  rw [Int.emod_eq_of_lt (by omega) (by omega)]
  omega

theorem rankKey_of_lt (c : Nat) (h : c < 2 ^ 31) : rankKey c = -(c : Int) := by
  unfold rankKey
  have h' : (c : Int) < 2 ^ 31 := by exact_mod_cast h
  rw [wrapInt32_of_range (c : Int) (by omega) h', wrapInt32_of_range _ (by omega) (by omega)]

theorem QHash.mem_of_mem_keys {K V : Type} [DecidableEq K] (h : QHash K V) (k : K) (d : V)
    (hk : k ∈ h.map Prod.fst) : (k, QHash.value h k d) ∈ h := by
  induction h with
  | nil => simp at hk
  | cons e rest ih =>
    obtain ⟨k0, v0⟩ := e
    by_cases c : k0 = k
    · subst c; simp [QHash.value]
    · have hk' : k ∈ rest.map Prod.fst := by
        rcases List.mem_cons.1 hk with hk | hk
        · exact absurd hk.symm c
        · exact hk
      simp only [QHash.value, if_neg c]
      exact List.mem_cons_of_mem _ (ih hk')

theorem QMap.value_of_mem_entries {K V : Type} [LinearOrder K] (m : QMap K V) (k : K) (v d : V)
    (h : (k, v) ∈ m.entries) : m.value k d = v :=
  QHash.value_of_mem m.entries m.keys_nodup k v d h

theorem QMap.mem_entries_of_mem_keys {K V : Type} [LinearOrder K] (m : QMap K V) (k : K)
    (d : V) (h : k ∈ m.keys) : (k, m.value k d) ∈ m.entries :=
  QHash.mem_of_mem_keys m.entries k d h

theorem QMap.mem_keys_insert {K V : Type} [LinearOrder K] (m : QMap K V) (k : K) (v : V)
    (x : K) : x ∈ (m.insert k v).keys ↔ x = k ∨ x ∈ m.keys :=
  QMap.mem_keys_modify m k v (fun _ => v) x

theorem value_rankStep (m : QMap Int (QMap PatternId Int)) (hit : PatternId × Nat) (k : Int) :
    (rankStep m hit).value k QMap.empty =
      if k = rankKey hit.2 then
        (m.value (rankKey hit.2) QMap.empty).insert hit.1 (wrapInt32 hit.2)
      else m.value k QMap.empty := by
  unfold rankStep
  rw [qmap_value_modify]

theorem rank_fold (cnt : PatternId → Nat) (hits : List (PatternId × Nat)) :
    ∀ (m : QMap Int (QMap PatternId Int)) (seen : List PatternId),
      (∀ p ∈ hits, p.2 = cnt p.1) →
      (∀ k x, x ∈ (m.value k QMap.empty).keys ↔ x ∈ seen ∧ rankKey (cnt x) = k) →
      ∀ k x, x ∈ ((hits.foldl rankStep m).value k QMap.empty).keys ↔
        (x ∈ seen ∨ x ∈ hits.map Prod.fst) ∧ rankKey (cnt x) = k := by
  induction hits with
  | nil =>
    intro m seen _ inv k x
    simp [inv k x]
  | cons p rest ih =>
    intro m seen hc inv k x
    have hp : p.2 = cnt p.1 := hc p (List.mem_cons_self _ _)
    have hrest : ∀ q ∈ rest, q.2 = cnt q.1 := fun q hq => hc q (List.mem_cons_of_mem _ hq)
    have inv' : ∀ k x, x ∈ ((rankStep m p).value k QMap.empty).keys ↔
        x ∈ (p.1 :: seen) ∧ rankKey (cnt x) = k := by
      intro k x
      rw [value_rankStep]
      by_cases c : k = rankKey p.2
      · rw [if_pos c, QMap.mem_keys_insert, inv, List.mem_cons]
        constructor
        · rintro (h | h)
          · subst h
            exact ⟨Or.inl rfl, by rw [c, hp]⟩
          · exact ⟨Or.inr h.1, by rw [c]; exact h.2⟩
        · rintro ⟨h | h, h2⟩
          · exact Or.inl h
          · exact Or.inr ⟨h, by rw [← c]; exact h2⟩
      · rw [if_neg c, inv, List.mem_cons]
        constructor
        · rintro ⟨h, h2⟩
          exact ⟨Or.inr h, h2⟩
        · rintro ⟨h | h, h2⟩
          · subst h
            exact absurd (by rw [← h2, hp]) c
          · exact ⟨h, h2⟩
    rw [List.foldl_cons, ih (rankStep m p) (p.1 :: seen) hrest inv' k x]
    simp only [List.mem_cons, List.map_cons]
    constructor
    · rintro ⟨(h | h) | h, h2⟩
      · exact ⟨Or.inr (Or.inl h), h2⟩
      · exact ⟨Or.inl h, h2⟩
      · exact ⟨Or.inr (Or.inr h), h2⟩
    · rintro ⟨h | h | h, h2⟩
      · exact ⟨Or.inl (Or.inr h), h2⟩
      · exact ⟨Or.inl (Or.inl h), h2⟩
      · exact ⟨Or.inr h, h2⟩

theorem ranked_entries (cnt : PatternId → Nat) (m : QMap Int (QMap PatternId Int))
    (seen : List PatternId)
    (inv : ∀ k x, x ∈ (m.value k QMap.empty).keys ↔ x ∈ seen ∧ rankKey (cnt x) = k) :
    (∀ x, x ∈ m.entries.flatMap (fun entry => entry.2.keys) ↔ x ∈ seen) ∧
      (m.entries.flatMap (fun entry => entry.2.keys)).Pairwise
        (fun a b => rankKey (cnt a) < rankKey (cnt b) ∨
          (rankKey (cnt a) = rankKey (cnt b) ∧ a < b)) := by
  have hkey : ∀ entry ∈ m.entries, ∀ x ∈ entry.2.keys, rankKey (cnt x) = entry.1 := by
    intro entry hen x hx
    have hv : m.value entry.1 QMap.empty = entry.2 :=
      QMap.value_of_mem_entries m entry.1 entry.2 QMap.empty hen
    rw [← hv] at hx
    exact ((inv entry.1 x).1 hx).2
  refine ⟨?_, ?_⟩
  · intro x
    rw [List.mem_flatMap]
    constructor
    · rintro ⟨entry, hen, hx⟩
      have hv : m.value entry.1 QMap.empty = entry.2 :=
        QMap.value_of_mem_entries m entry.1 entry.2 QMap.empty hen
      rw [← hv] at hx
      exact ((inv entry.1 x).1 hx).1
    · intro hx
      have h1 : x ∈ (m.value (rankKey (cnt x)) QMap.empty).keys :=
        (inv (rankKey (cnt x)) x).2 ⟨hx, rfl⟩
      have h2 : rankKey (cnt x) ∈ m.keys := by
        by_contra hn
        rw [qmap_value_of_not_mem_keys m _ _ hn] at h1
        simp [QMap.empty, QMap.keys] at h1
      exact ⟨_, QMap.mem_entries_of_mem_keys m _ QMap.empty h2, h1⟩
  · rw [List.pairwise_flatMap]
    refine ⟨?_, ?_⟩
    · intro entry hen
      refine List.Pairwise.imp_of_mem ?_ (QMap.keys_pairwise entry.2)
      intro a b ha hb hab
      exact Or.inr ⟨by rw [hkey entry hen a ha, hkey entry hen b hb], hab⟩
    · have hord : m.entries.Pairwise (fun a b => a.1 < b.1) := List.pairwise_map.1 m.ordered
      refine List.Pairwise.imp_of_mem ?_ hord
      intro a b ha hb hab x hx y hy
      exact Or.inl (by rw [hkey a ha x hx, hkey b hb y hy]; exact hab)

theorem search_ranked (e : FuzzySearchEngine) (query : TokenizedValue) (groupIds : List GroupId)
    (hq : query.length ≠ 0) :
    (∀ x, x ∈ e.search query groupIds ↔ 0 < hitCount e query groupIds x) ∧
      (e.search query groupIds).Pairwise
        (fun a b =>
          rankKey (hitCount e query groupIds a % 2 ^ 32) <
              rankKey (hitCount e query groupIds b % 2 ^ 32) ∨
            (rankKey (hitCount e query groupIds a % 2 ^ 32) =
                rankKey (hitCount e query groupIds b % 2 ^ 32) ∧ a < b)) := by
  unfold FuzzySearchEngine.search
  rw [if_neg hq, collectHits_eq]
  obtain ⟨hn, hmem⟩ := keys_foldl_incrementHit (allHitList e query groupIds) [] (by simp)
  have hval : ∀ p ∈ (allHitList e query groupIds).foldl incrementHit [],
      p.2 = hitCount e query groupIds p.1 % 2 ^ 32 := by
    intro p hp
    have h1 := QHash.value_of_mem _ hn p.1 p.2 0 hp
    rw [value_foldl_incrementHit p.1 _ [] (by simp [QHash.value])] at h1
    rw [← h1, count_allHitList]
    simp [QHash.value]
  have inv := rank_fold (fun x => hitCount e query groupIds x % 2 ^ 32) _ QMap.empty [] hval
    (by intro k x; simp [QMap.empty, QMap.value, QHash.value, QMap.keys])
  have inv' : ∀ k x,
      x ∈ ((((allHitList e query groupIds).foldl incrementHit []).foldl rankStep
        QMap.empty).value k QMap.empty).keys ↔
      x ∈ ((allHitList e query groupIds).foldl incrementHit []).map Prod.fst ∧
        rankKey ((fun x => hitCount e query groupIds x % 2 ^ 32) x) = k := by
    intro k x
    rw [inv k x]
    simp
  obtain ⟨r1, r2⟩ := ranked_entries _ _ _ inv'
  refine ⟨?_, r2⟩
  intro x
  rw [r1 x, hmem x, ← count_allHitList, List.count_pos_iff]
  simp

theorem QHash.flatMap_entries_eq {K V : Type} [DecidableEq K] (h : QHash K (List V))
    (hn : (h.map Prod.fst).Nodup) :
    h.flatMap (fun entry => entry.2) = (h.map Prod.fst).flatMap (fun k => QHash.value h k []) := by
  rw [List.flatMap_map]
  apply List.flatMap_congr
  intro entry hen
  exact (QHash.value_of_mem h hn entry.1 entry.2 [] hen).symm

theorem removeStopWordsLoop_all_stop (stopWords : List Token) (tokens : List Token)
    (h : ∀ t ∈ tokens, t ∈ stopWords) (result : TokenizedValue) :
    removeStopWordsLoop stopWords tokens result = result := by
  induction tokens with
  | nil => rfl
  | cons t rest ih =>
    unfold removeStopWordsLoop
    rw [if_pos (h t (List.mem_cons_self _ _))]
    exact ih (fun x hx => h x (List.mem_cons_of_mem _ hx))

theorem hitCount_le_length (e : FuzzySearchEngine) (query : TokenizedValue)
    (groupIds : List GroupId) (x : PatternId) :
    hitCount e query groupIds x ≤ (allHitList e query groupIds).length := by
  rw [← count_allHitList]
  exact List.count_le_length x (allHitList e query groupIds)

/-! ## The effect of a registration on the hit counts -/

theorem modifyEntry_keys_of_mem {K V : Type} [LinearOrder K] (k : K) (d : V) (f : V → V)
    (l : List (K × V)) (hl : (l.map Prod.fst).Pairwise (· < ·)) (hk : k ∈ l.map Prod.fst) :
    (modifyEntry k d f l).map Prod.fst = l.map Prod.fst := by
  induction l with
  | nil => simp at hk
  | cons e rest ih =>
    rw [List.map_cons, List.pairwise_cons] at hl
    obtain ⟨h1, h2⟩ := hl
    unfold modifyEntry
    by_cases c1 : k < e.1
    · exfalso
      rcases List.mem_cons.1 hk with hk | hk
      · exact absurd hk (ne_of_lt c1)
      · exact absurd (lt_trans c1 (h1 k hk)) (lt_irrefl k)
    · rw [if_neg c1]
      by_cases c2 : e.1 < k
      · rw [if_pos c2]
        have hk' : k ∈ rest.map Prod.fst := by
          rcases List.mem_cons.1 hk with hk | hk
          · exact absurd hk.symm (ne_of_lt c2)
          · exact hk
        simp only [List.map_cons, ih h2 hk']
      · rw [if_neg c2]
        simp

theorem modifyEntry_keys_perm {K V : Type} [LinearOrder K] (k : K) (d : V) (f : V → V)
    (l : List (K × V)) (hk : k ∉ l.map Prod.fst) :
    List.Perm ((modifyEntry k d f l).map Prod.fst) (k :: l.map Prod.fst) := by
  induction l with
  | nil => simp [modifyEntry]
  | cons e rest ih =>
    have hk1 : ¬ k = e.1 := fun c => hk (by rw [c]; exact List.mem_cons_self _ _)
    have hk2 : k ∉ rest.map Prod.fst := fun c => hk (List.mem_cons_of_mem _ c)
    unfold modifyEntry
    by_cases c1 : k < e.1
    · rw [if_pos c1]
      simp
    · rw [if_neg c1]
      by_cases c2 : e.1 < k
      · rw [if_pos c2]
        simp only [List.map_cons]
        exact ((ih hk2).cons e.1).trans (List.Perm.swap k e.1 _)
      · exact absurd (le_antisymm (not_lt.1 c2) (not_lt.1 c1)) hk1

theorem sum_map_add_indicator (F : GroupId → Nat) (g : GroupId) (r : Nat)
    (l : List GroupId) :
    (l.map (fun g' => F g' + if g' = g then r else 0)).sum = (l.map F).sum + l.count g * r := by
  induction l with
  | nil => simp
  | cons a rest ih =>
    rw [List.map_cons, List.sum_cons, ih, List.map_cons, List.sum_cons]
    by_cases c : a = g
    · subst c
      rw [if_pos rfl, List.count_cons_self]
      ring
    · rw [if_neg c, List.count_cons_of_ne (fun h => c h.symm)]
      ring

theorem qmap_contains_modify {K V : Type} [LinearOrder K] (m : QMap K V) (k : K) (d : V)
    (f : V → V) (x : K) : (m.modify k d f).contains x = (decide (x = k) || m.contains x) := by
  rw [Bool.eq_iff_iff, qmap_contains_iff_mem_keys, QMap.mem_keys_modify, Bool.or_eq_true,
    decide_eq_true_eq, qmap_contains_iff_mem_keys]

theorem consistent_emptyEngine : emptyEngine.Consistent := fun _ => rfl

theorem consistent_registerPattern (e : FuzzySearchEngine) (hc : e.Consistent)
    (pattern : TokenizedValue) (groupId : GroupId) (patternId : PatternId) :
    (e.registerPattern pattern groupId patternId).Consistent := by
  intro g
  unfold FuzzySearchEngine.registerPattern
  simp only
  rw [qmap_contains_modify, qmap_contains_modify, hc g]

theorem removeStopWordsFrom_registerPattern (e : FuzzySearchEngine)
    (pattern : TokenizedValue) (groupId : GroupId) (patternId : PatternId)
    (query : TokenizedValue) :
    (e.registerPattern pattern groupId patternId).removeStopWordsFrom query =
      e.removeStopWordsFrom query := rfl

theorem groupHits_registerPattern (e : FuzzySearchEngine) (pattern : TokenizedValue)
    (groupId : GroupId) (patternId : PatternId) (cleaned : List Token) (g : GroupId)
    (x : PatternId) :
    groupHits (e.registerPattern pattern groupId patternId) cleaned g x =
      groupHits e cleaned g x +
        if g = groupId then
          registrationHits (e.removeStopWordsFrom pattern).tokenList cleaned patternId x
        else 0 := by
  unfold groupHits registrationHits
  rw [groupIndex_registerPattern]
  by_cases c : g = groupId
  · subst c
    rw [if_pos rfl, if_pos rfl, ← List.sum_map_add]
    congr 1
    apply List.map_congr_left
    intro p _
    rw [value_foldl_appendPatternId, List.count_append]
  · rw [if_neg c, if_neg c, Nat.add_zero]

theorem groupHits_of_not_contains (e : FuzzySearchEngine) (cleaned : List Token) (g : GroupId)
    (x : PatternId) (h : e.patternIdsByValueByGroupId.contains g = false) :
    groupHits e cleaned g x = 0 := by
  unfold groupHits FuzzySearchEngine.groupIndex
  have h0 : e.patternIdsByValueByGroupId.value g [] = [] := QHash.value_of_not_contains _ _ _ h
  rw [h0]
  simp [QHash.value]

theorem hitCount_registerPattern (e : FuzzySearchEngine) (hc : e.Consistent)
    (pattern : TokenizedValue) (groupId : GroupId) (patternId : PatternId)
    (query : TokenizedValue) (groupIds : List GroupId) (x : PatternId) :
    hitCount (e.registerPattern pattern groupId patternId) query groupIds x =
      hitCount e query groupIds x +
        (if groupIds.isEmpty = true then 1 else groupIds.count groupId) *
          registrationHits (e.removeStopWordsFrom pattern).tokenList
            (e.removeStopWordsFrom query).tokenList patternId x := by
  unfold hitCount
  rw [removeStopWordsFrom_registerPattern]
  simp only [groupHits_registerPattern]
  unfold FuzzySearchEngine.selectedGroups
  by_cases c : groupIds.isEmpty = true
  · rw [if_pos c, if_pos c, if_pos c, Nat.one_mul]
    have hkeys : (e.registerPattern pattern groupId patternId).patternIdsByGroupId.keys =
        (modifyEntry groupId [] (fun ids => ids ++ [patternId])
          e.patternIdsByGroupId.entries).map Prod.fst := rfl
    rw [hkeys]
    by_cases hm : groupId ∈ e.patternIdsByGroupId.keys
    · rw [modifyEntry_keys_of_mem _ _ _ _ e.patternIdsByGroupId.ordered hm,
        sum_map_add_indicator]
      have h1 : List.count groupId (e.patternIdsByGroupId.entries.map Prod.fst) = 1 :=
        List.count_eq_one_of_mem (QMap.keys_nodup _) hm
      rw [h1, Nat.one_mul]
      rfl
    · have hp := modifyEntry_keys_perm groupId [] (fun ids => ids ++ [patternId])
        e.patternIdsByGroupId.entries hm
      rw [(hp.map _).sum_eq, List.map_cons, List.sum_cons, if_pos rfl, sum_map_add_indicator]
      have h0 : List.count groupId (e.patternIdsByGroupId.entries.map Prod.fst) = 0 :=
        List.count_eq_zero_of_not_mem hm
      have hcont : e.patternIdsByValueByGroupId.contains groupId = false := by
        rw [hc groupId]
        cases hh : e.patternIdsByGroupId.contains groupId with
        | false => rfl
        | true => exact absurd ((qmap_contains_iff_mem_keys _ _).1 hh) hm
      rw [h0, groupHits_of_not_contains e _ groupId x hcont]
      simp only [QMap.keys, Nat.zero_mul, Nat.add_zero, Nat.zero_add]
      exact Nat.add_comm _ _
  · rw [if_neg c, if_neg c, if_neg c, sum_map_add_indicator]

theorem value_collectHits (e : FuzzySearchEngine) (query : TokenizedValue)
    (groupIds : List GroupId) (x : PatternId) :
    QHash.value (e.collectHits query groupIds) x 0 = hitCount e query groupIds x % 2 ^ 32 := by
  rw [collectHits_eq, value_foldl_incrementHit x _ [] (by simp [QHash.value]),
    count_allHitList]
  simp [QHash.value]

/-! ## The claims about registration and search -/

/-- C1 (amended).  For every engine state, every non-empty query and every list of group ids
such that no pattern id reaches `2^31` hits, `search` returns each pattern id with at least
one hit exactly once and no other id, ordered by descending total hit count and, among ids
with equal counts, by ascending pattern id.  The hit count of an id is `hitCount`: the
number of pairs of a choice `left ≤ right` in the stop-word-cleaned query and an entry for
the id in the list stored under the key `query[left .. right]`, summed over the groups that
are visited (the listed groups as they are listed, all known groups for an empty list). -/
theorem search_ranked_by_hit_count (e : FuzzySearchEngine) (query : TokenizedValue)
    (groupIds : List GroupId) (hq : query.length ≠ 0)
    (hb : ∀ x, hitCount e query groupIds x < 2 ^ 31) :
    (e.search query groupIds).Nodup ∧
      (∀ x, x ∈ e.search query groupIds ↔ 0 < hitCount e query groupIds x) ∧
      (e.search query groupIds).Pairwise
        (fun a b =>
          hitCount e query groupIds b < hitCount e query groupIds a ∨
            (hitCount e query groupIds a = hitCount e query groupIds b ∧ a < b)) := by
  obtain ⟨h1, h2⟩ := search_ranked e query groupIds hq
  have key : ∀ x, rankKey (hitCount e query groupIds x % 2 ^ 32) =
      -(hitCount e query groupIds x : Int) := by
    intro x
    have hx := hb x
    rw [Nat.mod_eq_of_lt (by omega), rankKey_of_lt _ hx]
  have h3 : (e.search query groupIds).Pairwise
      (fun a b =>
        hitCount e query groupIds b < hitCount e query groupIds a ∨
          (hitCount e query groupIds a = hitCount e query groupIds b ∧ a < b)) := by
    refine h2.imp ?_
    intro a b hab
    rw [key a, key b] at hab
    rcases hab with hab | ⟨hab, hlt⟩
    · exact Or.inl (by omega)
    · exact Or.inr ⟨by omega, hlt⟩
  refine ⟨?_, h1, h3⟩
  refine h3.imp ?_
  intro a b hab
  rcases hab with hab | ⟨_, hlt⟩
  · intro hEq; subst hEq; exact absurd hab (lt_irrefl _)
  · exact ne_of_lt hlt

/-- Witness of C1 (amended) on `smallEngine` with the query `[2, 3]` and the groups 1, 2. -/
theorem search_ranked_by_hit_count_witness :
    (⟨[2, 3]⟩ : TokenizedValue).length ≠ 0 ∧
      (∀ x, hitCount smallEngine ⟨[2, 3]⟩ [1, 2] x < 2 ^ 31) ∧
      (smallEngine.search ⟨[2, 3]⟩ [1, 2]).Nodup ∧
      (∀ x, x ∈ smallEngine.search ⟨[2, 3]⟩ [1, 2] ↔ 0 < hitCount smallEngine ⟨[2, 3]⟩ [1, 2] x) ∧
      (smallEngine.search ⟨[2, 3]⟩ [1, 2]).Pairwise
        (fun a b =>
          hitCount smallEngine ⟨[2, 3]⟩ [1, 2] b < hitCount smallEngine ⟨[2, 3]⟩ [1, 2] a ∨
            (hitCount smallEngine ⟨[2, 3]⟩ [1, 2] a = hitCount smallEngine ⟨[2, 3]⟩ [1, 2] b ∧
              a < b)) :=
  have hb : ∀ x, hitCount smallEngine ⟨[2, 3]⟩ [1, 2] x < 2 ^ 31 := fun x =>
    lt_of_le_of_lt (hitCount_le_length smallEngine ⟨[2, 3]⟩ [1, 2] x) (by decide)
  ⟨by decide, hb, search_ranked_by_hit_count smallEngine ⟨[2, 3]⟩ [1, 2] (by decide) hb⟩

theorem allHitList_singleKeyEngine (ids : List PatternId) :
    allHitList (singleKeyEngine ids) ⟨[7]⟩ [0] = ids := by
  have hsub : subsequencesOf [7] = [⟨[7]⟩] := by decide
  simp [allHitList, hsub, FuzzySearchEngine.selectedGroups, groupHitList,
    FuzzySearchEngine.groupIndex, singleKeyEngine, QMap.value,
    QHash.value, FuzzySearchEngine.removeStopWordsFrom, removeStopWordsLoop,
    TokenizedValue.addToken, TokenizedValue.empty, TokenizedValue.length, maximumNumberTokens]

theorem registerPattern_singleKeyEngine (ids : List PatternId) (id : PatternId) :
    (singleKeyEngine ids).registerPattern ⟨[7]⟩ 0 id = singleKeyEngine (ids ++ [id]) := by
  have h1 : registerOuter id [7] [(⟨[7]⟩, ids)] = [(⟨[7]⟩, ids ++ [id])] := by
    simp [registerOuter, registerInner, appendPatternId, QHash.modify, TokenizedValue.addToken,
      TokenizedValue.empty, TokenizedValue.length, maximumNumberTokens]
  simp [FuzzySearchEngine.registerPattern, singleKeyEngine, QMap.modify, modifyEntry,
    QMap.value, QHash.value, FuzzySearchEngine.removeStopWordsFrom, removeStopWordsLoop,
    TokenizedValue.addToken, TokenizedValue.empty, TokenizedValue.length, maximumNumberTokens,
    h1]

theorem registerPattern_emptyEngine_single (id : PatternId) :
    emptyEngine.registerPattern ⟨[7]⟩ 0 id = singleKeyEngine [id] := by
  have h1 : registerOuter id [7] [] = [(⟨[7]⟩, [id])] := by
    simp [registerOuter, registerInner, appendPatternId, QHash.modify, TokenizedValue.addToken,
      TokenizedValue.empty, TokenizedValue.length, maximumNumberTokens]
  simp [FuzzySearchEngine.registerPattern, singleKeyEngine, emptyEngine, QMap.modify,
    modifyEntry, QMap.value, QHash.value, QMap.empty, FuzzySearchEngine.removeStopWordsFrom,
    removeStopWordsLoop, TokenizedValue.addToken, TokenizedValue.empty, TokenizedValue.length,
    maximumNumberTokens, h1]

theorem foldl_registerPattern_singleKeyEngine (ids : List PatternId) :
    ∀ start : List PatternId,
      ids.foldl (fun e id => e.registerPattern ⟨[7]⟩ 0 id) (singleKeyEngine start) =
        singleKeyEngine (start ++ ids) := by
  induction ids with
  | nil => intro start; simp
  | cons id rest ih =>
    intro start
    rw [List.foldl_cons, registerPattern_singleKeyEngine, ih, List.append_assoc]
    rfl

/-- The state `singleKeyEngine (first :: ids)` is the state after registering the pattern
`[7]` in group 0 of `emptyEngine` under `first` and then under each entry of `ids`. -/
theorem singleKeyEngine_reachable (first : PatternId) (ids : List PatternId) :
    (first :: ids).foldl (fun e id => e.registerPattern ⟨[7]⟩ 0 id) emptyEngine =
      singleKeyEngine (first :: ids) := by
  rw [List.foldl_cons, registerPattern_emptyEngine_single, foldl_registerPattern_singleKeyEngine]
  rfl

theorem foldl_incrementHit_replicate (x : PatternId) (n : Nat) :
    ∀ c : Nat, (List.replicate n x).foldl incrementHit [(x, c % 2 ^ 32)] =
      [(x, (c + n) % 2 ^ 32)] := by
  induction n with
  | zero => intro c; rfl
  | succ m ih =>
    intro c
    rw [List.replicate_succ, List.foldl_cons]
    have h : incrementHit [(x, c % 2 ^ 32)] x = [(x, (c + 1) % 2 ^ 32)] := by
      simp [incrementHit, QHash.modify]
    rw [h, ih (c + 1)]
    congr 3
    omega

theorem collectHits_singleKeyEngine (n : Nat) (y : PatternId) (hy : y ≠ 1) :
    (singleKeyEngine (List.replicate (n + 1) 1 ++ [y])).collectHits ⟨[7]⟩ [0] =
      [(1, (n + 1) % 2 ^ 32), (y, 1)] := by
  have h : incrementHit [] 1 = [(1, 1 % 2 ^ 32)] := by
    simp [incrementHit, QHash.modify]
  have h1 : (List.replicate (n + 1) 1).foldl incrementHit [] = [(1, (n + 1) % 2 ^ 32)] := by
    rw [List.replicate_succ, List.foldl_cons, h, foldl_incrementHit_replicate 1 n 1,
      Nat.add_comm 1 n]
  have hy' : ¬ (1 = y) := fun c => hy c.symm
  rw [collectHits_eq, allHitList_singleKeyEngine, List.foldl_append, h1]
  simp [incrementHit, QHash.modify, hy']

/-- Counterexample to C1 as stated.  In the engine state reached by registering the one-token
pattern `[7]` in group 0 `2^31 + 1` times under pattern id 1 and once under pattern id 2,
the query `[7]` on group 0 has `2^31 + 1` hits for id 1 and one hit for id 2, and `search`
returns id 2 before id 1: the key `-static_cast<int>(hitCount)` of id 1 is `2^31 - 1`. -/
theorem search_ranking_overflow_counterexample :
    (singleKeyEngine (List.replicate (2 ^ 31 + 1) 1 ++ [2])).search ⟨[7]⟩ [0] = [2, 1] ∧
      hitCount (singleKeyEngine (List.replicate (2 ^ 31 + 1) 1 ++ [2])) ⟨[7]⟩ [0] 1 =
        2 ^ 31 + 1 ∧
      hitCount (singleKeyEngine (List.replicate (2 ^ 31 + 1) 1 ++ [2])) ⟨[7]⟩ [0] 2 = 1 := by
  refine ⟨?_, ?_, ?_⟩
  · have hs : ∀ hits : HitCounts,
        (singleKeyEngine (List.replicate (2 ^ 31 + 1) 1 ++ [2])).collectHits ⟨[7]⟩ [0] = hits →
        (singleKeyEngine (List.replicate (2 ^ 31 + 1) 1 ++ [2])).search ⟨[7]⟩ [0] =
          (hits.foldl rankStep QMap.empty).entries.flatMap (fun entry => entry.2.keys) := by
      intro hits hh
      unfold FuzzySearchEngine.search
      rw [if_neg (by decide), hh]
    rw [hs _ (collectHits_singleKeyEngine (2 ^ 31) 2 (by decide))]
    have hn : (2 ^ 31 + 1) % 2 ^ 32 = 2147483649 := by norm_num
    rw [hn]
    decide
  · rw [← count_allHitList, allHitList_singleKeyEngine, List.count_append,
      List.count_replicate]
    simp
  · rw [← count_allHitList, allHitList_singleKeyEngine, List.count_append,
      List.count_replicate]
    simp

/-- C3.  For every engine state, pattern, group id and pattern id, with `n` the number of
tokens of the stop-word-cleaned pattern: `n ≤ 31`; the pairs `(left, right)` that the loops
visit are exactly those with `left ≤ right < n`, each once, `n(n+1)/2` in all; for every key
the list stored under it in the group's index is the old list followed by one copy of the
pattern id for each pair with `cleaned[left .. right]` equal to the key (so nothing is
appended under any other key); the index of the group has `n(n+1)/2` more entries; and the
pattern id is appended once at the end of the group's registration list. -/
theorem registerPattern_appends_every_subsequence (e : FuzzySearchEngine)
    (pattern : TokenizedValue) (groupId : GroupId) (patternId : PatternId) :
    (e.removeStopWordsFrom pattern).length ≤ 31 ∧
      (∀ left right, (left, right) ∈ subsequencePairs (e.removeStopWordsFrom pattern).length ↔
        left ≤ right ∧ right < (e.removeStopWordsFrom pattern).length) ∧
      (subsequencePairs (e.removeStopWordsFrom pattern).length).Nodup ∧
      (subsequencePairs (e.removeStopWordsFrom pattern).length).length =
        (e.removeStopWordsFrom pattern).length * ((e.removeStopWordsFrom pattern).length + 1) / 2 ∧
      (∀ key : TokenizedValue,
        QHash.value ((e.registerPattern pattern groupId patternId).groupIndex groupId) key [] =
          QHash.value (e.groupIndex groupId) key [] ++
            List.replicate
              ((subsequencePairs (e.removeStopWordsFrom pattern).length).countP
                (fun p => decide (slice (e.removeStopWordsFrom pattern).tokenList p.1 p.2 = key)))
              patternId) ∧
      totalEntries ((e.registerPattern pattern groupId patternId).groupIndex groupId) =
        totalEntries (e.groupIndex groupId) +
          (e.removeStopWordsFrom pattern).length * ((e.removeStopWordsFrom pattern).length + 1) / 2 ∧
      (e.registerPattern pattern groupId patternId).patternIdsByGroupId.value groupId [] =
        e.patternIdsByGroupId.value groupId [] ++ [patternId] := by
  refine ⟨removeStopWordsFrom_length e pattern, mem_subsequencePairs _, subsequencePairs_nodup _,
    subsequencePairs_length _, ?_, ?_, ?_⟩
  · intro key
    rw [groupIndex_registerPattern, if_pos rfl, value_foldl_appendPatternId,
      subsequencesOf_count]
    rfl
  · rw [groupIndex_registerPattern, if_pos rfl, totalEntries_foldl_appendPatternId]
    unfold subsequencesOf
    rw [List.length_map, subsequencePairs_length]
    rfl
  · unfold FuzzySearchEngine.registerPattern
    simp only
    rw [qmap_value_modify, if_pos rfl]

/-- C4.  For every engine state, `search` with an empty query and an empty group list returns
the concatenation, over the known groups in strictly ascending group id order, of the
registration list of each group as it is stored (registration order, duplicates kept). -/
theorem search_empty_query_all_groups (e : FuzzySearchEngine) :
    e.search TokenizedValue.empty [] =
        e.patternIdsByGroupId.keys.flatMap (fun g => e.patternIdsByGroupId.value g []) ∧
      e.patternIdsByGroupId.keys.Pairwise (· < ·) ∧
      ∀ g, g ∈ e.patternIdsByGroupId.keys ↔ e.patternIdsByGroupId.contains g = true := by
  refine ⟨?_, QMap.keys_pairwise _, fun g => (qmap_contains_iff_mem_keys _ g).symm⟩
  unfold FuzzySearchEngine.search
  rw [if_pos (by rfl), if_pos (by rfl)]
  exact QHash.flatMap_entries_eq _ (QMap.keys_nodup _)

/-- C5 (amended).  For every engine state and every non-empty list of group ids, `search`
with an empty query returns the registration lists of the listed groups concatenated in the
order in which the caller lists the groups (an unknown group contributes nothing, a group
listed twice contributes twice); within a group the ids are in registration order. -/
theorem search_empty_query_listed_groups (e : FuzzySearchEngine) (groupIds : List GroupId)
    (h : groupIds ≠ []) :
    e.search TokenizedValue.empty groupIds =
      groupIds.flatMap (fun g => e.patternIdsByGroupId.value g []) := by
  unfold FuzzySearchEngine.search
  have h' : ¬ (groupIds.isEmpty = true) := by
    intro c
    exact h (List.isEmpty_iff.1 c)
  rw [if_pos (by rfl), if_neg h']

/-- Witness of C5 (amended): the groups 2 and 1, in this order, on `twoGroupEngine`. -/
theorem search_empty_query_listed_groups_witness :
    ([2, 1] : List GroupId) ≠ [] ∧
      twoGroupEngine.search TokenizedValue.empty [2, 1] =
        [2, 1].flatMap (fun g => twoGroupEngine.patternIdsByGroupId.value g []) :=
  ⟨by decide, search_empty_query_listed_groups twoGroupEngine [2, 1] (by decide)⟩

/-- Counterexample to C5 as stated.  With pattern id 10 registered in group 1 and pattern
id 20 in group 2, the empty query on the group list `[2, 1]` returns `[20, 10]`, the order
of the caller's list, and not the ascending group order `[10, 20]`. -/
theorem search_empty_query_caller_order_counterexample :
    twoGroupEngine.search TokenizedValue.empty [2, 1] = [20, 10] ∧
      [1, 2].flatMap (fun g => twoGroupEngine.patternIdsByGroupId.value g []) = [10, 20] := by
  decide

/-- C6 (amended).  A query of at least one token that consists solely of stop words takes
the branch of the non-empty query, because `search` tests the length of the query before
cleaning: its cleaned form is empty, no counter is incremented and the result is the empty
list, for every engine state and every group list. -/
theorem search_stop_word_query_returns_nothing (e : FuzzySearchEngine)
    (query : TokenizedValue) (groupIds : List GroupId) (hq : query.length ≠ 0)
    (hs : ∀ t ∈ query.tokenList, t ∈ e.currentStopWords) :
    (e.removeStopWordsFrom query).length = 0 ∧ e.search query groupIds = [] := by
  have hc : e.removeStopWordsFrom query = TokenizedValue.empty :=
    removeStopWordsLoop_all_stop _ _ hs _
  refine ⟨by rw [hc]; rfl, ?_⟩
  unfold FuzzySearchEngine.search
  rw [if_neg hq, collectHits_eq]
  have h0 : allHitList e query groupIds = [] := by
    unfold allHitList groupHitList
    rw [hc]
    simp [TokenizedValue.empty, subsequencesOf, subsequencePairs]
  rw [h0]
  rfl

/-- Witness of C6 (amended): the query "the" on `stopWordEngine`, whose only stop word is
"the". -/
theorem search_stop_word_query_returns_nothing_witness :
    (tokenize qtAscii stopWordEngine.1 "the".toList true).2.length ≠ 0 ∧
      (∀ t ∈ (tokenize qtAscii stopWordEngine.1 "the".toList true).2.tokenList,
        t ∈ stopWordEngine.2.currentStopWords) ∧
      (stopWordEngine.2.removeStopWordsFrom
        (tokenize qtAscii stopWordEngine.1 "the".toList true).2).length = 0 ∧
      stopWordEngine.2.search (tokenize qtAscii stopWordEngine.1 "the".toList true).2 [] = [] :=
  ⟨by decide, by decide,
    search_stop_word_query_returns_nothing stopWordEngine.2
      (tokenize qtAscii stopWordEngine.1 "the".toList true).2 [] (by decide) (by decide)⟩

/-- Counterexample to C6 as stated.  The engine is built from the stop word list `["the"]`
and "the raven" is registered under pattern id 7.  The query "the" consists solely of the
stop word and its cleaned form is empty, yet `search` returns the empty list, while the
empty query returns the registered id 7. -/
theorem search_stop_word_query_counterexample :
    (tokenize qtAscii stopWordEngine.1 "the".toList true).2.tokenList = [0] ∧
      stopWordEngine.2.currentStopWords = [0] ∧
      (stopWordEngine.2.removeStopWordsFrom
        (tokenize qtAscii stopWordEngine.1 "the".toList true).2).length = 0 ∧
      stopWordEngine.2.search (tokenize qtAscii stopWordEngine.1 "the".toList true).2 [] = [] ∧
      stopWordEngine.2.search TokenizedValue.empty [] = [7] := by
  decide

/-- C7.  Start from an engine state in which both maps know the same groups (every state
made by the constructors, `registerPattern` and `clear`).  For every pattern, group id,
pattern id, query, group list and id `x`: registering the same `(pattern, groupId,
patternId)` twice raises the hit count of `x` by exactly twice the amount by which
registering it once raises it; nothing is deduplicated or replaced.  The counter that
`search` holds for `x` after its loop over the groups is the hit count modulo `2^32` in each
of the three states. -/
theorem registerPattern_twice_doubles_hits (e : FuzzySearchEngine) (hc : e.Consistent)
    (pattern : TokenizedValue) (groupId : GroupId) (patternId : PatternId)
    (query : TokenizedValue) (groupIds : List GroupId) (x : PatternId) :
    hitCount e query groupIds x ≤
        hitCount (e.registerPattern pattern groupId patternId) query groupIds x ∧
      hitCount ((e.registerPattern pattern groupId patternId).registerPattern pattern groupId
          patternId) query groupIds x - hitCount e query groupIds x =
        2 * (hitCount (e.registerPattern pattern groupId patternId) query groupIds x -
          hitCount e query groupIds x) ∧
      QHash.value (e.collectHits query groupIds) x 0 = hitCount e query groupIds x % 2 ^ 32 ∧
      QHash.value ((e.registerPattern pattern groupId patternId).collectHits query groupIds) x 0 =
        hitCount (e.registerPattern pattern groupId patternId) query groupIds x % 2 ^ 32 ∧
      QHash.value (((e.registerPattern pattern groupId patternId).registerPattern pattern groupId
          patternId).collectHits query groupIds) x 0 =
        hitCount ((e.registerPattern pattern groupId patternId).registerPattern pattern groupId
          patternId) query groupIds x % 2 ^ 32 := by
  have h1 := hitCount_registerPattern e hc pattern groupId patternId query groupIds x
  have h2 := hitCount_registerPattern (e.registerPattern pattern groupId patternId)
    (consistent_registerPattern e hc pattern groupId patternId) pattern groupId patternId query
    groupIds x
  rw [removeStopWordsFrom_registerPattern, removeStopWordsFrom_registerPattern] at h2
  refine ⟨by omega, by omega, value_collectHits _ _ _ _, value_collectHits _ _ _ _,
    value_collectHits _ _ _ _⟩

/-- Witness of C7: the pattern `[2, 3]` is registered again, twice, in group 1 of
`smallEngine` under pattern id 11, for the query `[2, 3]` on the groups 1 and 2. -/
theorem registerPattern_twice_doubles_hits_witness :
    smallEngine.Consistent ∧
      hitCount smallEngine ⟨[2, 3]⟩ [1, 2] 11 ≤
        hitCount (smallEngine.registerPattern ⟨[2, 3]⟩ 1 11) ⟨[2, 3]⟩ [1, 2] 11 ∧
      hitCount ((smallEngine.registerPattern ⟨[2, 3]⟩ 1 11).registerPattern ⟨[2, 3]⟩ 1 11)
          ⟨[2, 3]⟩ [1, 2] 11 - hitCount smallEngine ⟨[2, 3]⟩ [1, 2] 11 =
        2 * (hitCount (smallEngine.registerPattern ⟨[2, 3]⟩ 1 11) ⟨[2, 3]⟩ [1, 2] 11 -
          hitCount smallEngine ⟨[2, 3]⟩ [1, 2] 11) ∧
      QHash.value (smallEngine.collectHits ⟨[2, 3]⟩ [1, 2]) 11 0 =
        hitCount smallEngine ⟨[2, 3]⟩ [1, 2] 11 % 2 ^ 32 ∧
      QHash.value ((smallEngine.registerPattern ⟨[2, 3]⟩ 1 11).collectHits ⟨[2, 3]⟩ [1, 2]) 11 0 =
        hitCount (smallEngine.registerPattern ⟨[2, 3]⟩ 1 11) ⟨[2, 3]⟩ [1, 2] 11 % 2 ^ 32 ∧
      QHash.value (((smallEngine.registerPattern ⟨[2, 3]⟩ 1 11).registerPattern ⟨[2, 3]⟩ 1
          11).collectHits ⟨[2, 3]⟩ [1, 2]) 11 0 =
        hitCount ((smallEngine.registerPattern ⟨[2, 3]⟩ 1 11).registerPattern ⟨[2, 3]⟩ 1 11)
          ⟨[2, 3]⟩ [1, 2] 11 % 2 ^ 32 :=
  have hs : smallEngine.Consistent :=
    consistent_registerPattern _
      (consistent_registerPattern _
        (consistent_registerPattern _ consistent_emptyEngine ⟨[1, 2, 3]⟩ 1 10) ⟨[2, 3]⟩ 1 11)
      ⟨[3, 4]⟩ 2 12
  ⟨hs, registerPattern_twice_doubles_hits smallEngine hs ⟨[2, 3]⟩ 1 11 ⟨[2, 3]⟩ [1, 2] 11⟩

/-! ## The keyword interner -/

theorem QHash.value_insert {K V : Type} [DecidableEq K] (h : QHash K V) (k : K) (v : V)
    (k' : K) (d : V) :
    QHash.value (QHash.insert h k v) k' d = if k' = k then v else QHash.value h k' d := by
  unfold QHash.insert
  induction h with
  | nil =>
    by_cases c : k' = k
    · simp [QHash.modify, QHash.value, c]
    · have c' : ¬ k = k' := fun x => c x.symm
      simp [QHash.modify, QHash.value, c, c']
  | cons e rest ih =>
    obtain ⟨k0, v0⟩ := e
    by_cases c0 : k0 = k
    · subst c0
      by_cases c : k' = k0
      · subst c; simp [QHash.modify, QHash.value]
      · have c' : ¬ k0 = k' := fun x => c x.symm
        simp [QHash.modify, QHash.value, c, c']
    · by_cases c : k' = k
      · subst c
        simp [QHash.modify, QHash.value, c0, ih]
      · by_cases c1 : k0 = k'
        · subst c1; simp [QHash.modify, QHash.value, c0]
        · simp [QHash.modify, QHash.value, c0, c1, c, ih]

theorem QHash.contains_insert {K V : Type} [DecidableEq K] (h : QHash K V) (k : K) (v : V)
    (k' : K) : QHash.contains (QHash.insert h k v) k' = (decide (k' = k) || QHash.contains h k') :=
  QHash.contains_modify h k v (fun _ => v) k'

/-- C8.  For every interner state and every two keywords with the same lower-case form (in
particular a keyword and itself): after `tokenForKeyword(keyword, true)`, a call of
`tokenForKeyword` with assignment for either keyword returns the token of the first call
and leaves the interner as the first call left it. -/
theorem tokenForKeyword_idempotent (ops : CharOps) (st : Interner) (keyword other : QString)
    (hcase : ops.toLower other = ops.toLower keyword) :
    tokenForKeyword ops (tokenForKeyword ops st keyword true).2 keyword true =
        tokenForKeyword ops st keyword true ∧
      tokenForKeyword ops (tokenForKeyword ops st keyword true).2 other true =
        tokenForKeyword ops st keyword true := by
  have key : ∀ k : QString, ops.toLower k = ops.toLower keyword →
      tokenForKeyword ops (tokenForKeyword ops st keyword true).2 k true =
        tokenForKeyword ops st keyword true := by
    intro k hk
    by_cases c1 : QHash.value st.tokensByKeyword (ops.toLower keyword) invalidToken = invalidToken
    · by_cases c2 : nextToken st ≠ invalidToken
      · have h1 : tokenForKeyword ops st keyword true =
            (nextToken st,
              ⟨QHash.insert st.tokensByKeyword (ops.toLower keyword) (nextToken st),
                st.keywordsByToken ++ [ops.toLower keyword]⟩) := by
          simp only [tokenForKeyword, c1, and_self, if_true, c2, ne_eq, not_false_eq_true]
        rw [h1]
        have h2 : QHash.value (QHash.insert st.tokensByKeyword (ops.toLower keyword)
            (nextToken st)) (ops.toLower keyword) invalidToken = nextToken st := by
          rw [QHash.value_insert, if_pos rfl]
        simp only [tokenForKeyword, hk, h2]
        rw [if_neg (fun h => c2 h.1)]
      · have h1 : tokenForKeyword ops st keyword true = (invalidToken, st) := by
          simp only [tokenForKeyword, c1, and_self, if_true, c2, if_false]
        rw [h1]
        simp only [tokenForKeyword, hk, c1, and_self, if_true, c2, if_false]
    · have h1 : tokenForKeyword ops st keyword true =
          (QHash.value st.tokensByKeyword (ops.toLower keyword) invalidToken, st) := by
        simp only [tokenForKeyword]
        rw [if_neg (fun h => c1 h.1)]
      rw [h1]
      simp only [tokenForKeyword, hk]
      rw [if_neg (fun h => c1 h.1)]
  exact ⟨key keyword rfl, key other hcase⟩

/-- Witness of C8: "Tapping" and "tapping" on the empty interner. -/
theorem tokenForKeyword_idempotent_witness :
    qtAscii.toLower "tapping".toList = qtAscii.toLower "Tapping".toList ∧
      tokenForKeyword qtAscii (tokenForKeyword qtAscii Interner.empty "Tapping".toList true).2
          "Tapping".toList true =
        tokenForKeyword qtAscii Interner.empty "Tapping".toList true ∧
      tokenForKeyword qtAscii (tokenForKeyword qtAscii Interner.empty "Tapping".toList true).2
          "tapping".toList true =
        tokenForKeyword qtAscii Interner.empty "Tapping".toList true :=
  ⟨by decide,
    tokenForKeyword_idempotent qtAscii Interner.empty "Tapping".toList "tapping".toList
      (by decide)⟩

theorem getElem?_append_singleton_eq_some {α : Type} (l : List α) (a : α) (t : Nat) (k : α)
    (h : (l ++ [a])[t]? = some k) : l[t]? = some k ∨ (t = l.length ∧ k = a) := by
  rw [List.getElem?_append] at h
  split at h
  · exact Or.inl h
  · right
    have h0 : t - l.length = 0 := by
      by_contra hne
      rw [List.getElem?_eq_none (by simp only [List.length_singleton]; omega)] at h
      exact absurd h (by simp)
    rw [h0] at h
    simp only [List.getElem?_cons_zero, Option.some.injEq] at h
    exact ⟨by omega, h.symm⟩

theorem Interner.inverse_empty (ops : CharOps) : Interner.Inverse ops Interner.empty := by
  refine ⟨?_, ?_, ?_, ?_, ?_, ?_⟩
  · intro t k h; simp [Interner.empty] at h
  · intro k h; simp [Interner.empty, QHash.contains] at h
  · simp [Interner.empty]
  · simp [Interner.empty]
  · intro k h; simp [Interner.empty] at h
  · simp [Interner.empty]

/-- The step that records a new keyword in both tables keeps the tables inverse. -/
theorem Interner.inverse_record (ops : CharOps) (st : Interner) (hinv : Interner.Inverse ops st)
    (word : QString) (hnew : QHash.contains st.tokensByKeyword (ops.toLower word) = false)
    (hroom : nextToken st ≠ invalidToken) :
    Interner.Inverse ops
      ⟨QHash.insert st.tokensByKeyword (ops.toLower word) (nextToken st),
        st.keywordsByToken ++ [ops.toLower word]⟩ := by
  obtain ⟨i1, i2, i3, i4, i5, i6⟩ := hinv
  have hroom' : st.keywordsByToken.length % 65536 ≠ 65535 := hroom
  have hlen : st.keywordsByToken.length < 65535 := by omega
  have hnext : nextToken st = st.keywordsByToken.length := by
    show st.keywordsByToken.length % 65536 = st.keywordsByToken.length
    omega
  have hne : ∀ k, QHash.contains st.tokensByKeyword k = true → ¬ k = ops.toLower word := by
    intro k hk c
    rw [c, hnew] at hk
    exact absurd hk (by simp)
  refine ⟨?_, ?_, ?_, ?_, ?_, ?_⟩
  · intro t k h
    simp only at h ⊢
    rw [QHash.contains_insert, QHash.value_insert]
    rcases getElem?_append_singleton_eq_some _ _ _ _ h with h | ⟨h1, h2⟩
    · obtain ⟨c1, c2⟩ := i1 t k h
      rw [if_neg (hne k c1), c1, c2]
      simp
    · subst h2
      rw [if_pos rfl, hnext, h1]
      simp
  · intro k h
    simp only at h ⊢
    rw [QHash.contains_insert, Bool.or_eq_true, decide_eq_true_eq] at h
    rw [QHash.value_insert]
    by_cases c : k = ops.toLower word
    · rw [if_pos c, hnext, c]
      exact List.getElem?_concat_length _ _
    · rw [if_neg c]
      have hk : QHash.contains st.tokensByKeyword k = true := by
        rcases h with h | h
        · exact absurd h c
        · exact h
      have h2 := i2 k hk
      have hlt : QHash.value st.tokensByKeyword k invalidToken < st.keywordsByToken.length := by
        obtain ⟨hlt, _⟩ := List.getElem?_eq_some_iff.1 h2
        exact hlt
      rw [List.getElem?_append_left hlt]
      exact h2
  · simp only
    rw [List.nodup_append]
    refine ⟨i3, List.nodup_singleton _, ?_⟩
    intro k hk1 hk2
    rw [List.mem_singleton] at hk2
    obtain ⟨t, ht⟩ := List.mem_iff_getElem?.1 hk1
    exact hne k (i1 t k ht).1 hk2
  · exact (QHash.keys_modify_nodup _ _ _ _ i4).1
  · intro k hk
    simp only [List.mem_append, List.mem_singleton] at hk
    rcases hk with hk | hk
    · exact i5 k hk
    · exact ⟨word, hk.symm⟩
  · simp only [List.length_append, List.length_singleton]
    omega

theorem Interner.not_contains_of_invalid (ops : CharOps) (st : Interner)
    (hinv : Interner.Inverse ops st) (k : QString)
    (h : QHash.value st.tokensByKeyword k invalidToken = invalidToken) :
    QHash.contains st.tokensByKeyword k = false := by
  obtain ⟨_, i2, _, _, _, i6⟩ := hinv
  cases hc : QHash.contains st.tokensByKeyword k with
  | false => rfl
  | true =>
    exfalso
    have h2 := i2 k hc
    obtain ⟨hlt, _⟩ := List.getElem?_eq_some_iff.1 h2
    rw [h] at hlt
    have hlt' : 65535 < st.keywordsByToken.length := hlt
    omega

theorem Interner.inverse_tokenForKeyword (ops : CharOps) (st : Interner)
    (hinv : Interner.Inverse ops st) (keyword : QString) (assignNewToken : Bool) :
    Interner.Inverse ops (tokenForKeyword ops st keyword assignNewToken).2 := by
  unfold tokenForKeyword
  simp only
  by_cases c1 : QHash.value st.tokensByKeyword (ops.toLower keyword) invalidToken = invalidToken ∧
      assignNewToken = true
  · rw [if_pos c1]
    by_cases c2 : nextToken st ≠ invalidToken
    · rw [if_pos c2]
      exact Interner.inverse_record ops st hinv keyword
        (Interner.not_contains_of_invalid ops st hinv _ c1.1) c2
    · rw [if_neg c2]; exact hinv
  · rw [if_neg c1]; exact hinv

theorem Interner.inverse_addKeyword (ops : CharOps) (st : Interner)
    (hinv : Interner.Inverse ops st) (v : TokenizedValue) (keyword : QString)
    (assignNewTokens : Bool) :
    Interner.Inverse ops (addKeyword ops st v keyword assignNewTokens).2.1 := by
  unfold addKeyword
  simp only
  by_cases c1 : QHash.contains st.tokensByKeyword (ops.toLower keyword) = true
  · rw [if_pos c1]; exact hinv
  · rw [if_neg c1]
    by_cases c2 : assignNewTokens = true
    · rw [if_pos c2]
      by_cases c3 : nextToken st ≠ invalidToken
      · rw [if_pos c3]
        by_cases c4 : (v.addToken (nextToken st)).1 = true
        · rw [if_pos c4]
          exact Interner.inverse_record ops st hinv keyword (by simpa using c1) c3
        · rw [if_neg c4]; exact hinv
      · rw [if_neg c3]; exact hinv
    · rw [if_neg c2]; exact hinv

theorem Interner.inverse_flushKeyword (ops : CharOps) (assignNewTokens : Bool)
    (keyword : QString) (acc : Interner × TokenizedValue) (hinv : Interner.Inverse ops acc.1) :
    Interner.Inverse ops (flushKeyword ops assignNewTokens keyword acc).1 := by
  unfold flushKeyword
  by_cases c : keyword = []
  · rw [if_pos c]; exact hinv
  · rw [if_neg c]; exact Interner.inverse_addKeyword ops _ hinv _ _ _

theorem Interner.inverse_tokenizeLoop (ops : CharOps) (assignNewTokens : Bool)
    (str : List Char) :
    ∀ (keyword : QString) (acc : Interner × TokenizedValue), Interner.Inverse ops acc.1 →
      Interner.Inverse ops (tokenizeLoop ops assignNewTokens str keyword acc).1 := by
  induction str with
  | nil =>
    intro keyword acc hinv
    exact Interner.inverse_flushKeyword ops _ _ _ hinv
  | cons c cs ih =>
    intro keyword acc hinv
    unfold tokenizeLoop
    by_cases c1 : c = Char.ofNat 46
    · rw [if_pos c1]
      apply ih
      exact Interner.inverse_addKeyword ops _
        (Interner.inverse_flushKeyword ops _ _ _ hinv) _ _ _
    · rw [if_neg c1]
      by_cases c2 : ((ops.isPunct c && c != Char.ofNat 39) || ops.isSpace c) = true
      · rw [if_pos c2]
        exact ih _ _ (Interner.inverse_flushKeyword ops _ _ _ hinv)
      · rw [if_neg c2]
        exact ih _ _ hinv

theorem Interner.inverse_of_reachable (ops : CharOps) (st : Interner)
    (h : Interner.Reachable ops st) : Interner.Inverse ops st := by
  induction h with
  | atStart => exact Interner.inverse_empty ops
  | afterTokenForKeyword st keyword assign _ ih =>
    exact Interner.inverse_tokenForKeyword ops st ih keyword assign
  | afterTokenize st str assign _ ih =>
    exact Interner.inverse_tokenizeLoop ops assign str [] (st, TokenizedValue.empty) ih

/-- C9.  Interning with assignment a keyword whose lower-case form is not in the table, while
fewer than 65535 keywords are stored, returns the number of keywords stored before the call
and stores the lower-case form at that position; every keyword that was in the table keeps
its token; `addKeyword` on a value with room appends the same token.  Hence the first string
of `testTokenizedString`, tokenized on the empty interner, is numbered by order of first
occurrence. -/
theorem tokenForKeyword_assigns_consecutive (ops : CharOps) (st : Interner) (keyword : QString)
    (hnew : QHash.contains st.tokensByKeyword (ops.toLower keyword) = false)
    (hroom : st.keywordsByToken.length < 65535) :
    (tokenForKeyword ops st keyword true).1 = st.keywordsByToken.length ∧
      (tokenForKeyword ops st keyword true).2.keywordsByToken =
        st.keywordsByToken ++ [ops.toLower keyword] ∧
      (∀ (known : QString) (d : Token), QHash.contains st.tokensByKeyword known = true →
        QHash.value (tokenForKeyword ops st keyword true).2.tokensByKeyword known d =
          QHash.value st.tokensByKeyword known d) ∧
      (∀ v : TokenizedValue, v.length < 31 →
        addKeyword ops st v keyword true =
          (true, (tokenForKeyword ops st keyword true).2,
            ⟨v.tokenList ++ [st.keywordsByToken.length]⟩)) ∧
      (tokenize qtAscii Interner.empty testSentence true).2.tokenList =
        [0, 1, 2, 3, 4, 5, 6, 7, 8, 9, 10, 8, 11, 12, 13] := by
  have hval : QHash.value st.tokensByKeyword (ops.toLower keyword) invalidToken = invalidToken :=
    QHash.value_of_not_contains _ _ _ hnew
  have hnext : nextToken st = st.keywordsByToken.length := by
    show st.keywordsByToken.length % 65536 = st.keywordsByToken.length
    omega
  have hvalid : nextToken st ≠ invalidToken := by
    rw [hnext]
    show st.keywordsByToken.length ≠ 65535
    omega
  have h1 : tokenForKeyword ops st keyword true =
      (nextToken st,
        ⟨QHash.insert st.tokensByKeyword (ops.toLower keyword) (nextToken st),
          st.keywordsByToken ++ [ops.toLower keyword]⟩) := by
    simp only [tokenForKeyword, hval, and_self, if_true, hvalid, ne_eq, not_false_eq_true]
  refine ⟨by rw [h1, hnext], by rw [h1], ?_, ?_, by decide!⟩
  · intro known d hk
    rw [h1]
    simp only
    rw [QHash.value_insert]
    have hne : ¬ known = ops.toLower keyword := by
      intro c
      rw [c, hnew] at hk
      exact absurd hk (by simp)
    rw [if_neg hne]
  · intro v hv
    have hadd : v.addToken (nextToken st) = (true, ⟨v.tokenList ++ [nextToken st]⟩) := by
      unfold TokenizedValue.addToken
      exact if_pos hv
    have hc : ¬ (QHash.contains st.tokensByKeyword (ops.toLower keyword) = true) := by
      rw [hnew]; simp
    rw [h1]
    unfold addKeyword
    simp only
    rw [if_neg hc, if_pos trivial, if_pos hvalid, hadd, if_pos rfl, hnext]

/-- Witness of C9: the keyword "Tapping" on the interner left by tokenizing the first string
of `testTokenizedString`, which holds 14 keywords; the call returns the token 14. -/
theorem tokenForKeyword_assigns_consecutive_witness :
    QHash.contains (tokenize qtAscii Interner.empty testSentence true).1.tokensByKeyword
        (qtAscii.toLower "Tapping".toList) = false ∧
      (tokenize qtAscii Interner.empty testSentence true).1.keywordsByToken.length < 65535 ∧
      (tokenForKeyword qtAscii (tokenize qtAscii Interner.empty testSentence true).1
          "Tapping".toList true).1 =
        (tokenize qtAscii Interner.empty testSentence true).1.keywordsByToken.length :=
  ⟨by decide!, by decide!,
    (tokenForKeyword_assigns_consecutive qtAscii
      (tokenize qtAscii Interner.empty testSentence true).1 "Tapping".toList (by decide!)
      (by decide!)).1⟩

/-- C10.  In every interner state reachable from the empty interner by calls of
`tokenForKeyword` and by tokenizations: the keyword stored at a position `t` is in the hash
and maps back to `t`; every keyword of the hash maps to a position below the number of
stored keywords at which that same keyword is stored; no keyword is stored twice, in the
list or in the hash; every stored keyword is a lower-case form; and at most 65535 keywords
are stored, so that no live token is the sentinel. -/
theorem interner_tables_inverse (ops : CharOps) (st : Interner)
    (h : Interner.Reachable ops st) :
    (∀ (t : Nat) (k : QString), st.keywordsByToken[t]? = some k →
        QHash.contains st.tokensByKeyword k = true ∧
          QHash.value st.tokensByKeyword k invalidToken = t) ∧
      (∀ k : QString, QHash.contains st.tokensByKeyword k = true →
        QHash.value st.tokensByKeyword k invalidToken < st.keywordsByToken.length ∧
          st.keywordsByToken[QHash.value st.tokensByKeyword k invalidToken]? = some k) ∧
      st.keywordsByToken.Nodup ∧
      (st.tokensByKeyword.map Prod.fst).Nodup ∧
      (∀ k ∈ st.keywordsByToken, ∃ w : QString, ops.toLower w = k) ∧
      st.keywordsByToken.length ≤ 65535 := by
  obtain ⟨i1, i2, i3, i4, i5, i6⟩ := Interner.inverse_of_reachable ops st h
  refine ⟨i1, ?_, i3, i4, i5, i6⟩
  intro k hk
  have h2 := i2 k hk
  obtain ⟨hlt, _⟩ := List.getElem?_eq_some_iff.1 h2
  exact ⟨hlt, h2⟩

/-- Witness of C10: the interner after a call of `tokenForKeyword` and a tokenization. -/
theorem interner_tables_inverse_witness :
    Interner.Reachable qtAscii
        (tokenize qtAscii (tokenForKeyword qtAscii Interner.empty "Tapping".toList true).2
          testSentence true).1 ∧
      (tokenize qtAscii (tokenForKeyword qtAscii Interner.empty "Tapping".toList true).2
          testSentence true).1.keywordsByToken.Nodup :=
  have hr : Interner.Reachable qtAscii
      (tokenize qtAscii (tokenForKeyword qtAscii Interner.empty "Tapping".toList true).2
        testSentence true).1 :=
    Interner.Reachable.afterTokenize _ _ _
      (Interner.Reachable.afterTokenForKeyword _ _ _ Interner.Reachable.atStart)
  ⟨hr, (interner_tables_inverse qtAscii _ hr).2.2.1⟩

/-! ## The scenario of `testFuzzySearch` -/

theorem registerAll_eq (ops : CharOps) (items : List (GroupId × QString)) :
    ∀ (patternId : PatternId) (st : Interner) (e : FuzzySearchEngine),
      registerAll ops items patternId (st, e) =
        ((tokenizeAll ops (items.map Prod.snd) st).1,
          registerTokenized
            ((items.map Prod.fst).zip (tokenizeAll ops (items.map Prod.snd) st).2) patternId e) := by
  induction items with
  | nil => intro patternId st e; rfl
  | cons item rest ih =>
    intro patternId st e
    obtain ⟨g, str⟩ := item
    show registerAll ops rest (patternId + 1)
        ((tokenize ops st str true).1, e.registerPattern (tokenize ops st str true).2 g patternId) =
      _
    rw [ih]
    rfl

theorem tokenizeAll_append (ops : CharOps) (texts : List QString) (text : QString) :
    ∀ st : Interner,
      (tokenizeAll ops (texts ++ [text]) st).2 =
        (tokenizeAll ops texts st).2 ++ [(tokenize ops (tokenizeAll ops texts st).1 text true).2] := by
  induction texts with
  | nil => intro st; rfl
  | cons t rest ih =>
    intro st
    show (tokenize ops st t true).2 ::
        (tokenizeAll ops (rest ++ [text]) (tokenize ops st t true).1).2 = _
    rw [ih]
    rfl

theorem currentStopWords_registerTokenized (items : List (GroupId × TokenizedValue)) :
    ∀ (patternId : PatternId) (e : FuzzySearchEngine),
      (registerTokenized items patternId e).currentStopWords = e.currentStopWords := by
  induction items with
  | nil => intro patternId e; rfl
  | cons item rest ih =>
    intro patternId e
    obtain ⟨g, pattern⟩ := item
    rw [registerTokenized, ih]
    rfl

theorem value_registerTokenized (key : TokenizedValue) (groupId : GroupId)
    (items : List (GroupId × TokenizedValue)) :
    ∀ (patternId : PatternId) (e : FuzzySearchEngine),
      QHash.value ((registerTokenized items patternId e).groupIndex groupId) key [] =
        QHash.value (e.groupIndex groupId) key [] ++
          indexedUnder e.currentStopWords key groupId items patternId := by
  induction items with
  | nil => intro patternId e; simp [registerTokenized, indexedUnder]
  | cons item rest ih =>
    intro patternId e
    obtain ⟨g, pattern⟩ := item
    rw [registerTokenized, ih, groupIndex_registerPattern, indexedUnder]
    have hs : (e.registerPattern pattern g patternId).currentStopWords = e.currentStopWords := rfl
    rw [hs]
    by_cases c : groupId = g
    · subst c
      rw [if_pos rfl, if_pos rfl, value_foldl_appendPatternId, List.append_assoc]
      rfl
    · have c' : ¬ g = groupId := fun h => c h.symm
      rw [if_neg c, if_neg c', List.nil_append]

theorem search_registerTokenized (items : List (GroupId × TokenizedValue))
    (patternId : PatternId) (e : FuzzySearchEngine) (query : TokenizedValue)
    (groupIds : List GroupId) (hq : query.length ≠ 0) :
    (registerTokenized items patternId e).search query groupIds =
      (((((registerTokenized items patternId e).selectedGroups groupIds).flatMap
        (fun g =>
          (subsequencesOf
            (removeStopWordsLoop e.currentStopWords query.tokenList
              TokenizedValue.empty).tokenList).flatMap
            (fun key =>
              QHash.value (e.groupIndex g) key [] ++
                indexedUnder e.currentStopWords key g items patternId))).foldl incrementHit
        []).foldl rankStep QMap.empty).entries.flatMap (fun entry => entry.2.keys) := by
  unfold FuzzySearchEngine.search
  rw [if_neg hq, collectHits_eq]
  unfold allHitList groupHitList FuzzySearchEngine.removeStopWordsFrom
  rw [currentStopWords_registerTokenized]
  simp only [value_registerTokenized]

theorem tokenizeAll_testStrings :
    (tokenizeAll qtAscii (testStrings.map Prod.snd ++ ["while i".toList]) Interner.empty).2 =
      testTokens ++ [⟨[5, 6]⟩] := by
  decide!

theorem tokenizeAll_testStrings_twelve :
    (tokenizeAll qtAscii ((testStrings.take 12).map Prod.snd ++ ["while i".toList])
      Interner.empty).2 = testTokens.take 12 ++ [⟨[5, 6]⟩] := by
  decide!

theorem tokenizeAll_testStrings_later :
    (tokenizeAll qtAscii (testStrings.map Prod.snd ++ ["while i".toList])
      testTokenizedInterner).2 = testTokensLater ++ [⟨[23, 24]⟩] := by
  decide!

theorem testSearch_eq (st : Interner) (count : Nat) (tokens : List TokenizedValue)
    (query : TokenizedValue) (groupIds : List GroupId)
    (ht : (tokenizeAll qtAscii ((testStrings.take count).map Prod.snd ++ ["while i".toList])
      st).2 = tokens ++ [query]) :
    testSearch st count "while i".toList groupIds =
      (registerTokenized (((testStrings.take count).map Prod.fst).zip tokens) 0
        emptyEngine).search query groupIds := by
  rw [tokenizeAll_append] at ht
  have hl : (tokenizeAll qtAscii ((testStrings.take count).map Prod.snd) st).2.length =
      tokens.length := by
    have := congrArg List.length ht
    simp only [List.length_append, List.length_singleton] at this
    omega
  obtain ⟨h1, h2⟩ := List.append_inj ht hl
  have h3 : (tokenize qtAscii
      (tokenizeAll qtAscii ((testStrings.take count).map Prod.snd) st).1
      "while i".toList true).2 = query := by
    simpa using h2
  unfold testSearch testEngine
  have h0 : FuzzySearchEngine.fromStopWords qtAscii st [] = (st, emptyEngine) := rfl
  rw [h0, registerAll_eq]
  simp only
  rw [h3, h1]

/-- C2.  With an engine built from an empty stop word list, after the registration loop of
`testFuzzySearch` over all eighteen fixture lines (ids 0 to 5 in group 1, 6 to 11 in group 2,
12 to 17 in group 3), `search("while i", [1, 2])` returns exactly `[0, 2, 8, 4, 6]`: on the
empty interner, on the interner that `testTokenizedString` leaves behind, and also when only
the first twelve lines are registered. -/
theorem raven_search_while_i :
    testSearch Interner.empty 18 "while i".toList [1, 2] = [0, 2, 8, 4, 6] ∧
      testSearch testTokenizedInterner 18 "while i".toList [1, 2] = [0, 2, 8, 4, 6] ∧
      testSearch Interner.empty 12 "while i".toList [1, 2] = [0, 2, 8, 4, 6] := by
  refine ⟨?_, ?_, ?_⟩
  · rw [testSearch_eq _ 18 testTokens ⟨[5, 6]⟩ [1, 2] tokenizeAll_testStrings,
      search_registerTokenized _ _ _ _ _ (by decide)]
    decide!
  · rw [testSearch_eq _ 18 testTokensLater ⟨[23, 24]⟩ [1, 2] tokenizeAll_testStrings_later,
      search_registerTokenized _ _ _ _ _ (by decide)]
    decide!
  · rw [testSearch_eq _ 12 (testTokens.take 12) ⟨[5, 6]⟩ [1, 2] tokenizeAll_testStrings_twelve,
      search_registerTokenized _ _ _ _ _ (by decide)]
    decide!

/-! ## `TokenizedValue`: capacity, comparison and hash -/

theorem tokenizeAll_testSentences :
    (tokenizeAll qtAscii [testSentence, testSentenceTwo, testSentenceThree] Interner.empty).2 =
      [testValueOne, testValueTwo, testValueThree] := by
  decide!

/-- C12.  For every token sequence `s` and token `t`: when `s` has fewer than 31 tokens,
`addToken(t)` returns true, the length grows by one, the last token is `t` and the earlier
tokens are the tokens of `s`; when `s` has 31 tokens, `addToken(t)` returns false and leaves
`s` as it is. -/
theorem addToken_appends_or_refuses (s : TokenizedValue) (t : Token) :
    (s.length < 31 →
        (s.addToken t).1 = true ∧ (s.addToken t).2.length = s.length + 1 ∧
          (s.addToken t).2.tokenList.getLast? = some t ∧
          (s.addToken t).2.tokenList.take s.length = s.tokenList ∧
          (s.addToken t).2.tokenList = s.tokenList ++ [t]) ∧
      (s.length = 31 → s.addToken t = (false, s)) := by
  refine ⟨?_, ?_⟩
  · intro h
    have h1 : s.addToken t = (true, ⟨s.tokenList ++ [t]⟩) := by
      unfold TokenizedValue.addToken
      exact if_pos h
    rw [h1]
    refine ⟨rfl, ?_, ?_, ?_, rfl⟩
    · simp [TokenizedValue.length]
    · simp
    · simp [TokenizedValue.length]
  · intro h
    unfold TokenizedValue.addToken
    have h' : ¬ (s.length < maximumNumberTokens) := by
      rw [h]; decide
    exact if_neg h'

/-- Witness of C12: appending to the 15 tokens of `testValueOne`, and to a value of 31
tokens. -/
theorem addToken_appends_or_refuses_witness :
    (testValueOne.length < 31 ∧ (testValueOne.addToken 99).1 = true ∧
        (testValueOne.addToken 99).2.length = 16) ∧
      ((TokenizedValue.fromArray 31 (fun i => i)).length = 31 ∧
        (TokenizedValue.fromArray 31 (fun i => i)).addToken 99 =
          (false, TokenizedValue.fromArray 31 (fun i => i))) :=
  ⟨⟨by decide, ((addToken_appends_or_refuses testValueOne 99).1 (by decide)).1,
      ((addToken_appends_or_refuses testValueOne 99).1 (by decide)).2.1⟩,
    ⟨by decide,
      (addToken_appends_or_refuses (TokenizedValue.fromArray 31 (fun i => i)) 99).2
        (by decide)⟩⟩

/-! ## The tokenizer flushes the words of the text -/

theorem specWords_cons_period (ops : CharOps) (cs : List Char) :
    specWords ops (Char.ofNat 46 :: cs) = [Char.ofNat 46] :: specWords ops cs := by
  simp [specWords]

theorem isWordChar_period (ops : CharOps) : isWordChar ops (Char.ofNat 46) = false := by
  simp [isWordChar]

theorem tokenizeLoop_eq_fold (ops : CharOps) (assignNewTokens : Bool) (cs : List Char) :
    ∀ (keyword : QString) (acc : Interner × TokenizedValue),
      tokenizeLoop ops assignNewTokens cs keyword acc =
        (pendingWords ops keyword cs).foldl (flushWord ops assignNewTokens) acc := by
  induction cs with
  | nil =>
    intro keyword acc
    unfold tokenizeLoop flushKeyword pendingWords
    by_cases c : keyword = []
    · simp [c, specWords]
    · simp [c, specWords, startsWithWordChar, flushWord]
  | cons c cs ih =>
    intro keyword acc
    unfold tokenizeLoop
    by_cases c1 : c = Char.ofNat 46
    · subst c1
      rw [if_pos rfl, ih]
      unfold pendingWords
      rw [if_pos rfl, specWords_cons_period]
      have hs : startsWithWordChar ops (Char.ofNat 46 :: cs) = false := isWordChar_period ops
      rw [hs]
      unfold flushKeyword
      by_cases c : keyword = []
      · simp [c, flushWord]
      · simp [c, flushWord]
    · rw [if_neg c1]
      by_cases c2 : ((ops.isPunct c && c != Char.ofNat 39) || ops.isSpace c) = true
      · rw [if_pos c2, ih]
        have hw : isWordChar ops c = false := by
          unfold isWordChar
          rw [c2]
          simp
        have hsw : specWords ops (c :: cs) = specWords ops cs := by
          simp [specWords, c1, hw]
        have hs : startsWithWordChar ops (c :: cs) = false := hw
        unfold pendingWords
        rw [if_pos rfl, hsw, hs]
        unfold flushKeyword
        by_cases c : keyword = []
        · simp [c]
        · simp [c, flushWord]
      · rw [if_neg c2, ih]
        have c2' : ((ops.isPunct c && c != Char.ofNat 39) || ops.isSpace c) = false := by
          simpa using c2
        have hw : isWordChar ops c = true := by
          unfold isWordChar
          rw [c2']
          simp [c1]
        have hs : startsWithWordChar ops (c :: cs) = true := hw
        have hne : ¬ (keyword ++ [c] = []) := by simp
        have hsw : specWords ops (c :: cs) =
            if startsWithWordChar ops cs = true then joinFirst c (specWords ops cs)
            else [c] :: specWords ops cs := by
          simp [specWords, c1, hw]
        unfold pendingWords
        rw [if_neg hne, hs, hsw]
        by_cases c3 : startsWithWordChar ops cs = true
        · rw [if_pos c3, if_pos c3]
          cases hsp : specWords ops cs with
          | nil =>
            by_cases c : keyword = []
            · simp [c, joinFirst]
            · simp [c, joinFirst]
          | cons w ws =>
            by_cases c : keyword = []
            · simp [c, joinFirst]
            · simp [c, joinFirst]
        · rw [if_neg c3, if_neg c3]
          by_cases c : keyword = []
          · simp [c]
          · simp [c]

theorem tokenize_eq_fold (ops : CharOps) (st : Interner) (text : QString)
    (assignNewTokens : Bool) :
    tokenize ops st text assignNewTokens =
      (specWords ops text).foldl (flushWord ops assignNewTokens) (st, TokenizedValue.empty) := by
  unfold tokenize
  rw [tokenizeLoop_eq_fold]
  simp [pendingWords]

theorem addToken_of_full (v : TokenizedValue) (t : Token) (h : 31 ≤ v.length) :
    v.addToken t = (false, v) := by
  unfold TokenizedValue.addToken
  have h' : ¬ (v.length < maximumNumberTokens) := by
    show ¬ (v.length < 31)
    omega
  exact if_neg h'

theorem addToken_of_room (v : TokenizedValue) (t : Token) (h : v.length < 31) :
    v.addToken t = (true, ⟨v.tokenList ++ [t]⟩) := by
  unfold TokenizedValue.addToken
  exact if_pos h

theorem flushWord_of_full (ops : CharOps) (assignNewTokens : Bool)
    (acc : Interner × TokenizedValue) (word : QString) (h : 31 ≤ acc.2.length) :
    flushWord ops assignNewTokens acc word = acc := by
  obtain ⟨st, v⟩ := acc
  unfold flushWord addKeyword
  simp only [addToken_of_full v _ h]
  by_cases c1 : QHash.contains st.tokensByKeyword (ops.toLower word) = true
  · rw [if_pos c1]
  · rw [if_neg c1]
    by_cases c2 : assignNewTokens = true
    · rw [if_pos c2]
      by_cases c3 : nextToken st ≠ invalidToken
      · rw [if_pos c3]
        simp
      · rw [if_neg c3]
    · rw [if_neg c2]

theorem foldl_flushWord_of_full (ops : CharOps) (assignNewTokens : Bool) (words : List QString) :
    ∀ acc : Interner × TokenizedValue, 31 ≤ acc.2.length →
      words.foldl (flushWord ops assignNewTokens) acc = acc := by
  induction words with
  | nil => intro acc _; rfl
  | cons w ws ih =>
    intro acc h
    rw [List.foldl_cons, flushWord_of_full ops assignNewTokens acc w h]
    exact ih acc h

theorem flushWord_length_le (ops : CharOps) (assignNewTokens : Bool)
    (acc : Interner × TokenizedValue) (word : QString) (h : acc.2.length ≤ 31) :
    (flushWord ops assignNewTokens acc word).2.length ≤ 31 := by
  obtain ⟨st, v⟩ := acc
  have hb : ∀ t, (v.addToken t).2.length ≤ 31 := fun t => addToken_length_le v t h
  unfold flushWord addKeyword
  simp only
  by_cases c1 : QHash.contains st.tokensByKeyword (ops.toLower word) = true
  · rw [if_pos c1]; exact hb _
  · rw [if_neg c1]
    by_cases c2 : assignNewTokens = true
    · rw [if_pos c2]
      by_cases c3 : nextToken st ≠ invalidToken
      · rw [if_pos c3]
        by_cases c4 : (v.addToken (nextToken st)).1 = true
        · rw [if_pos c4]; exact hb _
        · rw [if_neg c4]; exact hb _
      · rw [if_neg c3]; exact h
    · rw [if_neg c2]; exact hb _

theorem foldl_flushWord_length_le (ops : CharOps) (assignNewTokens : Bool)
    (words : List QString) :
    ∀ acc : Interner × TokenizedValue, acc.2.length ≤ 31 →
      (words.foldl (flushWord ops assignNewTokens) acc).2.length ≤ 31 := by
  induction words with
  | nil => intro acc h; exact h
  | cons w ws ih =>
    intro acc h
    rw [List.foldl_cons]
    exact ih _ (flushWord_length_le ops assignNewTokens acc w h)

theorem tokenize_length_le (ops : CharOps) (st : Interner) (text : QString)
    (assignNewTokens : Bool) : (tokenize ops st text assignNewTokens).2.length ≤ 31 := by
  rw [tokenize_eq_fold]
  exact foldl_flushWord_length_le ops assignNewTokens _ _ (Nat.zero_le 31)

theorem fromArray_length (length : Nat) (tokens : Nat → Token) :
    (TokenizedValue.fromArray length tokens).length = length := by
  simp [TokenizedValue.fromArray, TokenizedValue.length]

/-- C13 (the code at the failing input).  The constructor from a length and a token array
stores the length it is given: with 32 tokens the value has length 32, above
`maximumNumberTokens`, and a copy of it has length 32 as well.  The other ways to obtain a
value keep the bound: the default constructor gives length 0, `addToken` never passes 31
tokens on a value that has at most 31, and tokenizing a text gives at most 31 tokens. -/
theorem fromArray_exceeds_capacity :
    (TokenizedValue.fromArray 32 (fun _ => 0)).length = 32 ∧
      (TokenizedValue.copy (TokenizedValue.fromArray 32 (fun _ => 0))).length = 32 ∧
      maximumNumberTokens = 31 ∧
      (∀ (length : Nat) (tokens : Nat → Token),
        (TokenizedValue.fromArray length tokens).length = length) ∧
      TokenizedValue.empty.length = 0 ∧
      (∀ (v : TokenizedValue) (t : Token), (v.addToken t).2.length ≤ max 31 v.length) ∧
      (∀ (ops : CharOps) (st : Interner) (text : QString) (assignNewTokens : Bool),
        (tokenize ops st text assignNewTokens).2.length ≤ 31) := by
  refine ⟨by decide, by decide, rfl, fromArray_length, rfl, ?_, tokenize_length_le⟩
  intro v t
  by_cases c : v.length ≤ 31
  · exact le_trans (addToken_length_le v t c) (le_max_left _ _)
  · rw [addToken_of_full v t (by omega)]
    exact le_max_right _ _

theorem memcmp_cons_token (order : ByteOrder) (x y : Token) (xs ys : List Token) (n : Nat) :
    memcmp (tokenArrayBytes order (x :: xs)) (tokenArrayBytes order (y :: ys)) (2 * (n + 1)) =
      if storedValue order x < storedValue order y then -1
      else if storedValue order y < storedValue order x then 1
      else memcmp (tokenArrayBytes order xs) (tokenArrayBytes order ys) (2 * n) := by
  have h2 : 2 * (n + 1) = (2 * n + 1) + 1 := by ring
  rw [h2]
  cases order
  · simp only [tokenArrayBytes, List.flatMap_cons, tokenBytes, List.cons_append,
      List.nil_append, memcmp, storedValue]
    split_ifs <;> first | rfl | omega
  · simp only [tokenArrayBytes, List.flatMap_cons, tokenBytes, List.cons_append,
      List.nil_append, memcmp, storedValue]
    split_ifs <;> first | rfl | omega

theorem storedValue_injective (order : ByteOrder) (x y : Nat) (hx : x < 65536)
    (hy : y < 65536) (h : storedValue order x = storedValue order y) : x = y := by
  cases order
  · simp only [storedValue] at h
    omega
  · simp only [storedValue] at h
    omega

theorem storedValue_bigEndian (t : Nat) (ht : t < 65536) :
    storedValue ByteOrder.bigEndian t = t := by
  show t / 256 % 256 * 256 + t % 256 = t
  omega

theorem firstDifferenceLess_cons (key : Token → Nat) (x y : Token) (xs ys : List Token) :
    firstDifferenceLess key (x :: xs) (y :: ys) ↔
      key x < key y ∨ (x = y ∧ firstDifferenceLess key xs ys) := by
  constructor
  · rintro ⟨i, u, v, h1, h2, h3, h4⟩
    cases i with
    | zero =>
      simp only [List.getElem?_cons_zero, Option.some.injEq] at h2 h3
      subst h2 h3
      exact Or.inl h4
    | succ k =>
      right
      have h0 := h1 0 (Nat.succ_pos k)
      simp only [List.getElem?_cons_zero, Option.some.injEq] at h0
      refine ⟨h0, k, u, v, ?_, ?_, ?_, h4⟩
      · intro j hj
        have := h1 (j + 1) (by omega)
        simpa using this
      · simpa using h2
      · simpa using h3
  · rintro (h | ⟨h0, k, u, v, h1, h2, h3, h4⟩)
    · exact ⟨0, x, y, by intro j hj; omega, by simp, by simp, h⟩
    · refine ⟨k + 1, u, v, ?_, by simpa using h2, by simpa using h3, h4⟩
      intro j hj
      cases j with
      | zero => simp [h0]
      | succ m =>
        have := h1 m (by omega)
        simpa using this

theorem memcmp_neg_iff (order : ByteOrder) (a : List Token) :
    ∀ b : List Token, a.length = b.length → (∀ t ∈ a, t < 65536) → (∀ t ∈ b, t < 65536) →
      (memcmp (tokenArrayBytes order a) (tokenArrayBytes order b) (2 * a.length) < 0 ↔
        firstDifferenceLess (storedValue order) a b) := by
  induction a with
  | nil =>
    intro b hlen _ _
    cases b with
    | nil =>
      simp only [tokenArrayBytes, List.flatMap_nil, List.length_nil, memcmp]
      constructor
      · intro h; exact absurd h (by decide)
      · rintro ⟨i, u, v, _, h2, _⟩
        simp at h2
    | cons y ys => simp at hlen
  | cons x xs ih =>
    intro b hlen ha hb
    cases b with
    | nil => simp at hlen
    | cons y ys =>
      have hlen' : xs.length = ys.length := by simpa using hlen
      have ha' : ∀ t ∈ xs, t < 65536 := fun t ht => ha t (List.mem_cons_of_mem _ ht)
      have hb' : ∀ t ∈ ys, t < 65536 := fun t ht => hb t (List.mem_cons_of_mem _ ht)
      rw [List.length_cons, memcmp_cons_token, firstDifferenceLess_cons]
      by_cases c1 : storedValue order x < storedValue order y
      · rw [if_pos c1]
        constructor
        · intro _; exact Or.inl c1
        · intro _; decide
      · rw [if_neg c1]
        by_cases c2 : storedValue order y < storedValue order x
        · rw [if_pos c2]
          constructor
          · intro h; exact absurd h (by decide)
          · rintro (h | ⟨h, _⟩)
            · exact absurd h c1
            · rw [h] at c2
              exact absurd c2 (lt_irrefl _)
        · rw [if_neg c2]
          have hxy : x = y :=
            storedValue_injective order x y (ha x (List.mem_cons_self _ _))
              (hb y (List.mem_cons_self _ _)) (by omega)
          rw [ih ys hlen' ha' hb']
          constructor
          · intro h; exact Or.inr ⟨hxy, h⟩
          · rintro (h | ⟨_, h⟩)
            · exact absurd h c1
            · exact h

theorem memcmp_eq_zero_iff (order : ByteOrder) (a : List Token) :
    ∀ b : List Token, a.length = b.length → (∀ t ∈ a, t < 65536) → (∀ t ∈ b, t < 65536) →
      (memcmp (tokenArrayBytes order a) (tokenArrayBytes order b) (2 * a.length) = 0 ↔
        a = b) := by
  induction a with
  | nil =>
    intro b hlen _ _
    cases b with
    | nil => simp [tokenArrayBytes, memcmp]
    | cons y ys => simp at hlen
  | cons x xs ih =>
    intro b hlen ha hb
    cases b with
    | nil => simp at hlen
    | cons y ys =>
      have hlen' : xs.length = ys.length := by simpa using hlen
      have ha' : ∀ t ∈ xs, t < 65536 := fun t ht => ha t (List.mem_cons_of_mem _ ht)
      have hb' : ∀ t ∈ ys, t < 65536 := fun t ht => hb t (List.mem_cons_of_mem _ ht)
      rw [List.length_cons, memcmp_cons_token]
      by_cases c1 : storedValue order x < storedValue order y
      · rw [if_pos c1]
        constructor
        · intro h; exact absurd h (by decide)
        · intro h
          have hxy : x = y := (List.cons.inj h).1
          rw [hxy] at c1
          exact absurd c1 (lt_irrefl _)
      · rw [if_neg c1]
        by_cases c2 : storedValue order y < storedValue order x
        · rw [if_pos c2]
          constructor
          · intro h; exact absurd h (by decide)
          · intro h
            have hxy : x = y := (List.cons.inj h).1
            rw [hxy] at c2
            exact absurd c2 (lt_irrefl _)
        · rw [if_neg c2]
          have hxy : x = y :=
            storedValue_injective order x y (ha x (List.mem_cons_self _ _))
              (hb y (List.mem_cons_self _ _)) (by omega)
          rw [ih ys hlen' ha' hb', hxy]
          constructor
          · intro h; rw [h]
          · intro h; exact (List.cons.inj h).2

/-- C14.  For every two token sequences of different lengths and either byte order, `a < b`
holds exactly when `a` is the shorter one, whatever the tokens are; `a > b` holds exactly when
`a` is the longer one, and `a == b` is false. -/
theorem lt_of_different_lengths (order : ByteOrder) (a b : TokenizedValue)
    (h : a.length ≠ b.length) :
    (a.lt order b = true ↔ a.length < b.length) ∧
      (a.gt order b = true ↔ b.length < a.length) ∧ a.eq order b = false := by
  refine ⟨?_, ?_, ?_⟩
  · simp [TokenizedValue.lt, h]
  · simp [TokenizedValue.gt, h]
  · simp [TokenizedValue.eq, h]

/-- Witness of C14: the 15 tokens of `s1` and of `s3` precede the 16 tokens of `s4` of
`testTokenizedString`, for either byte order. -/
theorem lt_of_different_lengths_witness :
    testValueOne.length ≠ testValueThree.length ∧
      (testValueOne.lt ByteOrder.littleEndian testValueThree = true ↔
        testValueOne.length < testValueThree.length) ∧
      testValueOne.lt ByteOrder.littleEndian testValueThree = true ∧
      testValueOne.lt ByteOrder.bigEndian testValueThree = true ∧
      testValueTwo.lt ByteOrder.littleEndian testValueThree = true ∧
      testValueTwo.lt ByteOrder.bigEndian testValueThree = true :=
  ⟨by decide,
    (lt_of_different_lengths ByteOrder.littleEndian testValueOne testValueThree (by decide)).1,
    by decide, by decide, by decide, by decide⟩

/-- C15 (amended).  For every two sequences of 16-bit tokens of equal length, `a < b` holds
exactly when the sequences differ and, at the first position where they differ, the token of
`a` is the smaller one when each token is read as its two bytes in the order of storage
(`storedValue`).  On a big-endian host this is the numerical order of the tokens; on a
little-endian host the low byte of a token is compared before its high byte. -/
theorem lt_of_equal_lengths (order : ByteOrder) (a b : TokenizedValue) (ha : a.WellTyped)
    (hb : b.WellTyped) (hlen : a.length = b.length) :
    (a.lt order b = true ↔
        firstDifferenceLess (storedValue order) a.tokenList b.tokenList) ∧
      (order = ByteOrder.bigEndian →
        (a.lt order b = true ↔ firstDifferenceLess (fun t => t) a.tokenList b.tokenList)) := by
  have h1 : a.lt order b = true ↔
      firstDifferenceLess (storedValue order) a.tokenList b.tokenList := by
    rw [← memcmp_neg_iff order a.tokenList b.tokenList hlen ha hb]
    have hlen' : a.tokenList.length = b.tokenList.length := hlen
    simp only [TokenizedValue.lt, TokenizedValue.compareTokens, TokenizedValue.length,
      Bool.or_eq_true, Bool.and_eq_true, decide_eq_true_eq]
    constructor
    · rintro (h | ⟨_, h⟩)
      · omega
      · exact h
    · intro h
      exact Or.inr ⟨hlen', h⟩
  refine ⟨h1, ?_⟩
  intro ho
  subst ho
  rw [h1]
  unfold firstDifferenceLess
  constructor
  · rintro ⟨i, x, y, e1, e2, e3, e4⟩
    rw [storedValue_bigEndian x (ha x (List.getElem?_mem e2)),
      storedValue_bigEndian y (hb y (List.getElem?_mem e3))] at e4
    exact ⟨i, x, y, e1, e2, e3, e4⟩
  · rintro ⟨i, x, y, e1, e2, e3, e4⟩
    refine ⟨i, x, y, e1, e2, e3, ?_⟩
    rw [storedValue_bigEndian x (ha x (List.getElem?_mem e2)),
      storedValue_bigEndian y (hb y (List.getElem?_mem e3))]
    exact e4

/-- Witness of C15 (amended): `s1` and `s3` of `testTokenizedString`, both of 15 tokens, on
a little-endian host. -/
theorem lt_of_equal_lengths_witness :
    testValueOne.WellTyped ∧ testValueTwo.WellTyped ∧
      testValueOne.length = testValueTwo.length ∧
      (testValueOne.lt ByteOrder.littleEndian testValueTwo = true ↔
        firstDifferenceLess (storedValue ByteOrder.littleEndian) testValueOne.tokenList
          testValueTwo.tokenList) ∧
      testValueOne.lt ByteOrder.littleEndian testValueTwo = true :=
  ⟨by decide, by decide, by decide,
    (lt_of_equal_lengths ByteOrder.littleEndian testValueOne testValueTwo (by decide)
      (by decide) (by decide)).1,
    by decide⟩

/-- Counterexample to C15 as stated.  On a little-endian host the one-token sequence `[256]`
(bytes `00 01`) is less than the one-token sequence `[1]` (bytes `01 00`), although the
sequences have equal length and differ at position 0, where 256 is not smaller than 1. -/
theorem lt_little_endian_counterexample :
    TokenizedValue.lt ByteOrder.littleEndian ⟨[256]⟩ ⟨[1]⟩ = true ∧
      TokenizedValue.lt ByteOrder.littleEndian ⟨[1]⟩ ⟨[256]⟩ = false ∧
      (⟨[256]⟩ : TokenizedValue).length = (⟨[1]⟩ : TokenizedValue).length ∧
      ¬ firstDifferenceLess (fun t => t) [256] [1] := by
  refine ⟨by decide, by decide, by decide, ?_⟩
  rw [firstDifferenceLess_cons]
  rintro (h | ⟨h, _⟩)
  · exact absurd h (by decide)
  · exact absurd h (by decide)

/-- C16.  For every two sequences of 16-bit tokens and either byte order: exactly one of
`a < b`, `a == b`, `a > b` holds; `a != b` is the negation of `a == b`, `a <= b` the negation
of `a > b`, `a >= b` the negation of `a < b`; and `a == b` holds exactly when the lengths are
equal and the tokens agree. -/
theorem comparison_trichotomy (order : ByteOrder) (a b : TokenizedValue) (ha : a.WellTyped)
    (hb : b.WellTyped) :
    ((a.lt order b = true ∧ a.eq order b = false ∧ a.gt order b = false) ∨
        (a.lt order b = false ∧ a.eq order b = true ∧ a.gt order b = false) ∨
        (a.lt order b = false ∧ a.eq order b = false ∧ a.gt order b = true)) ∧
      a.ne order b = !(a.eq order b) ∧
      a.le order b = !(a.gt order b) ∧
      a.ge order b = !(a.lt order b) ∧
      (a.eq order b = true ↔ a.length = b.length ∧ a.tokenList = b.tokenList) := by
  refine ⟨?_, rfl, rfl, rfl, ?_⟩
  · rcases lt_trichotomy a.length b.length with h | h | h
    · left
      have h1 : ¬ a.length = b.length := by omega
      have h2 : ¬ a.length > b.length := by omega
      simp [TokenizedValue.lt, TokenizedValue.eq, TokenizedValue.gt, h, h1, h2]
    · rcases lt_trichotomy (a.compareTokens order b) 0 with c | c | c
      · left
        have c1 : ¬ a.compareTokens order b = 0 := by omega
        have c2 : ¬ a.compareTokens order b > 0 := by omega
        simp [TokenizedValue.lt, TokenizedValue.eq, TokenizedValue.gt, h, c, c1, c2]
      · right; left
        simp [TokenizedValue.lt, TokenizedValue.eq, TokenizedValue.gt, h, c]
      · right; right
        have c1 : ¬ a.compareTokens order b = 0 := by omega
        have c2 : ¬ a.compareTokens order b < 0 := by omega
        simp [TokenizedValue.lt, TokenizedValue.eq, TokenizedValue.gt, h, c, c1, c2]
    · right; right
      have h1 : ¬ a.length = b.length := by omega
      have h2 : ¬ a.length < b.length := by omega
      simp [TokenizedValue.lt, TokenizedValue.eq, TokenizedValue.gt, h, h1, h2]
  · constructor
    · intro h
      simp only [TokenizedValue.eq, Bool.and_eq_true, decide_eq_true_eq] at h
      exact ⟨h.1, (memcmp_eq_zero_iff order a.tokenList b.tokenList h.1 ha hb).1 h.2⟩
    · rintro ⟨h1, h2⟩
      simp only [TokenizedValue.eq, Bool.and_eq_true, decide_eq_true_eq]
      exact ⟨h1, (memcmp_eq_zero_iff order a.tokenList b.tokenList h1 ha hb).2 h2⟩

/-- Witness of C16: `s1` and `s3` of `testTokenizedString` on a little-endian host, with the
results that the test expects for them. -/
theorem comparison_trichotomy_witness :
    testValueOne.WellTyped ∧ testValueTwo.WellTyped ∧
      ((testValueOne.lt ByteOrder.littleEndian testValueTwo = true ∧
          testValueOne.eq ByteOrder.littleEndian testValueTwo = false ∧
          testValueOne.gt ByteOrder.littleEndian testValueTwo = false) ∨
        (testValueOne.lt ByteOrder.littleEndian testValueTwo = false ∧
          testValueOne.eq ByteOrder.littleEndian testValueTwo = true ∧
          testValueOne.gt ByteOrder.littleEndian testValueTwo = false) ∨
        (testValueOne.lt ByteOrder.littleEndian testValueTwo = false ∧
          testValueOne.eq ByteOrder.littleEndian testValueTwo = false ∧
          testValueOne.gt ByteOrder.littleEndian testValueTwo = true)) ∧
      testValueOne.ne ByteOrder.littleEndian testValueTwo = true ∧
      testValueOne.le ByteOrder.littleEndian testValueTwo = true ∧
      testValueOne.ge ByteOrder.littleEndian testValueTwo = false ∧
      testValueOne.eq ByteOrder.littleEndian (TokenizedValue.copy testValueOne) = true :=
  ⟨by decide, by decide,
    (comparison_trichotomy ByteOrder.littleEndian testValueOne testValueTwo (by decide)
      (by decide)).1,
    by decide, by decide, by decide, by decide⟩

theorem xor_mod_of_lt (h x : Nat) (hh : h < 2 ^ 32) : (h ^^^ x) % 2 ^ 32 = h ^^^ (x % 2 ^ 32) := by
  apply Nat.eq_of_testBit_eq
  intro i
  simp only [Nat.testBit_mod_two_pow, Nat.testBit_xor]
  by_cases c : i < 32
  · simp [c]
  · have h0 : h.testBit i = false := by
      apply Nat.testBit_lt_two_pow
      exact lt_of_lt_of_le hh (Nat.pow_le_pow_right (by norm_num) (by omega))
    simp [c, h0]

theorem foldl_hash_eq (tokenHash : Token → Nat → Nat) (seed : Nat) (tokens : List Token) :
    ∀ hash : Nat, hash < 2 ^ 32 →
      tokens.foldl (fun hash t => (hash ^^^ tokenHash t seed) % 2 ^ 32) hash =
        (tokens.map (fun t => tokenHash t seed % 2 ^ 32)).foldl (fun x y => x ^^^ y) hash := by
  induction tokens with
  | nil => intro hash _; rfl
  | cons t rest ih =>
    intro hash hh
    rw [List.foldl_cons, List.map_cons, List.foldl_cons, xor_mod_of_lt hash _ hh]
    apply ih
    exact Nat.xor_lt_two_pow hh (Nat.mod_lt _ (by norm_num))

theorem foldl_xor_perm (l₁ l₂ : List Nat) (h : l₁.Perm l₂) (init : Nat) :
    l₁.foldl (fun x y => x ^^^ y) init = l₂.foldl (fun x y => x ^^^ y) init := by
  haveI : RightCommutative (fun x y : Nat => x ^^^ y) :=
    ⟨fun b a₁ a₂ => by
      show b ^^^ a₁ ^^^ a₂ = b ^^^ a₂ ^^^ a₁
      rw [Nat.xor_assoc, Nat.xor_comm a₁ a₂, ← Nat.xor_assoc]⟩
  exact h.foldl_eq init

/-- C17.  For every seed and every hash of single tokens, `qHash` of a token sequence is the
constant `0x12345678` combined by exclusive-or with the hash of each of its tokens (reduced
to the 32 bits of the accumulator).  Hence two sequences whose tokens are permutations of
each other have equal hashes, `[a, b]` and `[b, a]` among them, and equal sequences have
equal hashes. -/
theorem qHash_is_xor_of_token_hashes (tokenHash : Token → Nat → Nat) (seed : Nat) :
    (∀ v : TokenizedValue,
        qHash tokenHash v seed =
          (v.tokenList.map (fun t => tokenHash t seed % 2 ^ 32)).foldl (fun x y => x ^^^ y)
            0x12345678) ∧
      (∀ a b : TokenizedValue, a.tokenList.Perm b.tokenList →
        qHash tokenHash a seed = qHash tokenHash b seed) ∧
      (∀ a b : Token, qHash tokenHash ⟨[a, b]⟩ seed = qHash tokenHash ⟨[b, a]⟩ seed) ∧
      (∀ a b : TokenizedValue, a = b → qHash tokenHash a seed = qHash tokenHash b seed) := by
  have h1 : ∀ v : TokenizedValue,
      qHash tokenHash v seed =
        (v.tokenList.map (fun t => tokenHash t seed % 2 ^ 32)).foldl (fun x y => x ^^^ y)
          0x12345678 := by
    intro v
    unfold qHash
    exact foldl_hash_eq tokenHash seed v.tokenList _ (by norm_num)
  have h2 : ∀ a b : TokenizedValue, a.tokenList.Perm b.tokenList →
      qHash tokenHash a seed = qHash tokenHash b seed := by
    intro a b hp
    rw [h1 a, h1 b]
    exact foldl_xor_perm _ _ (hp.map _) _
  refine ⟨h1, h2, ?_, ?_⟩
  · intro a b
    exact h2 _ _ (List.Perm.swap b a [])
  · intro a b hab
    rw [hab]

/-! ## The sentinel and the exhausted token space -/

theorem Interner.value_ne_invalid_of_contains (ops : CharOps) (st : Interner)
    (hinv : Interner.Inverse ops st) (k : QString)
    (hk : QHash.contains st.tokensByKeyword k = true) :
    QHash.value st.tokensByKeyword k invalidToken ≠ invalidToken := by
  intro h
  have h0 := Interner.not_contains_of_invalid ops st hinv k h
  rw [hk] at h0
  exact absurd h0 (by simp)

theorem tokenForKeyword_of_known (ops : CharOps) (st : Interner)
    (hinv : Interner.Inverse ops st) (keyword : QString) (assignNewToken : Bool)
    (hk : QHash.contains st.tokensByKeyword (ops.toLower keyword) = true) :
    tokenForKeyword ops st keyword assignNewToken =
      (QHash.value st.tokensByKeyword (ops.toLower keyword) invalidToken, st) := by
  have hne := Interner.value_ne_invalid_of_contains ops st hinv _ hk
  simp only [tokenForKeyword]
  rw [if_neg (fun h => hne h.1)]

theorem tokenForKeyword_of_new (ops : CharOps) (st : Interner) (keyword : QString)
    (hk : QHash.contains st.tokensByKeyword (ops.toLower keyword) = false)
    (hroom : st.keywordsByToken.length < 65535) :
    tokenForKeyword ops st keyword true =
      (st.keywordsByToken.length,
        ⟨QHash.insert st.tokensByKeyword (ops.toLower keyword) st.keywordsByToken.length,
          st.keywordsByToken ++ [ops.toLower keyword]⟩) := by
  have hval : QHash.value st.tokensByKeyword (ops.toLower keyword) invalidToken = invalidToken :=
    QHash.value_of_not_contains _ _ _ hk
  have hnext : nextToken st = st.keywordsByToken.length := by
    show st.keywordsByToken.length % 65536 = st.keywordsByToken.length
    omega
  have hvalid : st.keywordsByToken.length ≠ invalidToken := by
    show st.keywordsByToken.length ≠ 65535
    omega
  simp only [tokenForKeyword, hval, and_self, if_true, hnext, hvalid, ne_eq, not_false_eq_true]

theorem tokenForKeyword_of_refused (ops : CharOps) (st : Interner) (keyword : QString)
    (assignNewToken : Bool)
    (hk : QHash.contains st.tokensByKeyword (ops.toLower keyword) = false)
    (hno : assignNewToken = false ∨ st.keywordsByToken.length = 65535) :
    tokenForKeyword ops st keyword assignNewToken = (invalidToken, st) := by
  have hval : QHash.value st.tokensByKeyword (ops.toLower keyword) invalidToken = invalidToken :=
    QHash.value_of_not_contains _ _ _ hk
  simp only [tokenForKeyword, hval, true_and]
  by_cases c : assignNewToken = true
  · rw [if_pos c]
    have hlen : st.keywordsByToken.length = 65535 := by
      rcases hno with h | h
      · rw [h] at c
        exact absurd c (by simp)
      · exact h
    have hnext : ¬ (nextToken st ≠ invalidToken) := by
      intro h
      apply h
      show st.keywordsByToken.length % 65536 = 65535
      omega
    rw [if_neg hnext]
  · rw [if_neg c]

/-- C11.  In every reachable interner state, `tokenForKeyword` returns the sentinel `0xFFFF`
exactly when the lower-case keyword is not in the table and either `assignNewToken` is false
or 65535 keywords are stored; in those cases the interner is left as it was.  The interner
changes in one case only, an absent keyword with assignment and room, in which the keyword is
appended.  Never more than 65535 keywords are stored, before and after the call, and no
keyword of the table maps to the sentinel. -/
theorem tokenForKeyword_sentinel (ops : CharOps) (st : Interner)
    (hr : Interner.Reachable ops st) (keyword : QString) (assignNewToken : Bool) :
    ((tokenForKeyword ops st keyword assignNewToken).1 = invalidToken ↔
        QHash.contains st.tokensByKeyword (ops.toLower keyword) = false ∧
          (assignNewToken = false ∨ st.keywordsByToken.length = 65535)) ∧
      ((tokenForKeyword ops st keyword assignNewToken).1 = invalidToken →
        (tokenForKeyword ops st keyword assignNewToken).2 = st) ∧
      ((tokenForKeyword ops st keyword assignNewToken).2 = st ∨
        (QHash.contains st.tokensByKeyword (ops.toLower keyword) = false ∧
          assignNewToken = true ∧ st.keywordsByToken.length < 65535 ∧
          (tokenForKeyword ops st keyword assignNewToken).2.keywordsByToken =
            st.keywordsByToken ++ [ops.toLower keyword])) ∧
      st.keywordsByToken.length ≤ 65535 ∧
      (tokenForKeyword ops st keyword assignNewToken).2.keywordsByToken.length ≤ 65535 ∧
      (∀ k : QString, QHash.contains st.tokensByKeyword k = true →
        QHash.value st.tokensByKeyword k invalidToken ≠ invalidToken) := by
  have hinv := Interner.inverse_of_reachable ops st hr
  have hinv' := Interner.inverse_tokenForKeyword ops st hinv keyword assignNewToken
  have hlen : st.keywordsByToken.length ≤ 65535 := hinv.2.2.2.2.2
  refine ⟨?_, ?_, ?_, hlen, hinv'.2.2.2.2.2,
    fun k hk => Interner.value_ne_invalid_of_contains ops st hinv k hk⟩
  · cases hk : QHash.contains st.tokensByKeyword (ops.toLower keyword) with
    | true =>
      rw [tokenForKeyword_of_known ops st hinv keyword assignNewToken hk]
      have hne := Interner.value_ne_invalid_of_contains ops st hinv _ hk
      constructor
      · intro h; exact absurd h hne
      · rintro ⟨h, _⟩; exact absurd h (by simp)
    | false =>
      by_cases c : assignNewToken = false ∨ st.keywordsByToken.length = 65535
      · rw [tokenForKeyword_of_refused ops st keyword assignNewToken hk c]
        exact ⟨fun _ => ⟨rfl, c⟩, fun _ => rfl⟩
      · have c1 : assignNewToken = true := by
          cases assignNewToken with
          | true => rfl
          | false => exact absurd (Or.inl rfl) c
        have c2 : st.keywordsByToken.length < 65535 := by
          have : ¬ st.keywordsByToken.length = 65535 := fun h => c (Or.inr h)
          omega
        subst c1
        rw [tokenForKeyword_of_new ops st keyword hk c2]
        constructor
        · intro h
          exfalso
          have h' : st.keywordsByToken.length = 65535 := h
          omega
        · rintro ⟨_, h⟩; exact absurd h c
  · intro h
    cases hk : QHash.contains st.tokensByKeyword (ops.toLower keyword) with
    | true => rw [tokenForKeyword_of_known ops st hinv keyword assignNewToken hk]
    | false =>
      by_cases c : assignNewToken = false ∨ st.keywordsByToken.length = 65535
      · rw [tokenForKeyword_of_refused ops st keyword assignNewToken hk c]
      · have c1 : assignNewToken = true := by
          cases assignNewToken with
          | true => rfl
          | false => exact absurd (Or.inl rfl) c
        have c2 : st.keywordsByToken.length < 65535 := by
          have : ¬ st.keywordsByToken.length = 65535 := fun h => c (Or.inr h)
          omega
        subst c1
        rw [tokenForKeyword_of_new ops st keyword hk c2] at h
        exfalso
        have h' : st.keywordsByToken.length = 65535 := h
        omega
  · cases hk : QHash.contains st.tokensByKeyword (ops.toLower keyword) with
    | true =>
      left
      rw [tokenForKeyword_of_known ops st hinv keyword assignNewToken hk]
    | false =>
      by_cases c : assignNewToken = false ∨ st.keywordsByToken.length = 65535
      · left
        rw [tokenForKeyword_of_refused ops st keyword assignNewToken hk c]
      · have c1 : assignNewToken = true := by
          cases assignNewToken with
          | true => rfl
          | false => exact absurd (Or.inl rfl) c
        have c2 : st.keywordsByToken.length < 65535 := by
          have : ¬ st.keywordsByToken.length = 65535 := fun h => c (Or.inr h)
          omega
        subst c1
        right
        rw [tokenForKeyword_of_new ops st keyword hk c2]
        exact ⟨rfl, rfl, c2, rfl⟩

theorem QHash.insert_of_not_mem {K V : Type} [DecidableEq K] (h : QHash K V) (k : K) (v : V)
    (hk : k ∉ h.map Prod.fst) : QHash.insert h k v = h ++ [(k, v)] := by
  unfold QHash.insert
  induction h with
  | nil => rfl
  | cons e rest ih =>
    obtain ⟨k0, v0⟩ := e
    have h1 : ¬ k0 = k := fun c => hk (by rw [c]; exact List.mem_cons_self _ _)
    have h2 : k ∉ rest.map Prod.fst := fun c => hk (List.mem_cons_of_mem _ c)
    simp only [QHash.modify, if_neg h1, List.cons_append, ih h2]

theorem unaryWord_injective (i j : Nat) (h : unaryWord i = unaryWord j) : i = j := by
  have := congrArg List.length h
  simp only [unaryWord, List.length_replicate] at this
  omega

theorem toLower_unaryWord (n : Nat) : qtAscii.toLower (unaryWord n) = unaryWord n := by
  show (unaryWord n).map Char.toLower = unaryWord n
  unfold unaryWord
  rw [List.map_replicate]
  rfl

theorem unaryInterner_keys (n : Nat) :
    (unaryInterner n).tokensByKeyword.map Prod.fst = (List.range n).map unaryWord := by
  simp [unaryInterner, List.map_map, Function.comp]

theorem unaryInterner_length (n : Nat) : (unaryInterner n).keywordsByToken.length = n := by
  simp [unaryInterner]

theorem unaryInterner_not_contains (n : Nat) (word : QString)
    (h : ∀ i, i < n → unaryWord i ≠ word) :
    QHash.contains (unaryInterner n).tokensByKeyword word = false := by
  cases hc : QHash.contains (unaryInterner n).tokensByKeyword word with
  | false => rfl
  | true =>
    exfalso
    have hm := (QHash.contains_iff_mem_keys _ _).1 hc
    rw [unaryInterner_keys, List.mem_map] at hm
    obtain ⟨i, hi, he⟩ := hm
    exact h i (List.mem_range.1 hi) he

theorem unaryInterner_step (n : Nat) (hn : n < 65535) :
    tokenForKeyword qtAscii (unaryInterner n) (unaryWord n) true = (n, unaryInterner (n + 1)) := by
  have hk : QHash.contains (unaryInterner n).tokensByKeyword (qtAscii.toLower (unaryWord n)) =
      false := by
    rw [toLower_unaryWord]
    apply unaryInterner_not_contains
    intro i hi he
    have := unaryWord_injective i n he
    omega
  rw [tokenForKeyword_of_new qtAscii _ _ hk (by rw [unaryInterner_length]; exact hn),
    unaryInterner_length, toLower_unaryWord]
  have hnot : unaryWord n ∉ (unaryInterner n).tokensByKeyword.map Prod.fst := by
    intro hm
    rw [toLower_unaryWord] at hk
    have := (QHash.contains_iff_mem_keys _ _).2 hm
    rw [hk] at this
    exact absurd this (by simp)
  rw [QHash.insert_of_not_mem _ _ _ hnot]
  simp [unaryInterner, List.range_succ]

theorem unaryInterner_reachable (n : Nat) (hn : n ≤ 65535) :
    Interner.Reachable qtAscii (unaryInterner n) := by
  induction n with
  | zero => exact Interner.Reachable.atStart
  | succ m ih =>
    have h := Interner.Reachable.afterTokenForKeyword (unaryInterner m) (unaryWord m) true
      (ih (by omega))
    rw [unaryInterner_step m (by omega)] at h
    exact h

theorem fullInterner_reachable : Interner.Reachable qtAscii fullInterner :=
  unaryInterner_reachable 65535 (le_refl _)

theorem fullInterner_length : fullInterner.keywordsByToken.length = 65535 :=
  unaryInterner_length 65535

theorem fullInterner_not_contains_b :
    QHash.contains fullInterner.tokensByKeyword (qtAscii.toLower [Char.ofNat 98]) = false := by
  apply unaryInterner_not_contains
  intro i _ he
  have h0 : (unaryWord i).head? = ([Char.ofNat 98] : QString).head? := by
    rw [he]; rfl
  simp [unaryWord, List.replicate_succ] at h0

/-- Witness of C11: the unknown keyword "b" with assignment on `fullInterner`, which holds
65535 keywords; the sentinel is returned and the interner is left as it was. -/
theorem tokenForKeyword_sentinel_witness :
    Interner.Reachable qtAscii fullInterner ∧
      (tokenForKeyword qtAscii fullInterner [Char.ofNat 98] true).1 = invalidToken ∧
      (tokenForKeyword qtAscii fullInterner [Char.ofNat 98] true).2 = fullInterner :=
  have h1 : (tokenForKeyword qtAscii fullInterner [Char.ofNat 98] true).1 = invalidToken :=
    (tokenForKeyword_sentinel qtAscii fullInterner fullInterner_reachable [Char.ofNat 98]
      true).1.2 ⟨fullInterner_not_contains_b, Or.inr fullInterner_length⟩
  ⟨fullInterner_reachable, h1,
    (tokenForKeyword_sentinel qtAscii fullInterner fullInterner_reachable [Char.ofNat 98]
      true).2.1 h1⟩

/-! ## The tokens of a tokenized text -/

theorem QHash.value_of_contains_any_default {K V : Type} [DecidableEq K] (h : QHash K V)
    (k : K) (d d' : V) (hk : QHash.contains h k = true) :
    QHash.value h k d = QHash.value h k d' := by
  induction h with
  | nil => simp [QHash.contains] at hk
  | cons e rest ih =>
    obtain ⟨k0, v0⟩ := e
    by_cases c : k0 = k
    · simp [QHash.value, c]
    · simp only [QHash.contains, if_neg c] at hk
      simp only [QHash.value, if_neg c]
      exact ih hk

theorem keptTokens_cons (assignNewTokens : Bool) (t : Token) (ts : List Token) :
    keptTokens assignNewTokens (t :: ts) =
      keptTokens assignNewTokens [t] ++ keptTokens assignNewTokens ts := by
  unfold keptTokens
  by_cases c : assignNewTokens = true
  · rw [if_pos c, if_pos c, if_pos c]
    exact List.filter_append [t] ts
  · rw [if_neg c, if_neg c, if_neg c]
    rfl

theorem keptTokens_append (assignNewTokens : Bool) (as bs : List Token) :
    keptTokens assignNewTokens (as ++ bs) =
      keptTokens assignNewTokens as ++ keptTokens assignNewTokens bs := by
  unfold keptTokens
  by_cases c : assignNewTokens = true
  · rw [if_pos c, if_pos c, if_pos c]
    exact List.filter_append as bs
  · rw [if_neg c, if_neg c, if_neg c]

theorem keptTokens_length_le (assignNewTokens : Bool) (ts : List Token) :
    (keptTokens assignNewTokens ts).length ≤ ts.length := by
  unfold keptTokens
  by_cases c : assignNewTokens = true
  · rw [if_pos c]; exact List.length_filter_le _ _
  · rw [if_neg c]

theorem keptTokens_of_valid (assignNewTokens : Bool) (ts : List Token)
    (h : assignNewTokens = true → invalidToken ∉ ts) : keptTokens assignNewTokens ts = ts := by
  unfold keptTokens
  by_cases c : assignNewTokens = true
  · rw [if_pos c, List.filter_eq_self]
    intro t ht
    simp only [decide_eq_true_eq]
    intro he
    rw [he] at ht
    exact h c ht
  · rw [if_neg c]

theorem keptTokens_single_valid (assignNewTokens : Bool) (t : Token) (h : t ≠ invalidToken) :
    keptTokens assignNewTokens [t] = [t] :=
  keptTokens_of_valid assignNewTokens [t] (fun _ hm => h (List.mem_singleton.1 hm).symm)

theorem internWords_length (ops : CharOps) (assignNewTokens : Bool) (words : List QString) :
    ∀ st : Interner, (internWords ops assignNewTokens words st).2.length = words.length := by
  induction words with
  | nil => intro st; rfl
  | cons w ws ih => intro st; simp only [internWords, List.length_cons, ih]

theorem internWords_append (ops : CharOps) (assignNewTokens : Bool) (ws₁ ws₂ : List QString) :
    ∀ st : Interner,
      (internWords ops assignNewTokens (ws₁ ++ ws₂) st).2 =
        (internWords ops assignNewTokens ws₁ st).2 ++
          (internWords ops assignNewTokens ws₂ (internWords ops assignNewTokens ws₁ st).1).2 := by
  induction ws₁ with
  | nil => intro st; rfl
  | cons w ws ih =>
    intro st
    simp only [List.cons_append, internWords, List.append_eq, ih]

theorem flushWord_of_room (ops : CharOps) (assignNewTokens : Bool) (st : Interner)
    (hinv : Interner.Inverse ops st) (v : TokenizedValue) (word : QString)
    (hv : v.length < 31) :
    flushWord ops assignNewTokens (st, v) word =
      ((tokenForKeyword ops st word assignNewTokens).2,
        ⟨v.tokenList ++
          keptTokens assignNewTokens [(tokenForKeyword ops st word assignNewTokens).1]⟩) := by
  have hlen : st.keywordsByToken.length ≤ 65535 := hinv.2.2.2.2.2
  unfold flushWord addKeyword
  simp only [addToken_of_room v _ hv]
  cases hk : QHash.contains st.tokensByKeyword (ops.toLower word) with
  | true =>
    have hne := Interner.value_ne_invalid_of_contains ops st hinv _ hk
    rw [tokenForKeyword_of_known ops st hinv word assignNewTokens hk, if_pos rfl,
      keptTokens_single_valid _ _ hne,
      QHash.value_of_contains_any_default _ _ 0 invalidToken hk]
  | false =>
    rw [if_neg (by simp)]
    cases assignNewTokens with
    | true =>
      rw [if_pos rfl]
      by_cases c : st.keywordsByToken.length < 65535
      · have hnext : nextToken st = st.keywordsByToken.length := by
          show st.keywordsByToken.length % 65536 = st.keywordsByToken.length
          omega
        have hvalid : st.keywordsByToken.length ≠ invalidToken := by
          show st.keywordsByToken.length ≠ 65535
          omega
        rw [tokenForKeyword_of_new ops st word hk c, hnext, if_pos hvalid, if_pos trivial,
          keptTokens_single_valid _ _ hvalid]
      · have hfull : st.keywordsByToken.length = 65535 := by omega
        have hnext : ¬ (nextToken st ≠ invalidToken) := by
          intro h
          apply h
          show st.keywordsByToken.length % 65536 = 65535
          omega
        rw [tokenForKeyword_of_refused ops st word true hk (Or.inr hfull), if_neg hnext]
        simp [keptTokens]
    | false =>
      rw [if_neg (by simp), tokenForKeyword_of_refused ops st word false hk (Or.inl rfl)]
      simp [keptTokens]

theorem foldl_flushWord_tokens (ops : CharOps) (assignNewTokens : Bool)
    (words : List QString) :
    ∀ (st : Interner) (v : TokenizedValue), Interner.Inverse ops st → v.length ≤ 31 →
      (words.foldl (flushWord ops assignNewTokens) (st, v)).2.tokenList =
          (v.tokenList ++
            keptTokens assignNewTokens (internWords ops assignNewTokens words st).2).take 31 ∧
        (v.length + words.length ≤ 31 →
          (words.foldl (flushWord ops assignNewTokens) (st, v)).1 =
            (internWords ops assignNewTokens words st).1) := by
  induction words with
  | nil =>
    intro st v _ hv
    refine ⟨?_, fun _ => rfl⟩
    have hk : keptTokens assignNewTokens ([] : List Token) = [] := by
      unfold keptTokens
      by_cases c : assignNewTokens = true
      · rw [if_pos c]; rfl
      · rw [if_neg c]
    simp only [List.foldl_nil, internWords, hk, List.append_nil]
    exact (List.take_of_length_le hv).symm
  | cons w ws ih =>
    intro st v hinv hv
    by_cases c : v.length < 31
    · have hinv' := Interner.inverse_tokenForKeyword ops st hinv w assignNewTokens
      have hv' : (⟨v.tokenList ++
          keptTokens assignNewTokens [(tokenForKeyword ops st w assignNewTokens).1]⟩ :
            TokenizedValue).length ≤ 31 := by
        have h1 := keptTokens_length_le assignNewTokens
          [(tokenForKeyword ops st w assignNewTokens).1]
        have c' : v.tokenList.length < 31 := c
        simp only [TokenizedValue.length, List.length_append]
        simp only [List.length_singleton] at h1
        omega
      obtain ⟨i1, i2⟩ := ih _ _ hinv' hv'
      rw [List.foldl_cons, flushWord_of_room ops assignNewTokens st hinv v w c]
      refine ⟨?_, ?_⟩
      · rw [i1]
        simp only [internWords]
        rw [keptTokens_cons assignNewTokens (tokenForKeyword ops st w assignNewTokens).1
          (internWords ops assignNewTokens ws (tokenForKeyword ops st w assignNewTokens).2).2,
          List.append_assoc]
      · intro hsum
        simp only [internWords]
        apply i2
        have h1 := keptTokens_length_le assignNewTokens
          [(tokenForKeyword ops st w assignNewTokens).1]
        have c' : v.tokenList.length < 31 := c
        have hsum' : v.tokenList.length + (ws.length + 1) ≤ 31 := hsum
        simp only [TokenizedValue.length, List.length_append]
        simp only [List.length_singleton] at h1
        omega
    · have hfull : 31 ≤ v.length := by omega
      rw [foldl_flushWord_of_full ops assignNewTokens (w :: ws) (st, v) hfull]
      refine ⟨?_, ?_⟩
      · have hv2 : 31 ≤ v.tokenList.length := hfull
        have hv3 : v.tokenList.length ≤ 31 := hv
        rw [List.take_append_of_le_length hv2]
        exact (List.take_of_length_le hv3).symm
      · intro hsum
        exfalso
        have hsum' : v.length + (ws.length + 1) ≤ 31 := hsum
        omega

theorem flushWord_no_assign (ops : CharOps) (st : Interner) (v : TokenizedValue)
    (word : QString) :
    flushWord ops false (st, v) word = (st, (v.addToken (lookupToken ops st word)).2) := by
  unfold flushWord addKeyword lookupToken
  simp only
  by_cases c : QHash.contains st.tokensByKeyword (ops.toLower word) = true
  · rw [if_pos c, if_pos c]
  · rw [if_neg c, if_neg c, if_neg (by simp)]

theorem foldl_flushWord_no_assign (ops : CharOps) (st : Interner) (words : List QString) :
    ∀ v : TokenizedValue, v.length + words.length ≤ 31 →
      words.foldl (flushWord ops false) (st, v) =
        (st, ⟨v.tokenList ++ words.map (lookupToken ops st)⟩) := by
  induction words with
  | nil => intro v _; simp
  | cons w ws ih =>
    intro v hv
    have hv' : v.length + (ws.length + 1) ≤ 31 := hv
    rw [List.foldl_cons, flushWord_no_assign, addToken_of_room v _ (by omega)]
    rw [ih _ (by
      have hv2 : v.tokenList.length + (ws.length + 1) ≤ 31 := hv'
      simp only [TokenizedValue.length, List.length_append, List.length_singleton]
      omega)]
    simp

/-! ## The words of a text -/

theorem joinFirst_flatten (c : Char) (words : List QString) :
    (joinFirst c words).flatten = c :: words.flatten := by
  cases words with
  | nil => rfl
  | cons w ws => rfl

theorem specWords_flatten (ops : CharOps) (text : List Char) :
    (specWords ops text).flatten =
      text.filter (fun c => decide (c = Char.ofNat 46) || isWordChar ops c) := by
  induction text with
  | nil => rfl
  | cons c cs ih =>
    unfold specWords
    by_cases h1 : c = Char.ofNat 46
    · rw [if_pos h1, List.filter_cons_of_pos (by simp [h1]), ← ih]
      rfl
    · rw [if_neg h1]
      by_cases h2 : isWordChar ops c = true
      · rw [if_pos h2, List.filter_cons_of_pos (by simp [h2]), ← ih]
        by_cases h3 : startsWithWordChar ops cs = true
        · rw [if_pos h3, joinFirst_flatten]
        · rw [if_neg h3]
          rfl
      · rw [if_neg h2, List.filter_cons_of_neg (by simp [h1, h2]), ih]

theorem specWords_head (ops : CharOps) (cs : List Char)
    (h : startsWithWordChar ops cs = true) :
    ∃ (c : Char) (w : QString) (ws : List QString),
      isWordChar ops c = true ∧ specWords ops cs = (c :: w) :: ws := by
  cases cs with
  | nil => simp [startsWithWordChar] at h
  | cons c cs =>
    have hc : isWordChar ops c = true := h
    have hne : c ≠ Char.ofNat 46 := by
      intro he
      rw [he, isWordChar_period] at hc
      exact Bool.noConfusion hc
    unfold specWords
    rw [if_neg hne, if_pos hc]
    by_cases h3 : startsWithWordChar ops cs = true
    · rw [if_pos h3]
      cases specWords ops cs with
      | nil => exact ⟨c, [], [], hc, rfl⟩
      | cons w ws => exact ⟨c, w, ws, hc, rfl⟩
    · rw [if_neg h3]
      exact ⟨c, [], _, hc, rfl⟩

theorem specWords_shape (ops : CharOps) (text : List Char) :
    ∀ w ∈ specWords ops text,
      w = [Char.ofNat 46] ∨ (w ≠ [] ∧ ∀ c ∈ w, isWordChar ops c = true) := by
  induction text with
  | nil => intro w hw; simp [specWords] at hw
  | cons c cs ih =>
    intro w hw
    unfold specWords at hw
    by_cases h1 : c = Char.ofNat 46
    · rw [if_pos h1] at hw
      rcases List.mem_cons.1 hw with he | hm
      · exact Or.inl (by rw [he, h1])
      · exact ih w hm
    · rw [if_neg h1] at hw
      by_cases h2 : isWordChar ops c = true
      · rw [if_pos h2] at hw
        by_cases h3 : startsWithWordChar ops cs = true
        · rw [if_pos h3] at hw
          obtain ⟨c', w0, ws, hc', hs⟩ := specWords_head ops cs h3
          rw [hs] at hw ih
          rcases List.mem_cons.1 hw with he | hm
          · right
            rw [he]
            refine ⟨List.cons_ne_nil _ _, ?_⟩
            intro x hx
            rcases List.mem_cons.1 hx with hx | hx
            · rw [hx]; exact h2
            · rcases ih (c' :: w0) (List.mem_cons_self _ _) with hp | ⟨_, hall⟩
              · exfalso
                have hc46 : c' = Char.ofNat 46 := (List.cons.inj hp).1
                rw [hc46, isWordChar_period] at hc'
                exact Bool.noConfusion hc'
              · exact hall x hx
          · exact ih w (List.mem_cons_of_mem _ hm)
        · rw [if_neg h3] at hw
          rcases List.mem_cons.1 hw with he | hm
          · right
            rw [he]
            refine ⟨List.cons_ne_nil _ _, ?_⟩
            intro x hx
            rw [List.mem_singleton.1 hx]
            exact h2
          · exact ih w hm
      · rw [if_neg h2] at hw
        exact ih w hw

theorem specWords_no_empty_word (ops : CharOps) (text : List Char) :
    [] ∉ specWords ops text := by
  intro h
  rcases specWords_shape ops text [] h with hp | ⟨hne, _⟩
  · exact List.noConfusion hp
  · exact hne rfl

theorem lookupToken_eq_tokenForKeyword (ops : CharOps) (st : Interner) (word : QString) :
    lookupToken ops st word = (tokenForKeyword ops st word false).1 ∧
      (tokenForKeyword ops st word false).2 = st := by
  unfold lookupToken
  by_cases c : QHash.contains st.tokensByKeyword (ops.toLower word) = true
  · rw [if_pos c, QHash.value_of_contains_any_default _ _ 0 invalidToken c]
    simp [tokenForKeyword]
  · rw [if_neg c]
    have c' : QHash.contains st.tokensByKeyword (ops.toLower word) = false := by
      simpa using c
    rw [tokenForKeyword_of_refused ops st word false c' (Or.inl rfl)]
    exact ⟨rfl, rfl⟩

/-- C19.  For every interner state and every text of at most 31 words, tokenizing without
assignment leaves the interner as it is and returns one token per word, in the order of the
words: the token stored for the word when its lower-case form is in the table, the sentinel
0xFFFF otherwise; this is the token that `tokenForKeyword(word, false)` returns. -/
theorem tokenize_without_assignment (ops : CharOps) (st : Interner) (text : QString)
    (hwords : (specWords ops text).length ≤ 31) :
    (tokenize ops st text false).1 = st ∧
      (tokenize ops st text false).2.tokenList =
        (specWords ops text).map (lookupToken ops st) ∧
      (tokenize ops st text false).2.length = (specWords ops text).length ∧
      (∀ w : QString,
        (QHash.contains st.tokensByKeyword (ops.toLower w) = true →
          lookupToken ops st w = QHash.value st.tokensByKeyword (ops.toLower w) invalidToken) ∧
        (QHash.contains st.tokensByKeyword (ops.toLower w) = false →
          lookupToken ops st w = invalidToken) ∧
        lookupToken ops st w = (tokenForKeyword ops st w false).1) := by
  have h := foldl_flushWord_no_assign ops st (specWords ops text) TokenizedValue.empty
    (by
      show 0 + (specWords ops text).length ≤ 31
      omega)
  rw [tokenize_eq_fold, h]
  refine ⟨rfl, ?_, ?_, ?_⟩
  · show [] ++ (specWords ops text).map (lookupToken ops st) = _
    rfl
  · show ([] ++ (specWords ops text).map (lookupToken ops st)).length = _
    simp
  · intro w
    refine ⟨?_, ?_, (lookupToken_eq_tokenForKeyword ops st w).1⟩
    · intro hc
      unfold lookupToken
      rw [if_pos hc]
      exact QHash.value_of_contains_any_default _ _ 0 invalidToken hc
    · intro hc
      unfold lookupToken
      rw [if_neg (by simp [hc])]

theorem tokenize_without_assignment_witness :
    (specWords qtAscii "the raven the".toList).length ≤ 31 ∧
      (tokenize qtAscii (tokenize qtAscii Interner.empty "The".toList true).1
        "the raven the".toList false).1 = (tokenize qtAscii Interner.empty "The".toList true).1 ∧
      (tokenize qtAscii (tokenize qtAscii Interner.empty "The".toList true).1
        "the raven the".toList false).2.tokenList = [0, invalidToken, 0] :=
  ⟨by decide,
    (tokenize_without_assignment qtAscii (tokenize qtAscii Interner.empty "The".toList true).1
      "the raven the".toList (by decide)).1,
    by decide⟩

/-! ## Tokenizing with an exhausted token space -/

theorem flushWord_of_exhausted (ops : CharOps) (st : Interner) (v : TokenizedValue)
    (word : QString)
    (hk : QHash.contains st.tokensByKeyword (ops.toLower word) = false)
    (hfull : st.keywordsByToken.length = 65535) :
    flushWord ops true (st, v) word = (st, v) := by
  have hnext : ¬ (nextToken st ≠ invalidToken) := by
    intro h
    apply h
    unfold nextToken
    rw [hfull]
    rfl
  unfold flushWord addKeyword
  simp only []
  rw [hk, if_neg (by simp), if_pos trivial, if_neg hnext]

theorem flushWord_fullInterner (v : TokenizedValue) :
    flushWord qtAscii true (fullInterner, v) [Char.ofNat 98] = (fullInterner, v) :=
  flushWord_of_exhausted qtAscii fullInterner v [Char.ofNat 98] fullInterner_not_contains_b
    fullInterner_length

theorem foldl_flushWord_fullInterner (n : Nat) (v : TokenizedValue) :
    (List.replicate n [Char.ofNat 98]).foldl (flushWord qtAscii true) (fullInterner, v) =
      (fullInterner, v) := by
  induction n with
  | zero => rfl
  | succ n ih => rw [List.replicate_succ, List.foldl_cons, flushWord_fullInterner, ih]

/-- C18 (amended).  For every reachable interner state and every text of at most 31 words,
`tokenize(text, assign)` leaves the interner that interning the words in order leaves, and
its tokens are the tokens that interning the words in order returns, except that with
assignment a word whose interning returns the sentinel (the table already holds 65,535
keywords) adds no token; when no interning returns the sentinel under assignment the tokens
are exactly the returned ones.  The words are the runs of word characters and the periods:
joined they are the text without its delimiters, no word is empty, and each word is a
single period or consists of word characters only. -/
theorem tokenize_interns_words (ops : CharOps) (st : Interner) (text : QString)
    (assignNewTokens : Bool) (hr : Interner.Reachable ops st)
    (hwords : (specWords ops text).length ≤ 31) :
    tokenize ops st text assignNewTokens =
        ((internWords ops assignNewTokens (specWords ops text) st).1,
          ⟨keptTokens assignNewTokens
            (internWords ops assignNewTokens (specWords ops text) st).2⟩) ∧
      ((assignNewTokens = true →
          invalidToken ∉ (internWords ops assignNewTokens (specWords ops text) st).2) →
        (tokenize ops st text assignNewTokens).2.tokenList =
          (internWords ops assignNewTokens (specWords ops text) st).2) ∧
      (specWords ops text).flatten =
        text.filter (fun c => decide (c = Char.ofNat 46) || isWordChar ops c) ∧
      (∀ w ∈ specWords ops text,
        w = [Char.ofNat 46] ∨ (w ≠ [] ∧ ∀ c ∈ w, isWordChar ops c = true)) := by
  have hinv := Interner.inverse_of_reachable ops st hr
  obtain ⟨h1, h2⟩ := foldl_flushWord_tokens ops assignNewTokens (specWords ops text) st
    TokenizedValue.empty hinv (Nat.zero_le 31)
  have hlen : (keptTokens assignNewTokens
      (internWords ops assignNewTokens (specWords ops text) st).2).length ≤ 31 :=
    le_trans (keptTokens_length_le _ _)
      (le_of_eq_of_le (internWords_length ops assignNewTokens _ st) hwords)
  have h1' : ((specWords ops text).foldl (flushWord ops assignNewTokens)
      (st, TokenizedValue.empty)).2.tokenList =
        keptTokens assignNewTokens
          (internWords ops assignNewTokens (specWords ops text) st).2 := by
    rw [h1]
    show List.take 31 ([] ++ _) = _
    rw [List.nil_append, List.take_of_length_le hlen]
  have h2' := h2 (by
    show 0 + (specWords ops text).length ≤ 31
    omega)
  have hmain : tokenize ops st text assignNewTokens =
      ((internWords ops assignNewTokens (specWords ops text) st).1,
        ⟨keptTokens assignNewTokens
          (internWords ops assignNewTokens (specWords ops text) st).2⟩) := by
    rw [tokenize_eq_fold]
    apply Prod.ext
    · exact h2'
    · show _ = (⟨_⟩ : TokenizedValue)
      rw [← h1']
  refine ⟨hmain, ?_, specWords_flatten ops text, specWords_shape ops text⟩
  intro hok
  rw [hmain]
  exact keptTokens_of_valid _ _ hok

theorem tokenize_interns_words_witness :
    (specWords qtAscii testSentence).length ≤ 31 ∧
      (specWords qtAscii testSentence).drop 12 =
        ["musn't".toList, "fail".toList, ".".toList] ∧
      (tokenize qtAscii Interner.empty testSentence true).2.tokenList =
        (internWords qtAscii true (specWords qtAscii testSentence) Interner.empty).2 ∧
      (internWords qtAscii true (specWords qtAscii testSentence) Interner.empty).2 =
        testValueOne.tokenList :=
  ⟨by decide, by decide,
    (tokenize_interns_words qtAscii Interner.empty testSentence true
      Interner.Reachable.atStart (by decide)).2.1 (fun _ => by decide),
    by decide⟩

/-- C18, as stated, fails when the token space is exhausted: on the reachable interner that
holds 65,535 keywords, the text of the one new word `b` has one word, interning it returns
the sentinel, and `tokenize` with assignment returns the empty sequence. -/
theorem tokenize_exhausted_counterexample :
    Interner.Reachable qtAscii fullInterner ∧
      specWords qtAscii [Char.ofNat 98] = [[Char.ofNat 98]] ∧
      (internWords qtAscii true (specWords qtAscii [Char.ofNat 98]) fullInterner).2 =
        [invalidToken] ∧
      (tokenize qtAscii fullInterner [Char.ofNat 98] true).2.tokenList = [] ∧
      (tokenize qtAscii fullInterner [Char.ofNat 98] true).2.tokenList ≠
        (internWords qtAscii true (specWords qtAscii [Char.ofNat 98]) fullInterner).2 := by
  have hw : specWords qtAscii [Char.ofNat 98] = [[Char.ofNat 98]] := by decide
  have hi : (internWords qtAscii true (specWords qtAscii [Char.ofNat 98]) fullInterner).2 =
      [invalidToken] := by
    rw [hw]
    simp only [internWords]
    rw [tokenForKeyword_of_refused qtAscii fullInterner [Char.ofNat 98] true
      fullInterner_not_contains_b (Or.inr fullInterner_length)]
  have ht : (tokenize qtAscii fullInterner [Char.ofNat 98] true).2.tokenList = [] := by
    rw [tokenize_eq_fold, hw, List.foldl_cons, List.foldl_nil, flushWord_fullInterner]
    rfl
  refine ⟨fullInterner_reachable, hw, hi, ht, ?_⟩
  rw [ht, hi]
  exact List.noConfusion

/-- C20 (amended).  For every reachable interner state and every text of more than 31 words
such that, with assignment, interning the first 31 words never returns the sentinel:
`tokenize` returns exactly 31 tokens, the tokens that interning the first 31 words in order
returns, it leaves the interner that these 31 internings leave (the remaining words are not
interned), and it returns what it returns for any text whose words are the first 31 words. -/
theorem tokenize_keeps_first_words (ops : CharOps) (st : Interner) (text : QString)
    (assignNewTokens : Bool) (hr : Interner.Reachable ops st)
    (hmore : 31 < (specWords ops text).length)
    (hok : assignNewTokens = true →
      invalidToken ∉ (internWords ops assignNewTokens ((specWords ops text).take 31) st).2) :
    tokenize ops st text assignNewTokens =
        ((internWords ops assignNewTokens ((specWords ops text).take 31) st).1,
          ⟨(internWords ops assignNewTokens ((specWords ops text).take 31) st).2⟩) ∧
      (tokenize ops st text assignNewTokens).2.length = 31 ∧
      (∀ text' : QString, specWords ops text' = (specWords ops text).take 31 →
        tokenize ops st text' assignNewTokens = tokenize ops st text assignNewTokens) := by
  have hinv := Interner.inverse_of_reachable ops st hr
  have htake : ((specWords ops text).take 31).length = 31 := by
    rw [List.length_take]
    omega
  have hA : (internWords ops assignNewTokens ((specWords ops text).take 31) st).2.length = 31 := by
    rw [internWords_length, htake]
  obtain ⟨h1, h2⟩ := foldl_flushWord_tokens ops assignNewTokens ((specWords ops text).take 31)
    st TokenizedValue.empty hinv (Nat.zero_le 31)
  have h1' : (((specWords ops text).take 31).foldl (flushWord ops assignNewTokens)
      (st, TokenizedValue.empty)).2.tokenList =
        (internWords ops assignNewTokens ((specWords ops text).take 31) st).2 := by
    rw [h1, keptTokens_of_valid _ _ hok]
    show List.take 31 ([] ++ _) = _
    rw [List.nil_append, List.take_of_length_le (le_of_eq hA)]
  have h2' := h2 (by
    show 0 + ((specWords ops text).take 31).length ≤ 31
    omega)
  have hfirst : ((specWords ops text).take 31).foldl (flushWord ops assignNewTokens)
      (st, TokenizedValue.empty) =
        ((internWords ops assignNewTokens ((specWords ops text).take 31) st).1,
          ⟨(internWords ops assignNewTokens ((specWords ops text).take 31) st).2⟩) := by
    apply Prod.ext
    · exact h2'
    · show _ = (⟨_⟩ : TokenizedValue)
      rw [← h1']
  have hmain : tokenize ops st text assignNewTokens =
      ((internWords ops assignNewTokens ((specWords ops text).take 31) st).1,
        ⟨(internWords ops assignNewTokens ((specWords ops text).take 31) st).2⟩) := by
    rw [tokenize_eq_fold]
    conv_lhs => rw [← List.take_append_drop 31 (specWords ops text)]
    rw [List.foldl_append, hfirst]
    exact foldl_flushWord_of_full ops assignNewTokens _ _ (le_of_eq hA.symm)
  refine ⟨hmain, ?_, ?_⟩
  · rw [hmain]
    exact hA
  · intro text' hwords'
    rw [hmain, tokenize_eq_fold, hwords', hfirst]

theorem tokenize_keeps_first_words_witness :
    31 < (specWords qtAscii (repeatedWord 33)).length ∧
      (tokenize qtAscii Interner.empty (repeatedWord 33) true).2.length = 31 ∧
      tokenize qtAscii Interner.empty (repeatedWord 31) true =
        tokenize qtAscii Interner.empty (repeatedWord 33) true :=
  ⟨by decide,
    (tokenize_keeps_first_words qtAscii Interner.empty (repeatedWord 33) true
      Interner.Reachable.atStart (by decide) (fun _ => by decide)).2.1,
    (tokenize_keeps_first_words qtAscii Interner.empty (repeatedWord 33) true
      Interner.Reachable.atStart (by decide) (fun _ => by decide)).2.2 (repeatedWord 31)
      (by decide)⟩

/-- C20, as stated, fails when the token space is exhausted: on the reachable interner that
holds 65,535 keywords, a text of 32 times the new word `b` has more than 31 words and
`tokenize` with assignment returns a sequence of length 0, not 31. -/
theorem tokenize_long_text_exhausted_counterexample :
    Interner.Reachable qtAscii fullInterner ∧
      31 < (specWords qtAscii (repeatedWord 32)).length ∧
      (tokenize qtAscii fullInterner (repeatedWord 32) true).2.length = 0 := by
  have hw : specWords qtAscii (repeatedWord 32) = List.replicate 32 [Char.ofNat 98] := by
    decide
  refine ⟨fullInterner_reachable, by rw [hw]; decide, ?_⟩
  rw [tokenize_eq_fold, hw, foldl_flushWord_fullInterner]
  rfl

/-! ## `approximateString` -/

theorem intercalate_cons (sep : List Char) (w : QString) (ws : List QString) :
    List.intercalate sep (w :: ws) = w ++ (ws.map (fun x => sep ++ x)).flatten := by
  induction ws generalizing w with
  | nil => simp [List.intercalate]
  | cons y ys ih =>
    have h := ih y
    simp only [List.intercalate] at h ⊢
    rw [List.intersperse_cons₂, List.flatten_cons, List.flatten_cons, h]
    simp

theorem approximateLoop_eq (keywordsByToken : List QString) (tokens : List Token) :
    ∀ (i : Nat) (result : QString), i ≠ 0 →
      (∀ t ∈ tokens, t < keywordsByToken.length) →
      approximateLoop keywordsByToken tokens i result =
        some (result ++
          (tokens.map (fun t => [Char.ofNat 32] ++ keywordsByToken.getD t [])).flatten) := by
  induction tokens with
  | nil => intro i result _ _; simp [approximateLoop]
  | cons t rest ih =>
    intro i result hi hlive
    have ht : t < keywordsByToken.length := hlive t (List.mem_cons_self _ _)
    have hget : keywordsByToken[t]? = some (keywordsByToken.getD t []) := by
      rw [List.getD_eq_getElem?_getD, List.getElem?_eq_getElem ht]
      rfl
    unfold approximateLoop
    rw [hget]
    simp only [if_pos hi]
    rw [ih (i + 1) _ (Nat.succ_ne_zero i) (fun x hx => hlive x (List.mem_cons_of_mem _ hx))]
    simp

theorem approximateString_eq (st : Interner) (v : TokenizedValue)
    (hlive : ∀ t ∈ v.tokenList, t < st.keywordsByToken.length) :
    approximateString st v =
      some (List.intercalate [Char.ofNat 32]
        (v.tokenList.map (fun t => st.keywordsByToken.getD t []))) := by
  unfold approximateString
  cases hv : v.tokenList with
  | nil => simp [approximateLoop, List.intercalate]
  | cons t rest =>
    rw [hv] at hlive
    have ht : t < st.keywordsByToken.length := hlive t (List.mem_cons_self _ _)
    have hget : st.keywordsByToken[t]? = some (st.keywordsByToken.getD t []) := by
      rw [List.getD_eq_getElem?_getD, List.getElem?_eq_getElem ht]
      rfl
    unfold approximateLoop
    rw [hget]
    simp only [ne_eq, not_true_eq_false, if_false, List.nil_append]
    rw [approximateLoop_eq _ _ _ _ (by decide) (fun x hx => hlive x (List.mem_cons_of_mem _ hx)),
      List.map_cons, intercalate_cons, List.map_map]
    rfl

/-- C21.  For every reachable interner state and every token sequence whose tokens are all
live (each below the number of stored keywords), `approximateString` returns the keywords
stored for its tokens, in order, joined by single spaces: nothing before the first keyword,
one space between two keywords, nothing after the last, and the empty string for the empty
sequence.  Each of these keywords is a lower-case form that the interner maps back to the
token. -/
theorem approximateString_joins_keywords (ops : CharOps) (st : Interner) (v : TokenizedValue)
    (hr : Interner.Reachable ops st)
    (hlive : ∀ t ∈ v.tokenList, t < st.keywordsByToken.length) :
    approximateString st v =
        some (List.intercalate [Char.ofNat 32]
          (v.tokenList.map (fun t => st.keywordsByToken.getD t []))) ∧
      approximateString st TokenizedValue.empty = some [] ∧
      (∀ t ∈ v.tokenList,
        st.keywordsByToken[t]? = some (st.keywordsByToken.getD t []) ∧
          QHash.value st.tokensByKeyword (st.keywordsByToken.getD t []) invalidToken = t ∧
          ∃ w : QString, ops.toLower w = st.keywordsByToken.getD t []) := by
  have hinv := Interner.inverse_of_reachable ops st hr
  refine ⟨approximateString_eq st v hlive, rfl, ?_⟩
  intro t ht
  have hlt : t < st.keywordsByToken.length := hlive t ht
  have hget : st.keywordsByToken[t]? = some (st.keywordsByToken.getD t []) := by
    rw [List.getD_eq_getElem?_getD, List.getElem?_eq_getElem hlt]
    rfl
  refine ⟨hget, (hinv.1 t _ hget).2, ?_⟩
  exact hinv.2.2.2.2.1 _ (List.mem_iff_getElem?.2 ⟨t, hget⟩)

theorem approximateString_joins_keywords_witness :
    (∀ t ∈ testValueOne.tokenList,
        t < (tokenize qtAscii Interner.empty testSentence true).1.keywordsByToken.length) ∧
      approximateString (tokenize qtAscii Interner.empty testSentence true).1 testValueOne =
        some "this is a test do not trust that it will work it musn't fail .".toList :=
  ⟨by decide!,
    ((approximateString_joins_keywords qtAscii
      (tokenize qtAscii Interner.empty testSentence true).1 testValueOne
      (Interner.Reachable.afterTokenize Interner.empty testSentence true
        Interner.Reachable.atStart) (by decide!)).1).trans (by decide!)⟩

/-! ## `clear` -/

theorem searchGroup_clear (e : FuzzySearchEngine) (cleaned : TokenizedValue)
    (groupId : GroupId) (hitCounts : HitCounts) :
    e.clear.searchGroup cleaned groupId hitCounts = hitCounts := by
  simp [FuzzySearchEngine.searchGroup, FuzzySearchEngine.clear, QMap.contains, QMap.empty,
    QHash.contains]

theorem foldl_searchGroup_clear (e : FuzzySearchEngine) (cleaned : TokenizedValue)
    (groups : List GroupId) (hitCounts : HitCounts) :
    groups.foldl (fun hc g => e.clear.searchGroup cleaned g hc) hitCounts = hitCounts := by
  induction groups generalizing hitCounts with
  | nil => rfl
  | cons g rest ih => rw [List.foldl_cons, searchGroup_clear, ih]

/-- C22.  For every engine state, after `clear()` every search returns the empty list, for
every query and every list of group ids; the stop words of the engine are the ones it had,
and the tables of the interner are not touched. -/
theorem search_after_clear (state : Interner × FuzzySearchEngine) :
    (∀ (query : TokenizedValue) (groupIds : List GroupId),
        (FuzzySearchEngine.clearIn state).2.search query groupIds = []) ∧
      (FuzzySearchEngine.clearIn state).2.currentStopWords = state.2.currentStopWords ∧
      (FuzzySearchEngine.clearIn state).1 = state.1 ∧
      (FuzzySearchEngine.clearIn state).2 = state.2.clear ∧
      (∀ pattern : TokenizedValue,
        (FuzzySearchEngine.clearIn state).2.removeStopWordsFrom pattern =
          state.2.removeStopWordsFrom pattern) := by
  refine ⟨?_, rfl, rfl, rfl, fun _ => rfl⟩
  intro query groupIds
  show state.2.clear.search query groupIds = []
  unfold FuzzySearchEngine.search
  by_cases hq : query.length = 0
  · rw [if_pos hq]
    by_cases hg : groupIds.isEmpty = true
    · rw [if_pos hg]
      rfl
    · rw [if_neg hg]
      simp [FuzzySearchEngine.clear, QMap.value, QMap.empty, QHash.value]
  · rw [if_neg hq]
    have hc : state.2.clear.collectHits query groupIds = [] := by
      unfold FuzzySearchEngine.collectHits
      by_cases hg : groupIds.isEmpty = true
      · rw [if_pos hg]
        exact foldl_searchGroup_clear state.2 _ _ _
      · rw [if_neg hg]
        exact foldl_searchGroup_clear state.2 _ _ _
    rw [hc]
    rfl

/-! ## The group list of `search` -/

theorem hitCount_perm (e : FuzzySearchEngine) (query : TokenizedValue)
    (groupIds groupIds' : List GroupId) (hperm : groupIds.Perm groupIds') (x : PatternId) :
    hitCount e query groupIds x = hitCount e query groupIds' x := by
  unfold hitCount FuzzySearchEngine.selectedGroups
  by_cases c : groupIds.isEmpty = true
  · have hnil : groupIds = [] := List.isEmpty_iff.1 c
    subst hnil
    rw [List.nil_perm.1 hperm]
  · have c' : ¬ groupIds'.isEmpty = true := by
      intro h
      have hnil : groupIds' = [] := List.isEmpty_iff.1 h
      subst hnil
      rw [List.perm_nil.1 hperm] at c
      exact c rfl
    rw [if_neg c, if_neg c']
    exact (hperm.map _).sum_eq

theorem search_eq_of_hitCount_eq (e : FuzzySearchEngine) (query : TokenizedValue)
    (groupIds groupIds' : List GroupId) (hq : query.length ≠ 0)
    (hcount : ∀ x, hitCount e query groupIds x = hitCount e query groupIds' x) :
    e.search query groupIds = e.search query groupIds' := by
  obtain ⟨m1, p1⟩ := search_ranked e query groupIds hq
  obtain ⟨m2, p2⟩ := search_ranked e query groupIds' hq
  have hfun : hitCount e query groupIds = hitCount e query groupIds' := funext hcount
  rw [hfun] at p1 m1
  have hirr : ∀ a b : PatternId,
      (rankKey (hitCount e query groupIds' a % 2 ^ 32) <
            rankKey (hitCount e query groupIds' b % 2 ^ 32) ∨
          (rankKey (hitCount e query groupIds' a % 2 ^ 32) =
              rankKey (hitCount e query groupIds' b % 2 ^ 32) ∧ a < b)) → a ≠ b := by
    intro a b h hab
    subst hab
    rcases h with h | ⟨_, h⟩
    · exact lt_irrefl _ h
    · exact lt_irrefl _ h
  have n1 : (e.search query groupIds).Nodup := p1.imp (fun {a b} h => hirr a b h)
  have n2 : (e.search query groupIds').Nodup := p2.imp (fun {a b} h => hirr a b h)
  have hperm : (e.search query groupIds).Perm (e.search query groupIds') :=
    (List.perm_ext_iff_of_nodup n1 n2).2 (fun x => by rw [m1 x, m2 x])
  haveI : IsAntisymm PatternId (fun a b =>
      rankKey (hitCount e query groupIds' a % 2 ^ 32) <
            rankKey (hitCount e query groupIds' b % 2 ^ 32) ∨
          (rankKey (hitCount e query groupIds' a % 2 ^ 32) =
              rankKey (hitCount e query groupIds' b % 2 ^ 32) ∧ a < b)) :=
    ⟨by
      intro a b h1 h2
      rcases h1 with h1 | ⟨h1, h1'⟩
      · rcases h2 with h2 | ⟨h2, _⟩
        · exact absurd (lt_trans h1 h2) (lt_irrefl _)
        · rw [h2] at h1
          exact absurd h1 (lt_irrefl _)
      · rcases h2 with h2 | ⟨_, h2'⟩
        · rw [h1] at h2
          exact absurd h2 (lt_irrefl _)
        · exact absurd (lt_trans h1' h2') (lt_irrefl _)⟩
  exact List.eq_of_perm_of_sorted hperm p1 p2

/-- C23 (amended).  For every engine state and every non-empty query, `search` returns the
same list for two lists of group ids that list the same ids the same number of times each, in
any order; in particular for two lists without repetition that hold the same ids. -/
theorem search_group_order_irrelevant (e : FuzzySearchEngine) (query : TokenizedValue)
    (groupIds : List GroupId) (hq : query.length ≠ 0) :
    (∀ groupIds' : List GroupId, groupIds.Perm groupIds' →
        e.search query groupIds = e.search query groupIds') ∧
      (∀ groupIds' : List GroupId, groupIds.Nodup → groupIds'.Nodup →
        (∀ g, g ∈ groupIds ↔ g ∈ groupIds') →
        e.search query groupIds = e.search query groupIds') := by
  have h1 : ∀ groupIds' : List GroupId, groupIds.Perm groupIds' →
      e.search query groupIds = e.search query groupIds' := fun groupIds' hperm =>
    search_eq_of_hitCount_eq e query groupIds groupIds' hq
      (hitCount_perm e query groupIds groupIds' hperm)
  exact ⟨h1, fun groupIds' n1 n2 hmem => h1 groupIds' ((List.perm_ext_iff_of_nodup n1 n2).2 hmem)⟩

theorem search_group_order_irrelevant_witness :
    (⟨[7]⟩ : TokenizedValue).length ≠ 0 ∧
      repeatedGroupEngine.search ⟨[7]⟩ [1, 2] = repeatedGroupEngine.search ⟨[7]⟩ [2, 1] ∧
      repeatedGroupEngine.search ⟨[7]⟩ [1, 2] = [20, 10] :=
  ⟨by decide,
    (search_group_order_irrelevant repeatedGroupEngine ⟨[7]⟩ [1, 2] (by decide)).1 [2, 1]
      (List.Perm.swap 2 1 []),
    by decide⟩

/-- C23, as stated, fails for a repeated group id: with pattern id 10 registered once in
group 1 and pattern id 20 twice in group 2, the query `[7]` on the groups `[1, 2]` returns
`[20, 10]`, and on `[1, 1, 1, 2]`, which holds the same ids, it returns `[10, 20]`. -/
theorem search_repeated_group_counterexample :
    repeatedGroupEngine.search ⟨[7]⟩ [1, 2] = [20, 10] ∧
      repeatedGroupEngine.search ⟨[7]⟩ [1, 1, 1, 2] = [10, 20] ∧
      (∀ g : GroupId, g ∈ [1, 2] ↔ g ∈ [1, 1, 1, 2]) := by
  refine ⟨by decide, by decide, ?_⟩
  intro g
  simp

/-! ## The SWAR bit count -/

theorem and_split (n a b c d : Nat) (ha : a < 2 ^ n) (hc : c < 2 ^ n) :
    (a + 2 ^ n * b) &&& (c + 2 ^ n * d) = (a &&& c) + 2 ^ n * (b &&& d) := by
  have hac : a &&& c < 2 ^ n := Nat.and_lt_two_pow a hc
  apply Nat.eq_of_testBit_eq
  intro j
  rw [Nat.testBit_and, Nat.add_comm a, Nat.add_comm c, Nat.add_comm (a &&& c),
    Nat.testBit_mul_pow_two_add b ha, Nat.testBit_mul_pow_two_add d hc,
    Nat.testBit_mul_pow_two_add (b &&& d) hac]
  by_cases h : j < n
  · simp [h]
  · simp [h]

theorem swar_byte_facts : ∀ b, b < 256 →
    swarPairs b < 256 ∧ swarNibbles (swarPairs b) < 256 ∧
      swarNibbles (swarPairs b) / 16 ≤ 4 ∧ swarNibbles (swarPairs b) % 16 ≤ 4 ∧
      swarByte (swarNibbles (swarPairs b)) = oneBits 8 b := by
  decide!

theorem shifted_byte_facts : ∀ b, b < 256 →
    (∀ c, c < 2 → (b / 2 + 128 * c) &&& 0x55 = (b / 2) &&& 0x55) ∧
    (∀ c, c < 4 → (b / 4 + 64 * c) &&& 0x33 = (b / 4) &&& 0x33) ∧
    (b / 2) &&& 0x55 ≤ b := by
  decide!

theorem and_fifteen (a : Nat) : a &&& 0x0F = a % 16 :=
  Nat.and_pow_two_sub_one_eq_mod a 4

theorem oneBits_split (k : Nat) : ∀ n x : Nat,
    oneBits (n + k) x = oneBits k (x % 2 ^ k) + oneBits n (x / 2 ^ k) := by
  induction k with
  | zero => intro n x; simp [oneBits]
  | succ k ih =>
    intro n x
    have h1 : x % 2 ^ (k + 1) % 2 = x % 2 := by
      rw [pow_succ']
      exact Nat.mod_mul_right_mod x 2 (2 ^ k)
    have h2 : x % 2 ^ (k + 1) / 2 = x / 2 % 2 ^ k := by
      rw [pow_succ']
      exact Nat.mod_mul_right_div_self x 2 (2 ^ k)
    have h3 : x / 2 / 2 ^ k = x / 2 ^ (k + 1) := by
      rw [Nat.div_div_eq_div_mul, pow_succ']
    show oneBits (n + k + 1) x = _
    simp only [oneBits]
    rw [ih n (x / 2), h1, h2, h3]
    omega

theorem oneBits_add_eight (n x : Nat) :
    oneBits (n + 8) x = oneBits 8 (x % 256) + oneBits n (x / 256) :=
  oneBits_split 8 n x

theorem oneBits_le (n x : Nat) : oneBits n x ≤ n := by
  induction n generalizing x with
  | zero => simp [oneBits]
  | succ n ih =>
    have := ih (x / 2)
    simp only [oneBits]
    omega

theorem and_bytes4 (a0 a1 a2 a3 m0 m1 m2 m3 : Nat)
    (h0 : a0 < 256) (h1 : a1 < 256) (h2 : a2 < 256)
    (k0 : m0 < 256) (k1 : m1 < 256) (k2 : m2 < 256) :
    bytes4 a0 a1 a2 a3 &&& bytes4 m0 m1 m2 m3 =
      bytes4 (a0 &&& m0) (a1 &&& m1) (a2 &&& m2) (a3 &&& m3) := by
  have e : (256 : Nat) = 2 ^ 8 := by norm_num
  simp only [bytes4]
  rw [e] at h0 h1 h2 k0 k1 k2 ⊢
  rw [and_split 8 _ _ _ _ h0 k0, and_split 8 _ _ _ _ h1 k1, and_split 8 _ _ _ _ h2 k2]

theorem step1_bytes4 (b0 b1 b2 b3 : Nat)
    (h0 : b0 < 256) (h1 : b1 < 256) (h2 : b2 < 256) (h3 : b3 < 256) :
    (bytes4 b0 b1 b2 b3 + 2 ^ 32 - ((bytes4 b0 b1 b2 b3 >>> 1) &&& 0x55555555)) % 2 ^ 32 =
      bytes4 (swarPairs b0) (swarPairs b1) (swarPairs b2) (swarPairs b3) := by
  have hs : bytes4 b0 b1 b2 b3 >>> 1 = bytes4 (b0 / 2 + 128 * (b1 % 2)) (b1 / 2 + 128 * (b2 % 2))
      (b2 / 2 + 128 * (b3 % 2)) (b3 / 2 + 128 * 0) := by
    simp only [bytes4]
    rw [Nat.shiftRight_eq_div_pow]
    omega
  have hm : (0x55555555 : Nat) = bytes4 0x55 0x55 0x55 0x55 := by norm_num [bytes4]
  rw [hs, hm, and_bytes4 _ _ _ _ _ _ _ _ (by omega) (by omega) (by omega) (by norm_num) (by
    norm_num) (by norm_num)]
  obtain ⟨f0, _, g0⟩ := shifted_byte_facts b0 h0
  obtain ⟨f1, _, g1⟩ := shifted_byte_facts b1 h1
  obtain ⟨f2, _, g2⟩ := shifted_byte_facts b2 h2
  obtain ⟨f3, _, g3⟩ := shifted_byte_facts b3 h3
  rw [f0 _ (Nat.mod_lt _ (by norm_num)), f1 _ (Nat.mod_lt _ (by norm_num)),
    f2 _ (Nat.mod_lt _ (by norm_num)), f3 0 (by norm_num)]
  simp only [bytes4]
  unfold swarPairs
  omega

theorem step2_bytes4 (u0 u1 u2 u3 : Nat)
    (h0 : u0 < 256) (h1 : u1 < 256) (h2 : u2 < 256) (h3 : u3 < 256) :
    (((bytes4 u0 u1 u2 u3 >>> 2) &&& 0x33333333) + (bytes4 u0 u1 u2 u3 &&& 0x33333333)) % 2 ^ 32 =
      bytes4 (swarNibbles u0) (swarNibbles u1) (swarNibbles u2) (swarNibbles u3) := by
  have hs : bytes4 u0 u1 u2 u3 >>> 2 = bytes4 (u0 / 4 + 64 * (u1 % 4)) (u1 / 4 + 64 * (u2 % 4))
      (u2 / 4 + 64 * (u3 % 4)) (u3 / 4 + 64 * 0) := by
    simp only [bytes4]
    rw [Nat.shiftRight_eq_div_pow]
    omega
  have hm : (0x33333333 : Nat) = bytes4 0x33 0x33 0x33 0x33 := by norm_num [bytes4]
  rw [hs, hm, and_bytes4 _ _ _ _ _ _ _ _ (by omega) (by omega) (by omega) (by norm_num) (by
    norm_num) (by norm_num), and_bytes4 _ _ _ _ _ _ _ _ h0 h1 h2 (by norm_num) (by norm_num) (by
    norm_num)]
  obtain ⟨_, f0, _⟩ := shifted_byte_facts u0 h0
  obtain ⟨_, f1, _⟩ := shifted_byte_facts u1 h1
  obtain ⟨_, f2, _⟩ := shifted_byte_facts u2 h2
  obtain ⟨_, f3, _⟩ := shifted_byte_facts u3 h3
  rw [f0 _ (Nat.mod_lt _ (by norm_num)), f1 _ (Nat.mod_lt _ (by norm_num)),
    f2 _ (Nat.mod_lt _ (by norm_num)), f3 0 (by norm_num)]
  simp only [bytes4]
  have a0 : (u0 / 4) &&& 0x33 ≤ 0x33 := Nat.and_le_right
  have a1 : (u1 / 4) &&& 0x33 ≤ 0x33 := Nat.and_le_right
  have a2 : (u2 / 4) &&& 0x33 ≤ 0x33 := Nat.and_le_right
  have a3 : (u3 / 4) &&& 0x33 ≤ 0x33 := Nat.and_le_right
  have c0 : u0 &&& 0x33 ≤ 0x33 := Nat.and_le_right
  have c1 : u1 &&& 0x33 ≤ 0x33 := Nat.and_le_right
  have c2 : u2 &&& 0x33 ≤ 0x33 := Nat.and_le_right
  have c3 : u3 &&& 0x33 ≤ 0x33 := Nat.and_le_right
  unfold swarNibbles
  omega

theorem step3_bytes4 (w0 w1 w2 w3 : Nat)
    (h0 : w0 / 16 ≤ 4 ∧ w0 % 16 ≤ 4) (h1 : w1 / 16 ≤ 4 ∧ w1 % 16 ≤ 4)
    (h2 : w2 / 16 ≤ 4 ∧ w2 % 16 ≤ 4) (h3 : w3 / 16 ≤ 4 ∧ w3 % 16 ≤ 4) :
    (((bytes4 w0 w1 w2 w3 >>> 4) + bytes4 w0 w1 w2 w3) % 2 ^ 32) &&& 0x0F0F0F0F =
      bytes4 (swarByte w0) (swarByte w1) (swarByte w2) (swarByte w3) := by
  have hd : bytes4 w0 w1 w2 w3 >>> 4 = w0 / 16 + 16 * (w1 + 256 * (w2 + 256 * (w3))) := by
    simp only [bytes4]
    rw [Nat.shiftRight_eq_div_pow]
    omega
  have hs : ((bytes4 w0 w1 w2 w3 >>> 4) + bytes4 w0 w1 w2 w3) % 2 ^ 32 = bytes4
      (w0 / 16 + 16 * (w1 % 16) + w0) (w1 / 16 + 16 * (w2 % 16) + w1)
      (w2 / 16 + 16 * (w3 % 16) + w2) (w3 / 16 + w3) := by
    rw [hd]
    simp only [bytes4]
    rw [Nat.mod_eq_of_lt (by omega)]
    omega
  have hm : (0x0F0F0F0F : Nat) = bytes4 0x0F 0x0F 0x0F 0x0F := by norm_num [bytes4]
  rw [hs, hm, and_bytes4 _ _ _ _ _ _ _ _ (by omega) (by omega) (by omega) (by norm_num) (by
    norm_num) (by norm_num), and_fifteen, and_fifteen, and_fifteen, and_fifteen]
  have r0 : (w0 / 16 + 16 * (w1 % 16) + w0) % 16 = w0 / 16 + w0 % 16 := by
    omega
  have r1 : (w1 / 16 + 16 * (w2 % 16) + w1) % 16 = w1 / 16 + w1 % 16 := by
    omega
  have r2 : (w2 / 16 + 16 * (w3 % 16) + w2) % 16 = w2 / 16 + w2 % 16 := by
    omega
  have r3 : (w3 / 16 + w3) % 16 = w3 / 16 + w3 % 16 := by omega
  rw [r0, r1, r2, r3]
  rfl

theorem sum_bytes4 (p0 p1 p2 p3 : Nat)
    (h0 : p0 ≤ 8) (h1 : p1 ≤ 8) (h2 : p2 ≤ 8) (h3 : p3 ≤ 8) :
    ((bytes4 p0 p1 p2 p3 + ((bytes4 p0 p1 p2 p3) >>> 8)) % 2 ^ 32 + (((bytes4 p0 p1 p2 p3 + ((bytes4
      p0 p1 p2 p3) >>> 8)) % 2 ^ 32) >>> 16)) % 2 ^ 32 &&& 0x0000003f =
      p0 + p1 + p2 + p3 := by
  have e : (0x0000003f : Nat) = 2 ^ 6 - 1 := by norm_num
  have fin : bytes4 ((p0 + p1) + (p2 + p3)) ((p1 + p2) + p3) (p2 + p3) p3 % 2 ^ 6 = p0 + p1 + p2 +
      p3 := by
    simp only [bytes4]
    omega
  have s8 : bytes4 p0 p1 p2 p3 >>> 8 = bytes4 p1 p2 p3 0 := by
    clear fin
    simp only [bytes4]
    rw [Nat.shiftRight_eq_div_pow]
    omega
  have y8 : (bytes4 p0 p1 p2 p3 + bytes4 p1 p2 p3 0) % 2 ^ 32 = bytes4 (p0 + p1) (p1 + p2) (p2 + p3)
      p3 := by
    clear fin s8
    simp only [bytes4]
    have lt : p0 + 256 * (p1 + 256 * (p2 + 256 * (p3))) + (p1 + 256 * (p2 + 256 * (p3 + 256 * (0))))
        < 2 ^ 32 := by
      omega
    rw [Nat.mod_eq_of_lt lt]
    omega
  have s16 : bytes4 (p0 + p1) (p1 + p2) (p2 + p3) p3 >>> 16 = bytes4 (p2 + p3) p3 0 0 := by
    clear fin s8 y8
    simp only [bytes4]
    rw [Nat.shiftRight_eq_div_pow]
    omega
  have y16 : (bytes4 (p0 + p1) (p1 + p2) (p2 + p3) p3 + bytes4 (p2 + p3) p3 0 0) % 2 ^ 32 = bytes4
      ((p0 + p1) + (p2 + p3)) ((p1 + p2) + p3) (p2 + p3) p3 := by
    clear fin s8 y8 s16
    simp only [bytes4]
    have lt : (p0 + p1) + 256 * ((p1 + p2) + 256 * ((p2 + p3) + 256 * (p3))) + ((p2 + p3) + 256 *
        (p3 + 256 * (0 + 256 * (0)))) < 2 ^ 32 := by
      omega
    rw [Nat.mod_eq_of_lt lt]
    omega
  rw [s8, y8, s16, y16, e, Nat.and_pow_two_sub_one_eq_mod]
  exact fin

theorem numberOnes32_eq_oneBits (v : Nat) (hv : v < 2 ^ 32) : numberOnes32 v = oneBits 32 v := by
  obtain ⟨b0, b1, b2, b3, h0, h1, h2, h3, hv'⟩ : ∃ b0 b1 b2 b3 : Nat, b0 < 256 ∧ b1 < 256 ∧ b2 < 256
      ∧ b3 < 256 ∧ v = bytes4 b0 b1 b2 b3 :=
    ⟨v % 256, v / 256 % 256, v / 65536 % 256, v / 16777216, by omega, by omega, by omega, by omega,
      by simp only [bytes4]; omega⟩
  obtain ⟨a0, _, d0, e0, f0⟩ := swar_byte_facts b0 h0
  obtain ⟨a1, _, d1, e1, f1⟩ := swar_byte_facts b1 h1
  obtain ⟨a2, _, d2, e2, f2⟩ := swar_byte_facts b2 h2
  obtain ⟨a3, _, d3, e3, f3⟩ := swar_byte_facts b3 h3
  have hone : oneBits 32 v = oneBits 8 b0 + oneBits 8 b1 + oneBits 8 b2 + oneBits 8 b3 := by
    have e0 : oneBits 32 (v) = oneBits 8 (v % 256) + oneBits 24 (v / 256) :=
      oneBits_add_eight 24 (v)
    have e1 : oneBits 24 (v / 256) = oneBits 8 (v / 256 % 256) + oneBits 16 (v / 256 / 256) :=
      oneBits_add_eight 16 (v / 256)
    have e2 : oneBits 16 (v / 256 / 256) = oneBits 8 (v / 256 / 256 % 256) + oneBits 8 (v / 256 /
        256 / 256) :=
      oneBits_add_eight 8 (v / 256 / 256)
    simp only [bytes4] at hv'
    have r0 : v % 256 = b0 := by omega
    have r1 : v / 256 % 256 = b1 := by omega
    have r2 : v / 256 / 256 % 256 = b2 := by omega
    have r3 : v / 256 / 256 / 256 = b3 := by omega
    rw [e0, e1, e2, r0, r1, r2, r3]
    omega
  rw [hone, hv']
  unfold numberOnes32
  simp only []
  rw [step1_bytes4 _ _ _ _ h0 h1 h2 h3, step2_bytes4 _ _ _ _ a0 a1 a2 a3, step3_bytes4 _ _ _ _
    ⟨d0, e0⟩ ⟨d1, e1⟩ ⟨d2, e2⟩ ⟨d3, e3⟩, f0, f1, f2, f3]
  exact sum_bytes4 _ _ _ _ (oneBits_le 8 b0) (oneBits_le 8 b1) (oneBits_le 8 b2) (oneBits_le 8 b3)

theorem and_bytes8 (a0 a1 a2 a3 a4 a5 a6 a7 m0 m1 m2 m3 m4 m5 m6 m7 : Nat)
    (h0 : a0 < 256) (h1 : a1 < 256) (h2 : a2 < 256) (h3 : a3 < 256) (h4 : a4 < 256) (h5 : a5 < 256)
    (h6 : a6 < 256)
    (k0 : m0 < 256) (k1 : m1 < 256) (k2 : m2 < 256) (k3 : m3 < 256) (k4 : m4 < 256) (k5 : m5 < 256)
    (k6 : m6 < 256) :
    bytes8 a0 a1 a2 a3 a4 a5 a6 a7 &&& bytes8 m0 m1 m2 m3 m4 m5 m6 m7 =
      bytes8 (a0 &&& m0) (a1 &&& m1) (a2 &&& m2) (a3 &&& m3) (a4 &&& m4) (a5 &&& m5) (a6 &&& m6)
        (a7 &&& m7) := by
  have e : (256 : Nat) = 2 ^ 8 := by norm_num
  simp only [bytes8]
  rw [e] at h0 h1 h2 h3 h4 h5 h6 k0 k1 k2 k3 k4 k5 k6 ⊢
  rw [and_split 8 _ _ _ _ h0 k0, and_split 8 _ _ _ _ h1 k1, and_split 8 _ _ _ _ h2 k2,
    and_split 8 _ _ _ _ h3 k3, and_split 8 _ _ _ _ h4 k4, and_split 8 _ _ _ _ h5 k5,
    and_split 8 _ _ _ _ h6 k6]

theorem step1_bytes8 (b0 b1 b2 b3 b4 b5 b6 b7 : Nat)
    (h0 : b0 < 256) (h1 : b1 < 256) (h2 : b2 < 256) (h3 : b3 < 256) (h4 : b4 < 256) (h5 : b5 < 256)
    (h6 : b6 < 256) (h7 : b7 < 256) :
    (bytes8 b0 b1 b2 b3 b4 b5 b6 b7 + 2 ^ 64 - ((bytes8 b0 b1 b2 b3 b4 b5 b6 b7 >>> 1) &&&
      0x5555555555555555)) % 2 ^ 64 =
      bytes8 (swarPairs b0) (swarPairs b1) (swarPairs b2) (swarPairs b3) (swarPairs b4) (swarPairs
        b5) (swarPairs b6) (swarPairs b7) := by
  have hs : bytes8 b0 b1 b2 b3 b4 b5 b6 b7 >>> 1 = bytes8 (b0 / 2 + 128 * (b1 % 2))
      (b1 / 2 + 128 * (b2 % 2)) (b2 / 2 + 128 * (b3 % 2)) (b3 / 2 + 128 * (b4 % 2))
      (b4 / 2 + 128 * (b5 % 2)) (b5 / 2 + 128 * (b6 % 2)) (b6 / 2 + 128 * (b7 % 2))
      (b7 / 2 + 128 * 0) := by
    simp only [bytes8]
    rw [Nat.shiftRight_eq_div_pow]
    omega
  have hm : (0x5555555555555555 : Nat) = bytes8 0x55 0x55 0x55 0x55 0x55 0x55 0x55 0x55 := by
      norm_num [bytes8]
  rw [hs, hm, and_bytes8 _ _ _ _ _ _ _ _ _ _ _ _ _ _ _ _ (by omega) (by omega) (by omega) (by omega)
    (by omega) (by omega) (by omega) (by norm_num) (by norm_num) (by norm_num) (by norm_num) (by
    norm_num) (by norm_num) (by norm_num)]
  obtain ⟨f0, _, g0⟩ := shifted_byte_facts b0 h0
  obtain ⟨f1, _, g1⟩ := shifted_byte_facts b1 h1
  obtain ⟨f2, _, g2⟩ := shifted_byte_facts b2 h2
  obtain ⟨f3, _, g3⟩ := shifted_byte_facts b3 h3
  obtain ⟨f4, _, g4⟩ := shifted_byte_facts b4 h4
  obtain ⟨f5, _, g5⟩ := shifted_byte_facts b5 h5
  obtain ⟨f6, _, g6⟩ := shifted_byte_facts b6 h6
  obtain ⟨f7, _, g7⟩ := shifted_byte_facts b7 h7
  rw [f0 _ (Nat.mod_lt _ (by norm_num)), f1 _ (Nat.mod_lt _ (by norm_num)),
    f2 _ (Nat.mod_lt _ (by norm_num)), f3 _ (Nat.mod_lt _ (by norm_num)),
    f4 _ (Nat.mod_lt _ (by norm_num)), f5 _ (Nat.mod_lt _ (by norm_num)),
    f6 _ (Nat.mod_lt _ (by norm_num)), f7 0 (by norm_num)]
  simp only [bytes8]
  unfold swarPairs
  omega

theorem step2_bytes8 (u0 u1 u2 u3 u4 u5 u6 u7 : Nat)
    (h0 : u0 < 256) (h1 : u1 < 256) (h2 : u2 < 256) (h3 : u3 < 256) (h4 : u4 < 256) (h5 : u5 < 256)
    (h6 : u6 < 256) (h7 : u7 < 256) :
    (((bytes8 u0 u1 u2 u3 u4 u5 u6 u7 >>> 2) &&& 0x3333333333333333) + (bytes8 u0 u1 u2 u3 u4 u5 u6
      u7 &&& 0x3333333333333333)) % 2 ^ 64 =
      bytes8 (swarNibbles u0) (swarNibbles u1) (swarNibbles u2) (swarNibbles u3) (swarNibbles u4)
        (swarNibbles u5) (swarNibbles u6) (swarNibbles u7) := by
  have hs : bytes8 u0 u1 u2 u3 u4 u5 u6 u7 >>> 2 = bytes8 (u0 / 4 + 64 * (u1 % 4))
      (u1 / 4 + 64 * (u2 % 4)) (u2 / 4 + 64 * (u3 % 4)) (u3 / 4 + 64 * (u4 % 4))
      (u4 / 4 + 64 * (u5 % 4)) (u5 / 4 + 64 * (u6 % 4)) (u6 / 4 + 64 * (u7 % 4)) (u7 / 4 + 64 * 0)
      := by
    simp only [bytes8]
    rw [Nat.shiftRight_eq_div_pow]
    omega
  have hm : (0x3333333333333333 : Nat) = bytes8 0x33 0x33 0x33 0x33 0x33 0x33 0x33 0x33 := by
      norm_num [bytes8]
  rw [hs, hm, and_bytes8 _ _ _ _ _ _ _ _ _ _ _ _ _ _ _ _ (by omega) (by omega) (by omega) (by omega)
    (by omega) (by omega) (by omega) (by norm_num) (by norm_num) (by norm_num) (by norm_num) (by
    norm_num) (by norm_num) (by norm_num), and_bytes8 _ _ _ _ _ _ _ _ _ _ _ _ _ _ _ _ h0 h1 h2 h3 h4
    h5 h6 (by norm_num) (by norm_num) (by norm_num) (by norm_num) (by norm_num) (by norm_num) (by
    norm_num)]
  obtain ⟨_, f0, _⟩ := shifted_byte_facts u0 h0
  obtain ⟨_, f1, _⟩ := shifted_byte_facts u1 h1
  obtain ⟨_, f2, _⟩ := shifted_byte_facts u2 h2
  obtain ⟨_, f3, _⟩ := shifted_byte_facts u3 h3
  obtain ⟨_, f4, _⟩ := shifted_byte_facts u4 h4
  obtain ⟨_, f5, _⟩ := shifted_byte_facts u5 h5
  obtain ⟨_, f6, _⟩ := shifted_byte_facts u6 h6
  obtain ⟨_, f7, _⟩ := shifted_byte_facts u7 h7
  rw [f0 _ (Nat.mod_lt _ (by norm_num)), f1 _ (Nat.mod_lt _ (by norm_num)),
    f2 _ (Nat.mod_lt _ (by norm_num)), f3 _ (Nat.mod_lt _ (by norm_num)),
    f4 _ (Nat.mod_lt _ (by norm_num)), f5 _ (Nat.mod_lt _ (by norm_num)),
    f6 _ (Nat.mod_lt _ (by norm_num)), f7 0 (by norm_num)]
  simp only [bytes8]
  have a0 : (u0 / 4) &&& 0x33 ≤ 0x33 := Nat.and_le_right
  have a1 : (u1 / 4) &&& 0x33 ≤ 0x33 := Nat.and_le_right
  have a2 : (u2 / 4) &&& 0x33 ≤ 0x33 := Nat.and_le_right
  have a3 : (u3 / 4) &&& 0x33 ≤ 0x33 := Nat.and_le_right
  have a4 : (u4 / 4) &&& 0x33 ≤ 0x33 := Nat.and_le_right
  have a5 : (u5 / 4) &&& 0x33 ≤ 0x33 := Nat.and_le_right
  have a6 : (u6 / 4) &&& 0x33 ≤ 0x33 := Nat.and_le_right
  have a7 : (u7 / 4) &&& 0x33 ≤ 0x33 := Nat.and_le_right
  have c0 : u0 &&& 0x33 ≤ 0x33 := Nat.and_le_right
  have c1 : u1 &&& 0x33 ≤ 0x33 := Nat.and_le_right
  have c2 : u2 &&& 0x33 ≤ 0x33 := Nat.and_le_right
  have c3 : u3 &&& 0x33 ≤ 0x33 := Nat.and_le_right
  have c4 : u4 &&& 0x33 ≤ 0x33 := Nat.and_le_right
  have c5 : u5 &&& 0x33 ≤ 0x33 := Nat.and_le_right
  have c6 : u6 &&& 0x33 ≤ 0x33 := Nat.and_le_right
  have c7 : u7 &&& 0x33 ≤ 0x33 := Nat.and_le_right
  unfold swarNibbles
  omega

theorem step3_bytes8 (w0 w1 w2 w3 w4 w5 w6 w7 : Nat)
    (h0 : w0 / 16 ≤ 4 ∧ w0 % 16 ≤ 4) (h1 : w1 / 16 ≤ 4 ∧ w1 % 16 ≤ 4)
    (h2 : w2 / 16 ≤ 4 ∧ w2 % 16 ≤ 4) (h3 : w3 / 16 ≤ 4 ∧ w3 % 16 ≤ 4)
    (h4 : w4 / 16 ≤ 4 ∧ w4 % 16 ≤ 4) (h5 : w5 / 16 ≤ 4 ∧ w5 % 16 ≤ 4)
    (h6 : w6 / 16 ≤ 4 ∧ w6 % 16 ≤ 4) (h7 : w7 / 16 ≤ 4 ∧ w7 % 16 ≤ 4) :
    (((bytes8 w0 w1 w2 w3 w4 w5 w6 w7 >>> 4) + bytes8 w0 w1 w2 w3 w4 w5 w6 w7) % 2 ^ 64) &&&
      0x0F0F0F0F0F0F0F0F =
      bytes8 (swarByte w0) (swarByte w1) (swarByte w2) (swarByte w3) (swarByte w4) (swarByte w5)
        (swarByte w6) (swarByte w7) := by
  have hd : bytes8 w0 w1 w2 w3 w4 w5 w6 w7 >>> 4 = w0 / 16 + 16 * (w1 + 256 * (w2 + 256 * (w3 + 256
      * (w4 + 256 * (w5 + 256 * (w6 + 256 * (w7))))))) := by
    simp only [bytes8]
    rw [Nat.shiftRight_eq_div_pow]
    omega
  have hs : ((bytes8 w0 w1 w2 w3 w4 w5 w6 w7 >>> 4) + bytes8 w0 w1 w2 w3 w4 w5 w6 w7) % 2 ^ 64 =
      bytes8 (w0 / 16 + 16 * (w1 % 16) + w0) (w1 / 16 + 16 * (w2 % 16) + w1)
      (w2 / 16 + 16 * (w3 % 16) + w2) (w3 / 16 + 16 * (w4 % 16) + w3)
      (w4 / 16 + 16 * (w5 % 16) + w4) (w5 / 16 + 16 * (w6 % 16) + w5)
      (w6 / 16 + 16 * (w7 % 16) + w6) (w7 / 16 + w7) := by
    rw [hd]
    simp only [bytes8]
    rw [Nat.mod_eq_of_lt (by omega)]
    omega
  have hm : (0x0F0F0F0F0F0F0F0F : Nat) = bytes8 0x0F 0x0F 0x0F 0x0F 0x0F 0x0F 0x0F 0x0F := by
      norm_num [bytes8]
  rw [hs, hm, and_bytes8 _ _ _ _ _ _ _ _ _ _ _ _ _ _ _ _ (by omega) (by omega) (by omega) (by omega)
    (by omega) (by omega) (by omega) (by norm_num) (by norm_num) (by norm_num) (by norm_num) (by
    norm_num) (by norm_num) (by norm_num), and_fifteen, and_fifteen, and_fifteen, and_fifteen,
    and_fifteen, and_fifteen, and_fifteen, and_fifteen]
  have r0 : (w0 / 16 + 16 * (w1 % 16) + w0) % 16 = w0 / 16 + w0 % 16 := by
    omega
  have r1 : (w1 / 16 + 16 * (w2 % 16) + w1) % 16 = w1 / 16 + w1 % 16 := by
    omega
  have r2 : (w2 / 16 + 16 * (w3 % 16) + w2) % 16 = w2 / 16 + w2 % 16 := by
    omega
  have r3 : (w3 / 16 + 16 * (w4 % 16) + w3) % 16 = w3 / 16 + w3 % 16 := by
    omega
  have r4 : (w4 / 16 + 16 * (w5 % 16) + w4) % 16 = w4 / 16 + w4 % 16 := by
    omega
  have r5 : (w5 / 16 + 16 * (w6 % 16) + w5) % 16 = w5 / 16 + w5 % 16 := by
    omega
  have r6 : (w6 / 16 + 16 * (w7 % 16) + w6) % 16 = w6 / 16 + w6 % 16 := by
    omega
  have r7 : (w7 / 16 + w7) % 16 = w7 / 16 + w7 % 16 := by omega
  rw [r0, r1, r2, r3, r4, r5, r6, r7]
  rfl

theorem sum_bytes8 (p0 p1 p2 p3 p4 p5 p6 p7 : Nat)
    (h0 : p0 ≤ 8) (h1 : p1 ≤ 8) (h2 : p2 ≤ 8) (h3 : p3 ≤ 8) (h4 : p4 ≤ 8) (h5 : p5 ≤ 8)
    (h6 : p6 ≤ 8) (h7 : p7 ≤ 8) :
    (((bytes8 p0 p1 p2 p3 p4 p5 p6 p7 + ((bytes8 p0 p1 p2 p3 p4 p5 p6 p7) >>> 8)) % 2 ^ 64 +
      (((bytes8 p0 p1 p2 p3 p4 p5 p6 p7 + ((bytes8 p0 p1 p2 p3 p4 p5 p6 p7) >>> 8)) % 2 ^ 64) >>>
      16)) % 2 ^ 64 + ((((bytes8 p0 p1 p2 p3 p4 p5 p6 p7 + ((bytes8 p0 p1 p2 p3 p4 p5 p6 p7) >>> 8))
      % 2 ^ 64 + (((bytes8 p0 p1 p2 p3 p4 p5 p6 p7 + ((bytes8 p0 p1 p2 p3 p4 p5 p6 p7) >>> 8)) % 2 ^
      64) >>> 16)) % 2 ^ 64) >>> 32)) % 2 ^ 64 &&& 0x0000007f =
      p0 + p1 + p2 + p3 + p4 + p5 + p6 + p7 := by
  have e : (0x0000007f : Nat) = 2 ^ 7 - 1 := by norm_num
  have fin : bytes8 (((p0 + p1) + (p2 + p3)) + ((p4 + p5) + (p6 + p7)))
      (((p1 + p2) + (p3 + p4)) + ((p5 + p6) + p7)) (((p2 + p3) + (p4 + p5)) + (p6 + p7))
      (((p3 + p4) + (p5 + p6)) + p7) ((p4 + p5) + (p6 + p7)) ((p5 + p6) + p7) (p6 + p7) p7 % 2 ^ 7 =
      p0 + p1 + p2 + p3 + p4 + p5 + p6 + p7 := by
    simp only [bytes8]
    omega
  have s8 : bytes8 p0 p1 p2 p3 p4 p5 p6 p7 >>> 8 = bytes8 p1 p2 p3 p4 p5 p6 p7 0 := by
    clear fin
    simp only [bytes8]
    rw [Nat.shiftRight_eq_div_pow]
    omega
  have y8 : (bytes8 p0 p1 p2 p3 p4 p5 p6 p7 + bytes8 p1 p2 p3 p4 p5 p6 p7 0) % 2 ^ 64 = bytes8
      (p0 + p1) (p1 + p2) (p2 + p3) (p3 + p4) (p4 + p5) (p5 + p6) (p6 + p7) p7 := by
    clear fin s8
    simp only [bytes8]
    have lt : p0 + 256 * (p1 + 256 * (p2 + 256 * (p3 + 256 * (p4 + 256 * (p5 + 256 * (p6 + 256 *
        (p7))))))) + (p1 + 256 * (p2 + 256 * (p3 + 256 * (p4 + 256 * (p5 + 256 * (p6 + 256 * (p7 +
        256 * (0)))))))) < 2 ^ 64 := by
      omega
    rw [Nat.mod_eq_of_lt lt]
    omega
  have s16 : bytes8 (p0 + p1) (p1 + p2) (p2 + p3) (p3 + p4) (p4 + p5) (p5 + p6) (p6 + p7) p7 >>> 16
      = bytes8 (p2 + p3) (p3 + p4) (p4 + p5) (p5 + p6) (p6 + p7) p7 0 0 := by
    clear fin s8 y8
    simp only [bytes8]
    rw [Nat.shiftRight_eq_div_pow]
    omega
  have y16 : (bytes8 (p0 + p1) (p1 + p2) (p2 + p3) (p3 + p4) (p4 + p5) (p5 + p6) (p6 + p7) p7 +
      bytes8 (p2 + p3) (p3 + p4) (p4 + p5) (p5 + p6) (p6 + p7) p7 0 0) % 2 ^ 64 = bytes8
      ((p0 + p1) + (p2 + p3)) ((p1 + p2) + (p3 + p4)) ((p2 + p3) + (p4 + p5))
      ((p3 + p4) + (p5 + p6)) ((p4 + p5) + (p6 + p7)) ((p5 + p6) + p7) (p6 + p7) p7 := by
    clear fin s8 y8 s16
    simp only [bytes8]
    have lt : (p0 + p1) + 256 * ((p1 + p2) + 256 * ((p2 + p3) + 256 * ((p3 + p4) + 256 * ((p4 + p5)
        + 256 * ((p5 + p6) + 256 * ((p6 + p7) + 256 * (p7))))))) + ((p2 + p3) + 256 * ((p3 + p4) +
        256 * ((p4 + p5) + 256 * ((p5 + p6) + 256 * ((p6 + p7) + 256 * (p7 + 256 * (0 + 256 *
        (0)))))))) < 2 ^ 64 := by
      omega
    rw [Nat.mod_eq_of_lt lt]
    omega
  have s32 : bytes8 ((p0 + p1) + (p2 + p3)) ((p1 + p2) + (p3 + p4)) ((p2 + p3) + (p4 + p5))
      ((p3 + p4) + (p5 + p6)) ((p4 + p5) + (p6 + p7)) ((p5 + p6) + p7) (p6 + p7) p7 >>> 32 = bytes8
      ((p4 + p5) + (p6 + p7)) ((p5 + p6) + p7) (p6 + p7) p7 0 0 0 0 := by
    clear fin s8 y8 s16 y16
    simp only [bytes8]
    rw [Nat.shiftRight_eq_div_pow]
    omega
  have y32 : (bytes8 ((p0 + p1) + (p2 + p3)) ((p1 + p2) + (p3 + p4)) ((p2 + p3) + (p4 + p5))
      ((p3 + p4) + (p5 + p6)) ((p4 + p5) + (p6 + p7)) ((p5 + p6) + p7) (p6 + p7) p7 + bytes8
      ((p4 + p5) + (p6 + p7)) ((p5 + p6) + p7) (p6 + p7) p7 0 0 0 0) % 2 ^ 64 = bytes8
      (((p0 + p1) + (p2 + p3)) + ((p4 + p5) + (p6 + p7)))
      (((p1 + p2) + (p3 + p4)) + ((p5 + p6) + p7)) (((p2 + p3) + (p4 + p5)) + (p6 + p7))
      (((p3 + p4) + (p5 + p6)) + p7) ((p4 + p5) + (p6 + p7)) ((p5 + p6) + p7) (p6 + p7) p7 := by
    clear fin s8 y8 s16 y16 s32
    simp only [bytes8]
    have lt : ((p0 + p1) + (p2 + p3)) + 256 * (((p1 + p2) + (p3 + p4)) + 256 * (((p2 + p3) + (p4 +
        p5)) + 256 * (((p3 + p4) + (p5 + p6)) + 256 * (((p4 + p5) + (p6 + p7)) + 256 * (((p5 + p6) +
        p7) + 256 * ((p6 + p7) + 256 * (p7))))))) + (((p4 + p5) + (p6 + p7)) + 256 * (((p5 + p6) +
        p7) + 256 * ((p6 + p7) + 256 * (p7 + 256 * (0 + 256 * (0 + 256 * (0 + 256 * (0)))))))) < 2 ^
        64 := by
      omega
    rw [Nat.mod_eq_of_lt lt]
    omega
  rw [s8, y8, s16, y16, s32, y32, e, Nat.and_pow_two_sub_one_eq_mod]
  exact fin

theorem numberOnes64_eq_oneBits (v : Nat) (hv : v < 2 ^ 64) : numberOnes64 v = oneBits 64 v := by
  obtain ⟨b0, b1, b2, b3, b4, b5, b6, b7, h0, h1, h2, h3, h4, h5, h6, h7, hv'⟩ : ∃ b0 b1 b2 b3 b4 b5
      b6 b7 : Nat, b0 < 256 ∧ b1 < 256 ∧ b2 < 256 ∧ b3 < 256 ∧ b4 < 256 ∧ b5 < 256 ∧ b6 < 256 ∧
      b7 < 256 ∧ v = bytes8 b0 b1 b2 b3 b4 b5 b6 b7 :=
    ⟨v % 256, v / 256 % 256, v / 65536 % 256, v / 16777216 % 256, v / 4294967296 % 256, v /
      1099511627776 % 256, v / 281474976710656 % 256, v / 72057594037927936, by omega, by omega,
      by omega, by omega, by omega, by omega, by omega, by omega, by simp only [bytes8]; omega⟩
  obtain ⟨a0, _, d0, e0, f0⟩ := swar_byte_facts b0 h0
  obtain ⟨a1, _, d1, e1, f1⟩ := swar_byte_facts b1 h1
  obtain ⟨a2, _, d2, e2, f2⟩ := swar_byte_facts b2 h2
  obtain ⟨a3, _, d3, e3, f3⟩ := swar_byte_facts b3 h3
  obtain ⟨a4, _, d4, e4, f4⟩ := swar_byte_facts b4 h4
  obtain ⟨a5, _, d5, e5, f5⟩ := swar_byte_facts b5 h5
  obtain ⟨a6, _, d6, e6, f6⟩ := swar_byte_facts b6 h6
  obtain ⟨a7, _, d7, e7, f7⟩ := swar_byte_facts b7 h7
  have hone : oneBits 64 v = oneBits 8 b0 + oneBits 8 b1 + oneBits 8 b2 + oneBits 8 b3 +
      oneBits 8 b4 + oneBits 8 b5 + oneBits 8 b6 + oneBits 8 b7 := by
    have e0 : oneBits 64 (v) = oneBits 8 (v % 256) + oneBits 56 (v / 256) :=
      oneBits_add_eight 56 (v)
    have e1 : oneBits 56 (v / 256) = oneBits 8 (v / 256 % 256) + oneBits 48 (v / 256 / 256) :=
      oneBits_add_eight 48 (v / 256)
    have e2 : oneBits 48 (v / 256 / 256) = oneBits 8 (v / 256 / 256 % 256) + oneBits 40 (v / 256 /
        256 / 256) :=
      oneBits_add_eight 40 (v / 256 / 256)
    have e3 : oneBits 40 (v / 256 / 256 / 256) = oneBits 8 (v / 256 / 256 / 256 % 256) + oneBits 32
        (v / 256 / 256 / 256 / 256) :=
      oneBits_add_eight 32 (v / 256 / 256 / 256)
    have e4 : oneBits 32 (v / 256 / 256 / 256 / 256) = oneBits 8 (v / 256 / 256 / 256 / 256 % 256) +
        oneBits 24 (v / 256 / 256 / 256 / 256 / 256) :=
      oneBits_add_eight 24 (v / 256 / 256 / 256 / 256)
    have e5 : oneBits 24 (v / 256 / 256 / 256 / 256 / 256) = oneBits 8 (v / 256 / 256 / 256 / 256 /
        256 % 256) + oneBits 16 (v / 256 / 256 / 256 / 256 / 256 / 256) :=
      oneBits_add_eight 16 (v / 256 / 256 / 256 / 256 / 256)
    have e6 : oneBits 16 (v / 256 / 256 / 256 / 256 / 256 / 256) = oneBits 8 (v / 256 / 256 / 256 /
        256 / 256 / 256 % 256) + oneBits 8 (v / 256 / 256 / 256 / 256 / 256 / 256 / 256) :=
      oneBits_add_eight 8 (v / 256 / 256 / 256 / 256 / 256 / 256)
    simp only [bytes8] at hv'
    have r0 : v % 256 = b0 := by omega
    have r1 : v / 256 % 256 = b1 := by omega
    have r2 : v / 256 / 256 % 256 = b2 := by omega
    have r3 : v / 256 / 256 / 256 % 256 = b3 := by omega
    have r4 : v / 256 / 256 / 256 / 256 % 256 = b4 := by omega
    have r5 : v / 256 / 256 / 256 / 256 / 256 % 256 = b5 := by omega
    have r6 : v / 256 / 256 / 256 / 256 / 256 / 256 % 256 = b6 := by omega
    have r7 : v / 256 / 256 / 256 / 256 / 256 / 256 / 256 = b7 := by omega
    rw [e0, e1, e2, e3, e4, e5, e6, r0, r1, r2, r3, r4, r5, r6, r7]
    omega
  rw [hone, hv']
  unfold numberOnes64
  simp only []
  rw [step1_bytes8 _ _ _ _ _ _ _ _ h0 h1 h2 h3 h4 h5 h6 h7, step2_bytes8 _ _ _ _ _ _ _ _ a0 a1 a2 a3
    a4 a5 a6 a7, step3_bytes8 _ _ _ _ _ _ _ _ ⟨d0, e0⟩ ⟨d1, e1⟩ ⟨d2, e2⟩ ⟨d3, e3⟩ ⟨d4, e4⟩ ⟨d5, e5⟩
    ⟨d6, e6⟩ ⟨d7, e7⟩, f0, f1, f2, f3, f4, f5, f6, f7]
  exact sum_bytes8 _ _ _ _ _ _ _ _ (oneBits_le 8 b0) (oneBits_le 8 b1) (oneBits_le 8 b2)
    (oneBits_le 8 b3) (oneBits_le 8 b4) (oneBits_le 8 b5) (oneBits_le 8 b6) (oneBits_le 8 b7)

theorem oneBits_eq_count (width : Nat) : ∀ v : Nat,
    oneBits width v = ((List.range width).filter (fun i => v.testBit i)).length := by
  induction width with
  | zero => intro v; rfl
  | succ w ih =>
    intro v
    have h : (fun i => v.testBit i) ∘ Nat.succ = fun i => (v / 2).testBit i := by
      funext i
      simp [Nat.testBit_succ]
    rw [List.range_succ_eq_map, List.filter_cons, List.filter_map, h]
    simp only [oneBits]
    rw [ih (v / 2), Nat.testBit_zero]
    by_cases c : v % 2 = 1
    · simp [c]
      omega
    · have c' : v % 2 = 0 := by omega
      simp [c']

/-! ## Masks of single bits and the position of the top bit -/

theorem complement_testBit (w x i : Nat) :
    (complement w x).testBit i = (decide (i < w) && !x.testBit i) := by
  have h : x % 2 ^ w < 2 ^ w := Nat.mod_lt _ (Nat.two_pow_pos w)
  have e : complement w x = 2 ^ w - (x % 2 ^ w + 1) := by
    unfold complement
    omega
  rw [e, Nat.testBit_two_pow_sub_succ h, Nat.testBit_mod_two_pow]
  by_cases c : i < w <;> simp [c]

theorem complement_lt (w x : Nat) : complement w x < 2 ^ w := by
  have := Nat.two_pow_pos w
  unfold complement
  omega

/-- A value whose lowest one bit is bit `k`: `2^k` plus a multiple of `2^(k+1)`. -/
theorem exists_lowest_one (v : Nat) (hv : v ≠ 0) : ∃ k m : Nat, v = 2 ^ (k + 1) * m + 2 ^ k := by
  obtain ⟨k, m, hodd, he⟩ := Nat.exists_eq_two_pow_mul_odd hv
  obtain ⟨m', hm'⟩ := hodd
  refine ⟨k, m', ?_⟩
  rw [he, hm', pow_succ]
  ring

theorem testBit_lowest_one (k m i : Nat) :
    (2 ^ (k + 1) * m + 2 ^ k).testBit i =
      if i < k + 1 then decide (k = i) else m.testBit (i - (k + 1)) := by
  rw [Nat.testBit_mul_pow_two_add m (Nat.pow_lt_pow_right (by norm_num) (Nat.lt_succ_self k)),
    Nat.testBit_two_pow]

theorem testBit_below_lowest_one (k m i : Nat) :
    (2 ^ (k + 1) * m + (2 ^ k - 1)).testBit i =
      if i < k + 1 then decide (i < k) else m.testBit (i - (k + 1)) := by
  have h : 2 ^ k - 1 < 2 ^ (k + 1) := by
    have := Nat.pow_lt_pow_right (a := 2) (by norm_num) (Nat.lt_succ_self k)
    omega
  rw [Nat.testBit_mul_pow_two_add m h, Nat.testBit_two_pow_sub_one]

theorem maskLsbOne_eq (w k m : Nat) (hv : 2 ^ (k + 1) * m + 2 ^ k < 2 ^ w) :
    maskLsbOne w (2 ^ (k + 1) * m + 2 ^ k) = 2 ^ k := by
  have hk : k < w := by
    have h1 : 2 ^ k < 2 ^ w := lt_of_le_of_lt (Nat.le_add_left _ _) hv
    exact (Nat.pow_lt_pow_iff_right (by norm_num)).1 h1
  have hpos := Nat.two_pow_pos k
  have hneg : negate w (2 ^ (k + 1) * m + 2 ^ k) =
      complement w (2 ^ (k + 1) * m + (2 ^ k - 1)) := by
    unfold negate complement
    have h1 : 2 ^ (k + 1) * m + (2 ^ k - 1) < 2 ^ w := by omega
    rw [Nat.mod_eq_of_lt hv, Nat.mod_eq_of_lt h1, Nat.mod_eq_of_lt (by omega)]
    omega
  apply Nat.eq_of_testBit_eq
  intro i
  unfold maskLsbOne
  rw [hneg, Nat.testBit_and, Nat.testBit_xor, complement_testBit, complement_testBit,
    testBit_lowest_one, testBit_below_lowest_one, Nat.testBit_two_pow]
  by_cases c1 : i < k + 1
  · by_cases c2 : i < k
    · have c3 : ¬ k = i := by omega
      simp [c1, c2, c3]
    · have c3 : k = i := by omega
      have c4 : i < w := by omega
      simp [c1, c2, c3, c4]
  · have c3 : ¬ k = i := by omega
    simp [c1, c3]

theorem maskLsbOne_zero (w : Nat) : maskLsbOne w 0 = 0 := by
  simp [maskLsbOne]

theorem maskLsbZero_eq (w k m : Nat) (hv : 2 ^ (k + 1) * m + 2 ^ k < 2 ^ w) :
    maskLsbZero w (2 ^ (k + 1) * m + (2 ^ k - 1)) = 2 ^ k := by
  have hk : k < w := by
    have h1 : 2 ^ k < 2 ^ w := lt_of_le_of_lt (Nat.le_add_left _ _) hv
    exact (Nat.pow_lt_pow_iff_right (by norm_num)).1 h1
  have hpos := Nat.two_pow_pos k
  have hsucc : (2 ^ (k + 1) * m + (2 ^ k - 1) + 1) % 2 ^ w = 2 ^ (k + 1) * m + 2 ^ k := by
    rw [Nat.mod_eq_of_lt (by omega)]
    omega
  apply Nat.eq_of_testBit_eq
  intro i
  unfold maskLsbZero
  rw [hsucc, Nat.testBit_and, Nat.testBit_xor, complement_testBit,
    testBit_lowest_one, testBit_below_lowest_one, Nat.testBit_two_pow]
  by_cases c1 : i < k + 1
  · by_cases c2 : i < k
    · have c3 : ¬ k = i := by omega
      simp [c1, c2, c3]
    · have c3 : k = i := by omega
      have c4 : i < w := by omega
      simp [c1, c2, c3, c4]
  · have c3 : ¬ k = i := by omega
    simp [c1, c3]

theorem maskLsbZero_all_ones (w : Nat) : maskLsbZero w (2 ^ w - 1) = 0 := by
  have hpos := Nat.two_pow_pos w
  unfold maskLsbZero complement
  rw [Nat.mod_eq_of_lt (by omega : 2 ^ w - 1 < 2 ^ w)]
  simp

theorem exists_lowest_one_bit (v : Nat) (hv : v ≠ 0) :
    ∃ k m : Nat, v = 2 ^ (k + 1) * m + 2 ^ k ∧ v.testBit k = true ∧
      ∀ j, j < k → v.testBit j = false := by
  obtain ⟨k, m, he⟩ := exists_lowest_one v hv
  refine ⟨k, m, he, ?_, ?_⟩
  · rw [he, testBit_lowest_one]
    simp
  · intro j hj
    rw [he, testBit_lowest_one]
    have c1 : j < k + 1 := by omega
    have c2 : ¬ k = j := by omega
    simp [c1, c2]

theorem exists_lowest_zero_bit (v : Nat) :
    ∃ k m : Nat, v = 2 ^ (k + 1) * m + (2 ^ k - 1) ∧ v.testBit k = false ∧
      ∀ j, j < k → v.testBit j = true := by
  obtain ⟨k, m, he⟩ := exists_lowest_one (v + 1) (Nat.succ_ne_zero v)
  have hpos := Nat.two_pow_pos k
  have hv : v = 2 ^ (k + 1) * m + (2 ^ k - 1) := by omega
  refine ⟨k, m, hv, ?_, ?_⟩
  · rw [hv, testBit_below_lowest_one]
    simp
  · intro j hj
    rw [hv, testBit_below_lowest_one]
    have c1 : j < k + 1 := by omega
    simp [c1, hj]

/-- C26.  For every 64-bit value `v`: `maskLsbOne(v)` is 0 when `v` is 0 and otherwise
`2^k` for the position `k` of the least significant one bit of `v` (bit `k` is set, no lower
bit is); `maskLsbZero(v)` is 0 when all 64 bits of `v` are set and otherwise `2^k` for the
position `k` of the least significant zero bit of `v`. -/
theorem maskLsb_single_bit (v : Nat) (hv : v < 2 ^ 64) :
    (v = 0 → maskLsbOne 64 v = 0) ∧
      (v ≠ 0 → ∃ k, k < 64 ∧ v.testBit k = true ∧ (∀ j, j < k → v.testBit j = false) ∧
        maskLsbOne 64 v = 2 ^ k) ∧
      (v = 2 ^ 64 - 1 → maskLsbZero 64 v = 0) ∧
      (v ≠ 2 ^ 64 - 1 → ∃ k, k < 64 ∧ v.testBit k = false ∧
        (∀ j, j < k → v.testBit j = true) ∧ maskLsbZero 64 v = 2 ^ k) := by
  refine ⟨?_, ?_, ?_, ?_⟩
  · intro h
    rw [h]
    exact maskLsbOne_zero 64
  · intro h
    obtain ⟨k, m, he, h1, h2⟩ := exists_lowest_one_bit v h
    have hk : k < 64 := by
      by_contra c
      have : v.testBit k = false := Nat.testBit_lt_two_pow
        (lt_of_lt_of_le hv (Nat.pow_le_pow_right (by norm_num) (by omega)))
      rw [this] at h1
      exact Bool.noConfusion h1
    refine ⟨k, hk, h1, h2, ?_⟩
    rw [he] at hv ⊢
    exact maskLsbOne_eq 64 k m hv
  · intro h
    rw [h]
    exact maskLsbZero_all_ones 64
  · intro h
    obtain ⟨k, m, he, h1, h2⟩ := exists_lowest_zero_bit v
    have hpos := Nat.two_pow_pos k
    have hlt : 2 ^ (k + 1) * m + 2 ^ k < 2 ^ 64 := by omega
    have hk : k < 64 := by
      have h3 : 2 ^ k < 2 ^ 64 := lt_of_le_of_lt (Nat.le_add_left _ _) hlt
      exact (Nat.pow_lt_pow_iff_right (by norm_num)).1 h3
    refine ⟨k, hk, h1, h2, ?_⟩
    rw [he]
    exact maskLsbZero_eq 64 k m hlt

theorem isPowerOf2_iff (w v : Nat) (hv : v < 2 ^ w) :
    isPowerOf2 w v = true ↔ v = 0 ∨ ∃ k, v = 2 ^ k := by
  unfold isPowerOf2
  rw [beq_iff_eq]
  by_cases h0 : v = 0
  · subst h0
    simp [maskLsbOne_zero]
  · obtain ⟨k, m, he⟩ := exists_lowest_one v h0
    have hm : maskLsbOne w v = 2 ^ k := by
      rw [he] at hv ⊢
      exact maskLsbOne_eq w k m hv
    rw [hm]
    constructor
    · intro h
      exact Or.inr ⟨k, h.symm⟩
    · rintro (h | ⟨k', hk'⟩)
      · exact absurd h h0
      · have h1 : v.testBit k = true := by
          rw [he, testBit_lowest_one]
          simp
        rw [hk', Nat.testBit_two_pow] at h1
        have : k' = k := by simpa using h1
        rw [hk', this]

theorem single_bit_iff (v : Nat) :
    (v = 0 ∨ ∃ k, v = 2 ^ k) ↔ ∀ i j, v.testBit i = true → v.testBit j = true → i = j := by
  constructor
  · rintro (h | ⟨k, hk⟩)
    · intro i j hi
      rw [h] at hi
      simp at hi
    · intro i j hi hj
      rw [hk, Nat.testBit_two_pow] at hi hj
      have e1 : k = i := by simpa using hi
      have e2 : k = j := by simpa using hj
      omega
  · intro h
    by_cases h0 : v = 0
    · exact Or.inl h0
    · right
      obtain ⟨k, m, he⟩ := exists_lowest_one v h0
      have hk : v.testBit k = true := by
        rw [he, testBit_lowest_one]
        simp
      refine ⟨k, ?_⟩
      by_cases hm : m = 0
      · rw [he, hm]
        simp
      · exfalso
        obtain ⟨k', m', he'⟩ := exists_lowest_one m hm
        have hk' : m.testBit k' = true := by
          rw [he', testBit_lowest_one]
          simp
        have h2 : v.testBit (k' + (k + 1)) = true := by
          rw [he, testBit_lowest_one]
          have c : ¬ k' + (k + 1) < k + 1 := by omega
          simp [c, hk']
        have := h k (k' + (k + 1)) hk h2
        omega

theorem smeared_self (v : Nat) : Smeared v 1 v := by
  intro i
  constructor
  · intro h
    exact ⟨0, by norm_num, h⟩
  · rintro ⟨d, hd, h⟩
    have : d = 0 := by omega
    subst this
    exact h

theorem smeared_step (v n x : Nat) (h : Smeared v n x) : Smeared v (n + n) (x ||| (x >>> n)) := by
  intro i
  rw [Nat.testBit_or, Nat.testBit_shiftRight, Bool.or_eq_true, h i, h (n + i)]
  constructor
  · rintro (⟨d, hd, hb⟩ | ⟨d, hd, hb⟩)
    · exact ⟨d, by omega, hb⟩
    · refine ⟨n + d, by omega, ?_⟩
      rw [← hb]
      congr 1
      omega
  · rintro ⟨d, hd, hb⟩
    by_cases c : d < n
    · exact Or.inl ⟨d, c, hb⟩
    · refine Or.inr ⟨d - n, by omega, ?_⟩
      rw [← hb]
      congr 1
      omega

theorem testBit_of_top (v k : Nat) (h1 : 2 ^ k ≤ v) (h2 : v < 2 ^ (k + 1)) :
    v.testBit k = true := by
  rw [Nat.testBit_to_div_mod]
  have : v / 2 ^ k = 1 := by
    apply Nat.div_eq_of_lt_le
    · simpa using h1
    · rw [pow_succ] at h2
      omega
  simp [this]

theorem smeared_all (v k x : Nat) (h1 : 2 ^ k ≤ v) (h2 : v < 2 ^ (k + 1)) (n : Nat) (hn : k < n)
    (h : Smeared v n x) : ∀ i, x.testBit i = decide (i ≤ k) := by
  intro i
  rw [Bool.eq_iff_iff, h i, decide_eq_true_eq]
  constructor
  · rintro ⟨d, _, hb⟩
    by_contra c
    have : v.testBit (i + d) = false :=
      Nat.testBit_lt_two_pow (lt_of_lt_of_le h2 (Nat.pow_le_pow_right (by norm_num) (by omega)))
    rw [this] at hb
    exact Bool.noConfusion hb
  · intro hi
    refine ⟨k - i, by omega, ?_⟩
    have e : i + (k - i) = k := by omega
    rw [e]
    exact testBit_of_top v k h1 h2

theorem maskMsbOne_eq (v k : Nat) (h1 : 2 ^ k ≤ v) (h2 : v < 2 ^ (k + 1)) (hk : k < 64) :
    maskMsbOne 64 v = 2 ^ k := by
  have s1 := smeared_step v 1 v (smeared_self v)
  have s2 := smeared_step v 2 _ s1
  have s4 := smeared_step v 4 _ s2
  have s8 := smeared_step v 8 _ s4
  have s16 := smeared_step v 16 _ s8
  have s32 := smeared_step v 32 _ s16
  have hall := smeared_all v k _ h1 h2 64 hk s32
  unfold maskMsbOne
  simp only [Nat.reduceEqDiff, if_false, if_true]
  apply Nat.eq_of_testBit_eq
  intro i
  rw [Nat.testBit_and, complement_testBit, Nat.testBit_shiftRight, hall i, hall (1 + i),
    Nat.testBit_two_pow]
  by_cases c1 : i ≤ k
  · by_cases c2 : 1 + i ≤ k
    · have c3 : ¬ k = i := by omega
      simp [c1, c2, c3]
    · have c3 : k = i := by omega
      have c4 : i < 64 := by omega
      simp [c1, c2, c3, c4]
  · have c2 : ¬ 1 + i ≤ k := by omega
    have c3 : ¬ k = i := by omega
    simp [c1, c2, c3]

theorem maskMsbOne_zero : maskMsbOne 64 0 = 0 := by
  simp [maskMsbOne]

theorem exists_top_bit (v : Nat) (hv : v ≠ 0) :
    2 ^ v.log2 ≤ v ∧ v < 2 ^ (v.log2 + 1) ∧ v.testBit v.log2 = true ∧
      ∀ j, v.log2 < j → v.testBit j = false := by
  have h1 := Nat.log2_self_le hv
  have h2 : v < 2 ^ (v.log2 + 1) := Nat.lt_log2_self
  refine ⟨h1, h2, testBit_of_top v _ h1 h2, ?_⟩
  intro j hj
  exact Nat.testBit_lt_two_pow (lt_of_lt_of_le h2 (Nat.pow_le_pow_right (by norm_num) hj))

theorem maskMsb_unsigned (v : Nat) (hv : v < 2 ^ 64) :
    (v = 0 → maskMsbOne 64 v = 0) ∧
      (v ≠ 0 → ∃ k, k < 64 ∧ v.testBit k = true ∧ (∀ j, k < j → v.testBit j = false) ∧
        maskMsbOne 64 v = 2 ^ k) ∧
      (v = 2 ^ 64 - 1 → maskMsbZero 64 v = 0) ∧
      (v ≠ 2 ^ 64 - 1 → ∃ k, k < 64 ∧ v.testBit k = false ∧
        (∀ j, k < j → j < 64 → v.testBit j = true) ∧ maskMsbZero 64 v = 2 ^ k) := by
  have top : ∀ u : Nat, u < 2 ^ 64 → u ≠ 0 →
      ∃ k, k < 64 ∧ u.testBit k = true ∧ (∀ j, k < j → u.testBit j = false) ∧
        maskMsbOne 64 u = 2 ^ k := by
    intro u hu h
    obtain ⟨h1, h2, h3, h4⟩ := exists_top_bit u h
    have hk : u.log2 < 64 :=
      (Nat.pow_lt_pow_iff_right (by norm_num)).1 (lt_of_le_of_lt h1 hu)
    exact ⟨u.log2, hk, h3, h4, maskMsbOne_eq u _ h1 h2 hk⟩
  refine ⟨?_, top v hv, ?_, ?_⟩
  · intro h
    rw [h]
    exact maskMsbOne_zero
  · intro h
    have hc : complement 64 v = 0 := by
      unfold complement
      omega
    unfold maskMsbZero
    rw [hc]
    exact maskMsbOne_zero
  · intro h
    have hc : complement 64 v ≠ 0 := by
      unfold complement
      omega
    obtain ⟨k, hk, h1, h2, h3⟩ := top (complement 64 v) (complement_lt 64 v) hc
    refine ⟨k, hk, ?_, ?_, h3⟩
    · rw [complement_testBit] at h1
      simpa [hk] using h1
    · intro j hj hj'
      have := h2 j hj
      rw [complement_testBit] at this
      simpa [hj'] using this

theorem maskMsb_signed (s : Int) (h0 : 0 ≤ s) (h1 : s < 2 ^ 63) :
    maskMsbOneSigned 64 s = (maskMsbOne 64 s.toNat : Nat) ∧
      maskMsbZeroSigned 64 s = -2 ^ 63 ∧
      toUnsigned 64 (maskMsbZeroSigned 64 s) = 2 ^ 63 := by
  have hu : toUnsigned 64 s = s.toNat := by
    unfold toUnsigned
    omega
  have hn : s.toNat < 2 ^ 63 := by omega
  have hz : toUnsigned 64 (-s - 1) = complement 64 s.toNat := by
    unfold toUnsigned complement
    omega
  have hone : maskMsbOne 64 s.toNat < 2 ^ 63 := by
    by_cases c : s.toNat = 0
    · rw [c, maskMsbOne_zero]
      norm_num
    · obtain ⟨a1, a2, _, _⟩ := exists_top_bit s.toNat c
      have hk : s.toNat.log2 < 63 :=
        (Nat.pow_lt_pow_iff_right (by norm_num)).1 (lt_of_le_of_lt a1 hn)
      rw [maskMsbOne_eq _ _ a1 a2 (by omega)]
      exact Nat.pow_lt_pow_right (by norm_num) hk
  have hzero : maskMsbOne 64 (complement 64 s.toNat) = 2 ^ 63 := by
    apply maskMsbOne_eq _ 63 _ _ (by norm_num)
    · unfold complement
      omega
    · exact complement_lt 64 _
  refine ⟨?_, ?_, ?_⟩
  · unfold maskMsbOneSigned toSigned
    rw [hu]
    have e : maskMsbOne 64 s.toNat % 2 ^ 64 = maskMsbOne 64 s.toNat := by omega
    rw [e, if_pos (by simpa using hone)]
  · unfold maskMsbZeroSigned maskMsbOneSigned toSigned
    rw [hz, hzero]
    norm_num
  · unfold maskMsbZeroSigned maskMsbOneSigned toSigned
    rw [hz, hzero]
    unfold toUnsigned
    norm_num
    rfl

theorem msbMask_of_lt (mode : WideShift) (a : Nat) (ha : a + a ≤ 64) :
    msbMask mode a = 2 ^ a * (2 ^ a - 1) := by
  have hpos := Nat.two_pow_pos a
  have h1 : 2 ^ a < 2 ^ 64 := Nat.pow_lt_pow_right (by norm_num) (by omega)
  have h2 : 2 ^ a * (2 ^ a - 1) < 2 ^ 64 := by
    have : 2 ^ a * 2 ^ a ≤ 2 ^ 64 := by
      rw [← pow_add]
      exact Nat.pow_le_pow_right (by norm_num) ha
    have : 2 ^ a * (2 ^ a - 1) < 2 ^ a * 2 ^ a :=
      Nat.mul_lt_mul_of_pos_left (by omega) hpos
    omega
  have hm : a % 64 = a := Nat.mod_eq_of_lt (by omega)
  have e1 : ∀ x, shiftLeft mode 64 x a = (x <<< a) % 2 ^ 64 := by
    intro x
    cases mode <;> simp [shiftLeft, hm]
  unfold msbMask
  rw [e1, e1, Nat.shiftLeft_eq, Nat.shiftLeft_eq, Nat.one_mul, Nat.mod_eq_of_lt h1]
  have e2 : (2 ^ a + 2 ^ 64 - 1) % 2 ^ 64 = 2 ^ a - 1 := by
    have : 2 ^ a + 2 ^ 64 - 1 = (2 ^ a - 1) + 2 ^ 64 := by omega
    rw [this, Nat.add_mod_right, Nat.mod_eq_of_lt (by omega)]
  rw [e2, Nat.mul_comm, Nat.mod_eq_of_lt h2]

theorem msbMask_sixty_four (mode : WideShift) : msbMask mode 64 = 0 := by
  cases mode <;> decide

theorem and_msbMask (a rv : Nat) (hrv : rv < 2 ^ (a + a)) :
    rv &&& (2 ^ a * (2 ^ a - 1)) = 2 ^ a * (rv / 2 ^ a) := by
  have hpos := Nat.two_pow_pos a
  have hlt : rv / 2 ^ a < 2 ^ a := by
    rw [Nat.div_lt_iff_lt_mul hpos, ← pow_add]
    exact hrv
  have h1 := and_split a (rv % 2 ^ a) (rv / 2 ^ a) 0 (2 ^ a - 1) (Nat.mod_lt _ hpos) hpos
  rw [Nat.mod_add_div, Nat.zero_add, Nat.and_zero, Nat.zero_add,
    Nat.and_pow_two_sub_one_eq_mod, Nat.mod_eq_of_lt hlt] at h1
  exact h1

theorem msbLoop_zero (mode : WideShift) (w rv m : Nat) : msbLoop mode w 0 rv m = m := by
  rw [msbLoop]
  simp

theorem msbLoop_step (mode : WideShift) (w a rv m : Nat) (ha0 : a ≠ 0) (ha : a + a ≤ w)
    (hw : w ≤ 64) (hrv : rv < 2 ^ (a + a)) :
    msbLoop mode w a rv m =
      if 2 ^ a ≤ rv then msbLoop mode w (a >>> 1) (rv / 2 ^ a) (m + a)
      else msbLoop mode w (a >>> 1) rv m := by
  have hpos := Nat.two_pow_pos a
  have hmask : msbMask mode a % 2 ^ w = 2 ^ a * (2 ^ a - 1) := by
    rw [msbMask_of_lt mode a (by omega)]
    apply Nat.mod_eq_of_lt
    have h1 : 2 ^ a * (2 ^ a - 1) < 2 ^ a * 2 ^ a := Nat.mul_lt_mul_of_pos_left (by omega) hpos
    have h2 : 2 ^ a * 2 ^ a ≤ 2 ^ w := by
      rw [← pow_add]
      exact Nat.pow_le_pow_right (by norm_num) ha
    omega
  have hshift : shiftRight mode w rv a = rv / 2 ^ a := by
    have hm : a % w = a := Nat.mod_eq_of_lt (by omega)
    cases mode <;> simp [shiftRight, hm, Nat.shiftRight_eq_div_pow]
  have hcond : rv &&& (msbMask mode a % 2 ^ w) ≠ 0 ↔ 2 ^ a ≤ rv := by
    rw [hmask, and_msbMask a rv hrv]
    constructor
    · intro h
      by_contra c
      apply h
      rw [Nat.div_eq_of_lt (by omega), Nat.mul_zero]
    · intro h hz
      have : 0 < rv / 2 ^ a := Nat.div_pos h hpos
      rcases Nat.mul_eq_zero.1 hz with h1 | h1 <;> omega
  rw [msbLoop, if_neg ha0, hshift]
  by_cases c : 2 ^ a ≤ rv
  · rw [if_pos (hcond.2 c), if_pos c]
  · rw [if_neg (fun h => c (hcond.1 h)), if_neg c]

theorem msbLoop_finds_top (mode : WideShift) (w : Nat) (hw : w ≤ 64) (j : Nat) :
    ∀ rv m : Nat, 1 ≤ rv → rv < 2 ^ (2 ^ j + 2 ^ j) → 2 ^ j + 2 ^ j ≤ w →
      ∃ k, msbLoop mode w (2 ^ j) rv m = m + k ∧ 2 ^ k ≤ rv ∧ rv < 2 ^ (k + 1) := by
  induction j with
  | zero =>
    intro rv m h1 h2 h3
    rw [msbLoop_step mode w _ rv m (by norm_num) h3 hw h2]
    have e : (2 ^ 0) >>> 1 = 0 := by decide
    rw [e, msbLoop_zero, msbLoop_zero]
    norm_num at h2 ⊢
    by_cases c : 2 ≤ rv
    · exact ⟨1, by rw [if_pos c], by omega, by omega⟩
    · exact ⟨0, by rw [if_neg c]; rfl, by omega, by omega⟩
  | succ j ih =>
    intro rv m h1 h2 h3
    have hpos := Nat.two_pow_pos (2 ^ (j + 1))
    have hj : 2 ^ (j + 1) = 2 ^ j + 2 ^ j := by
      rw [pow_succ]
      omega
    have e : (2 ^ (j + 1)) >>> 1 = 2 ^ j := by
      rw [Nat.shiftRight_eq_div_pow, hj]
      omega
    rw [msbLoop_step mode w _ rv m (Nat.two_pow_pos (j + 1)).ne' h3 hw h2, e]
    by_cases c : 2 ^ 2 ^ (j + 1) ≤ rv
    · rw [if_pos c]
      have d1 : 1 ≤ rv / 2 ^ 2 ^ (j + 1) := Nat.div_pos c hpos
      have d2 : rv / 2 ^ 2 ^ (j + 1) < 2 ^ (2 ^ j + 2 ^ j) := by
        rw [← hj, Nat.div_lt_iff_lt_mul hpos, ← pow_add]
        exact h2
      obtain ⟨k, r1, r2, r3⟩ := ih (rv / 2 ^ 2 ^ (j + 1)) (m + 2 ^ (j + 1)) d1 d2 (by omega)
      refine ⟨2 ^ (j + 1) + k, by rw [r1]; omega, ?_, ?_⟩
      · rw [pow_add]
        calc 2 ^ 2 ^ (j + 1) * 2 ^ k ≤ 2 ^ 2 ^ (j + 1) * (rv / 2 ^ 2 ^ (j + 1)) :=
              Nat.mul_le_mul_left _ r2
          _ ≤ rv := Nat.mul_div_le rv _
      · have r4 : rv < 2 ^ (k + 1) * 2 ^ 2 ^ (j + 1) := (Nat.div_lt_iff_lt_mul hpos).1 r3
        have r5 : 2 ^ (2 ^ (j + 1) + k + 1) = 2 ^ (k + 1) * 2 ^ 2 ^ (j + 1) := by
          rw [← pow_add]
          congr 1
          omega
        rw [r5]
        exact r4
    · rw [if_neg c]
      exact ih rv m h1 (by rw [← hj]; omega) (by omega)

/-- C25.  `msbLocation32(0)` and `msbLocation64(0)` are -1; for every non-zero 32-bit `v`,
`msbLocation32(v)` is the index `k ≤ 31` with `2^k ≤ v < 2^(k+1)`, and for every non-zero
64-bit `v`, `msbLocation64(v)` is the index `k ≤ 63` with `2^k ≤ v < 2^(k+1)`.  This holds
for either result of the shift by 64 bits in the first round of `msbLocation64`. -/
theorem msbLocation_top_bit (mode : WideShift) :
    msbLocation32 mode 0 = -1 ∧ msbLocation64 mode 0 = -1 ∧
      (∀ v : Nat, v ≠ 0 → v < 2 ^ 32 →
        ∃ k : Nat, k ≤ 31 ∧ msbLocation32 mode v = k ∧ 2 ^ k ≤ v ∧ v < 2 ^ (k + 1)) ∧
      (∀ v : Nat, v ≠ 0 → v < 2 ^ 64 →
        ∃ k : Nat, k ≤ 63 ∧ msbLocation64 mode v = k ∧ 2 ^ k ≤ v ∧ v < 2 ^ (k + 1)) := by
  refine ⟨by simp [msbLocation32], by simp [msbLocation64], ?_, ?_⟩
  · intro v h0 hv
    have hm : msbMask mode 32 % 2 ^ 32 = 0 := by
      rw [msbMask_of_lt mode 32 (by norm_num)]
      norm_num
    have first : msbLoop mode 32 32 v 0 = msbLoop mode 32 16 v 0 := by
      have e : 32 >>> 1 = 16 := by decide
      rw [msbLoop, if_neg (by norm_num), hm, Nat.and_zero, if_neg (by simp), e]
    obtain ⟨k, r1, r2, r3⟩ := msbLoop_finds_top mode 32 (by norm_num) 4 v 0 (by omega)
      (by norm_num; omega) (by norm_num)
    have hk : k < 32 := (Nat.pow_lt_pow_iff_right (by norm_num)).1 (lt_of_le_of_lt r2 hv)
    refine ⟨k, by omega, ?_, r2, r3⟩
    unfold msbLocation32
    rw [if_pos h0, first]
    norm_num at r1
    rw [r1]
  · intro v h0 hv
    have first : msbLoop mode 64 64 v 0 = msbLoop mode 64 32 v 0 := by
      have e : 64 >>> 1 = 32 := by decide
      rw [msbLoop, if_neg (by norm_num), msbMask_sixty_four, Nat.zero_mod, Nat.and_zero,
        if_neg (by simp), e]
    obtain ⟨k, r1, r2, r3⟩ := msbLoop_finds_top mode 64 (by norm_num) 5 v 0 (by omega)
      (by norm_num; omega) (by norm_num)
    have hk : k < 64 := (Nat.pow_lt_pow_iff_right (by norm_num)).1 (lt_of_le_of_lt r2 hv)
    refine ⟨k, by omega, ?_, r2, r3⟩
    unfold msbLocation64
    rw [if_pos h0, first]
    norm_num at r1
    rw [r1]

/-! ## The claims about the bit functions -/

/-- C24.  For every 32-bit value `v`, `numberOnes32(v)` is the number of one bits of `v`,
and for every 64-bit value `v`, `numberOnes64(v)` is the number of one bits of `v`: the count
of the tests, bit by bit, which is the number of bit positions of `v` that hold a one. -/
theorem numberOnes_counts_one_bits :
    (∀ v : Nat, v < 2 ^ 32 → numberOnes32 v = oneBits 32 v) ∧
      (∀ v : Nat, v < 2 ^ 64 → numberOnes64 v = oneBits 64 v) ∧
      (∀ width v : Nat,
        oneBits width v = ((List.range width).filter (fun i => v.testBit i)).length) ∧
      numberOnes32 0xF0F00001 = 9 ∧ numberOnes64 0xFFFFFFFFFFFFFFFF = 64 :=
  ⟨numberOnes32_eq_oneBits, numberOnes64_eq_oneBits, oneBits_eq_count, by decide, by decide⟩

theorem maskLsb_single_bit_witness :
    (40 : Nat) < 2 ^ 64 ∧ maskLsbOne 64 40 = 2 ^ 3 ∧ maskLsbZero 64 40 = 2 ^ 0 ∧
      (∃ k, k < 64 ∧ Nat.testBit 40 k = true ∧ (∀ j, j < k → Nat.testBit 40 j = false) ∧
        maskLsbOne 64 40 = 2 ^ k) :=
  ⟨by decide, by decide, by decide, (maskLsb_single_bit 40 (by decide)).2.1 (by decide)⟩

/-- C27.  For every 64-bit value `v`: `maskMsbOne(v)` is 0 when `v` is 0 and otherwise `2^k`
for the position `k` of the most significant one bit of `v`; `maskMsbZero(v)` is 0 when all
64 bits of `v` are set and otherwise `2^k` for the position `k` of the most significant zero
bit of `v`.  For every non-negative signed 64-bit value `s`, `maskMsbOne(s)` is the result
for the same bits taken as unsigned, and `maskMsbZero(s)` has the bit pattern `2^63`, bit 63
being the most significant zero bit of `s`. -/
theorem maskMsb_single_bit (v : Nat) (hv : v < 2 ^ 64) :
    (v = 0 → maskMsbOne 64 v = 0) ∧
      (v ≠ 0 → ∃ k, k < 64 ∧ v.testBit k = true ∧ (∀ j, k < j → v.testBit j = false) ∧
        maskMsbOne 64 v = 2 ^ k) ∧
      (v = 2 ^ 64 - 1 → maskMsbZero 64 v = 0) ∧
      (v ≠ 2 ^ 64 - 1 → ∃ k, k < 64 ∧ v.testBit k = false ∧
        (∀ j, k < j → j < 64 → v.testBit j = true) ∧ maskMsbZero 64 v = 2 ^ k) ∧
      (∀ s : Int, 0 ≤ s → s < 2 ^ 63 →
        maskMsbOneSigned 64 s = (maskMsbOne 64 s.toNat : Nat) ∧
          maskMsbZeroSigned 64 s = -2 ^ 63 ∧
          toUnsigned 64 (maskMsbZeroSigned 64 s) = 2 ^ 63) := by
  obtain ⟨h1, h2, h3, h4⟩ := maskMsb_unsigned v hv
  exact ⟨h1, h2, h3, h4, maskMsb_signed⟩

theorem maskMsb_single_bit_witness :
    (40 : Nat) < 2 ^ 64 ∧ maskMsbOne 64 40 = 2 ^ 5 ∧ maskMsbZero 64 40 = 2 ^ 63 ∧
      maskMsbOneSigned 64 40 = 32 ∧
      (∃ k, k < 64 ∧ Nat.testBit 40 k = true ∧ (∀ j, k < j → Nat.testBit 40 j = false) ∧
        maskMsbOne 64 40 = 2 ^ k) :=
  ⟨by decide, by decide, by decide, by decide,
    (maskMsb_single_bit 40 (by decide)).2.1 (by decide)⟩

/-- C28.  For every unsigned value `v` of `w` bits, `isPowerOf2(v)` is true exactly when `v`
has at most one bit set, that is when `v` is 0 or a power of two; it is true for 0 and for
every power of two below `2^w`, and false for every value in which two different bits are
set. -/
theorem isPowerOf2_at_most_one_bit (w v : Nat) (hv : v < 2 ^ w) :
    (isPowerOf2 w v = true ↔ v = 0 ∨ ∃ k, v = 2 ^ k) ∧
      (isPowerOf2 w v = true ↔
        ∀ i j, v.testBit i = true → v.testBit j = true → i = j) ∧
      isPowerOf2 w 0 = true ∧
      (∀ k, k < w → isPowerOf2 w (2 ^ k) = true) ∧
      (∀ i j, i ≠ j → v.testBit i = true → v.testBit j = true → isPowerOf2 w v = false) := by
  have h1 := isPowerOf2_iff w v hv
  have h2 : isPowerOf2 w v = true ↔
      ∀ i j, v.testBit i = true → v.testBit j = true → i = j := h1.trans (single_bit_iff v)
  refine ⟨h1, h2, ?_, ?_, ?_⟩
  · exact (isPowerOf2_iff w 0 (Nat.two_pow_pos w)).2 (Or.inl rfl)
  · intro k hk
    exact (isPowerOf2_iff w (2 ^ k) (Nat.pow_lt_pow_right (by norm_num) hk)).2
      (Or.inr ⟨k, rfl⟩)
  · intro i j hij hi hj
    cases h : isPowerOf2 w v with
    | false => rfl
    | true => exact absurd (h2.1 h i j hi hj) hij

theorem isPowerOf2_at_most_one_bit_witness :
    (40 : Nat) < 2 ^ 64 ∧ isPowerOf2 64 40 = false ∧ isPowerOf2 64 32 = true ∧
      isPowerOf2 64 0 = true ∧
      (isPowerOf2 64 40 = true ↔ 40 = 0 ∨ ∃ k, 40 = 2 ^ k) :=
  ⟨by decide, by decide, by decide, by decide,
    (isPowerOf2_at_most_one_bit 64 40 (by decide)).1⟩

/-! ## Units of a bit array -/

theorem and_one_shift (x r : Nat) (hr : r < 64) :
    (x &&& ((1 <<< r) % 2 ^ 64) != 0) = x.testBit r := by
  have h1 : (1 <<< r) % 2 ^ 64 = 2 ^ r := by
    rw [Nat.one_shiftLeft]
    exact Nat.mod_eq_of_lt (Nat.pow_lt_pow_right (by norm_num) hr)
  have hpos := Nat.two_pow_pos r
  rw [h1, Nat.and_two_pow]
  cases h : x.testBit r
  · simp
  · simp

theorem testBit_allOnes (j : Nat) : allOnes.testBit j = decide (j < 64) :=
  Nat.testBit_two_pow_sub_one 64 j

theorem testBit_startMask (s j : Nat) :
    ((allOnes <<< s) % 2 ^ 64).testBit j = decide (s ≤ j ∧ j < 64) := by
  rw [Nat.testBit_mod_two_pow, Nat.testBit_shiftLeft, testBit_allOnes]
  by_cases c1 : j < 64 <;> by_cases c2 : s ≤ j <;> simp [c1, c2]
  omega

theorem testBit_endMask_single (e j : Nat) :
    (complement 64 ((allOnes <<< (e + 1)) % 2 ^ 64)).testBit j = decide (j ≤ e ∧ j < 64) := by
  rw [complement_testBit, testBit_startMask]
  by_cases c1 : j < 64 <;> by_cases c2 : j ≤ e <;> simp [c1, c2]
  · omega
  · omega

theorem testBit_endMask (e j : Nat) (he : e < 63) :
    ((1 <<< (e + 1)) % 2 ^ 64 - 1).testBit j = decide (j ≤ e) := by
  have h1 : (1 <<< (e + 1)) % 2 ^ 64 = 2 ^ (e + 1) := by
    rw [Nat.one_shiftLeft]
    exact Nat.mod_eq_of_lt (Nat.pow_lt_pow_right (by norm_num) (by omega))
  rw [h1, Nat.testBit_two_pow_sub_one]
  by_cases c : j ≤ e <;> simp [c]
  · omega
  · omega

theorem testBit_update (nowSet : Bool) (unit mask j : Nat) (hj : j < 64) :
    (if nowSet = true then unit ||| mask else unit &&& complement 64 mask).testBit j =
      if mask.testBit j = true then nowSet else unit.testBit j := by
  cases nowSet
  · rw [if_neg (by simp), Nat.testBit_and, complement_testBit]
    cases h : mask.testBit j <;> simp [hj]
  · rw [if_pos rfl, Nat.testBit_or]
    cases h : mask.testBit j <;> simp

theorem update_lt (nowSet : Bool) (unit mask : Nat) (hu : unit < 2 ^ 64) (hm : mask < 2 ^ 64) :
    (if nowSet = true then unit ||| mask else unit &&& complement 64 mask) < 2 ^ 64 := by
  cases nowSet
  · rw [if_neg (by simp)]
    exact lt_of_le_of_lt Nat.and_le_left hu
  · rw [if_pos rfl]
    exact Nat.or_lt_two_pow hu hm

theorem getD_set (units : List AllocationUnit) (k : Nat) (u : AllocationUnit) (q : Nat) :
    (units.set k u).getD q 0 = if q = k ∧ k < units.length then u else units.getD q 0 := by
  rw [List.getD_eq_getElem?_getD, List.getD_eq_getElem?_getD, List.getElem?_set]
  by_cases c : k = q
  · subst c
    by_cases c2 : k < units.length
    · simp [c2]
    · simp [c2]
      rw [List.getElem?_eq_none (by omega)]
      rfl
  · have c' : ¬ q = k := fun h => c h.symm
    simp [c, c']

theorem length_fillUnits (units : List AllocationUnit) :
    ∀ start count fill, (fillUnits units start count fill).length = units.length := by
  induction units with
  | nil => intro s c f; rfl
  | cons u rest ih =>
    intro s c f
    cases s with
    | zero =>
      cases c with
      | zero => rfl
      | succ c => simp [fillUnits, ih]
    | succ s => simp [fillUnits, ih]

theorem getD_fillUnits (units : List AllocationUnit) :
    ∀ start count fill q, (fillUnits units start count fill).getD q 0 =
      if start ≤ q ∧ q < start + count ∧ q < units.length then fill else units.getD q 0 := by
  induction units with
  | nil => intro s c f q; simp [fillUnits]
  | cons u rest ih =>
    intro s c f q
    cases s with
    | zero =>
      cases c with
      | zero => simp [fillUnits]
      | succ c =>
        cases q with
        | zero => simp [fillUnits]
        | succ q =>
          simp only [fillUnits, List.getD_cons_succ, ih, List.length_cons]
          by_cases h : q < 0 + c ∧ q < rest.length
          · rw [if_pos ⟨Nat.zero_le _, h⟩, if_pos ⟨Nat.zero_le _, by omega, by omega⟩]
          · rw [if_neg (fun x => h x.2), if_neg (fun x => h ⟨by omega, by omega⟩)]
    | succ s =>
      cases q with
      | zero => simp [fillUnits]
      | succ q =>
        simp only [fillUnits, List.getD_cons_succ, ih, List.length_cons]
        by_cases h : s ≤ q ∧ q < s + c ∧ q < rest.length
        · rw [if_pos h, if_pos ⟨by omega, by omega, by omega⟩]
        · rw [if_neg h, if_neg (fun x => h ⟨by omega, by omega, by omega⟩)]

theorem readUnit_writeUnit (b : BitArray.Private) (k : Nat) (u : AllocationUnit) (q : Nat) :
    (b.writeUnit k u).readUnit q = if q = k ∧ k < b.unitCount then u else b.readUnit q := by
  unfold BitArray.Private.writeUnit BitArray.Private.readUnit BitArray.Private.unitCount
  cases h : b.data with
  | none => simp [h]
  | some units => exact getD_set units k u q

theorem readUnit_fill (b : BitArray.Private) (start count : Nat) (f : AllocationUnit) (q : Nat) :
    (b.fill start count f).readUnit q =
      if start ≤ q ∧ q < start + count ∧ q < b.unitCount then f else b.readUnit q := by
  unfold BitArray.Private.fill BitArray.Private.readUnit BitArray.Private.unitCount
  cases h : b.data with
  | none => simp [h]
  | some units => exact getD_fillUnits units start count f q

theorem frame_writeUnit (b : BitArray.Private) (k : Nat) (u : AllocationUnit) :
    (b.writeUnit k u).bitLength = b.bitLength ∧ (b.writeUnit k u).dataLength = b.dataLength ∧
      (b.writeUnit k u).unitCount = b.unitCount ∧
      ((b.writeUnit k u).data = none ↔ b.data = none) := by
  unfold BitArray.Private.writeUnit BitArray.Private.unitCount
  cases h : b.data with
  | none => simp [h]
  | some units => simp

theorem frame_fill (b : BitArray.Private) (start count : Nat) (f : AllocationUnit) :
    (b.fill start count f).bitLength = b.bitLength ∧
      (b.fill start count f).dataLength = b.dataLength ∧
      (b.fill start count f).unitCount = b.unitCount ∧
      ((b.fill start count f).data = none ↔ b.data = none) := by
  unfold BitArray.Private.fill BitArray.Private.unitCount
  cases h : b.data with
  | none => simp [h]
  | some units => simp [length_fillUnits]

theorem isSet_eq (b : BitArray.Private) (i : Nat) :
    b.isSet i = (decide (i < b.bitLength) && (b.readUnit (i / 64)).testBit (i % 64)) := by
  unfold BitArray.Private.isSet allocationUnitSize
  by_cases c : i ≥ b.bitLength
  · rw [if_pos c]
    simp
    intro h
    omega
  · rw [if_neg c, and_one_shift _ _ (Nat.mod_lt _ (by norm_num))]
    simp
    intro h
    omega


theorem allocationDataSize_eq (n : Nat) (h : n + 64 ≤ 2 ^ 64) :
    allocationDataSize n = (n + 63) / 64 := by
  unfold allocationDataSize allocationUnitSize
  have e : n + 64 - 1 = n + 63 := by omega
  rw [e, Nat.mod_eq_of_lt (by omega)]

theorem getD_take (units : List AllocationUnit) (n q : Nat) :
    (units.take n).getD q 0 = if q < n then units.getD q 0 else 0 := by
  rw [List.getD_eq_getElem?_getD, List.getD_eq_getElem?_getD, List.getElem?_take]
  by_cases c : q < n <;> simp [c]

theorem getD_of_length_le (units : List AllocationUnit) (q : Nat) (h : units.length ≤ q) :
    units.getD q 0 = 0 := by
  rw [List.getD_eq_getElem?_getD, List.getElem?_eq_none h]
  rfl

theorem getD_append_zeros (units : List AllocationUnit) (m q : Nat) :
    (units ++ List.replicate m 0).getD q 0 = units.getD q 0 := by
  by_cases c : q < units.length
  · exact List.getD_append _ _ _ _ c
  · rw [List.getD_append_right _ _ _ _ (by omega), getD_of_length_le units q (by omega),
      List.getD_eq_getElem?_getD, List.getElem?_replicate]
    by_cases c2 : q - units.length < m <;> simp [c2]

theorem readUnit_of_le (b : BitArray.Private) (q : Nat) (h : b.unitCount ≤ q) :
    b.readUnit q = 0 := by
  unfold BitArray.Private.readUnit
  unfold BitArray.Private.unitCount at h
  cases hd : b.data with
  | none => rfl
  | some units =>
    rw [hd] at h
    exact getD_of_length_le units q h

theorem resize_spec (b : BitArray.Private) (hb : b.Valid) (n : Nat) (hn : n + 64 ≤ 2 ^ 64) :
    (b.resize n).bitLength = n ∧ (b.resize n).Valid ∧
      ∀ q, (b.resize n).readUnit q = if q < allocationDataSize n then b.readUnit q else 0 := by
  obtain ⟨v1, v2, v3, v4, v5⟩ := hb
  have hsize := allocationDataSize_eq n hn
  have hsize' := allocationDataSize_eq b.bitLength v2
  unfold BitArray.Private.resize
  by_cases c1 : n ≠ b.bitLength
  · rw [if_pos c1]
    by_cases c2 : n = 0
    · rw [if_pos c2]
      subst c2
      refine ⟨rfl, ⟨by decide, by decide, rfl, fun _ => rfl, fun _ => ?_⟩, ?_⟩
      · show (0 : Nat) < 2 ^ 64
        norm_num
      intro q
      have : allocationDataSize 0 = 0 := by decide
      rw [this, if_neg (by omega)]
      rfl
    · rw [if_neg c2]
      cases hd : b.data with
      | none =>
        have hlen : b.bitLength = 0 := v4 hd
        have hcount : b.dataLength = 0 := by
          rw [← v3]
          unfold BitArray.Private.unitCount
          rw [hd]
        refine ⟨rfl, ⟨rfl, hn, ?_, ?_, ?_⟩, ?_⟩
        · simp [BitArray.Private.unitCount]
        · intro h
          exact Option.noConfusion h
        · intro q
          simp only [BitArray.Private.readUnit, List.getD_eq_getElem?_getD,
            List.getElem?_replicate]
          by_cases c : q < allocationDataSize n <;> simp [c]
        · intro q
          have hz : b.readUnit q = 0 := by
            unfold BitArray.Private.readUnit
            rw [hd]
          rw [hz]
          simp only [BitArray.Private.readUnit, List.getD_eq_getElem?_getD,
            List.getElem?_replicate]
          by_cases c : q < allocationDataSize n <;> simp [c]
      | some old =>
        have hlen : old.length = b.dataLength := by
          rw [← v3]
          unfold BitArray.Private.unitCount
          rw [hd]
        have hread : ∀ q, b.readUnit q = old.getD q 0 := by
          intro q
          unfold BitArray.Private.readUnit
          rw [hd]
        simp only []
        by_cases c3 : allocationDataSize n > b.dataLength
        · rw [if_pos c3]
          have hr : ∀ q, (BitArray.Private.mk (some (old.take b.dataLength ++
              List.replicate (allocationDataSize n - b.dataLength) 0))
              (allocationDataSize n) n).readUnit q =
                if q < allocationDataSize n then b.readUnit q else 0 := by
            intro q
            show (old.take b.dataLength ++ List.replicate _ 0).getD q 0 = _
            rw [getD_append_zeros, ← hlen, List.take_length, hread]
            by_cases c : q < allocationDataSize n
            · rw [if_pos c]
            · rw [if_neg c]
              exact getD_of_length_le old q (by omega)
          refine ⟨rfl, ⟨rfl, hn, ?_, ?_, ?_⟩, hr⟩
          · simp [BitArray.Private.unitCount]
            omega
          · intro h
            exact Option.noConfusion h
          · intro q
            rw [hr q]
            by_cases c : q < allocationDataSize n
            · rw [if_pos c]
              exact v5 q
            · rw [if_neg c]
              norm_num
        · rw [if_neg c3]
          have hr : ∀ q, (BitArray.Private.mk (some (old.take (allocationDataSize n)))
              (allocationDataSize n) n).readUnit q =
                if q < allocationDataSize n then b.readUnit q else 0 := by
            intro q
            show (old.take (allocationDataSize n)).getD q 0 = _
            rw [getD_take, hread]
          refine ⟨rfl, ⟨rfl, hn, ?_, ?_, ?_⟩, hr⟩
          · simp [BitArray.Private.unitCount]
            omega
          · intro h
            exact Option.noConfusion h
          · intro q
            rw [hr q]
            by_cases c : q < allocationDataSize n
            · rw [if_pos c]
              exact v5 q
            · rw [if_neg c]
              norm_num
  · rw [if_neg c1]
    have c1' : n = b.bitLength := by
      by_contra h
      exact c1 h
    refine ⟨c1'.symm, ⟨v1, v2, v3, v4, v5⟩, ?_⟩
    intro q
    by_cases c : q < allocationDataSize n
    · rw [if_pos c]
    · rw [if_neg c]
      apply readUnit_of_le
      rw [v3, v1, ← c1']
      omega

theorem resizeToFit_spec (b : BitArray.Private) (hb : b.Valid) (index : Nat)
    (hi : index + 64 < 2 ^ 64) :
    (b.resizeToFit index).bitLength = max b.bitLength (index + 1) ∧
      (b.resizeToFit index).Valid ∧
      (∀ q, (b.resizeToFit index).readUnit q = b.readUnit q) ∧
      index / 64 < (b.resizeToFit index).unitCount := by
  have hb' := hb
  obtain ⟨v1, v2, v3, v4, v5⟩ := hb
  unfold BitArray.Private.resizeToFit
  by_cases c : index ≥ b.bitLength
  · rw [if_pos c, Nat.mod_eq_of_lt (by omega)]
    obtain ⟨r1, r2, r3⟩ := resize_spec b hb' (index + 1) (by omega)
    have hsize := allocationDataSize_eq (index + 1) (by omega)
    have hsize' := allocationDataSize_eq b.bitLength v2
    refine ⟨by rw [r1]; omega, r2, ?_, ?_⟩
    · intro q
      rw [r3 q]
      by_cases c2 : q < allocationDataSize (index + 1)
      · rw [if_pos c2]
      · rw [if_neg c2]
        symm
        apply readUnit_of_le
        rw [v3, v1]
        omega
    · rw [r2.2.2.1, r2.1, r1, hsize]
      omega
  · rw [if_neg c]
    have hsize' := allocationDataSize_eq b.bitLength v2
    refine ⟨by omega, hb', fun _ => rfl, ?_⟩
    rw [v3, v1, hsize']
    omega


theorem testBit_maskedWrite (f : BitArray.Private) (k mask : Nat) (nowSet : Bool) (q r : Nat)
    (hr : r < 64) (hk : k < f.unitCount) :
    ((f.writeUnit k (if nowSet = true then f.readUnit k ||| mask
        else f.readUnit k &&& complement 64 mask)).readUnit q).testBit r =
      if q = k ∧ mask.testBit r = true then nowSet else (f.readUnit q).testBit r := by
  rw [readUnit_writeUnit]
  by_cases c : q = k
  · subst c
    rw [if_pos ⟨rfl, hk⟩, testBit_update _ _ _ _ hr]
    by_cases c2 : mask.testBit r = true
    · rw [if_pos c2, if_pos ⟨rfl, c2⟩]
    · rw [if_neg c2, if_neg (fun h => c2 h.2)]
  · rw [if_neg (fun h => c h.1), if_neg (fun h => c h.1)]

theorem testBit_fill (f : BitArray.Private) (start count : Nat) (nowSet : Bool) (q r : Nat)
    (hr : r < 64) :
    ((f.fill start count (if nowSet = true then allOnes else 0)).readUnit q).testBit r =
      if start ≤ q ∧ q < start + count ∧ q < f.unitCount then nowSet
      else (f.readUnit q).testBit r := by
  rw [readUnit_fill]
  by_cases c : start ≤ q ∧ q < start + count ∧ q < f.unitCount
  · rw [if_pos c, if_pos c]
    cases nowSet
    · simp
    · simp [testBit_allOnes, hr]
  · rw [if_neg c, if_neg c]

theorem startMask_lt (s : Nat) : (allOnes <<< s) % 2 ^ 64 < 2 ^ 64 :=
  Nat.mod_lt _ (by norm_num)

theorem endMask_lt (e : Nat) : (1 <<< (e + 1)) % 2 ^ 64 - 1 < 2 ^ 64 := by
  have := Nat.mod_lt (1 <<< (e + 1)) (by norm_num : 2 ^ 64 > 0)
  omega

theorem lt_maskedWrite (f : BitArray.Private) (k mask : Nat) (nowSet : Bool)
    (hf : ∀ q, f.readUnit q < 2 ^ 64) (hm : mask < 2 ^ 64) :
    ∀ q, (f.writeUnit k (if nowSet = true then f.readUnit k ||| mask
        else f.readUnit k &&& complement 64 mask)).readUnit q < 2 ^ 64 := by
  intro q
  rw [readUnit_writeUnit]
  by_cases c : q = k ∧ k < f.unitCount
  · rw [if_pos c]
    exact update_lt nowSet _ _ (hf k) hm
  · rw [if_neg c]
    exact hf q

theorem lt_fill (f : BitArray.Private) (start count : Nat) (nowSet : Bool)
    (hf : ∀ q, f.readUnit q < 2 ^ 64) :
    ∀ q, (f.fill start count (if nowSet = true then allOnes else 0)).readUnit q < 2 ^ 64 := by
  intro q
  rw [readUnit_fill]
  by_cases c : start ≤ q ∧ q < start + count ∧ q < f.unitCount
  · rw [if_pos c]
    cases nowSet
    · simp
    · simp [allOnes]
  · rw [if_neg c]
    exact hf q

theorem setBits_units_lt (b : BitArray.Private) (s e : Nat) (nowSet : Bool)
    (hf : ∀ q, (b.resizeToFit e).readUnit q < 2 ^ 64) :
    ∀ q, (b.setBits s e nowSet).readUnit q < 2 ^ 64 := by
  unfold BitArray.Private.setBits
  simp only [allocationUnitSize]
  generalize b.resizeToFit e = f at hf ⊢
  have hand : (allOnes <<< (s % 64)) % 2 ^ 64 &&&
      (if e % 64 = 64 - 1 then allOnes
        else complement 64 ((allOnes <<< (e % 64 + 1)) % 2 ^ 64)) < 2 ^ 64 :=
    lt_of_le_of_lt Nat.and_le_left (startMask_lt _)
  have ha : ∀ q, (if s % 64 = 0 then f
      else f.writeUnit (s / 64)
        (if nowSet = true then f.readUnit (s / 64) ||| (allOnes <<< (s % 64)) % 2 ^ 64
        else f.readUnit (s / 64) &&& complement 64 ((allOnes <<< (s % 64)) % 2 ^ 64))).readUnit
        q < 2 ^ 64 := by
    by_cases c : s % 64 = 0
    · rw [if_pos c]
      exact hf
    · rw [if_neg c]
      exact lt_maskedWrite f _ _ nowSet hf (startMask_lt _)
  generalize (if s % 64 = 0 then f
      else f.writeUnit (s / 64)
        (if nowSet = true then f.readUnit (s / 64) ||| (allOnes <<< (s % 64)) % 2 ^ 64
        else f.readUnit (s / 64) &&& complement 64 ((allOnes <<< (s % 64)) % 2 ^ 64))) = a
    at ha ⊢
  have hc : ∀ q, (if e % 64 = 64 - 1 then a
      else a.writeUnit (e / 64)
        (if nowSet = true then a.readUnit (e / 64) ||| ((1 <<< (e % 64 + 1)) % 2 ^ 64 - 1)
        else a.readUnit (e / 64) &&&
          complement 64 ((1 <<< (e % 64 + 1)) % 2 ^ 64 - 1))).readUnit q < 2 ^ 64 := by
    by_cases c : e % 64 = 64 - 1
    · rw [if_pos c]
      exact ha
    · rw [if_neg c]
      exact lt_maskedWrite a _ _ nowSet ha (endMask_lt _)
  generalize (if e % 64 = 64 - 1 then a
      else a.writeUnit (e / 64)
        (if nowSet = true then a.readUnit (e / 64) ||| ((1 <<< (e % 64 + 1)) % 2 ^ 64 - 1)
        else a.readUnit (e / 64) &&&
          complement 64 ((1 <<< (e % 64 + 1)) % 2 ^ 64 - 1))) = c at hc ⊢
  by_cases h1 : s / 64 = e / 64
  · rw [if_pos h1]
    exact lt_maskedWrite f _ _ nowSet hf hand
  · rw [if_neg h1]
    by_cases hw : (if e % 64 = 64 - 1 then e / 64 else (e / 64 + 2 ^ 64 - 1) % 2 ^ 64) ≥
        (if s % 64 = 0 then s / 64 else s / 64 + 1)
    · rw [if_pos hw]
      exact lt_fill c _ _ nowSet hc
    · rw [if_neg hw]
      exact hc

theorem setBits_spec (b : BitArray.Private) (s e : Nat) (nowSet : Bool) (hse : s ≤ e)
    (he : e < 2 ^ 64) (hfit : e / 64 < (b.resizeToFit e).unitCount) :
    (b.setBits s e nowSet).bitLength = (b.resizeToFit e).bitLength ∧
      (b.setBits s e nowSet).dataLength = (b.resizeToFit e).dataLength ∧
      (b.setBits s e nowSet).unitCount = (b.resizeToFit e).unitCount ∧
      ((b.setBits s e nowSet).data = none ↔ (b.resizeToFit e).data = none) ∧
      ∀ q r, r < 64 →
        ((b.setBits s e nowSet).readUnit q).testBit r =
          if s ≤ 64 * q + r ∧ 64 * q + r ≤ e then nowSet
          else ((b.resizeToFit e).readUnit q).testBit r := by
  have hs1 := Nat.div_add_mod s 64
  have he1 := Nat.div_add_mod e 64
  have hs2 := Nat.mod_lt s (by norm_num : 64 > 0)
  have he2 := Nat.mod_lt e (by norm_num : 64 > 0)
  unfold BitArray.Private.setBits
  simp only [allocationUnitSize]
  generalize b.resizeToFit e = f at hfit ⊢
  by_cases h1 : s / 64 = e / 64
  · rw [if_pos h1]
    obtain ⟨f1, f2, f3, f4⟩ := frame_writeUnit f (s / 64)
      (if nowSet = true then f.readUnit (s / 64) |||
          ((allOnes <<< (s % 64)) % 2 ^ 64 &&&
            if e % 64 = 64 - 1 then allOnes
            else complement 64 ((allOnes <<< (e % 64 + 1)) % 2 ^ 64))
        else f.readUnit (s / 64) &&& complement 64
          ((allOnes <<< (s % 64)) % 2 ^ 64 &&&
            if e % 64 = 64 - 1 then allOnes
            else complement 64 ((allOnes <<< (e % 64 + 1)) % 2 ^ 64)))
    refine ⟨f1, f2, f3, f4, ?_⟩
    intro q r hr
    rw [testBit_maskedWrite f _ _ nowSet q r hr (by omega), Nat.testBit_and, testBit_startMask]
    have hend : (if e % 64 = 64 - 1 then allOnes
        else complement 64 ((allOnes <<< (e % 64 + 1)) % 2 ^ 64)).testBit r =
          decide (r ≤ e % 64) := by
      by_cases c : e % 64 = 64 - 1
      · rw [if_pos c, testBit_allOnes]
        have : r ≤ e % 64 := by omega
        simp [hr, this]
      · rw [if_neg c, testBit_endMask_single]
        simp [hr]
    rw [hend]
    simp only [Bool.and_eq_true, decide_eq_true_eq]
    by_cases c : s ≤ 64 * q + r ∧ 64 * q + r ≤ e
    · rw [if_pos c, if_pos (by omega)]
    · rw [if_neg c, if_neg (by omega)]
  · rw [if_neg h1]
    have hlt : s / 64 < e / 64 := by
      have := Nat.div_le_div_right (c := 64) hse
      omega
    have hwrap : (e / 64 + 2 ^ 64 - 1) % 2 ^ 64 = e / 64 - 1 := by
      have e1 : e / 64 + 2 ^ 64 - 1 = (e / 64 - 1) + 2 ^ 64 := by omega
      rw [e1, Nat.add_mod_right, Nat.mod_eq_of_lt (by omega)]
    rw [hwrap]
    -- the start unit
    generalize hA : (if s % 64 = 0 then f
      else f.writeUnit (s / 64)
        (if nowSet = true then f.readUnit (s / 64) ||| (allOnes <<< (s % 64)) % 2 ^ 64
        else f.readUnit (s / 64) &&& complement 64 ((allOnes <<< (s % 64)) % 2 ^ 64))) = a
    have ha : a.bitLength = f.bitLength ∧ a.dataLength = f.dataLength ∧
        a.unitCount = f.unitCount ∧ (a.data = none ↔ f.data = none) ∧
        ∀ q r, r < 64 → (a.readUnit q).testBit r =
          if s % 64 ≠ 0 ∧ q = s / 64 ∧ s % 64 ≤ r then nowSet
          else (f.readUnit q).testBit r := by
      rw [← hA]
      by_cases c : s % 64 = 0
      · rw [if_pos c]
        refine ⟨rfl, rfl, rfl, Iff.rfl, ?_⟩
        intro q r _
        rw [if_neg (fun h => h.1 c)]
      · rw [if_neg c]
        obtain ⟨f1, f2, f3, f4⟩ := frame_writeUnit f (s / 64)
          (if nowSet = true then f.readUnit (s / 64) ||| (allOnes <<< (s % 64)) % 2 ^ 64
          else f.readUnit (s / 64) &&& complement 64 ((allOnes <<< (s % 64)) % 2 ^ 64))
        refine ⟨f1, f2, f3, f4, ?_⟩
        intro q r hr
        rw [testBit_maskedWrite f _ _ nowSet q r hr (by omega), testBit_startMask]
        simp only [decide_eq_true_eq]
        by_cases c2 : q = s / 64 ∧ s % 64 ≤ r
        · rw [if_pos ⟨c2.1, c2.2, hr⟩, if_pos ⟨c, c2⟩]
        · rw [if_neg (fun h => c2 ⟨h.1, h.2.1⟩), if_neg (fun h => c2 h.2)]
    obtain ⟨a1, a2, a3, a4, a5⟩ := ha
    clear hA
    -- the end unit
    generalize hB : (if e % 64 = 64 - 1 then a
      else a.writeUnit (e / 64)
        (if nowSet = true then a.readUnit (e / 64) ||| ((1 <<< (e % 64 + 1)) % 2 ^ 64 - 1)
        else a.readUnit (e / 64) &&& complement 64 ((1 <<< (e % 64 + 1)) % 2 ^ 64 - 1))) = c
    have hc : c.bitLength = f.bitLength ∧ c.dataLength = f.dataLength ∧
        c.unitCount = f.unitCount ∧ (c.data = none ↔ f.data = none) ∧
        ∀ q r, r < 64 → (c.readUnit q).testBit r =
          if e % 64 ≠ 63 ∧ q = e / 64 ∧ r ≤ e % 64 then nowSet
          else (a.readUnit q).testBit r := by
      rw [← hB]
      by_cases c0 : e % 64 = 64 - 1
      · rw [if_pos c0]
        refine ⟨a1, a2, a3, a4, ?_⟩
        intro q r _
        rw [if_neg (fun h => h.1 c0)]
      · rw [if_neg c0]
        obtain ⟨f1, f2, f3, f4⟩ := frame_writeUnit a (e / 64)
          (if nowSet = true then a.readUnit (e / 64) ||| ((1 <<< (e % 64 + 1)) % 2 ^ 64 - 1)
          else a.readUnit (e / 64) &&& complement 64 ((1 <<< (e % 64 + 1)) % 2 ^ 64 - 1))
        refine ⟨f1.trans a1, f2.trans a2, f3.trans a3, f4.trans a4, ?_⟩
        intro q r hr
        rw [testBit_maskedWrite a _ _ nowSet q r hr (by omega),
          testBit_endMask _ _ (by omega)]
        simp only [decide_eq_true_eq]
        by_cases c2 : q = e / 64 ∧ r ≤ e % 64
        · rw [if_pos c2, if_pos ⟨by omega, c2⟩]
        · rw [if_neg c2, if_neg (fun h => c2 h.2)]
    obtain ⟨c1, c2, c3, c4, c5⟩ := hc
    clear hB
    -- the whole units
    by_cases hw : (if e % 64 = 64 - 1 then e / 64 else e / 64 - 1) ≥
        (if s % 64 = 0 then s / 64 else s / 64 + 1)
    · rw [if_pos hw]
      obtain ⟨f1, f2, f3, f4⟩ := frame_fill c (if s % 64 = 0 then s / 64 else s / 64 + 1)
        ((if e % 64 = 64 - 1 then e / 64 else e / 64 - 1) -
          (if s % 64 = 0 then s / 64 else s / 64 + 1) + 1) (if nowSet = true then allOnes else 0)
      refine ⟨f1.trans c1, f2.trans c2, f3.trans c3, f4.trans c4, ?_⟩
      intro q r hr
      rw [testBit_fill c _ _ nowSet q r hr, c5 q r hr, a5 q r hr, c3]
      by_cases k1 : s % 64 = 0 <;> by_cases k2 : e % 64 = 64 - 1
      all_goals
        simp only [k1, k2, if_true, if_false] at hw ⊢
        split_ifs <;> first | rfl | (exfalso; omega)
    · rw [if_neg hw]
      refine ⟨c1, c2, c3, c4, ?_⟩
      intro q r hr
      rw [c5 q r hr, a5 q r hr]
      by_cases k1 : s % 64 = 0 <;> by_cases k2 : e % 64 = 64 - 1
      all_goals
        simp only [k1, k2, if_true, if_false] at hw ⊢
        split_ifs <;> first | rfl | (exfalso; omega)


theorem setBits_valid (b : BitArray.Private) (hb : b.Valid) (s e : Nat) (nowSet : Bool)
    (hse : s ≤ e) (he : e + 64 < 2 ^ 64) : (b.setBits s e nowSet).Valid := by
  obtain ⟨r1, r2, r3, r4⟩ := resizeToFit_spec b hb e he
  obtain ⟨s1, s2, s3, s4, _⟩ := setBits_spec b s e nowSet hse (by omega) r4
  obtain ⟨v1, v2, v3, v4, v5⟩ := r2
  refine ⟨?_, ?_, ?_, ?_, setBits_units_lt b s e nowSet v5⟩
  · rw [s2, s1]
    exact v1
  · rw [s1]
    exact v2
  · rw [s3, s2]
    exact v3
  · intro h
    rw [s1]
    exact v4 (s4.1 h)

theorem valid_empty : BitArray.Private.empty.Valid :=
  ⟨by decide, by decide, rfl, fun _ => rfl, fun _ => by
    show (0 : Nat) < 2 ^ 64
    norm_num⟩

/-! ## The claims about `setBits` and `resize` -/

theorem valid_ofSize (numberBits : Nat) (value : Bool) (h : numberBits + 64 ≤ 2 ^ 64) :
    (BitArray.Private.ofSize numberBits value).Valid := by
  have hsize := allocationDataSize_eq numberBits h
  have hget : ∀ (units : List AllocationUnit), (∀ u ∈ units, u < 2 ^ 64) →
      ∀ q, units.getD q 0 < 2 ^ 64 := by
    intro units hu q
    by_cases c : q < units.length
    · rw [List.getD_eq_getElem?_getD, List.getElem?_eq_getElem c]
      exact hu _ (List.getElem_mem c)
    · rw [getD_of_length_le units q (by omega)]
      norm_num
  unfold BitArray.Private.ofSize
  cases value with
  | false =>
    rw [if_pos rfl]
    refine ⟨rfl, h, ?_, ?_, ?_⟩
    · simp [BitArray.Private.unitCount]
    · intro hn
      exact Option.noConfusion hn
    · intro q
      apply hget
      intro u hu
      rw [List.eq_of_mem_replicate hu]
      norm_num
  | true =>
    rw [if_neg (by simp)]
    refine ⟨rfl, h, ?_, ?_, ?_⟩
    · simp only [BitArray.Private.unitCount, List.length_append, List.length_replicate,
        allocationUnitSize]
      rw [hsize]
      by_cases c : numberBits % 64 > 0
      · rw [if_pos c]
        simp only [List.length_singleton]
        omega
      · rw [if_neg c]
        simp only [List.length_nil]
        omega
    · intro hn
      exact Option.noConfusion hn
    · intro q
      apply hget
      intro u hu
      rcases List.mem_append.1 hu with hu | hu
      · rw [List.eq_of_mem_replicate hu]
        unfold allOnes
        norm_num
      · by_cases c : numberBits % allocationUnitSize > 0
        · rw [if_pos c] at hu
          rw [List.mem_singleton.1 hu]
          exact lt_of_le_of_lt (Nat.sub_le _ _) (Nat.mod_lt _ (by norm_num))
        · rw [if_neg c] at hu
          simp at hu

/-- C29.  For every valid bit array, every `start ≤ end` (below `2^64 - 64`) and every value
`v`: after `setBits(start, end, v)` the size is the maximum of the old size and `end + 1`,
`isSet(i)` is `v` for every `start ≤ i ≤ end`, and `isSet(i)` is as before for every `i`
below the old size outside the range; `clearBits(start, end, c)` is `setBits(start, end, !c)`;
the array is valid again.  Ranges within one unit and ranges over several units are both
covered. -/
theorem setBits_sets_range (b : BitArray.Private) (hb : b.Valid) (startingIndex endingIndex : Nat)
    (nowSet : Bool) (hse : startingIndex ≤ endingIndex) (he : endingIndex + 64 < 2 ^ 64) :
    (b.setBits startingIndex endingIndex nowSet).size = max b.size (endingIndex + 1) ∧
      (∀ i, startingIndex ≤ i → i ≤ endingIndex →
        (b.setBits startingIndex endingIndex nowSet).isSet i = nowSet) ∧
      (∀ i, i < b.size → (i < startingIndex ∨ endingIndex < i) →
        (b.setBits startingIndex endingIndex nowSet).isSet i = b.isSet i) ∧
      (∀ nowCleared : Bool,
        b.clearBits startingIndex endingIndex nowCleared =
          b.setBits startingIndex endingIndex (!nowCleared)) ∧
      (b.setBits startingIndex endingIndex nowSet).Valid := by
  obtain ⟨r1, r2, r3, r4⟩ := resizeToFit_spec b hb endingIndex he
  obtain ⟨s1, _, _, _, s5⟩ := setBits_spec b startingIndex endingIndex nowSet hse (by omega) r4
  have hsize : (b.setBits startingIndex endingIndex nowSet).bitLength =
      max b.bitLength (endingIndex + 1) := by rw [s1, r1]
  refine ⟨hsize, ?_, ?_, fun _ => rfl,
    setBits_valid b hb startingIndex endingIndex nowSet hse he⟩
  · intro i h1 h2
    have hi := Nat.div_add_mod i 64
    rw [isSet_eq, hsize, s5 _ _ (Nat.mod_lt _ (by norm_num)), if_pos (by omega)]
    have : i < max b.bitLength (endingIndex + 1) := by omega
    simp [this]
  · intro i h1 h2
    have hi := Nat.div_add_mod i 64
    have h1' : i < b.bitLength := h1
    rw [isSet_eq, isSet_eq, hsize, s5 _ _ (Nat.mod_lt _ (by norm_num)), if_neg (by omega), r3]
    have : i < max b.bitLength (endingIndex + 1) := by omega
    simp [this, h1']

theorem setBits_sets_range_witness :
    (3 : Nat) ≤ 130 ∧ (130 : Nat) + 64 < 2 ^ 64 ∧
      (BitArray.Private.empty.setBits 3 130 true).size = max BitArray.Private.empty.size 131 ∧
      (BitArray.Private.empty.setBits 3 130 true).isSet 64 = true ∧
      (BitArray.Private.empty.setBits 3 130 true).isSet 2 = false ∧
      ((BitArray.Private.empty.setBits 3 130 true).clearBits 60 70 true).isSet 59 = true ∧
      ((BitArray.Private.empty.setBits 3 130 true).clearBits 60 70 true).isSet 64 = false :=
  ⟨by decide, by decide,
    (setBits_sets_range BitArray.Private.empty valid_empty 3 130 true (by decide)
      (by decide)).1,
    (setBits_sets_range BitArray.Private.empty valid_empty 3 130 true (by decide)
      (by decide)).2.1 64 (by decide) (by decide),
    by decide, by decide, by decide⟩

/-- C30 (the code at the failing input).  An array of 8 set bits that is resized to 4 bits
and then to 8 bits again has size 8 and reads bits 4 to 7 as set: `resize` copies whole units
and never clears the bits above the new length.  The same holds when the array is built with
`setBits` from the empty array, and when `setBit(6, false)` makes the shrunk array longer:
bit 5, which the call did not write, reads as set.  For every valid array and every longer
length the size becomes the new length, the bits below the old size keep their values, and a
newly added index reads the bit that the storage held at that place. -/
theorem resize_keeps_stale_bits :
    (((BitArray.Private.ofSize 8 true).resize 4).resize 8).size = 8 ∧
      ((BitArray.Private.ofSize 8 true).resize 4).size = 4 ∧
      ((BitArray.Private.ofSize 8 true).resize 4).isSet 5 = false ∧
      (((BitArray.Private.ofSize 8 true).resize 4).resize 8).isSet 5 = true ∧
      (((BitArray.Private.empty.setBits 0 7 true).resize 4).resize 8).isSet 5 = true ∧
      (((BitArray.Private.ofSize 8 true).resize 4).setBit 6 false).size = 7 ∧
      (((BitArray.Private.ofSize 8 true).resize 4).setBit 6 false).isSet 5 = true ∧
      (∀ (b : BitArray.Private) (n : Nat), b.Valid → b.size < n → n + 64 ≤ 2 ^ 64 →
        (b.resize n).size = n ∧
          (∀ i, i < b.size → (b.resize n).isSet i = b.isSet i) ∧
          (∀ i, b.size ≤ i → i < n →
            (b.resize n).isSet i = (b.readUnit (i / 64)).testBit (i % 64))) := by
  refine ⟨by decide, by decide, by decide, by decide, by decide, by decide, by decide, ?_⟩
  intro b n hb hlt hn
  obtain ⟨r1, _, r3⟩ := resize_spec b hb n hn
  have hsize := allocationDataSize_eq n hn
  have hlt' : b.bitLength < n := hlt
  refine ⟨r1, ?_, ?_⟩
  · intro i hi
    have hi' : i < b.bitLength := hi
    rw [isSet_eq, isSet_eq, r1, r3, if_pos (by rw [hsize]; omega)]
    have : i < n := by omega
    simp [this, hi']
  · intro i _ hi
    rw [isSet_eq, r1, r3, if_pos (by rw [hsize]; omega)]
    simp [hi]

/-! ## Groups are isolated -/

theorem searchGroup_registerPattern_other (e : FuzzySearchEngine) (pattern : TokenizedValue)
    (g : GroupId) (patternId : PatternId) (query : TokenizedValue) (groupId : GroupId)
    (hne : groupId ≠ g) (hitCounts : HitCounts) :
    (e.registerPattern pattern g patternId).searchGroup query groupId hitCounts =
      e.searchGroup query groupId hitCounts := by
  unfold FuzzySearchEngine.searchGroup FuzzySearchEngine.registerPattern
  simp only
  rw [qmap_contains_modify, qmap_value_modify, if_neg hne]
  simp [hne]

theorem foldl_searchGroup_registerPattern_other (e : FuzzySearchEngine)
    (pattern : TokenizedValue) (g : GroupId) (patternId : PatternId) (query : TokenizedValue)
    (groupIds : List GroupId) (hg : g ∉ groupIds) :
    ∀ hitCounts : HitCounts,
      groupIds.foldl
          (fun hitCounts groupId =>
            (e.registerPattern pattern g patternId).searchGroup query groupId hitCounts)
          hitCounts =
        groupIds.foldl (fun hitCounts groupId => e.searchGroup query groupId hitCounts)
          hitCounts := by
  induction groupIds with
  | nil => intro hitCounts; rfl
  | cons x rest ih =>
    intro hitCounts
    have hx : x ≠ g := fun h => hg (by simp [h])
    have hrest : g ∉ rest := fun h => hg (List.mem_cons_of_mem _ h)
    simp only [List.foldl_cons]
    rw [searchGroup_registerPattern_other e pattern g patternId query x hx, ih hrest]

theorem flatMap_value_registerPattern_other (e : FuzzySearchEngine)
    (pattern : TokenizedValue) (g : GroupId) (patternId : PatternId)
    (groupIds : List GroupId) (hg : g ∉ groupIds) :
    groupIds.flatMap
        (fun groupId => (e.registerPattern pattern g patternId).patternIdsByGroupId.value groupId [])
      = groupIds.flatMap (fun groupId => e.patternIdsByGroupId.value groupId []) := by
  induction groupIds with
  | nil => rfl
  | cons x rest ih =>
    have hx : x ≠ g := fun h => hg (by simp [h])
    have hrest : g ∉ rest := fun h => hg (List.mem_cons_of_mem _ h)
    simp only [List.flatMap_cons]
    rw [ih hrest]
    congr 1
    unfold FuzzySearchEngine.registerPattern
    simp only
    rw [qmap_value_modify, if_neg hx]

/-- C37.  Groups are isolated: for every engine state, pattern, pattern id and group `g`, and
for every query, empty or not, `registerPattern pattern g patternId` leaves unchanged the
result of every search whose group list is non-empty and does not contain `g`. -/
theorem search_registerPattern_other_groups (e : FuzzySearchEngine) (pattern : TokenizedValue)
    (g : GroupId) (patternId : PatternId) (query : TokenizedValue) (groupIds : List GroupId)
    (hne : groupIds ≠ []) (hg : g ∉ groupIds) :
    (e.registerPattern pattern g patternId).search query groupIds = e.search query groupIds := by
  have hempty : ¬ groupIds.isEmpty = true := fun h => hne (List.isEmpty_iff.1 h)
  unfold FuzzySearchEngine.search FuzzySearchEngine.collectHits
  simp only [if_neg hempty, removeStopWordsFrom_registerPattern]
  rw [flatMap_value_registerPattern_other e pattern g patternId groupIds hg,
    foldl_searchGroup_registerPattern_other e pattern g patternId _ groupIds hg]

theorem search_registerPattern_other_groups_witness :
    ([1] : List GroupId) ≠ [] ∧ (2 : GroupId) ∉ ([1] : List GroupId) ∧
      (smallEngine.registerPattern ⟨[2, 3]⟩ 2 13).search ⟨[2, 3]⟩ [1] =
        smallEngine.search ⟨[2, 3]⟩ [1] :=
  ⟨by decide, by decide,
    search_registerPattern_other_groups smallEngine ⟨[2, 3]⟩ 2 13 ⟨[2, 3]⟩ [1] (by decide)
      (by decide)⟩

/-! ## The capacity limit and the interner -/

theorem flushWord_frozen (ops : CharOps) (acc : Interner × TokenizedValue) (word : QString)
    (hf : nextToken acc.1 = invalidToken) :
    (flushWord ops true acc word).1 = acc.1 := by
  obtain ⟨st, v⟩ := acc
  unfold flushWord addKeyword
  simp only
  by_cases c1 : QHash.contains st.tokensByKeyword (ops.toLower word) = true
  · rw [if_pos c1]
  · rw [if_neg c1, if_pos trivial, if_neg (fun h => h hf)]

theorem foldl_flushWord_frozen (ops : CharOps) (words : List QString) :
    ∀ acc : Interner × TokenizedValue, nextToken acc.1 = invalidToken →
      (words.foldl (flushWord ops true) acc).1 = acc.1 := by
  induction words with
  | nil => intro acc _; rfl
  | cons w ws ih =>
    intro acc hf
    have h1 := flushWord_frozen ops acc w hf
    rw [List.foldl_cons, ih _ (by rw [h1]; exact hf), h1]

theorem flushWord_grows_or_frozen (ops : CharOps) (acc : Interner × TokenizedValue)
    (word : QString) (hv : acc.2.length < 31) :
    (flushWord ops true acc word).2.length = acc.2.length + 1 ∨
      nextToken (flushWord ops true acc word).1 = invalidToken := by
  obtain ⟨st, v⟩ := acc
  have hv' : v.length < 31 := hv
  unfold flushWord addKeyword
  simp only [addToken_of_room v _ hv']
  by_cases c1 : QHash.contains st.tokensByKeyword (ops.toLower word) = true
  · rw [if_pos c1]
    left
    simp [TokenizedValue.length]
  · rw [if_neg c1, if_pos trivial]
    by_cases c3 : nextToken st ≠ invalidToken
    · rw [if_pos c3, if_pos trivial]
      left
      simp [TokenizedValue.length]
    · rw [if_neg c3]
      right
      exact not_not.1 c3

theorem foldl_flushWord_full_or_frozen (ops : CharOps) (words : List QString) :
    ∀ acc : Interner × TokenizedValue, acc.2.length + words.length ≤ 31 →
      (words.foldl (flushWord ops true) acc).2.length = acc.2.length + words.length ∨
        nextToken (words.foldl (flushWord ops true) acc).1 = invalidToken := by
  induction words with
  | nil => intro acc _; left; rfl
  | cons w ws ih =>
    intro acc hlen
    have hlen' : acc.2.length + (ws.length + 1) ≤ 31 := hlen
    rw [List.foldl_cons]
    rcases flushWord_grows_or_frozen ops acc w (by omega) with hg | hf
    · rcases ih (flushWord ops true acc w) (by rw [hg]; omega) with h | h
      · left
        rw [h, hg, List.length_cons]
        omega
      · right; exact h
    · right
      rw [foldl_flushWord_frozen ops ws _ hf]
      exact hf

theorem foldl_flushWord_take (ops : CharOps) (st : Interner) (words : List QString) :
    (words.foldl (flushWord ops true) (st, TokenizedValue.empty)).1 =
      ((words.take 31).foldl (flushWord ops true) (st, TokenizedValue.empty)).1 := by
  by_cases hshort : words.length ≤ 31
  · rw [List.take_of_length_le hshort]
  · have htake : (words.take 31).length = 31 := by
      rw [List.length_take]
      omega
    conv_lhs => rw [← List.take_append_drop 31 words]
    rw [List.foldl_append]
    rcases foldl_flushWord_full_or_frozen ops (words.take 31) (st, TokenizedValue.empty)
      (by
        show 0 + (words.take 31).length ≤ 31
        omega) with h | h
    · rw [foldl_flushWord_of_full ops true _ _ (by
        rw [h, htake]
        show 31 ≤ 0 + 31
        omega)]
    · exact foldl_flushWord_frozen ops _ _ h

/-- C39.  Words dropped by the capacity limit are not interned: for every interner state,
every text of more than 31 words and every text whose words are the first 31 words of it, the
interner after `tokenize text true` is the interner after tokenizing the shorter text; hence
a word whose lower-case form has no token after the first 31 words has none after the whole
text. -/
theorem tokenize_interns_first_words_only (ops : CharOps) (st : Interner) (text text' : QString)
    (hmore : 31 < (specWords ops text).length)
    (hfirst : specWords ops text' = (specWords ops text).take 31) :
    (tokenize ops st text true).1 = (tokenize ops st text' true).1 ∧
      (specWords ops text').length = 31 ∧
      ∀ w : QString,
        QHash.contains (tokenize ops st text' true).1.tokensByKeyword (ops.toLower w) = false →
          QHash.contains (tokenize ops st text true).1.tokensByKeyword (ops.toLower w) = false := by
  have h : (tokenize ops st text true).1 = (tokenize ops st text' true).1 := by
    rw [tokenize_eq_fold, tokenize_eq_fold, hfirst]
    exact foldl_flushWord_take ops st (specWords ops text)
  refine ⟨h, ?_, ?_⟩
  · rw [hfirst, List.length_take]
    omega
  · intro w hw
    rw [h]
    exact hw

theorem tokenize_interns_first_words_only_witness :
    31 < (specWords qtAscii (repeatedWord 31 ++ "c d".toList)).length ∧
      specWords qtAscii (repeatedWord 31) =
        (specWords qtAscii (repeatedWord 31 ++ "c d".toList)).take 31 ∧
      (tokenize qtAscii Interner.empty (repeatedWord 31 ++ "c d".toList) true).1 =
        (tokenize qtAscii Interner.empty (repeatedWord 31) true).1 ∧
      QHash.contains
        (tokenize qtAscii Interner.empty (repeatedWord 31 ++ "c d".toList) true).1.tokensByKeyword
        (qtAscii.toLower "c".toList) = false :=
  ⟨by decide, by decide,
    (tokenize_interns_first_words_only qtAscii Interner.empty
      (repeatedWord 31 ++ "c d".toList) (repeatedWord 31) (by decide) (by decide)).1,
    (tokenize_interns_first_words_only qtAscii Interner.empty
      (repeatedWord 31 ++ "c d".toList) (repeatedWord 31) (by decide) (by decide)).2.2
      "c".toList (by decide!)⟩

/-! ## Comparison of bit arrays and ordering of bit sets -/

theorem differs_eq_not_equals (sameImpl : Bool) (impl otherImpl : BitArray.Private) :
    BitArray.differs sameImpl impl otherImpl = !BitArray.equals sameImpl impl otherImpl := by
  unfold BitArray.differs BitArray.equals BitArray.Private.differs
  cases sameImpl <;> simp

theorem equalUnits_iff (a other : BitArray.Private) :
    ∀ remaining index : Nat,
      a.equalUnits other remaining index = true ↔
        ∀ u, index ≤ u → u < index + remaining →
          (if u < a.dataLength - 1 then a.readUnit u == other.readUnit u
          else if (a.bitLength + 2 ^ 64 - (u * allocationUnitSize) % 2 ^ 64) % 2 ^ 64 =
              allocationUnitSize then a.readUnit u == other.readUnit u
          else
            (a.readUnit u &&&
                ((1 <<< ((a.bitLength + 2 ^ 64 - (u * allocationUnitSize) % 2 ^ 64) % 2 ^ 64)) %
                  2 ^ 64 - 1)) ==
              (other.readUnit u &&&
                ((1 <<< ((a.bitLength + 2 ^ 64 - (u * allocationUnitSize) % 2 ^ 64) % 2 ^ 64)) %
                  2 ^ 64 - 1))) = true := by
  intro remaining
  induction remaining with
  | zero =>
    intro index
    simp only [BitArray.Private.equalUnits, true_iff]
    intro u h1 h2
    omega
  | succ r ih =>
    intro index
    simp only [BitArray.Private.equalUnits]
    constructor
    · intro h u h1 h2
      by_cases c : u = index
      · subst c
        by_contra hno
        rw [if_neg hno] at h
        exact Bool.noConfusion h
      · by_cases c2 : (if index < a.dataLength - 1 then a.readUnit index == other.readUnit index
            else if (a.bitLength + 2 ^ 64 - (index * allocationUnitSize) % 2 ^ 64) % 2 ^ 64 =
                allocationUnitSize then a.readUnit index == other.readUnit index
            else
              (a.readUnit index &&&
                  ((1 <<< ((a.bitLength + 2 ^ 64 - (index * allocationUnitSize) % 2 ^ 64) %
                    2 ^ 64)) % 2 ^ 64 - 1)) ==
                (other.readUnit index &&&
                  ((1 <<< ((a.bitLength + 2 ^ 64 - (index * allocationUnitSize) % 2 ^ 64) %
                    2 ^ 64)) % 2 ^ 64 - 1))) = true
        · rw [if_pos c2] at h
          exact (ih (index + 1)).1 h u (by omega) (by omega)
        · rw [if_neg c2] at h
          exact Bool.noConfusion h
    · intro h
      rw [if_pos (h index (le_refl _) (by omega))]
      exact (ih (index + 1)).2 (fun u h1 h2 => h u (by omega) (by omega))

theorem eq_iff_low_bits (x y n : Nat) (hx : x < 2 ^ n) (hy : y < 2 ^ n) :
    x = y ↔ ∀ j, j < n → x.testBit j = y.testBit j := by
  constructor
  · intro h j _
    rw [h]
  · intro h
    apply Nat.eq_of_testBit_eq
    intro j
    by_cases c : j < n
    · exact h j c
    · rw [Nat.testBit_lt_two_pow (lt_of_lt_of_le hx (Nat.pow_le_pow_right (by norm_num) (by omega))),
        Nat.testBit_lt_two_pow (lt_of_lt_of_le hy (Nat.pow_le_pow_right (by norm_num) (by omega)))]

theorem masked_eq_iff (x y n : Nat) :
    x &&& (2 ^ n - 1) = y &&& (2 ^ n - 1) ↔ ∀ j, j < n → x.testBit j = y.testBit j := by
  constructor
  · intro h j hj
    have := congrArg (fun v => v.testBit j) h
    simp only [Nat.testBit_and, Nat.testBit_two_pow_sub_one, decide_eq_true hj, Bool.and_true]
      at this
    exact this
  · intro h
    apply Nat.eq_of_testBit_eq
    intro j
    rw [Nat.testBit_and, Nat.testBit_and, Nat.testBit_two_pow_sub_one]
    by_cases c : j < n
    · rw [h j c]
    · simp [c]

theorem unit_compare_iff (a other : BitArray.Private) (hva : a.Valid)
    (hother : ∀ u, other.readUnit u < 2 ^ 64) (u : Nat) (hu : u < a.dataLength) :
    (if u < a.dataLength - 1 then a.readUnit u == other.readUnit u
      else if (a.bitLength + 2 ^ 64 - (u * allocationUnitSize) % 2 ^ 64) % 2 ^ 64 =
          allocationUnitSize then a.readUnit u == other.readUnit u
      else
        (a.readUnit u &&&
            ((1 <<< ((a.bitLength + 2 ^ 64 - (u * allocationUnitSize) % 2 ^ 64) % 2 ^ 64)) %
              2 ^ 64 - 1)) ==
          (other.readUnit u &&&
            ((1 <<< ((a.bitLength + 2 ^ 64 - (u * allocationUnitSize) % 2 ^ 64) % 2 ^ 64)) %
              2 ^ 64 - 1))) = true ↔
      ∀ j, j < 64 → 64 * u + j < a.bitLength →
        (a.readUnit u).testBit j = (other.readUnit u).testBit j := by
  obtain ⟨v1, v2, _, _, v5⟩ := hva
  have hD : a.dataLength = (a.bitLength + 63) / 64 := by
    rw [v1, allocationDataSize_eq _ v2]
  have hwhole : (64 * u + 64 ≤ a.bitLength) →
      ((a.readUnit u == other.readUnit u) = true ↔
        ∀ j, j < 64 → 64 * u + j < a.bitLength →
          (a.readUnit u).testBit j = (other.readUnit u).testBit j) := by
    intro hle
    rw [beq_iff_eq, eq_iff_low_bits _ _ 64 (v5 u) (hother u)]
    constructor
    · intro h j hj _
      exact h j hj
    · intro h j hj
      exact h j hj (by omega)
  have hbase : (a.bitLength + 2 ^ 64 - (u * allocationUnitSize) % 2 ^ 64) % 2 ^ 64 =
      a.bitLength - 64 * u := by
    show (a.bitLength + 2 ^ 64 - (u * 64) % 2 ^ 64) % 2 ^ 64 = _
    have h1 : (u * 64) % 2 ^ 64 = u * 64 := Nat.mod_eq_of_lt (by omega)
    rw [h1]
    omega
  by_cases c1 : u < a.dataLength - 1
  · rw [if_pos c1]
    exact hwhole (by omega)
  · rw [if_neg c1, hbase]
    by_cases c2 : a.bitLength - 64 * u = allocationUnitSize
    · rw [if_pos c2]
      have c2' : a.bitLength - 64 * u = 64 := c2
      exact hwhole (by omega)
    · rw [if_neg c2]
      have c2' : a.bitLength - 64 * u ≠ 64 := c2
      have hlt : a.bitLength - 64 * u < 64 := by omega
      have hmask : (1 <<< (a.bitLength - 64 * u)) % 2 ^ 64 - 1 =
          2 ^ (a.bitLength - 64 * u) - 1 := by
        rw [Nat.one_shiftLeft, Nat.mod_eq_of_lt (Nat.pow_lt_pow_right (by norm_num) hlt)]
      rw [hmask, beq_iff_eq, masked_eq_iff]
      constructor
      · intro h j _ hj2
        exact h j (by omega)
      · intro h j hj
        exact h j (by omega) (by omega)

theorem equals_iff_same_bits (a other : BitArray.Private) (hva : a.Valid) (hvo : other.Valid)
    (hdata : a.data ≠ none) :
    a.equals other = true ↔
      a.size = other.size ∧ ∀ i, i < a.size → a.isSet i = other.isSet i := by
  have hva' := hva
  obtain ⟨v1, v2, _, _, v5⟩ := hva'
  have hD : a.dataLength = (a.bitLength + 63) / 64 := by
    rw [v1, allocationDataSize_eq _ v2]
  have hcode : a.equals other =
      if other.bitLength = a.bitLength then a.equalUnits other a.dataLength 0 else false := by
    unfold BitArray.Private.equals
    cases hd : a.data with
    | none => exact absurd hd hdata
    | some units => rfl
  rw [hcode]
  show _ ↔ a.bitLength = other.bitLength ∧ ∀ i, i < a.bitLength → _
  by_cases c : other.bitLength = a.bitLength
  · rw [if_pos c, equalUnits_iff]
    constructor
    · intro h
      refine ⟨c.symm, fun i hi => ?_⟩
      have hu : i / 64 < a.dataLength := by omega
      have := (unit_compare_iff a other hva hvo.2.2.2.2 (i / 64) hu).1
        (h (i / 64) (Nat.zero_le _) (by omega)) (i % 64) (Nat.mod_lt _ (by norm_num)) (by omega)
      rw [isSet_eq, isSet_eq, c, this]
    · rintro ⟨_, h⟩ u _ hu
      have hu' : u < a.dataLength := by omega
      apply (unit_compare_iff a other hva hvo.2.2.2.2 u hu').2
      intro j hj hlt
      have := h (64 * u + j) hlt
      rw [isSet_eq, isSet_eq, c] at this
      have e1 : (64 * u + j) / 64 = u := by omega
      have e2 : (64 * u + j) % 64 = j := by omega
      rw [e1, e2] at this
      simpa [hlt] using this
  · rw [if_neg c]
    constructor
    · intro h
      exact Bool.noConfusion h
    · rintro ⟨h, _⟩
      exact absurd h.symm c

theorem equals_of_null (a other : BitArray.Private) (hdata : a.data = none) :
    a.equals other = true ↔ other.data = none := by
  unfold BitArray.Private.equals
  rw [hdata]
  simp

/-- C32 (the code at the failing input).  The array `a` of the default constructor and the
array `b` of the constructor `BitArray(0, false)` both have size 0, so that they agree on
every index below their size, and `isSet` agrees on every index at all; `a == b` is false
while `b == a` is true, and `a != b` is true.  The parts that hold: `!=` is the negation of
`==` for all arguments; for valid arrays of which the left one has an allocation, `==` holds
exactly when the sizes are equal and `isSet` agrees below the size; and a left array without
allocation equals exactly the arrays without allocation. -/
theorem bitArray_equality_of_empty_arrays :
    (∀ (sameImpl : Bool) (impl otherImpl : BitArray.Private),
        BitArray.differs sameImpl impl otherImpl = !BitArray.equals sameImpl impl otherImpl) ∧
      (∀ a other : BitArray.Private, a.Valid → other.Valid → a.data ≠ none →
        (a.equals other = true ↔
          a.size = other.size ∧ ∀ i, i < a.size → a.isSet i = other.isSet i)) ∧
      (∀ a other : BitArray.Private, a.data = none →
        (a.equals other = true ↔ other.data = none)) ∧
      BitArray.Private.empty.Valid ∧ (BitArray.Private.ofSize 0 false).Valid ∧
      BitArray.Private.empty.size = 0 ∧ (BitArray.Private.ofSize 0 false).size = 0 ∧
      (∀ i, BitArray.Private.empty.isSet i = (BitArray.Private.ofSize 0 false).isSet i) ∧
      BitArray.equals false BitArray.Private.empty (BitArray.Private.ofSize 0 false) = false ∧
      BitArray.equals false (BitArray.Private.ofSize 0 false) BitArray.Private.empty = true ∧
      BitArray.differs false BitArray.Private.empty (BitArray.Private.ofSize 0 false) = true :=
  ⟨differs_eq_not_equals, equals_iff_same_bits, equals_of_null, valid_empty,
    valid_ofSize 0 false (by norm_num), rfl, rfl, fun _ => rfl, by decide, by decide, by decide⟩

theorem lessOrEqual_eq_not_greaterThan (s other : BitSet) :
    s.lessOrEqual other = !s.greaterThan other := by
  unfold BitSet.lessOrEqual BitSet.greaterThan
  simp only
  generalize nonZeroWords s.bitArray s.bitArray.length = n
  generalize nonZeroWords other.bitArray other.bitArray.length = m
  generalize s.bitArray.getD (n - 1) 0 = x
  generalize other.bitArray.getD (m - 1) 0 = y
  by_cases c1 : n < m
  · have c2 : ¬ n > m := by omega
    have c3 : ¬ (n = m ∧ n > 0) := by omega
    simp [c1, c2, c3]
  · by_cases c2 : n > m
    · have c3 : ¬ (n = m ∧ n > 0) := by omega
      have c4 : ¬ (n = 0 ∧ m = 0) := by omega
      simp [c1, c2, c3, c4]
    · by_cases c3 : n = m ∧ n > 0
      · have hm : 0 < m := by omega
        simp only [c1, c2, c3, hm, gt_iff_lt, and_self, if_true, if_false]
        by_cases c5 : x ≤ y
        · have c6 : ¬ y < x := by omega
          simp [c5, c6]
        · have c6 : y < x := by omega
          simp [c5, c6]
      · have c4 : n = 0 ∧ m = 0 := by omega
        simp [c1, c2, c3, c4]

/-- C40 (the code at the failing input).  Over the table of 34 names at one address, the set
`a` with the bits 0 and 32 and the set `b` with the bits 1 and 32, both built with `setBit`,
differ by `==` and in the bit 0, and yet neither `a < b` nor `a > b` nor `b < a` holds: the
operators compare the last non-zero word only, which is the same in both sets. -/
theorem bitSet_ordering_of_equal_top_words :
    (unaryBitNames 34).Consecutive ∧
      (BitSet.withBits (unaryBitNames 34) 0 [unaryWord 0, unaryWord 32]).bitArray = [1, 1] ∧
      (BitSet.withBits (unaryBitNames 34) 0 [unaryWord 1, unaryWord 32]).bitArray = [2, 1] ∧
      (BitSet.withBits (unaryBitNames 34) 0 [unaryWord 0, unaryWord 32]).isSet (unaryBitNames 34)
          (unaryWord 0) = true ∧
      (BitSet.withBits (unaryBitNames 34) 0 [unaryWord 1, unaryWord 32]).isSet (unaryBitNames 34)
          (unaryWord 0) = false ∧
      (BitSet.withBits (unaryBitNames 34) 0 [unaryWord 0, unaryWord 32]).sameAs
          (BitSet.withBits (unaryBitNames 34) 0 [unaryWord 1, unaryWord 32]) = false ∧
      (BitSet.withBits (unaryBitNames 34) 0 [unaryWord 0, unaryWord 32]).lessThan
          (BitSet.withBits (unaryBitNames 34) 0 [unaryWord 1, unaryWord 32]) = false ∧
      (BitSet.withBits (unaryBitNames 34) 0 [unaryWord 0, unaryWord 32]).greaterThan
          (BitSet.withBits (unaryBitNames 34) 0 [unaryWord 1, unaryWord 32]) = false ∧
      (BitSet.withBits (unaryBitNames 34) 0 [unaryWord 1, unaryWord 32]).lessThan
          (BitSet.withBits (unaryBitNames 34) 0 [unaryWord 0, unaryWord 32]) = false := by
  have ha : BitSet.withBits (unaryBitNames 34) 0 [unaryWord 0, unaryWord 32] =
      ⟨some 0, [1, 1]⟩ := by decide!
  have hb : BitSet.withBits (unaryBitNames 34) 0 [unaryWord 1, unaryWord 32] =
      ⟨some 0, [2, 1]⟩ := by decide!
  rw [ha, hb]
  refine ⟨?_, rfl, rfl, by decide!, by decide!, by decide, by decide, by decide, by decide⟩
  refine ⟨by decide!, ?_, by decide⟩
  decide!

/-! ## The patterns that a search returns -/

theorem registrationHits_eq (cleanedPattern cleanedQuery : List Token)
    (patternId x : PatternId) :
    registrationHits cleanedPattern cleanedQuery patternId x =
      if x = patternId then
        ((subsequencePairs cleanedQuery.length).map
          (fun p => (subsequencesOf cleanedPattern).count (slice cleanedQuery p.1 p.2))).sum
      else 0 := by
  unfold registrationHits
  by_cases c : x = patternId
  · subst c
    rw [if_pos rfl]
    congr 1
    apply List.map_congr_left
    intro p _
    simp
  · rw [if_neg c]
    apply List.sum_eq_zero
    intro n hn
    obtain ⟨p, _, hp⟩ := List.mem_map.1 hn
    rw [← hp]
    exact List.count_eq_zero_of_not_mem (fun h => c (List.eq_of_mem_replicate h))

theorem slice_tokenList_subset (tokens : List Token) (left right : Nat) :
    ∀ t ∈ (slice tokens left right).tokenList, t ∈ tokens := by
  intro t ht
  exact List.mem_of_mem_drop (List.mem_of_mem_take ht)

theorem slice_head (tokens : List Token) (left right : Nat) (h1 : left ≤ right)
    (h2 : right < tokens.length) :
    ∃ t rest, (slice tokens left right).tokenList = t :: rest ∧ tokens[left]? = some t := by
  have hl : left < tokens.length := by omega
  have hd : tokens.drop left = tokens[left] :: tokens.drop (left + 1) :=
    List.drop_eq_getElem_cons hl
  refine ⟨tokens[left], (tokens.drop (left + 1)).take (right - left), ?_, ?_⟩
  · show (tokens.drop left).take (right + 1 - left) = _
    rw [hd, show right + 1 - left = (right - left) + 1 by omega, List.take_succ_cons]
  · exact List.getElem?_eq_getElem hl

theorem slice_single (tokens : List Token) (i : Nat) (t : Token) (h : tokens[i]? = some t) :
    slice tokens i i = ⟨[t]⟩ := by
  obtain ⟨hl, he⟩ := List.getElem?_eq_some_iff.1 h
  have hd : tokens.drop i = tokens[i] :: tokens.drop (i + 1) := List.drop_eq_getElem_cons hl
  show (⟨(tokens.drop i).take (i + 1 - i)⟩ : TokenizedValue) = _
  rw [hd, show i + 1 - i = 0 + 1 by omega, List.take_succ_cons, List.take_zero, he]

theorem mem_subsequencesOf (tokens : List Token) (key : TokenizedValue) :
    key ∈ subsequencesOf tokens ↔
      ∃ left right, left ≤ right ∧ right < tokens.length ∧ slice tokens left right = key := by
  unfold subsequencesOf
  rw [List.mem_map]
  constructor
  · rintro ⟨⟨l, r⟩, hp, he⟩
    exact ⟨l, r, ((mem_subsequencePairs _ l r).1 hp).1, ((mem_subsequencePairs _ l r).1 hp).2, he⟩
  · rintro ⟨l, r, h1, h2, he⟩
    exact ⟨(l, r), (mem_subsequencePairs _ l r).2 ⟨h1, h2⟩, he⟩

theorem registrationHits_pos_iff (cleanedPattern cleanedQuery : List Token)
    (patternId x : PatternId) :
    0 < registrationHits cleanedPattern cleanedQuery patternId x ↔
      x = patternId ∧ ∃ t, t ∈ cleanedPattern ∧ t ∈ cleanedQuery := by
  rw [registrationHits_eq]
  by_cases c : x = patternId
  · rw [if_pos c]
    simp only [c, true_and]
    rw [Nat.pos_iff_ne_zero, Ne, List.sum_eq_zero_iff]
    constructor
    · intro h
      by_contra hno
      apply h
      intro n hn
      obtain ⟨⟨l, r⟩, hp, he⟩ := List.mem_map.1 hn
      rw [← he]
      apply List.count_eq_zero_of_not_mem
      intro hmem
      obtain ⟨h1, h2⟩ := (mem_subsequencePairs _ l r).1 hp
      obtain ⟨t, rest, hs, hget⟩ := slice_head cleanedQuery l r h1 h2
      obtain ⟨l', r', _, _, he'⟩ := (mem_subsequencesOf cleanedPattern _).1 hmem
      apply hno
      refine ⟨t, ?_, List.mem_iff_getElem?.2 ⟨l, hget⟩⟩
      apply slice_tokenList_subset cleanedPattern l' r'
      rw [he']
      show t ∈ (slice cleanedQuery l r).tokenList
      rw [hs]
      exact List.mem_cons_self _ _
    · rintro ⟨t, hp, hq⟩ hzero
      obtain ⟨i, hi⟩ := List.mem_iff_getElem?.1 hp
      obtain ⟨j, hj⟩ := List.mem_iff_getElem?.1 hq
      have hjl : j < cleanedQuery.length := (List.getElem?_eq_some_iff.1 hj).1
      have hil : i < cleanedPattern.length := (List.getElem?_eq_some_iff.1 hi).1
      have hz := hzero ((subsequencesOf cleanedPattern).count (slice cleanedQuery j j))
        (List.mem_map.2 ⟨(j, j), (mem_subsequencePairs _ j j).2 ⟨le_refl j, hjl⟩, rfl⟩)
      have hmem : slice cleanedQuery j j ∈ subsequencesOf cleanedPattern := by
        rw [slice_single cleanedQuery j t hj]
        exact (mem_subsequencesOf cleanedPattern _).2
          ⟨i, i, le_refl i, hil, slice_single cleanedPattern i t hi⟩
      exact (List.count_pos_iff.2 hmem).ne' hz
  · rw [if_neg c]
    simp [c]

theorem consistent_blank (stopWords : List Token) :
    (⟨stopWords, QMap.empty, QMap.empty⟩ : FuzzySearchEngine).Consistent := fun _ => rfl

theorem hitCount_blank (stopWords : List Token) (query : TokenizedValue)
    (groupIds : List GroupId) (x : PatternId) :
    hitCount ⟨stopWords, QMap.empty, QMap.empty⟩ query groupIds x = 0 := by
  unfold hitCount
  apply List.sum_eq_zero
  intro n hn
  obtain ⟨g, _, hg⟩ := List.mem_map.1 hn
  rw [← hg]
  exact groupHits_of_not_contains _ _ g x rfl

theorem currentStopWords_registerEach (regs : List (GroupId × TokenizedValue × PatternId)) :
    ∀ e : FuzzySearchEngine, (registerEach regs e).currentStopWords = e.currentStopWords := by
  induction regs with
  | nil => intro e; rfl
  | cons r rest ih =>
    intro e
    obtain ⟨g, p, id⟩ := r
    show (registerEach rest (e.registerPattern p g id)).currentStopWords = _
    rw [ih]
    rfl

theorem hitCount_registerEach_pos (query : TokenizedValue) (groupIds : List GroupId)
    (x : PatternId) (regs : List (GroupId × TokenizedValue × PatternId)) :
    ∀ e : FuzzySearchEngine, e.Consistent →
      (0 < hitCount (registerEach regs e) query groupIds x ↔
        0 < hitCount e query groupIds x ∨
          ∃ r ∈ regs, r.2.2 = x ∧ (groupIds = [] ∨ r.1 ∈ groupIds) ∧
            ∃ t, t ∈ (e.removeStopWordsFrom r.2.1).tokenList ∧
              t ∈ (e.removeStopWordsFrom query).tokenList) := by
  induction regs with
  | nil =>
    intro e _
    simp [registerEach]
  | cons r rest ih =>
    intro e hc
    obtain ⟨g, p, id⟩ := r
    show 0 < hitCount (registerEach rest (e.registerPattern p g id)) query groupIds x ↔ _
    rw [ih _ (consistent_registerPattern e hc p g id), hitCount_registerPattern e hc]
    simp only [removeStopWordsFrom_registerPattern]
    have hm : 0 < (if groupIds.isEmpty = true then 1 else groupIds.count g) ↔
        (groupIds = [] ∨ g ∈ groupIds) := by
      by_cases c : groupIds.isEmpty = true
      · rw [if_pos c]
        simp [List.isEmpty_iff.1 c]
      · rw [if_neg c, List.count_pos_iff]
        have : groupIds ≠ [] := fun h => c (List.isEmpty_iff.2 h)
        simp [this]
    have hpos : 0 < hitCount e query groupIds x +
        (if groupIds.isEmpty = true then 1 else groupIds.count g) *
          registrationHits (e.removeStopWordsFrom p).tokenList
            (e.removeStopWordsFrom query).tokenList id x ↔
        0 < hitCount e query groupIds x ∨
          (id = x ∧ (groupIds = [] ∨ g ∈ groupIds) ∧
            ∃ t, t ∈ (e.removeStopWordsFrom p).tokenList ∧
              t ∈ (e.removeStopWordsFrom query).tokenList) := by
      rw [Nat.add_pos_iff_pos_or_pos, CanonicallyOrderedCommSemiring.mul_pos, hm,
        registrationHits_pos_iff]
      constructor
      · rintro (h | ⟨h1, h2, h3⟩)
        · exact Or.inl h
        · exact Or.inr ⟨h2.symm, h1, h3⟩
      · rintro (h | ⟨h1, h2, h3⟩)
        · exact Or.inl h
        · exact Or.inr ⟨h2, h1.symm, h3⟩
    rw [hpos]
    constructor
    · rintro ((h | h) | ⟨r, hr, h⟩)
      · exact Or.inl h
      · exact Or.inr ⟨(g, p, id), List.mem_cons_self _ _, h⟩
      · exact Or.inr ⟨r, List.mem_cons_of_mem _ hr, h⟩
    · rintro (h | ⟨r, hr, h⟩)
      · exact Or.inl (Or.inl h)
      · rcases List.mem_cons.1 hr with he | hr'
        · subst he
          exact Or.inl (Or.inr h)
        · exact Or.inr ⟨r, hr', h⟩

/-- C36.  For every engine built from an empty engine with any stop words by any calls of
`registerPattern`, every non-empty query and every list of group ids, `search` returns
exactly the pattern ids that have a registration in a selected group (any group when the list
is empty, otherwise a group of the list) whose stop-word-cleaned pattern shares at least one
token with the stop-word-cleaned query. -/
theorem search_returns_sharing_patterns (stopWords : List Token)
    (regs : List (GroupId × TokenizedValue × PatternId)) (query : TokenizedValue)
    (groupIds : List GroupId) (hq : query.length ≠ 0) (x : PatternId) :
    x ∈ (registerEach regs ⟨stopWords, QMap.empty, QMap.empty⟩).search query groupIds ↔
      ∃ r ∈ regs, r.2.2 = x ∧ (groupIds = [] ∨ r.1 ∈ groupIds) ∧
        ∃ t,
          t ∈ ((registerEach regs ⟨stopWords, QMap.empty, QMap.empty⟩).removeStopWordsFrom
              r.2.1).tokenList ∧
            t ∈ ((registerEach regs ⟨stopWords, QMap.empty, QMap.empty⟩).removeStopWordsFrom
              query).tokenList := by
  have hsw : ∀ v : TokenizedValue,
      (registerEach regs ⟨stopWords, QMap.empty, QMap.empty⟩).removeStopWordsFrom v =
        (⟨stopWords, QMap.empty, QMap.empty⟩ : FuzzySearchEngine).removeStopWordsFrom v := by
    intro v
    unfold FuzzySearchEngine.removeStopWordsFrom
    rw [currentStopWords_registerEach]
  rw [(search_ranked _ query groupIds hq).1 x,
    hitCount_registerEach_pos query groupIds x regs _ (consistent_blank stopWords),
    hitCount_blank]
  simp only [hsw, Nat.lt_irrefl, false_or]

theorem search_returns_sharing_patterns_witness :
    (⟨[2, 3]⟩ : TokenizedValue).length ≠ 0 ∧
      (registerEach [(1, ⟨[1, 2, 3]⟩, 10), (1, ⟨[2, 3]⟩, 11), (2, ⟨[3, 4]⟩, 12), (1, ⟨[5]⟩, 13)]
        ⟨[], QMap.empty, QMap.empty⟩).search ⟨[2, 3]⟩ [1] = [10, 11] ∧
      ((12 : PatternId) ∈
        (registerEach [(1, ⟨[1, 2, 3]⟩, 10), (1, ⟨[2, 3]⟩, 11), (2, ⟨[3, 4]⟩, 12), (1, ⟨[5]⟩, 13)]
          ⟨[], QMap.empty, QMap.empty⟩).search ⟨[2, 3]⟩ [] ↔
        ∃ r ∈ ([(1, ⟨[1, 2, 3]⟩, 10), (1, ⟨[2, 3]⟩, 11), (2, ⟨[3, 4]⟩, 12), (1, ⟨[5]⟩, 13)] :
            List (GroupId × TokenizedValue × PatternId)),
          r.2.2 = 12 ∧ (([] : List GroupId) = [] ∨ r.1 ∈ ([] : List GroupId)) ∧
            ∃ t,
              t ∈ ((registerEach
                  [(1, ⟨[1, 2, 3]⟩, 10), (1, ⟨[2, 3]⟩, 11), (2, ⟨[3, 4]⟩, 12), (1, ⟨[5]⟩, 13)]
                  ⟨[], QMap.empty, QMap.empty⟩).removeStopWordsFrom r.2.1).tokenList ∧
                t ∈ ((registerEach
                  [(1, ⟨[1, 2, 3]⟩, 10), (1, ⟨[2, 3]⟩, 11), (2, ⟨[3, 4]⟩, 12), (1, ⟨[5]⟩, 13)]
                  ⟨[], QMap.empty, QMap.empty⟩).removeStopWordsFrom ⟨[2, 3]⟩).tokenList) :=
  ⟨by decide, by decide,
    search_returns_sharing_patterns []
      [(1, ⟨[1, 2, 3]⟩, 10), (1, ⟨[2, 3]⟩, 11), (2, ⟨[3, 4]⟩, 12), (1, ⟨[5]⟩, 13)] ⟨[2, 3]⟩ []
      (by decide) 12⟩

/-! ## A contiguous run against single words -/

/-! ### Runs of the query inside a pattern -/

theorem slice_isRun (tokens : List Token) (left right : Nat) :
    (slice tokens left right).tokenList <:+: tokens :=
  (List.take_prefix _ _).isInfix.trans (List.drop_suffix _ _).isInfix

theorem slice_mem_of_run (run tokens : List Token) (h : run <:+: tokens) (left right : Nat)
    (h1 : left ≤ right) (h2 : right < run.length) :
    slice run left right ∈ subsequencesOf tokens := by
  obtain ⟨s, t, he⟩ := h
  rw [mem_subsequencesOf]
  refine ⟨s.length + left, s.length + right, by omega, ?_, ?_⟩
  · rw [← he]
    simp only [List.length_append]
    omega
  · show (⟨(tokens.drop (s.length + left)).take (s.length + right + 1 - (s.length + left))⟩ :
      TokenizedValue) = ⟨(run.drop left).take (right + 1 - left)⟩
    have e1 : tokens.drop (s.length + left) = run.drop left ++ t := by
      rw [← he, List.append_assoc, ← List.drop_drop, List.drop_left,
        List.drop_append_of_le_length (by omega)]
    have e2 : s.length + right + 1 - (s.length + left) = right + 1 - left := by omega
    rw [e1, e2, List.take_append_of_le_length (by rw [List.length_drop]; omega)]

theorem pairs_sum_ge_of_run (run tokens : List Token) (h : run <:+: tokens) :
    run.length * (run.length + 1) / 2 ≤
      ((subsequencePairs run.length).map
        (fun p => (subsequencesOf tokens).count (slice run p.1 p.2))).sum := by
  have hlen := List.length_le_sum_of_one_le
    ((subsequencePairs run.length).map
      (fun p => (subsequencesOf tokens).count (slice run p.1 p.2)))
    (by
      intro c hc
      obtain ⟨⟨l, r⟩, hp, he⟩ := List.mem_map.1 hc
      obtain ⟨h1, h2⟩ := (mem_subsequencePairs _ l r).1 hp
      rw [← he]
      exact List.count_pos_iff.2 (slice_mem_of_run run tokens h l r h1 h2))
  rw [List.length_map, subsequencePairs_length] at hlen
  exact hlen

theorem slice_succ_succ (t : Token) (rest : List Token) (left right : Nat) :
    slice (t :: rest) (left + 1) (right + 1) = slice rest left right := by
  show (⟨((t :: rest).drop (left + 1)).take (right + 1 + 1 - (left + 1))⟩ : TokenizedValue) =
    ⟨(rest.drop left).take (right + 1 - left)⟩
  rw [List.drop_succ_cons, Nat.add_sub_add_right]

theorem count_single_subsequencesOf (t : Token) (tokens : List Token) :
    (subsequencesOf tokens).count (⟨[t]⟩ : TokenizedValue) = tokens.count t := by
  induction tokens with
  | nil => rfl
  | cons b rest ih =>
    rw [subsequencesOf_cons, List.count_append, ih]
    unfold innerKeys
    rw [List.length_cons, List.range_succ_eq_map, List.map_cons, List.map_map, List.count_cons]
    have hzero : ((List.range rest.length).map
        ((fun j => (⟨[] ++ (b :: rest).take (j + 1)⟩ : TokenizedValue)) ∘ Nat.succ)).count
          (⟨[t]⟩ : TokenizedValue) = 0 := by
      apply List.count_eq_zero_of_not_mem
      intro hmem
      obtain ⟨j, hj, he⟩ := List.mem_map.1 hmem
      have hj' : j < rest.length := List.mem_range.1 hj
      have hl := congrArg (fun v : TokenizedValue => v.tokenList.length) he
      simp only [Function.comp, List.nil_append, List.length_take, List.length_cons,
        List.length_singleton, List.length_nil] at hl
      omega
    rw [hzero, List.count_cons]
    simp only [List.nil_append, List.take_succ_cons, List.take_zero, Nat.zero_add]
    by_cases c : b = t
    · subst c
      simp
      omega
    · have c' : (⟨[b]⟩ : TokenizedValue) ≠ ⟨[t]⟩ := by
        intro h
        apply c
        have := congrArg (fun v : TokenizedValue => v.tokenList) h
        simpa using this
      simp [c, c']

theorem pairs_sum_le_shared (pattern : List Token) :
    ∀ query : List Token,
      (∀ x y : Token, [x, y] <:+: query → ¬ [x, y] <:+: pattern) →
      ((subsequencePairs query.length).map
        (fun p => (subsequencesOf pattern).count (slice query p.1 p.2))).sum ≤
          sharedPositions query pattern := by
  intro query
  induction query with
  | nil => intro _; simp [subsequencePairs, sharedPositions]
  | cons q rest ih =>
    intro hsingle
    have hrest : ∀ x y : Token, [x, y] <:+: rest → ¬ [x, y] <:+: pattern := by
      intro x y hxy
      exact hsingle x y (hxy.trans (List.suffix_cons q rest).isInfix)
    have ih' := ih hrest
    rw [List.length_cons, subsequencePairs_succ, List.map_append, List.sum_append, List.map_map,
      List.map_map]
    have hsecond : ((subsequencePairs rest.length).map
        ((fun p => (subsequencesOf pattern).count (slice (q :: rest) p.1 p.2)) ∘
          fun p => (p.1 + 1, p.2 + 1))).sum =
        ((subsequencePairs rest.length).map
          (fun p => (subsequencesOf pattern).count (slice rest p.1 p.2))).sum := by
      congr 1
      apply List.map_congr_left
      intro p _
      simp only [Function.comp, slice_succ_succ]
    have hfirst : ((List.range (rest.length + 1)).map
        ((fun p => (subsequencesOf pattern).count (slice (q :: rest) p.1 p.2)) ∘
          fun j => (0, j))).sum = pattern.count q := by
      rw [List.range_succ_eq_map, List.map_cons, List.sum_cons, List.map_map]
      have hz : ((List.range rest.length).map
          (((fun p => (subsequencesOf pattern).count (slice (q :: rest) p.1 p.2)) ∘
            fun j => (0, j)) ∘ Nat.succ)).sum = 0 := by
        apply List.sum_eq_zero
        intro c hc
        obtain ⟨j, hj, he⟩ := List.mem_map.1 hc
        have hj' : j < rest.length := List.mem_range.1 hj
        rw [← he]
        simp only [Function.comp]
        apply List.count_eq_zero_of_not_mem
        intro hmem
        obtain ⟨l', r', _, _, he'⟩ := (mem_subsequencesOf pattern _).1 hmem
        obtain ⟨y, tail, hy⟩ : ∃ y tail, rest = y :: tail := by
          cases rest with
          | nil => simp at hj'
          | cons y tail => exact ⟨y, tail, rfl⟩
        have hpre : [q, y] <+: (slice (q :: rest) 0 (j + 1)).tokenList := by
          show [q, y] <+: ((q :: rest).drop 0).take (j + 1 + 1 - 0)
          rw [hy, List.drop_zero, Nat.sub_zero, List.take_succ_cons, List.take_succ_cons]
          exact ⟨tail.take j, rfl⟩
        apply hsingle q y
        · rw [hy]
          exact (List.prefix_iff_eq_append.2 rfl : [q, y] <+: q :: y :: tail).isInfix
        · rw [← he'] at hpre
          exact hpre.isInfix.trans (slice_isRun pattern l' r')
      rw [hz, Nat.add_zero]
      simp only [Function.comp]
      have hs : slice (q :: rest) 0 0 = ⟨[q]⟩ := rfl
      rw [hs, count_single_subsequencesOf]
    rw [hfirst, hsecond]
    show pattern.count q + _ ≤ pattern.count q + sharedPositions rest pattern
    omega

theorem pairs_sum_le (pattern query : List Token) (hp : pattern.length ≤ 31)
    (hq : query.length ≤ 31) :
    ((subsequencePairs query.length).map
      (fun p => (subsequencesOf pattern).count (slice query p.1 p.2))).sum ≤ 496 * 496 := by
  have hbound : ∀ n : Nat, n ≤ 31 → n * (n + 1) / 2 ≤ 496 := by
    intro n hn
    have h1 : n * (n + 1) ≤ 31 * 32 := Nat.mul_le_mul hn (by omega)
    omega
  have h := List.sum_le_card_nsmul
    ((subsequencePairs query.length).map
      (fun p => (subsequencesOf pattern).count (slice query p.1 p.2))) 496
    (by
      intro c hc
      obtain ⟨p, _, he⟩ := List.mem_map.1 hc
      rw [← he]
      refine le_trans (List.count_le_length _ _) ?_
      unfold subsequencesOf
      rw [List.length_map, subsequencePairs_length]
      exact hbound _ hp)
  rw [List.length_map, subsequencePairs_length, smul_eq_mul] at h
  exact le_trans h (Nat.mul_le_mul_right _ (hbound _ hq))

theorem indexOf_lt_of_ranked (result : List PatternId) (rank : PatternId → Int)
    (hp : result.Pairwise (fun a b => rank a < rank b ∨ (rank a = rank b ∧ a < b)))
    (x y : PatternId) (hx : x ∈ result) (hxy : rank x < rank y) :
    result.indexOf x < result.indexOf y := by
  by_contra hno
  have hix : result.indexOf x < result.length := List.indexOf_lt_length.2 hx
  have hiy : result.indexOf y < result.length := by omega
  have hne : result.indexOf y ≠ result.indexOf x := by
    intro he
    have h1 := List.getElem_indexOf hix
    have h2 := List.getElem_indexOf hiy
    simp only [he] at h2
    rw [h1] at h2
    rw [h2] at hxy
    exact lt_irrefl _ hxy
  have hlt : result.indexOf y < result.indexOf x := by omega
  have h := (List.pairwise_iff_getElem.1 hp) _ _ hiy hix hlt
  rw [List.getElem_indexOf hix, List.getElem_indexOf hiy] at h
  rcases h with h | ⟨h, _⟩
  · exact lt_asymm h hxy
  · rw [h] at hxy
    exact lt_irrefl _ hxy

/-- C35, as stated, fails: the pattern `B` may hold a word of the query several times.  With
the query `1 2`, the pattern `A = 1 2` (id 0) and the pattern `B = 1 3 1 3 1 3 1` (id 1)
registered once each in group 1, the whole query is a contiguous run in `A`, no two adjacent
query tokens are adjacent in `B`, and `search` ranks `B` before `A`: `A` has three hits, `B`
has four. -/
theorem search_run_against_repeated_word_counterexample :
    2 ≤ (emptyEngine.removeStopWordsFrom ⟨[1, 2]⟩).tokenList.length ∧
      ([1, 2] : List Token) <:+: [1, 2] ∧
      (∀ x y : Token, [x, y] <:+: ([1, 2] : List Token) →
        ¬ [x, y] <:+: ([1, 3, 1, 3, 1, 3, 1] : List Token)) ∧
      ((emptyEngine.registerPattern ⟨[1, 2]⟩ 1 0).registerPattern ⟨[1, 3, 1, 3, 1, 3, 1]⟩ 1
        1).search ⟨[1, 2]⟩ [1] = [1, 0] := by
  refine ⟨by decide, List.infix_refl _, ?_, by decide⟩
  intro x y hxy hB
  have h1 : [x, y] = ([1, 2] : List Token) :=
    List.IsInfix.eq_of_length hxy rfl
  rw [h1] at hB
  revert hB
  decide

/-- C35 (amended).  Let the patterns `A` and `B` be registered under different ids in the
group `g` of an engine in which neither id has a hit for the query, and let `g` be searched
once: the group list is empty or lists `g` once.  If the stop-word-cleaned query has `n ≥ 2`
tokens and is a contiguous run of the cleaned `A`, no two adjacent query tokens are adjacent
in the cleaned `B`, and fewer than `n (n + 1) / 2` pairs of a query position and a position
of `B` hold the same token, then `search` returns the id of `A`, and before the id of `B`. -/
theorem search_ranks_run_first (e : FuzzySearchEngine) (hc : e.Consistent)
    (patternA patternB query : TokenizedValue) (g : GroupId) (idA idB : PatternId)
    (groupIds : List GroupId)
    (hlen : 2 ≤ (e.removeStopWordsFrom query).tokenList.length)
    (hg : groupIds = [] ∨ groupIds.count g = 1) (hid : idA ≠ idB)
    (hA : hitCount e query groupIds idA = 0) (hB : hitCount e query groupIds idB = 0)
    (hrun : (e.removeStopWordsFrom query).tokenList <:+:
      (e.removeStopWordsFrom patternA).tokenList)
    (hsingle : ∀ x y : Token, [x, y] <:+: (e.removeStopWordsFrom query).tokenList →
      ¬ [x, y] <:+: (e.removeStopWordsFrom patternB).tokenList)
    (hfew : sharedPositions (e.removeStopWordsFrom query).tokenList
        (e.removeStopWordsFrom patternB).tokenList <
      (e.removeStopWordsFrom query).tokenList.length *
        ((e.removeStopWordsFrom query).tokenList.length + 1) / 2) :
    idA ∈ ((e.registerPattern patternA g idA).registerPattern patternB g idB).search query
        groupIds ∧
      (((e.registerPattern patternA g idA).registerPattern patternB g idB).search query
          groupIds).indexOf idA <
        (((e.registerPattern patternA g idA).registerPattern patternB g idB).search query
          groupIds).indexOf idB := by
  have hq : query.length ≠ 0 := by
    intro h0
    have hnil : query.tokenList = [] := List.length_eq_zero.1 h0
    have : (e.removeStopWordsFrom query).tokenList = [] := by
      unfold FuzzySearchEngine.removeStopWordsFrom
      rw [hnil]
      rfl
    rw [this] at hlen
    simp at hlen
  have hm : (if groupIds.isEmpty = true then 1 else groupIds.count g) = 1 := by
    rcases hg with h | h
    · rw [h]; rfl
    · by_cases c : groupIds.isEmpty = true
      · rw [if_pos c]
      · rw [if_neg c, h]
  have hcA : hitCount ((e.registerPattern patternA g idA).registerPattern patternB g idB) query
      groupIds idA =
        ((subsequencePairs (e.removeStopWordsFrom query).tokenList.length).map
          (fun p => (subsequencesOf (e.removeStopWordsFrom patternA).tokenList).count
            (slice (e.removeStopWordsFrom query).tokenList p.1 p.2))).sum := by
    rw [hitCount_registerPattern _ (consistent_registerPattern e hc patternA g idA),
      hitCount_registerPattern e hc, hm, hA]
    simp only [removeStopWordsFrom_registerPattern]
    rw [registrationHits_eq, registrationHits_eq, if_pos rfl, if_neg hid]
    omega
  have hcB : hitCount ((e.registerPattern patternA g idA).registerPattern patternB g idB) query
      groupIds idB =
        ((subsequencePairs (e.removeStopWordsFrom query).tokenList.length).map
          (fun p => (subsequencesOf (e.removeStopWordsFrom patternB).tokenList).count
            (slice (e.removeStopWordsFrom query).tokenList p.1 p.2))).sum := by
    rw [hitCount_registerPattern _ (consistent_registerPattern e hc patternA g idA),
      hitCount_registerPattern e hc, hm, hB]
    simp only [removeStopWordsFrom_registerPattern]
    rw [registrationHits_eq, registrationHits_eq, if_pos rfl, if_neg (Ne.symm hid)]
    omega
  have hlow := pairs_sum_ge_of_run _ _ hrun
  have hup := pairs_sum_le_shared (e.removeStopWordsFrom patternB).tokenList
    (e.removeStopWordsFrom query).tokenList hsingle
  have hbA := pairs_sum_le (e.removeStopWordsFrom patternA).tokenList
    (e.removeStopWordsFrom query).tokenList (removeStopWordsFrom_length e patternA)
    (removeStopWordsFrom_length e query)
  have hbB := pairs_sum_le (e.removeStopWordsFrom patternB).tokenList
    (e.removeStopWordsFrom query).tokenList (removeStopWordsFrom_length e patternB)
    (removeStopWordsFrom_length e query)
  rw [← hcA] at hlow hbA
  rw [← hcB] at hup hbB
  obtain ⟨hmem, hpair⟩ := search_ranked
    ((e.registerPattern patternA g idA).registerPattern patternB g idB) query groupIds hq
  have hposA : 0 < hitCount ((e.registerPattern patternA g idA).registerPattern patternB g idB)
      query groupIds idA := by
    have : 3 ≤ (e.removeStopWordsFrom query).tokenList.length *
        ((e.removeStopWordsFrom query).tokenList.length + 1) / 2 := by
      have h1 : 2 * 3 ≤ (e.removeStopWordsFrom query).tokenList.length *
          ((e.removeStopWordsFrom query).tokenList.length + 1) :=
        Nat.mul_le_mul hlen (by omega)
      omega
    omega
  have hinA : idA ∈ ((e.registerPattern patternA g idA).registerPattern patternB g idB).search
      query groupIds := (hmem idA).2 hposA
  refine ⟨hinA, ?_⟩
  apply indexOf_lt_of_ranked _ _ hpair idA idB hinA
  rw [Nat.mod_eq_of_lt (by omega), Nat.mod_eq_of_lt (by omega), rankKey_of_lt _ (by omega),
    rankKey_of_lt _ (by omega)]
  omega

theorem search_ranks_run_first_witness :
    (((smallEngine.registerPattern ⟨[7, 8, 9]⟩ 1 20).registerPattern ⟨[8, 6, 7, 6, 9]⟩ 1
        21).search ⟨[7, 8]⟩ [1]).indexOf 20 <
      (((smallEngine.registerPattern ⟨[7, 8, 9]⟩ 1 20).registerPattern ⟨[8, 6, 7, 6, 9]⟩ 1
        21).search ⟨[7, 8]⟩ [1]).indexOf 21 ∧
      ((smallEngine.registerPattern ⟨[7, 8, 9]⟩ 1 20).registerPattern ⟨[8, 6, 7, 6, 9]⟩ 1
        21).search ⟨[7, 8]⟩ [1] = [20, 21] :=
  ⟨(search_ranks_run_first smallEngine
      (consistent_registerPattern _
        (consistent_registerPattern _
          (consistent_registerPattern _ consistent_emptyEngine _ _ _) _ _ _) _ _ _)
      ⟨[7, 8, 9]⟩ ⟨[8, 6, 7, 6, 9]⟩ ⟨[7, 8]⟩ 1 20 21 [1] (by decide) (Or.inr (by decide))
      (by decide) (by decide) (by decide) ⟨[], [9], rfl⟩
      (by
        intro x y hxy hB
        have h1 : [x, y] = ([7, 8] : List Token) := List.IsInfix.eq_of_length hxy rfl
        rw [h1] at hB
        revert hB
        decide)
      (by decide)).2,
    by decide⟩

/-! ## The round trip through `approximateString` -/

/-! ### The words of a text that was joined from keywords -/

theorem specWords_cons (ops : CharOps) (c : Char) (cs : List Char) :
    specWords ops (c :: cs) =
      if c = Char.ofNat 46 then [c] :: specWords ops cs
      else if isWordChar ops c = true then
        if startsWithWordChar ops cs = true then joinFirst c (specWords ops cs)
        else [c] :: specWords ops cs
      else specWords ops cs := by
  rw [specWords]

theorem specWords_word_append (ops : CharOps) (rest : List Char)
    (hrest : startsWithWordChar ops rest = false) :
    ∀ word : QString, word ≠ [] → (∀ c ∈ word, isWordChar ops c = true) →
      specWords ops (word ++ rest) = word :: specWords ops rest := by
  intro word
  induction word with
  | nil => intro h; exact absurd rfl h
  | cons c cs ih =>
    intro _ hall
    have hc : isWordChar ops c = true := hall c (List.mem_cons_self _ _)
    have hne : c ≠ Char.ofNat 46 := by
      intro he
      rw [he, isWordChar_period] at hc
      exact Bool.noConfusion hc
    show specWords ops (c :: (cs ++ rest)) = _
    rw [specWords_cons, if_neg hne, if_pos hc]
    cases cs with
    | nil =>
      rw [List.nil_append, if_neg (by rw [hrest]; simp)]
    | cons c' cs' =>
      have hc' : isWordChar ops c' = true :=
        hall c' (List.mem_cons_of_mem _ (List.mem_cons_self _ _))
      have hstart : startsWithWordChar ops ((c' :: cs') ++ rest) = true := hc'
      rw [if_pos hstart, ih (List.cons_ne_nil _ _)
        (fun x hx => hall x (List.mem_cons_of_mem _ hx))]
      rfl

theorem specWords_shaped_append (ops : CharOps) (word : QString) (hw : WordShaped ops word)
    (rest : List Char) (hrest : startsWithWordChar ops rest = false) :
    specWords ops (word ++ rest) = word :: specWords ops rest := by
  rcases hw with hp | ⟨hne, hall⟩
  · rw [hp]
    show specWords ops (Char.ofNat 46 :: rest) = _
    rw [specWords_cons, if_pos rfl]
  · exact specWords_word_append ops rest hrest word hne hall

theorem specWords_spaced (ops : CharOps) (hspace : ops.isSpace (Char.ofNat 32) = true)
    (words : List QString) (hw : ∀ word ∈ words, WordShaped ops word) :
    specWords ops (words.map (fun word => [Char.ofNat 32] ++ word)).flatten = words ∧
      startsWithWordChar ops (words.map (fun word => [Char.ofNat 32] ++ word)).flatten = false := by
  have hsp : isWordChar ops (Char.ofNat 32) = false := by
    simp [isWordChar, hspace]
  induction words with
  | nil => exact ⟨rfl, rfl⟩
  | cons w ws ih =>
    obtain ⟨ih1, ih2⟩ := ih (fun x hx => hw x (List.mem_cons_of_mem _ hx))
    refine ⟨?_, hsp⟩
    show specWords ops (Char.ofNat 32 :: (w ++ (ws.map (fun word => [Char.ofNat 32] ++ word)).flatten))
      = _
    rw [specWords_cons, if_neg (by decide), if_neg (by rw [hsp]; simp),
      specWords_shaped_append ops w (hw w (List.mem_cons_self _ _)) _ ih2, ih1]

theorem specWords_intercalate (ops : CharOps) (hspace : ops.isSpace (Char.ofNat 32) = true)
    (words : List QString) (hw : ∀ word ∈ words, WordShaped ops word) :
    specWords ops (List.intercalate [Char.ofNat 32] words) = words := by
  cases words with
  | nil => rfl
  | cons w ws =>
    obtain ⟨h1, h2⟩ := specWords_spaced ops hspace ws
      (fun x hx => hw x (List.mem_cons_of_mem _ hx))
    rw [intercalate_cons, specWords_shaped_append ops w (hw w (List.mem_cons_self _ _)) _ h2, h1]

/-! ### The tokens of a tokenized text name keywords of the shape of a word -/

theorem wordShaped_toLower (ops : CharOps) (hops : ops.KeepsWords) (word : QString)
    (hw : WordShaped ops word) : WordShaped ops (ops.toLower word) := by
  obtain ⟨_, _, hperiod, hshape⟩ := hops
  rcases hw with hp | ⟨hne, hall⟩
  · left
    rw [hp, hperiod]
  · right
    exact hshape word hne hall

theorem namesWords_addToken (ops : CharOps) (st : Interner) (v : TokenizedValue) (t : Token)
    (hv : NamesWords ops st v)
    (ht : ∃ k, st.keywordsByToken[t]? = some k ∧ WordShaped ops k) :
    NamesWords ops st (v.addToken t).2 := by
  unfold TokenizedValue.addToken
  by_cases c : v.length < maximumNumberTokens
  · rw [if_pos c]
    intro x hx
    rcases List.mem_append.1 hx with h | h
    · exact hv x h
    · rw [List.mem_singleton.1 h]
      exact ht
  · rw [if_neg c]
    exact hv

theorem namesWords_flushWord (ops : CharOps) (hops : ops.KeepsWords)
    (acc : Interner × TokenizedValue) (hinv : Interner.Inverse ops acc.1)
    (hv : NamesWords ops acc.1 acc.2) (word : QString) (hw : WordShaped ops word) :
    NamesWords ops (flushWord ops true acc word).1 (flushWord ops true acc word).2 := by
  obtain ⟨st, v⟩ := acc
  have hshape := wordShaped_toLower ops hops word hw
  have hlen : st.keywordsByToken.length ≤ 65535 := hinv.2.2.2.2.2
  unfold flushWord addKeyword
  simp only
  by_cases c1 : QHash.contains st.tokensByKeyword (ops.toLower word) = true
  · rw [if_pos c1]
    apply namesWords_addToken ops st v _ hv
    refine ⟨ops.toLower word, ?_, hshape⟩
    rw [QHash.value_of_contains_any_default _ _ 0 invalidToken c1]
    exact hinv.2.1 _ c1
  · rw [if_neg c1, if_pos trivial]
    by_cases c3 : nextToken st ≠ invalidToken
    · rw [if_pos c3]
      have hnext : nextToken st = st.keywordsByToken.length := by
        show st.keywordsByToken.length % 65536 = st.keywordsByToken.length
        omega
      by_cases c4 : (v.addToken (nextToken st)).1 = true
      · rw [if_pos c4]
        have hv' : NamesWords ops
            ⟨QHash.insert st.tokensByKeyword (ops.toLower word) (nextToken st),
              st.keywordsByToken ++ [ops.toLower word]⟩ v := by
          intro t ht
          obtain ⟨k, hk, hks⟩ := hv t ht
          refine ⟨k, ?_, hks⟩
          show (st.keywordsByToken ++ [ops.toLower word])[t]? = some k
          rw [List.getElem?_append_left (List.getElem?_eq_some_iff.1 hk).1]
          exact hk
        apply namesWords_addToken ops _ v _ hv'
        refine ⟨ops.toLower word, ?_, hshape⟩
        show (st.keywordsByToken ++ [ops.toLower word])[nextToken st]? = some _
        rw [hnext, List.getElem?_append_right (le_refl _)]
        simp
      · rw [if_neg c4]
        unfold TokenizedValue.addToken at c4 ⊢
        by_cases c5 : v.length < maximumNumberTokens
        · rw [if_pos c5] at c4
          exact absurd rfl c4
        · rw [if_neg c5]
          exact hv
    · rw [if_neg c3]
      exact hv

theorem namesWords_foldl (ops : CharOps) (hops : ops.KeepsWords) (words : List QString) :
    ∀ acc : Interner × TokenizedValue, Interner.Inverse ops acc.1 →
      NamesWords ops acc.1 acc.2 → (∀ word ∈ words, WordShaped ops word) →
      Interner.Inverse ops (words.foldl (flushWord ops true) acc).1 ∧
        NamesWords ops (words.foldl (flushWord ops true) acc).1
          (words.foldl (flushWord ops true) acc).2 := by
  induction words with
  | nil => intro acc hinv hv _; exact ⟨hinv, hv⟩
  | cons w ws ih =>
    intro acc hinv hv hw
    rw [List.foldl_cons]
    exact ih _ (Interner.inverse_addKeyword ops acc.1 hinv acc.2 w true)
      (namesWords_flushWord ops hops acc hinv hv w (hw w (List.mem_cons_self _ _)))
      (fun x hx => hw x (List.mem_cons_of_mem _ hx))

theorem lookupToken_of_stored (ops : CharOps) (hops : ops.KeepsWords) (st : Interner)
    (hinv : Interner.Inverse ops st) (t : Token) (k : QString)
    (hk : st.keywordsByToken[t]? = some k) : lookupToken ops st k = t := by
  obtain ⟨i1, _, _, _, i5, _⟩ := hinv
  obtain ⟨hc, hval⟩ := i1 t k hk
  obtain ⟨w, hw⟩ := i5 k (List.mem_iff_getElem?.2 ⟨t, hk⟩)
  have hlow : ops.toLower k = k := by
    rw [← hw]
    exact hops.2.1 w
  unfold lookupToken
  rw [hlow, if_pos hc, QHash.value_of_contains_any_default _ _ 0 invalidToken hc, hval]

theorem charToLower_facts : ∀ n : Nat, 65 ≤ n → n ≤ 90 →
    (Char.ofNat (n + 32)).toNat = n + 32 := by
  intro n h1 h2
  interval_cases n <;> rfl

theorem char_toLower_eq (c : Char) :
    c.toLower = c ∨ (65 ≤ c.toNat ∧ c.toNat ≤ 90 ∧ c.toLower = Char.ofNat (c.toNat + 32)) := by
  unfold Char.toLower
  by_cases h : c.toNat ≥ 65 ∧ c.toNat ≤ 90
  · right
    simp only [h, and_self, if_true]
  · left
    simp only [h, if_false]

theorem char_toLower_idem (c : Char) : c.toLower.toLower = c.toLower := by
  rcases char_toLower_eq c with h | ⟨h1, h2, h3⟩
  · rw [h, h]
  · rcases char_toLower_eq c.toLower with h' | ⟨h1', h2', _⟩
    · exact h'
    · rw [h3, charToLower_facts _ h1 h2] at h1' h2'
      omega

theorem isWordChar_toLower (c : Char) (h : isWordChar qtAscii c = true) :
    isWordChar qtAscii c.toLower = true := by
  rcases char_toLower_eq c with h' | ⟨h1, h2, h3⟩
  · rw [h']
    exact h
  · rw [h3]
    generalize c.toNat = n at h1 h2
    interval_cases n <;> decide

theorem qtAscii_keepsWords : qtAscii.KeepsWords := by
  refine ⟨by decide, ?_, by decide, ?_⟩
  · intro word
    show (word.map Char.toLower).map Char.toLower = word.map Char.toLower
    rw [List.map_map]
    apply List.map_congr_left
    intro c _
    exact char_toLower_idem c
  · intro word hne hall
    refine ⟨?_, ?_⟩
    · show word.map Char.toLower ≠ []
      intro h
      exact hne (List.map_eq_nil_iff.1 h)
    · intro c hc
      obtain ⟨c0, hc0, he⟩ := List.mem_map.1 (show c ∈ word.map Char.toLower from hc)
      rw [← he]
      exact isWordChar_toLower c0 (hall c0 hc0)

/-- C38.  Token-level round trip: for character operations with the properties of Qt listed
in `KeepsWords`, every reachable interner state and every text `s`, the tokenized string `t`
of `tokenize s true` has an approximate string on the interner that the tokenization leaves,
and tokenizing that string without assignment gives back `t` and leaves the interner as it
is, so that nothing new is interned. -/
theorem tokenize_approximateString_round_trip (ops : CharOps) (hops : ops.KeepsWords)
    (st : Interner) (hr : Interner.Reachable ops st) (s : QString) :
    ∃ str : QString,
      approximateString (tokenize ops st s true).1 (tokenize ops st s true).2 = some str ∧
        tokenize ops (tokenize ops st s true).1 str false = tokenize ops st s true := by
  have hinv := Interner.inverse_of_reachable ops st hr
  obtain ⟨hinv', hnames⟩ : Interner.Inverse ops (tokenize ops st s true).1 ∧
      NamesWords ops (tokenize ops st s true).1 (tokenize ops st s true).2 := by
    rw [tokenize_eq_fold]
    exact namesWords_foldl ops hops (specWords ops s) (st, TokenizedValue.empty) hinv
      (fun t ht => absurd ht (List.not_mem_nil t))
      (fun w hw => specWords_shape ops s w hw)
  have hlen := tokenize_length_le ops st s true
  generalize tokenize ops st s true = result at hinv' hnames hlen
  obtain ⟨st', t⟩ := result
  have hlive : ∀ x ∈ t.tokenList, x < st'.keywordsByToken.length := by
    intro x hx
    obtain ⟨k, hk, _⟩ := hnames x hx
    exact (List.getElem?_eq_some_iff.1 hk).1
  have hget : ∀ x ∈ t.tokenList, st'.keywordsByToken[x]? = some (st'.keywordsByToken.getD x []) := by
    intro x hx
    rw [List.getD_eq_getElem?_getD, List.getElem?_eq_getElem (hlive x hx)]
    rfl
  refine ⟨_, approximateString_eq st' t hlive, ?_⟩
  have hshaped : ∀ word ∈ t.tokenList.map (fun x => st'.keywordsByToken.getD x []),
      WordShaped ops word := by
    intro word hword
    obtain ⟨x, hx, he⟩ := List.mem_map.1 hword
    obtain ⟨k, hk, hks⟩ := hnames x hx
    rw [← he]
    have := hget x hx
    rw [hk] at this
    rw [← Option.some.inj this]
    exact hks
  rw [tokenize_eq_fold, specWords_intercalate ops hops.1 _ hshaped,
    foldl_flushWord_no_assign ops st' _ TokenizedValue.empty (by
      show 0 + (t.tokenList.map _).length ≤ 31
      rw [List.length_map]
      have : t.tokenList.length ≤ 31 := hlen
      omega)]
  have hmap : (t.tokenList.map (fun x => st'.keywordsByToken.getD x [])).map
      (lookupToken ops st') = t.tokenList := by
    rw [List.map_map]
    conv_rhs => rw [← List.map_id t.tokenList]
    apply List.map_congr_left
    intro x hx
    exact lookupToken_of_stored ops hops st' hinv' x _ (hget x hx)
  show (st', (⟨[] ++ _⟩ : TokenizedValue)) = (st', t)
  rw [hmap]
  rfl

theorem tokenize_approximateString_round_trip_witness :
    ∃ str : QString,
      approximateString (tokenize qtAscii Interner.empty testSentence true).1
          (tokenize qtAscii Interner.empty testSentence true).2 = some str ∧
        tokenize qtAscii (tokenize qtAscii Interner.empty testSentence true).1 str false =
          tokenize qtAscii Interner.empty testSentence true :=
  tokenize_approximateString_round_trip qtAscii qtAscii_keepsWords Interner.empty
    Interner.Reachable.atStart testSentence

/-! ## The operations of `BitSet` by name -/

/-! ### Words of lists -/

theorem and_one_shift32 (x r : Nat) (hr : r < 32) :
    (x &&& ((1 <<< r) % 2 ^ 32) != 0) = x.testBit r := by
  have h1 : (1 <<< r) % 2 ^ 32 = 2 ^ r := by
    rw [Nat.one_shiftLeft]
    exact Nat.mod_eq_of_lt (Nat.pow_lt_pow_right (by norm_num) hr)
  rw [h1, Nat.and_two_pow]
  cases h : x.testBit r
  · simp
  · have hpos := Nat.two_pow_pos r
    simp

theorem getD_zipWith_and (a b : List Nat) (i : Nat) :
    (List.zipWith (fun word otherWord => word &&& otherWord) a b).getD i 0 =
      a.getD i 0 &&& b.getD i 0 := by
  induction a generalizing b i with
  | nil => simp
  | cons x xs ih =>
    cases b with
    | nil => simp
    | cons y ys =>
      cases i with
      | zero => simp
      | succ j =>
        simp only [List.zipWith_cons_cons, List.getD_cons_succ]
        exact ih ys j

theorem getD_union (a b : List Nat) (i : Nat) :
    (List.zipWith (fun word otherWord => word ||| otherWord) a b ++
      (if a.length < b.length then b.drop a.length
      else if a.length > b.length then a.drop b.length else [])).getD i 0 =
      a.getD i 0 ||| b.getD i 0 := by
  induction a generalizing b i with
  | nil =>
    cases b with
    | nil => simp
    | cons y ys => simp
  | cons x xs ih =>
    cases b with
    | nil => simp
    | cons y ys =>
      cases i with
      | zero => simp
      | succ j =>
        have h := ih ys j
        simp only [List.zipWith_cons_cons, List.cons_append, List.getD_cons_succ,
          List.length_cons, Nat.add_lt_add_iff_right, List.drop_succ_cons, gt_iff_lt] at h ⊢
        exact h

theorem length_foldl_set (g : Nat → Nat → Nat) (n : Nat) :
    ∀ l : List Nat,
      ((List.range n).foldl (fun result index => result.set index (g index (result.getD index 0)))
        l).length = l.length := by
  induction n with
  | zero => intro l; rfl
  | succ m ih =>
    intro l
    rw [List.range_succ, List.foldl_append, List.foldl_cons, List.foldl_nil, List.length_set, ih]

theorem getD_foldl_set (g : Nat → Nat → Nat) (n : Nat) :
    ∀ (l : List Nat) (i : Nat),
      ((List.range n).foldl (fun result index => result.set index (g index (result.getD index 0)))
        l).getD i 0 = if i < n ∧ i < l.length then g i (l.getD i 0) else l.getD i 0 := by
  induction n with
  | zero => intro l i; simp
  | succ m ih =>
    intro l i
    rw [List.range_succ, List.foldl_append, List.foldl_cons, List.foldl_nil, getD_set,
      length_foldl_set g m l, ih l i, ih l m]
    by_cases c : i = m
    · subst c
      by_cases c2 : i < l.length
      · simp [c2]
      · simp [c2]
    · by_cases c2 : i < m
      · have : i < m + 1 := by omega
        simp [c, c2, this]
      · have : ¬ i < m + 1 := by omega
        simp [c, c2, this]

theorem ext_getD (a b : List Nat) (hlen : a.length = b.length)
    (h : ∀ i, a.getD i 0 = b.getD i 0) : a = b := by
  apply List.ext_getElem hlen
  intro i h1 h2
  have := h i
  rw [List.getD_eq_getElem?_getD, List.getD_eq_getElem?_getD, List.getElem?_eq_getElem h1,
    List.getElem?_eq_getElem h2] at this
  exact this

theorem andAssign_eq_intersectionBits (a b : BitSet) : a.andAssign b = a.intersectionBits b := by
  unfold BitSet.andAssign BitSet.intersectionBits
  simp only
  congr 1
  have hkept : (if a.bitArray.length > min a.bitArray.length b.bitArray.length then
      a.bitArray.take (min a.bitArray.length b.bitArray.length) else a.bitArray) =
        a.bitArray.take (min a.bitArray.length b.bitArray.length) := by
    by_cases c : a.bitArray.length > min a.bitArray.length b.bitArray.length
    · rw [if_pos c]
    · rw [if_neg c, List.take_of_length_le (by omega)]
  rw [hkept]
  have hg := getD_foldl_set (fun index word => word &&& b.bitArray.getD index 0)
    (min a.bitArray.length b.bitArray.length)
    (a.bitArray.take (min a.bitArray.length b.bitArray.length))
  have hl := length_foldl_set (fun index word => word &&& b.bitArray.getD index 0)
    (min a.bitArray.length b.bitArray.length)
    (a.bitArray.take (min a.bitArray.length b.bitArray.length))
  apply ext_getD
  · rw [hl, List.length_take, List.length_zipWith]
    omega
  · intro i
    rw [hg i, getD_zipWith_and, List.length_take]
    by_cases c : i < min a.bitArray.length b.bitArray.length
    · have c' : i < min (min a.bitArray.length b.bitArray.length) a.bitArray.length := by omega
      rw [if_pos ⟨c, c'⟩, getD_take, if_pos c]
    · have c' : ¬ (i < min a.bitArray.length b.bitArray.length ∧
          i < min (min a.bitArray.length b.bitArray.length) a.bitArray.length) := fun h => c h.1
      rw [if_neg c', getD_take, if_neg c]
      by_cases c2 : i < a.bitArray.length
      · rw [getD_of_length_le b.bitArray i (by omega)]
        simp
      · rw [getD_of_length_le a.bitArray i (by omega)]
        simp

theorem getD_drop (l : List Nat) (n i : Nat) : (l.drop n).getD i 0 = l.getD (n + i) 0 := by
  rw [List.getD_eq_getElem?_getD, List.getD_eq_getElem?_getD, List.getElem?_drop]

theorem orAssign_eq_unionBits (a b : BitSet) : a.orAssign b = a.unionBits b := by
  unfold BitSet.orAssign BitSet.unionBits
  simp only
  congr 1
  have hg := getD_foldl_set (fun index word => word ||| b.bitArray.getD index 0)
    (min a.bitArray.length b.bitArray.length) a.bitArray
  have hl := length_foldl_set (fun index word => word ||| b.bitArray.getD index 0)
    (min a.bitArray.length b.bitArray.length) a.bitArray
  apply ext_getD
  · rw [List.length_append, hl, List.length_append, List.length_zipWith, List.length_drop]
    by_cases c1 : a.bitArray.length < b.bitArray.length
    · rw [if_pos c1, List.length_drop]
      omega
    · rw [if_neg c1]
      by_cases c2 : a.bitArray.length > b.bitArray.length
      · rw [if_pos c2, List.length_drop]
        omega
      · rw [if_neg c2, List.length_nil]
        omega
  · intro i
    rw [getD_union]
    by_cases c : i < a.bitArray.length
    · rw [List.getD_append _ _ _ _ (by rw [hl]; exact c), hg i]
      by_cases c2 : i < min a.bitArray.length b.bitArray.length
      · rw [if_pos ⟨c2, c⟩]
      · rw [if_neg (fun h => c2 h.1), getD_of_length_le b.bitArray i (by omega)]
        simp
    · rw [List.getD_append_right _ _ _ _ (by rw [hl]; omega), hl, getD_drop,
        getD_of_length_le a.bitArray i (by omega)]
      by_cases c2 : a.bitArray.length ≤ b.bitArray.length
      · rw [show min a.bitArray.length b.bitArray.length + (i - a.bitArray.length) = i by omega]
        simp
      · rw [getD_of_length_le b.bitArray _ (by omega), getD_of_length_le b.bitArray i (by omega)]
        simp

/-! ### The name table -/

theorem bitNumber_lt (names : BitNameHash) (hn : names.Consecutive) (bitName : QString)
    (hc : QHash.contains names bitName = true) : bitNumber names bitName < names.length := by
  have hm := QHash.mem_of_mem_keys names bitName undefinedBit
    ((QHash.contains_iff_mem_keys names bitName).1 hc)
  have hv : bitNumber names bitName ∈ names.map Prod.snd :=
    List.mem_map.2 ⟨_, hm, rfl⟩
  exact List.mem_range.1 ((hn.2.1.mem_iff).1 hv)

theorem exists_name_of_lt (names : BitNameHash) (hn : names.Consecutive) (p : Nat)
    (hp : p < names.length) :
    ∃ bitName, QHash.contains names bitName = true ∧ bitNumber names bitName = p := by
  have hv : p ∈ names.map Prod.snd := (hn.2.1.mem_iff).2 (List.mem_range.2 hp)
  obtain ⟨⟨n, v⟩, hm, he⟩ := List.mem_map.1 hv
  have he' : v = p := he
  subst he'
  refine ⟨n, (QHash.contains_iff_mem_keys names n).2 (List.mem_map.2 ⟨_, hm, rfl⟩), ?_⟩
  exact QHash.value_of_mem names hn.1 n v undefinedBit hm

theorem isSet_eq_testBit (names : BitNameHash) (hn : names.Consecutive) (s : BitSet)
    (hs : s.bitNames ≠ none) (bitName : QString)
    (hc : QHash.contains names bitName = true) :
    s.isSet names bitName =
      (s.bitArray.getD (bitNumber names bitName / 32) 0).testBit (bitNumber names bitName % 32) := by
  have hlt := bitNumber_lt names hn bitName hc
  have hbound : names.length + 32 < 2 ^ 32 := hn.2.2
  have hne : bitNumber names bitName ≠ undefinedBit := by
    show bitNumber names bitName ≠ 2 ^ 32 - 1
    omega
  unfold BitSet.isSet
  simp only
  rw [if_pos hs]
  show (if bitNumber names bitName ≠ undefinedBit then _ else _) = _
  rw [if_pos hne]
  show (if bitNumber names bitName / 32 < s.bitArray.length then
      s.bitArray.getD (bitNumber names bitName / 32) 0 &&&
        ((1 <<< (bitNumber names bitName % 32)) % 2 ^ 32) != 0
    else false) = _
  by_cases c : bitNumber names bitName / 32 < s.bitArray.length
  · rw [if_pos c, and_one_shift32 _ _ (Nat.mod_lt _ (by norm_num))]
  · rw [if_neg c, getD_of_length_le s.bitArray _ (by omega)]
    simp

/-! ### The full set -/

theorem testBit_low_ones (r j : Nat) (hr : r < 32) :
    ((1 <<< r) % 2 ^ 32 - 1).testBit j = decide (j < r) := by
  have h1 : (1 <<< r) % 2 ^ 32 = 2 ^ r := by
    rw [Nat.one_shiftLeft]
    exact Nat.mod_eq_of_lt (Nat.pow_lt_pow_right (by norm_num) hr)
  rw [h1, Nat.testBit_two_pow_sub_one]

theorem fullSet_bitArray (names : BitNameHash) (hb : names.length + 32 < 2 ^ 32) (s : BitSet)
    (hs : s.bitNames ≠ none) :
    (s.fullSet names).bitNames = s.bitNames ∧
      32 * (s.fullSet names).bitArray.length < names.length + 32 ∧
      names.length ≤ 32 * (s.fullSet names).bitArray.length ∧
      ∀ i j, j < 32 →
        ((s.fullSet names).bitArray.getD i 0).testBit j = decide (32 * i + j < names.length) := by
  unfold BitSet.fullSet
  simp only
  rw [if_pos hs]
  have e1 : names.length % 2 ^ 32 = names.length := Nat.mod_eq_of_lt (by omega)
  have e2 : (names.length + bitsPerEntry - 1) % 2 ^ 32 = names.length + 31 := by
    show (names.length + 32 - 1) % 2 ^ 32 = names.length + 31
    rw [Nat.mod_eq_of_lt (by omega)]
    omega
  rw [e1, e2]
  by_cases c : names.length > 0
  · rw [if_pos c]
    have hw : 1 ≤ (names.length + 31) / bitsPerEntry := by
      show 1 ≤ (names.length + 31) / 32
      omega
    generalize hnw : (names.length + 31) / bitsPerEntry = nw at hw
    have hnw' : (names.length + 31) / 32 = nw := hnw
    have e3 : (names.length + 2 ^ 32 - bitsPerEntry * (nw - 1) % 2 ^ 32) % 2 ^ 32 =
        names.length - 32 * (nw - 1) := by
      show (names.length + 2 ^ 32 - 32 * (nw - 1) % 2 ^ 32) % 2 ^ 32 = _
      have h1 : 32 * (nw - 1) % 2 ^ 32 = 32 * (nw - 1) := Nat.mod_eq_of_lt (by omega)
      rw [h1]
      omega
    rw [e3]
    generalize hrem : names.length - 32 * (nw - 1) = rem
    have hrem1 : 1 ≤ rem := by omega
    have hrem2 : rem ≤ 32 := by omega
    have hlast : ∀ j, j < 32 →
        ((if rem = bitsPerEntry then [2 ^ 32 - 1]
          else if rem > 0 then [(1 <<< rem) % 2 ^ 32 - 1] else [] : List Nat).getD 0 0).testBit j =
          decide (j < rem) ∧
        (if rem = bitsPerEntry then [2 ^ 32 - 1]
          else if rem > 0 then [(1 <<< rem) % 2 ^ 32 - 1] else [] : List Nat).length = 1 := by
      intro j hj
      by_cases c1 : rem = bitsPerEntry
      · rw [if_pos c1]
        have c1' : rem = 32 := c1
        refine ⟨?_, rfl⟩
        show (2 ^ 32 - 1 : Nat).testBit j = _
        rw [Nat.testBit_two_pow_sub_one]
        simp [hj, c1']
      · rw [if_neg c1, if_pos (by omega)]
        have c1' : rem ≠ 32 := c1
        refine ⟨?_, rfl⟩
        show ((1 <<< rem) % 2 ^ 32 - 1).testBit j = _
        rw [testBit_low_ones rem j (by omega)]
    have hlen : (List.replicate (nw - 1) (2 ^ 32 - 1) ++
        (if rem = bitsPerEntry then [2 ^ 32 - 1]
          else if rem > 0 then [(1 <<< rem) % 2 ^ 32 - 1] else [] : List Nat)).length = nw := by
      rw [List.length_append, List.length_replicate, (hlast 0 (by norm_num)).2]
      omega
    refine ⟨rfl, ?_, ?_, ?_⟩
    · show 32 * (_ : List Nat).length < _
      rw [hlen]
      omega
    · show _ ≤ 32 * (_ : List Nat).length
      rw [hlen]
      omega
    · intro i j hj
      show ((_ : List Nat).getD i 0).testBit j = _
      by_cases c1 : i < nw - 1
      · rw [List.getD_append _ _ _ _ (by rw [List.length_replicate]; exact c1),
          List.getD_eq_getElem?_getD, List.getElem?_replicate, if_pos c1]
        show (2 ^ 32 - 1 : Nat).testBit j = _
        rw [Nat.testBit_two_pow_sub_one]
        have : 32 * i + j < names.length := by omega
        simp [hj, this]
      · rw [List.getD_append_right _ _ _ _ (by rw [List.length_replicate]; omega),
          List.length_replicate]
        by_cases c2 : i = nw - 1
        · rw [c2, Nat.sub_self, (hlast j hj).1]
          have : j < rem ↔ 32 * (nw - 1) + j < names.length := by omega
          simp [this]
        · rw [getD_of_length_le _ _ (by rw [(hlast 0 (by norm_num)).2]; omega)]
          have : ¬ 32 * i + j < names.length := by omega
          simp [this]
  · rw [if_neg c]
    have h0 : names.length = 0 := by omega
    refine ⟨rfl, ?_, ?_, ?_⟩
    · show 32 * 0 < _
      omega
    · show _ ≤ 32 * 0
      omega
    · intro i j _
      show ((([] : List Nat)).getD i 0).testBit j = _
      simp [h0]

theorem complement_isSet (names : BitNameHash) (hn : names.Consecutive) (s : BitSet)
    (hs : s.bitNames ≠ none) (bitName : QString)
    (hc : QHash.contains names bitName = true) :
    (s.complement names).isSet names bitName = !s.isSet names bitName := by
  obtain ⟨f1, _, _, f4⟩ := fullSet_bitArray names hn.2.2 s hs
  have hlt := bitNumber_lt names hn bitName hc
  have hcs : (s.complement names).bitNames ≠ none := by
    show (s.fullSet names).bitNames ≠ none
    rw [f1]
    exact hs
  rw [isSet_eq_testBit names hn _ hcs bitName hc, isSet_eq_testBit names hn s hs bitName hc]
  unfold BitSet.complement
  simp only
  rw [getD_foldl_set (fun index word => word &&& complement 32 (s.bitArray.getD index 0))]
  have hj : bitNumber names bitName % 32 < 32 := Nat.mod_lt _ (by norm_num)
  have hfull := f4 (bitNumber names bitName / 32) (bitNumber names bitName % 32) hj
  have hpos : 32 * (bitNumber names bitName / 32) + bitNumber names bitName % 32 < names.length := by
    omega
  rw [decide_eq_true hpos] at hfull
  by_cases c : bitNumber names bitName / 32 < s.bitArray.length ∧
      bitNumber names bitName / 32 < (s.fullSet names).bitArray.length
  · rw [if_pos c, Nat.testBit_and, hfull, complement_testBit]
    simp [hj]
  · rw [if_neg c, hfull]
    have hin : bitNumber names bitName / 32 < (s.fullSet names).bitArray.length := by
      by_contra hno
      rw [getD_of_length_le _ _ (by omega)] at hfull
      simp at hfull
    have : ¬ bitNumber names bitName / 32 < s.bitArray.length := fun h => c ⟨h, hin⟩
    rw [getD_of_length_le s.bitArray _ (by omega)]
    simp

/-! ### Common bits -/

theorem word_lt_of_wellFormed (numberBits : Nat) (s : BitSet) (hw : s.WellFormed numberBits)
    (i : Nat) : s.bitArray.getD i 0 < 2 ^ 32 := by
  by_cases c : i < s.bitArray.length
  · rw [List.getD_eq_getElem?_getD, List.getElem?_eq_getElem c]
    exact hw.1 _ (List.getElem_mem c)
  · rw [getD_of_length_le _ _ (by omega)]
    norm_num

theorem intersects_iff (names : BitNameHash) (hn : names.Consecutive) (a b : BitSet)
    (ha : a.bitNames ≠ none) (hb : b.bitNames ≠ none) (hwa : a.WellFormed names.length) :
    a.intersects b = true ↔
      ∃ bitName, QHash.contains names bitName = true ∧ a.isSet names bitName = true ∧
        b.isSet names bitName = true := by
  unfold BitSet.intersects
  rw [if_pos ⟨ha, hb⟩, List.any_eq_true]
  constructor
  · rintro ⟨x, hx, hne⟩
    have hne' : x ≠ 0 := by simpa using hne
    obtain ⟨i, hi⟩ := List.mem_iff_getElem?.1 hx
    have hil : i < (List.zipWith (fun word otherWord => word &&& otherWord) a.bitArray
        b.bitArray).length := (List.getElem?_eq_some_iff.1 hi).1
    rw [List.length_zipWith] at hil
    have hxe : x = a.bitArray.getD i 0 &&& b.bitArray.getD i 0 := by
      rw [← getD_zipWith_and, List.getD_eq_getElem?_getD, hi]
      rfl
    obtain ⟨k, _, _, hk, _⟩ := exists_lowest_one_bit x hne'
    have hxlt : x < 2 ^ 32 := by
      rw [hxe]
      exact lt_of_le_of_lt Nat.and_le_left (word_lt_of_wellFormed _ a hwa i)
    have hk32 : k < 32 := by
      by_contra hno
      have : x.testBit k = false :=
        Nat.testBit_lt_two_pow (lt_of_lt_of_le hxlt (Nat.pow_le_pow_right (by norm_num) (by omega)))
      rw [this] at hk
      exact Bool.noConfusion hk
    rw [hxe, Nat.testBit_and, Bool.and_eq_true] at hk
    have hp : 32 * i + k < names.length := by
      by_contra hno
      have := hwa.2.2 i (by omega) k hk32 (by omega)
      rw [this] at hk
      exact Bool.noConfusion hk.1
    obtain ⟨bitName, hc, hnum⟩ := exists_name_of_lt names hn _ hp
    have e1 : bitNumber names bitName / 32 = i := by omega
    have e2 : bitNumber names bitName % 32 = k := by omega
    refine ⟨bitName, hc, ?_, ?_⟩
    · rw [isSet_eq_testBit names hn a ha bitName hc, e1, e2]
      exact hk.1
    · rw [isSet_eq_testBit names hn b hb bitName hc, e1, e2]
      exact hk.2
  · rintro ⟨bitName, hc, h1, h2⟩
    rw [isSet_eq_testBit names hn a ha bitName hc] at h1
    rw [isSet_eq_testBit names hn b hb bitName hc] at h2
    have hia : bitNumber names bitName / 32 < a.bitArray.length := by
      by_contra hno
      rw [getD_of_length_le _ _ (by omega)] at h1
      simp at h1
    have hib : bitNumber names bitName / 32 < b.bitArray.length := by
      by_contra hno
      rw [getD_of_length_le _ _ (by omega)] at h2
      simp at h2
    have hil : bitNumber names bitName / 32 <
        (List.zipWith (fun word otherWord => word &&& otherWord) a.bitArray b.bitArray).length := by
      rw [List.length_zipWith]
      omega
    refine ⟨(List.zipWith (fun word otherWord => word &&& otherWord) a.bitArray b.bitArray).getD
      (bitNumber names bitName / 32) 0, ?_, ?_⟩
    · rw [List.getD_eq_getElem?_getD, List.getElem?_eq_getElem hil]
      exact List.getElem_mem hil
    · rw [getD_zipWith_and]
      have hbit : (a.bitArray.getD (bitNumber names bitName / 32) 0 &&&
          b.bitArray.getD (bitNumber names bitName / 32) 0).testBit
            (bitNumber names bitName % 32) = true := by
        rw [Nat.testBit_and, h1, h2]
        rfl
      have hne : a.bitArray.getD (bitNumber names bitName / 32) 0 &&&
          b.bitArray.getD (bitNumber names bitName / 32) 0 ≠ 0 := by
        intro h0
        rw [h0] at hbit
        simp at hbit
      simpa using hne

/-! ### Sets that `setBit` builds -/

theorem wellFormed_ofTable (numberBits : Nat) (bitHash : Option Nat) :
    (BitSet.ofTable bitHash).WellFormed numberBits := by
  refine ⟨?_, ?_, ?_⟩
  · intro word hword
    exact absurd hword (List.not_mem_nil word)
  · show 32 * 0 < numberBits + 32
    omega
  · intro i hi
    exact absurd hi (Nat.not_lt_zero i)

theorem testBit_update32 (nowSet : Bool) (word mask j : Nat) (hj : j < 32) :
    (if nowSet = true then word ||| mask else word &&& complement 32 mask).testBit j =
      if mask.testBit j = true then nowSet else word.testBit j := by
  cases nowSet
  · rw [if_neg (by simp), Nat.testBit_and, complement_testBit]
    cases h : mask.testBit j <;> simp [hj]
  · rw [if_pos rfl, Nat.testBit_or]
    cases h : mask.testBit j <;> simp

theorem wellFormed_setBit (names : BitNameHash) (hn : names.Consecutive) (s : BitSet)
    (hw : s.WellFormed names.length) (bitName : QString) (nowSet : Bool) :
    (s.setBit names bitName nowSet).2.WellFormed names.length := by
  unfold BitSet.setBit
  simp only
  by_cases c1 : s.bitNames ≠ none
  · rw [if_pos c1]
    by_cases c2 : QHash.value names bitName undefinedBit ≠ undefinedBit
    · rw [if_pos c2]
      have hc : QHash.contains names bitName = true := by
        cases h : QHash.contains names bitName with
        | true => rfl
        | false => exact absurd (QHash.value_of_not_contains names bitName undefinedBit h) c2
      have hlt : QHash.value names bitName undefinedBit < names.length :=
        bitNumber_lt names hn bitName hc
      generalize QHash.value names bitName undefinedBit = p at hlt
      show (⟨s.bitNames, (s.bitArray ++ List.replicate (p / 32 + 1 - s.bitArray.length) 0).set
        (p / 32)
        (if nowSet = true then
          (s.bitArray ++ List.replicate (p / 32 + 1 - s.bitArray.length) 0).getD (p / 32) 0 |||
            (1 <<< (p % 32)) % 2 ^ 32
        else
          (s.bitArray ++ List.replicate (p / 32 + 1 - s.bitArray.length) 0).getD (p / 32) 0 &&&
            complement 32 ((1 <<< (p % 32)) % 2 ^ 32))⟩ : BitSet).WellFormed names.length
      rw [getD_append_zeros]
      have hmask : (1 <<< (p % 32)) % 2 ^ 32 = 2 ^ (p % 32) := by
        rw [Nat.one_shiftLeft]
        exact Nat.mod_eq_of_lt (Nat.pow_lt_pow_right (by norm_num) (Nat.mod_lt _ (by norm_num)))
      rw [hmask]
      have hword := word_lt_of_wellFormed _ s hw (p / 32)
      have hX : (if nowSet = true then s.bitArray.getD (p / 32) 0 ||| 2 ^ (p % 32)
          else s.bitArray.getD (p / 32) 0 &&& complement 32 (2 ^ (p % 32))) < 2 ^ 32 := by
        cases nowSet
        · rw [if_neg (by simp)]
          exact lt_of_le_of_lt Nat.and_le_left hword
        · rw [if_pos rfl]
          exact Nat.or_lt_two_pow hword
            (Nat.pow_lt_pow_right (by norm_num) (Nat.mod_lt _ (by norm_num)))
      refine ⟨?_, ?_, ?_⟩
      · intro word hmem
        rcases List.mem_or_eq_of_mem_set hmem with h | h
        · rcases List.mem_append.1 h with h' | h'
          · exact hw.1 word h'
          · rw [List.eq_of_mem_replicate h']
            norm_num
        · rw [h]
          exact hX
      · show 32 * ((s.bitArray ++ List.replicate (p / 32 + 1 - s.bitArray.length) 0).set _ _).length
          < _
        rw [List.length_set, List.length_append, List.length_replicate]
        have := hw.2.1
        omega
      · intro i hi j hj hge
        show (((s.bitArray ++ List.replicate (p / 32 + 1 - s.bitArray.length) 0).set _ _).getD i
          0).testBit j = false
        rw [getD_set, getD_append_zeros]
        have hold : (s.bitArray.getD i 0).testBit j = false := by
          by_cases c : i < s.bitArray.length
          · exact hw.2.2 i c j hj hge
          · rw [getD_of_length_le _ _ (by omega)]
            simp
        by_cases c : i = p / 32 ∧
            p / 32 < (s.bitArray ++ List.replicate (p / 32 + 1 - s.bitArray.length) 0).length
        · rw [if_pos c, testBit_update32 _ _ _ _ hj, Nat.testBit_two_pow]
          have hne : ¬ p % 32 = j := by
            intro he
            have := c.1
            omega
          rw [if_neg (by simpa using hne), ← c.1]
          exact hold
        · rw [if_neg c]
          exact hold
    · rw [if_neg c2]
      exact hw
  · rw [if_neg c1]
    exact hw

theorem withBits_facts (names : BitNameHash) (hn : names.Consecutive) (address : Nat)
    (bitNames : List QString) :
    (BitSet.withBits names address bitNames).WellFormed names.length ∧
      (BitSet.withBits names address bitNames).bitNames = some address := by
  unfold BitSet.withBits
  have key : ∀ (l : List QString) (s : BitSet), s.WellFormed names.length →
      s.bitNames = some address →
      (l.foldl (fun s bitName => (s.setBit names bitName true).2) s).WellFormed names.length ∧
        (l.foldl (fun s bitName => (s.setBit names bitName true).2) s).bitNames =
          some address := by
    intro l
    induction l with
    | nil => intro s h1 h2; exact ⟨h1, h2⟩
    | cons x xs ih =>
      intro s h1 h2
      rw [List.foldl_cons]
      refine ih _ (wellFormed_setBit names hn s h1 x true) ?_
      unfold BitSet.setBit
      simp only
      split_ifs <;> exact h2
  exact key bitNames _ (wellFormed_ofTable _ _) rfl

/-- C33.  For bit sets `a` and `b` over the same name table, which assigns the bit numbers
consecutively from 0, `a` being in a state that the constructors and operations give, and
every defined name `n`: in `intersectionBits` the bit `n` is set
exactly when it is set in `a` and in `b`, in `unionBits` exactly when it is set in `a` or in
`b`, in `complement` exactly when it is not set in `a`; `intersects` holds exactly when some
defined name is set in both; and the operators `&=` and `|=` leave the sets that
`intersectionBits` and `unionBits` return. -/
theorem bitSet_operations_by_name (names : BitNameHash) (hn : names.Consecutive)
    (a b : BitSet) (address : Nat) (ha : a.bitNames = some address)
    (hb : b.bitNames = some address) (hwa : a.WellFormed names.length) :
    (∀ bitName, QHash.contains names bitName = true →
      (a.intersectionBits b).isSet names bitName =
          (a.isSet names bitName && b.isSet names bitName) ∧
        (a.unionBits b).isSet names bitName =
          (a.isSet names bitName || b.isSet names bitName) ∧
        (a.complement names).isSet names bitName = !a.isSet names bitName) ∧
      (a.intersects b = true ↔
        ∃ bitName, QHash.contains names bitName = true ∧ a.isSet names bitName = true ∧
          b.isSet names bitName = true) ∧
      a.andAssign b = a.intersectionBits b ∧ a.orAssign b = a.unionBits b := by
  have ha' : a.bitNames ≠ none := by rw [ha]; exact Option.some_ne_none _
  have hb' : b.bitNames ≠ none := by rw [hb]; exact Option.some_ne_none _
  refine ⟨?_, intersects_iff names hn a b ha' hb' hwa, andAssign_eq_intersectionBits a b,
    orAssign_eq_unionBits a b⟩
  intro bitName hc
  refine ⟨?_, ?_, complement_isSet names hn a ha' bitName hc⟩
  · rw [isSet_eq_testBit names hn (a.intersectionBits b) ha' bitName hc,
      isSet_eq_testBit names hn a ha' bitName hc, isSet_eq_testBit names hn b hb' bitName hc]
    show ((List.zipWith _ a.bitArray b.bitArray).getD _ 0).testBit _ = _
    rw [getD_zipWith_and, Nat.testBit_and]
  · rw [isSet_eq_testBit names hn (a.unionBits b) ha' bitName hc,
      isSet_eq_testBit names hn a ha' bitName hc, isSet_eq_testBit names hn b hb' bitName hc]
    show ((_ : List Nat).getD _ 0).testBit _ = _
    unfold BitSet.unionBits
    simp only
    rw [getD_union, Nat.testBit_or]

theorem unaryBitNames_consecutive : (unaryBitNames 34).Consecutive := by
  refine ⟨by decide!, ?_, by decide⟩
  decide!

theorem bitSet_operations_by_name_witness :
    (BitSet.withBits (unaryBitNames 34) 0 [unaryWord 0, unaryWord 32]).intersects
        (BitSet.withBits (unaryBitNames 34) 0 [unaryWord 1, unaryWord 32]) = true ∧
      ((BitSet.withBits (unaryBitNames 34) 0 [unaryWord 0, unaryWord 32]).complement
        (unaryBitNames 34)).isSet (unaryBitNames 34) (unaryWord 1) = true ∧
      (BitSet.withBits (unaryBitNames 34) 0 [unaryWord 0, unaryWord 32]).andAssign
          (BitSet.withBits (unaryBitNames 34) 0 [unaryWord 1, unaryWord 32]) =
        (BitSet.withBits (unaryBitNames 34) 0 [unaryWord 0, unaryWord 32]).intersectionBits
          (BitSet.withBits (unaryBitNames 34) 0 [unaryWord 1, unaryWord 32]) :=
  have h := bitSet_operations_by_name (unaryBitNames 34) unaryBitNames_consecutive
    (BitSet.withBits (unaryBitNames 34) 0 [unaryWord 0, unaryWord 32])
    (BitSet.withBits (unaryBitNames 34) 0 [unaryWord 1, unaryWord 32]) 0
    (withBits_facts _ unaryBitNames_consecutive 0 _).2
    (withBits_facts _ unaryBitNames_consecutive 0 _).2
    (withBits_facts _ unaryBitNames_consecutive 0 _).1
  ⟨h.2.1.2 ⟨unaryWord 32, by decide!, by decide!, by decide!⟩,
    ((h.1 (unaryWord 1) (by decide!)).2.2).trans (by decide!), h.2.2.1⟩

/-! ## The search methods of `BitArray` -/

theorem msbLocation64_two_pow (mode : WideShift) (k : Nat) (hk : k < 64) :
    msbLocation64 mode (2 ^ k) = (k : Int) := by
  have hpos := Nat.two_pow_pos k
  have hlt : 2 ^ k < 2 ^ 64 := Nat.pow_lt_pow_right (by norm_num) hk
  have first : msbLoop mode 64 64 (2 ^ k) 0 = msbLoop mode 64 32 (2 ^ k) 0 := by
    have e : 64 >>> 1 = 32 := by decide
    rw [msbLoop, if_neg (by norm_num), msbMask_sixty_four, Nat.zero_mod, Nat.and_zero,
      if_neg (by simp), e]
  obtain ⟨k', r1, r2, r3⟩ := msbLoop_finds_top mode 64 (by norm_num) 5 (2 ^ k) 0 (by omega)
    (by norm_num; omega) (by norm_num)
  have h1 : k' ≤ k := (Nat.pow_le_pow_iff_right (by norm_num)).1 r2
  have h2 : k < k' + 1 := (Nat.pow_lt_pow_iff_right (by norm_num)).1 r3
  have hkk : k' = k := by omega
  unfold msbLocation64
  rw [if_pos (by omega), first]
  norm_num at r1
  rw [r1, hkk]

theorem located_eq (mode : WideShift) (b : BitArray.Private) (index k : Nat) (hk : k < 64)
    (hindex : 64 * index + 64 ≤ 2 ^ 64) :
    b.located mode index (2 ^ k) =
      if 64 * index + k ≥ b.bitLength then invalidIndex else 64 * index + k := by
  unfold BitArray.Private.located
  simp only
  rw [msbLocation64_two_pow mode k hk]
  have e : toUnsigned 64 (((allocationUnitSize * index : Nat) : Int) + (k : Int)) =
      64 * index + k := by
    unfold toUnsigned allocationUnitSize
    have h1 : ((64 * index : Nat) : Int) + (k : Int) = ((64 * index + k : Nat) : Int) := by
      push_cast
      ring
    rw [h1]
    have h2 : (((64 * index + k : Nat) : Int) % 2 ^ 64) = ((64 * index + k : Nat) : Int) := by
      apply Int.emod_eq_of_lt
      · exact Int.natCast_nonneg _
      · have : 64 * index + k < 2 ^ 64 := by omega
        exact_mod_cast this
    rw [h2, Int.toNat_natCast]
  rw [e]

theorem skipWithoutSet_spec (b : BitArray.Private) :
    ∀ (remaining index : Nat) (mask : AllocationUnit),
      index ≤ (b.skipWithoutSet remaining index mask).1 ∧
        (b.skipWithoutSet remaining index mask).1 ≤ index + remaining ∧
        (b.skipWithoutSet remaining index mask).2 =
          (if (b.skipWithoutSet remaining index mask).1 = index then mask else allOnes) ∧
        (∀ u, index ≤ u → u < (b.skipWithoutSet remaining index mask).1 →
          b.readUnit u &&& (if u = index then mask else allOnes) = 0) ∧
        ((b.skipWithoutSet remaining index mask).1 < index + remaining →
          b.readUnit (b.skipWithoutSet remaining index mask).1 &&&
            (b.skipWithoutSet remaining index mask).2 ≠ 0) := by
  intro remaining
  induction remaining with
  | zero =>
    intro index mask
    refine ⟨le_refl _, le_refl _, by simp [BitArray.Private.skipWithoutSet], ?_, ?_⟩
    · intro u h1 h2
      simp only [BitArray.Private.skipWithoutSet] at h2
      omega
    · intro h
      simp only [BitArray.Private.skipWithoutSet] at h
      omega
  | succ r ih =>
    intro index mask
    by_cases c : b.readUnit index &&& mask = 0
    · have e : b.skipWithoutSet (r + 1) index mask = b.skipWithoutSet r (index + 1) allOnes := by
        simp only [BitArray.Private.skipWithoutSet, if_pos c]
      obtain ⟨h1, h2, h3, h4, h5⟩ := ih (index + 1) allOnes
      rw [e]
      have hne : (b.skipWithoutSet r (index + 1) allOnes).1 ≠ index := by omega
      refine ⟨by omega, by omega, ?_, ?_, ?_⟩
      · rw [h3, if_neg hne]
        simp
      · intro u hu1 hu2
        by_cases cu : u = index
        · rw [if_pos cu, cu]
          exact c
        · rw [if_neg cu]
          have := h4 u (by omega) hu2
          simpa using this
      · intro hlt
        exact h5 (by omega)
    · have e : b.skipWithoutSet (r + 1) index mask = (index, mask) := by
        simp only [BitArray.Private.skipWithoutSet, if_neg c]
      rw [e]
      refine ⟨le_refl _, by omega, by simp, ?_, ?_⟩
      · intro u h1 h2
        exact absurd h2 (by simp only; omega)
      · intro _
        exact c

theorem skipWithoutCleared_spec (b : BitArray.Private) :
    ∀ (remaining index : Nat) (mask : AllocationUnit),
      index ≤ (b.skipWithoutCleared remaining index mask).1 ∧
        (b.skipWithoutCleared remaining index mask).1 ≤ index + remaining ∧
        (b.skipWithoutCleared remaining index mask).2 =
          (if (b.skipWithoutCleared remaining index mask).1 = index then mask else 0) ∧
        (∀ u, index ≤ u → u < (b.skipWithoutCleared remaining index mask).1 →
          b.readUnit u ||| (if u = index then mask else 0) = allOnes) ∧
        ((b.skipWithoutCleared remaining index mask).1 < index + remaining →
          b.readUnit (b.skipWithoutCleared remaining index mask).1 |||
            (b.skipWithoutCleared remaining index mask).2 ≠ allOnes) := by
  intro remaining
  induction remaining with
  | zero =>
    intro index mask
    refine ⟨le_refl _, le_refl _, by simp [BitArray.Private.skipWithoutCleared], ?_, ?_⟩
    · intro u h1 h2
      simp only [BitArray.Private.skipWithoutCleared] at h2
      omega
    · intro h
      simp only [BitArray.Private.skipWithoutCleared] at h
      omega
  | succ r ih =>
    intro index mask
    by_cases c : b.readUnit index ||| mask = allOnes
    · have e : b.skipWithoutCleared (r + 1) index mask =
          b.skipWithoutCleared r (index + 1) 0 := by
        simp only [BitArray.Private.skipWithoutCleared, if_pos c]
      obtain ⟨h1, h2, h3, h4, h5⟩ := ih (index + 1) 0
      rw [e]
      have hne : (b.skipWithoutCleared r (index + 1) 0).1 ≠ index := by omega
      refine ⟨by omega, by omega, ?_, ?_, ?_⟩
      · rw [h3, if_neg hne]
        simp
      · intro u hu1 hu2
        by_cases cu : u = index
        · rw [if_pos cu, cu]
          exact c
        · rw [if_neg cu]
          have := h4 u (by omega) hu2
          simpa using this
      · intro hlt
        exact h5 (by omega)
    · have e : b.skipWithoutCleared (r + 1) index mask = (index, mask) := by
        simp only [BitArray.Private.skipWithoutCleared, if_neg c]
      rw [e]
      refine ⟨le_refl _, by omega, by simp, ?_, ?_⟩
      · intro u h1 h2
        exact absurd h2 (by simp only; omega)
      · intro _
        exact c

theorem testBit_lowMask (s j : Nat) (hs : s < 64) :
    ((1 <<< s) % 2 ^ 64 - 1).testBit j = decide (j < s) := by
  have h1 : (1 <<< s) % 2 ^ 64 = 2 ^ s := by
    rw [Nat.one_shiftLeft]
    exact Nat.mod_eq_of_lt (Nat.pow_lt_pow_right (by norm_num) hs)
  rw [h1, Nat.testBit_two_pow_sub_one]

theorem eq_allOnes_of_low_bits (x : Nat) (hx : x < 2 ^ 64)
    (h : ∀ j, j < 64 → x.testBit j = true) : x = allOnes := by
  apply Nat.eq_of_testBit_eq
  intro j
  rw [testBit_allOnes]
  by_cases c : j < 64
  · rw [h j c]
    simp [c]
  · rw [Nat.testBit_lt_two_pow (lt_of_lt_of_le hx (Nat.pow_le_pow_right (by norm_num) (by omega)))]
    simp [c]

/-- The reasoning that the searches for a set and for a cleared bit share: `wanted u j` says
that bit `j` of unit `u` is of the kind searched for, `index` is the unit at which the loop
stopped. -/
theorem search_from_spec (bitLength dataLength s : Nat) (wanted : Nat → Nat → Bool)
    (index result : Nat) (hdata : dataLength = (bitLength + 63) / 64)
    (hlow : s / 64 ≤ index) (hhigh : index ≤ dataLength)
    (hbefore : ∀ u, s / 64 ≤ u → u < index → ∀ j, j < 64 → (u = s / 64 → s % 64 ≤ j) →
      wanted u j = false)
    (hat : index < dataLength → ∃ k, k < 64 ∧ wanted index k = true ∧
      (index = s / 64 → s % 64 ≤ k) ∧
      (∀ j, j < k → (index = s / 64 → s % 64 ≤ j) → wanted index j = false) ∧
      result = if 64 * index + k ≥ bitLength then invalidIndex else 64 * index + k)
    (hend : ¬ index < dataLength → result = invalidIndex) :
    (result = invalidIndex ∧
        ∀ i, s ≤ i → i < bitLength → wanted (i / 64) (i % 64) = false) ∨
      (s ≤ result ∧ result < bitLength ∧ wanted (result / 64) (result % 64) = true ∧
        ∀ i, s ≤ i → i < result → wanted (i / 64) (i % 64) = false) := by
  by_cases c : index < dataLength
  · obtain ⟨k, hk, hw, hks, hkb, hres⟩ := hat c
    have hp : s ≤ 64 * index + k := by
      by_cases c1 : index = s / 64
      · have := hks c1
        omega
      · omega
    have hclear : ∀ i, s ≤ i → i < 64 * index + k → wanted (i / 64) (i % 64) = false := by
      intro i h1 h2
      have hu1 : s / 64 ≤ i / 64 := Nat.div_le_div_right h1
      by_cases c1 : i / 64 < index
      · exact hbefore (i / 64) hu1 c1 (i % 64) (Nat.mod_lt _ (by norm_num)) (by intro h; omega)
      · have hu : i / 64 = index := by omega
        rw [hu]
        exact hkb (i % 64) (by omega) (by intro h; omega)
    by_cases c2 : 64 * index + k ≥ bitLength
    · rw [if_pos c2] at hres
      left
      exact ⟨hres, fun i h1 h2 => hclear i h1 (by omega)⟩
    · rw [if_neg c2] at hres
      right
      rw [hres]
      refine ⟨hp, by omega, ?_, hclear⟩
      have e1 : (64 * index + k) / 64 = index := by omega
      have e2 : (64 * index + k) % 64 = k := by omega
      rw [e1, e2]
      exact hw
  · left
    refine ⟨hend c, ?_⟩
    intro i h1 h2
    have hu1 : s / 64 ≤ i / 64 := Nat.div_le_div_right h1
    exact hbefore (i / 64) hu1 (by omega) (i % 64) (Nat.mod_lt _ (by norm_num))
      (by intro h; omega)

theorem firstSetBitFrom_spec (mode : WideShift) (b : BitArray.Private) (hv : b.Valid)
    (s : Nat) :
    (b.firstSetBitFrom mode s = invalidIndex ∧
        ∀ i, s ≤ i → i < b.size → b.isSet i = false) ∨
      (s ≤ b.firstSetBitFrom mode s ∧ b.firstSetBitFrom mode s < b.size ∧
        b.isSet (b.firstSetBitFrom mode s) = true ∧
        ∀ i, s ≤ i → i < b.firstSetBitFrom mode s → b.isSet i = false) := by
  obtain ⟨v1, v2, _, v4, v5⟩ := hv
  have hD : b.dataLength = (b.bitLength + 63) / 64 := by
    rw [v1, allocationDataSize_eq _ v2]
  show (_ ∧ ∀ i, s ≤ i → i < b.bitLength → _) ∨ (_ ∧ _ < b.bitLength ∧ _)
  by_cases c : b.data ≠ none ∧ s < b.bitLength
  · have key := search_from_spec b.bitLength b.dataLength s
      (fun u j => (b.readUnit u).testBit j)
      (b.skipWithoutSet (b.dataLength - s / 64) (s / 64) ((allOnes <<< (s % 64)) % 2 ^ 64)).1
      (b.firstSetBitFrom mode s) hD
    obtain ⟨h1, h2, h3, h4, h5⟩ := skipWithoutSet_spec b (b.dataLength - s / 64) (s / 64)
      ((allOnes <<< (s % 64)) % 2 ^ 64)
    have hcode : b.firstSetBitFrom mode s =
        if (b.skipWithoutSet (b.dataLength - s / 64) (s / 64)
            ((allOnes <<< (s % 64)) % 2 ^ 64)).1 < b.dataLength then
          b.located mode
            (b.skipWithoutSet (b.dataLength - s / 64) (s / 64)
              ((allOnes <<< (s % 64)) % 2 ^ 64)).1
            (maskLsbOne 64
              (b.readUnit
                  (b.skipWithoutSet (b.dataLength - s / 64) (s / 64)
                    ((allOnes <<< (s % 64)) % 2 ^ 64)).1 &&&
                (b.skipWithoutSet (b.dataLength - s / 64) (s / 64)
                  ((allOnes <<< (s % 64)) % 2 ^ 64)).2))
        else invalidIndex := by
      unfold BitArray.Private.firstSetBitFrom
      rw [if_pos c]
      rfl
    generalize b.skipWithoutSet (b.dataLength - s / 64) (s / 64)
      ((allOnes <<< (s % 64)) % 2 ^ 64) = stop at key h1 h2 h3 h4 h5 hcode
    obtain ⟨index, m⟩ := stop
    simp only at key h1 h2 h3 h4 h5 hcode
    have hmaskbit : ∀ u j, j < 64 → (u = s / 64 → s % 64 ≤ j) →
        (if u = s / 64 then (allOnes <<< (s % 64)) % 2 ^ 64 else allOnes).testBit j = true := by
      intro u j hj hu
      by_cases cu : u = s / 64
      · rw [if_pos cu, testBit_startMask]
        simp [hu cu, hj]
      · rw [if_neg cu, testBit_allOnes]
        simp [hj]
    have hres := key h1 (by omega)
      (by
        intro u hu1 hu2 j hj hjs
        have hz := h4 u hu1 hu2
        have hb := congrArg (fun x => x.testBit j) hz
        simp only [Nat.testBit_and, hmaskbit u j hj hjs, Bool.and_true, Nat.zero_testBit] at hb
        exact hb)
      (by
        intro hlt
        have hne := h5 (by omega)
        have hunit : b.readUnit index &&& m < 2 ^ 64 :=
          lt_of_le_of_lt Nat.and_le_left (v5 index)
        obtain ⟨k, q, he, hk1, hk2⟩ := exists_lowest_one_bit _ hne
        have hk : k < 64 := by
          by_contra hno
          have : (b.readUnit index &&& m).testBit k = false :=
            Nat.testBit_lt_two_pow
              (lt_of_lt_of_le hunit (Nat.pow_le_pow_right (by norm_num) (by omega)))
          rw [this] at hk1
          exact Bool.noConfusion hk1
        have hmask : maskLsbOne 64 (b.readUnit index &&& m) = 2 ^ k := by
          rw [he]
          exact maskLsbOne_eq 64 k q (by rw [← he]; exact hunit)
        rw [Nat.testBit_and, Bool.and_eq_true] at hk1
        refine ⟨k, hk, hk1.1, ?_, ?_, ?_⟩
        · intro hi
          have hm := hk1.2
          rw [h3, if_pos hi, testBit_startMask] at hm
          have := of_decide_eq_true hm
          exact this.1
        · intro j hj hjs
          have hz := hk2 j hj
          rw [Nat.testBit_and, h3, hmaskbit index j (by omega) hjs, Bool.and_true] at hz
          exact hz
        · rw [hcode, if_pos hlt, hmask, located_eq mode b index k hk (by omega)])
      (by
        intro hno
        rw [hcode, if_neg hno])
    rcases hres with ⟨r1, r2⟩ | ⟨r1, r2, r3, r4⟩
    · left
      refine ⟨r1, fun i hi1 hi2 => ?_⟩
      rw [isSet_eq, r2 i hi1 hi2]
      simp
    · right
      refine ⟨r1, r2, ?_, fun i hi1 hi2 => ?_⟩
      · rw [isSet_eq, r3]
        simp [r2]
      · rw [isSet_eq, r4 i hi1 hi2]
        simp
  · left
    refine ⟨?_, ?_⟩
    · unfold BitArray.Private.firstSetBitFrom
      rw [if_neg c]
    · intro i h1 h2
      exfalso
      apply c
      refine ⟨?_, by omega⟩
      intro hnone
      have := v4 hnone
      omega

theorem firstClearedBitFrom_spec (mode : WideShift) (b : BitArray.Private) (hv : b.Valid)
    (s : Nat) :
    (b.firstClearedBitFrom mode s = invalidIndex ∧
        ∀ i, s ≤ i → i < b.size → b.isClear i = false) ∨
      (s ≤ b.firstClearedBitFrom mode s ∧ b.firstClearedBitFrom mode s < b.size ∧
        b.isClear (b.firstClearedBitFrom mode s) = true ∧
        ∀ i, s ≤ i → i < b.firstClearedBitFrom mode s → b.isClear i = false) := by
  obtain ⟨v1, v2, _, v4, v5⟩ := hv
  have hD : b.dataLength = (b.bitLength + 63) / 64 := by
    rw [v1, allocationDataSize_eq _ v2]
  show (_ ∧ ∀ i, s ≤ i → i < b.bitLength → _) ∨ (_ ∧ _ < b.bitLength ∧ _)
  by_cases c : b.data ≠ none ∧ s < b.bitLength
  · have key := search_from_spec b.bitLength b.dataLength s
      (fun u j => !(b.readUnit u).testBit j)
      (b.skipWithoutCleared (b.dataLength - s / 64) (s / 64) ((1 <<< (s % 64)) % 2 ^ 64 - 1)).1
      (b.firstClearedBitFrom mode s) hD
    obtain ⟨h1, h2, h3, h4, h5⟩ := skipWithoutCleared_spec b (b.dataLength - s / 64) (s / 64)
      ((1 <<< (s % 64)) % 2 ^ 64 - 1)
    have hcode : b.firstClearedBitFrom mode s =
        if (b.skipWithoutCleared (b.dataLength - s / 64) (s / 64)
            ((1 <<< (s % 64)) % 2 ^ 64 - 1)).1 < b.dataLength then
          b.located mode
            (b.skipWithoutCleared (b.dataLength - s / 64) (s / 64)
              ((1 <<< (s % 64)) % 2 ^ 64 - 1)).1
            (maskLsbZero 64
              (b.readUnit
                  (b.skipWithoutCleared (b.dataLength - s / 64) (s / 64)
                    ((1 <<< (s % 64)) % 2 ^ 64 - 1)).1 |||
                (b.skipWithoutCleared (b.dataLength - s / 64) (s / 64)
                  ((1 <<< (s % 64)) % 2 ^ 64 - 1)).2))
        else invalidIndex := by
      unfold BitArray.Private.firstClearedBitFrom
      rw [if_pos c]
      rfl
    generalize b.skipWithoutCleared (b.dataLength - s / 64) (s / 64)
      ((1 <<< (s % 64)) % 2 ^ 64 - 1) = stop at key h1 h2 h3 h4 h5 hcode
    obtain ⟨index, m⟩ := stop
    simp only at key h1 h2 h3 h4 h5 hcode
    have hs64 : s % 64 < 64 := Nat.mod_lt _ (by norm_num)
    have hmaskbit : ∀ u j, (u = s / 64 → s % 64 ≤ j) →
        (if u = s / 64 then (1 <<< (s % 64)) % 2 ^ 64 - 1 else 0).testBit j = false := by
      intro u j hu
      by_cases cu : u = s / 64
      · rw [if_pos cu, testBit_lowMask _ _ hs64]
        have := hu cu
        simp
        omega
      · rw [if_neg cu]
        simp
    have hmlt : m < 2 ^ 64 := by
      rw [h3]
      by_cases ci : index = s / 64
      · rw [if_pos ci]
        exact lt_of_le_of_lt (Nat.sub_le _ _) (Nat.mod_lt _ (by norm_num))
      · rw [if_neg ci]
        norm_num
    have hres := key h1 (by omega)
      (by
        intro u hu1 hu2 j hj hjs
        have hz := h4 u hu1 hu2
        have hb := congrArg (fun x => x.testBit j) hz
        simp only [Nat.testBit_or, hmaskbit u j hjs, Bool.or_false, testBit_allOnes] at hb
        show (!(b.readUnit u).testBit j) = false
        rw [hb]
        simp [hj])
      (by
        intro hlt
        have hne := h5 (by omega)
        have hunit : b.readUnit index ||| m < 2 ^ 64 := Nat.or_lt_two_pow (v5 index) hmlt
        obtain ⟨k, q, he, hk1, hk2⟩ := exists_lowest_zero_bit (b.readUnit index ||| m)
        have hk : k < 64 := by
          by_contra hno
          exact hne (eq_allOnes_of_low_bits _ hunit (fun j hj => hk2 j (by omega)))
        have hpos := Nat.two_pow_pos k
        have hne' : b.readUnit index ||| m ≠ 2 ^ 64 - 1 := hne
        have hlt2 : 2 ^ (k + 1) * q + 2 ^ k < 2 ^ 64 := by
          have a1 : 2 ^ (k + 1) * q + (2 ^ k - 1) < 2 ^ 64 := by
            rw [← he]
            exact hunit
          have a2 : 2 ^ (k + 1) * q + (2 ^ k - 1) ≠ 2 ^ 64 - 1 := by
            rw [← he]
            exact hne'
          omega
        have hmask : maskLsbZero 64 (b.readUnit index ||| m) = 2 ^ k := by
          rw [he]
          exact maskLsbZero_eq 64 k q hlt2
        rw [Nat.testBit_or, Bool.or_eq_false_iff] at hk1
        refine ⟨k, hk, by simp [hk1.1], ?_, ?_, ?_⟩
        · intro hi
          have hm := hk1.2
          rw [h3, if_pos hi, testBit_lowMask _ _ hs64] at hm
          have := of_decide_eq_false hm
          omega
        · intro j hj hjs
          have hz := hk2 j hj
          rw [Nat.testBit_or, h3, hmaskbit index j hjs, Bool.or_false] at hz
          simp [hz]
        · rw [hcode, if_pos hlt, hmask, located_eq mode b index k hk (by omega)])
      (by
        intro hno
        rw [hcode, if_neg hno])
    rcases hres with ⟨r1, r2⟩ | ⟨r1, r2, r3, r4⟩
    · left
      refine ⟨r1, fun i hi1 hi2 => ?_⟩
      have := r2 i hi1 hi2
      unfold BitArray.Private.isClear
      rw [isSet_eq]
      simp only [Bool.not_eq_false'] at this
      simp [this, hi2]
    · right
      refine ⟨r1, r2, ?_, fun i hi1 hi2 => ?_⟩
      · unfold BitArray.Private.isClear
        rw [isSet_eq]
        simp only [Bool.not_eq_true'] at r3
        simp [r3]
      · have := r4 i hi1 hi2
        unfold BitArray.Private.isClear
        rw [isSet_eq]
        simp only [Bool.not_eq_false'] at this
        simp [this]
        omega
  · left
    refine ⟨?_, ?_⟩
    · unfold BitArray.Private.firstClearedBitFrom
      rw [if_neg c]
    · intro i h1 h2
      exfalso
      apply c
      refine ⟨?_, by omega⟩
      intro hnone
      have := v4 hnone
      omega

theorem skipWithoutSet_allOnes (b : BitArray.Private) (hunits : ∀ u, b.readUnit u < 2 ^ 64) :
    ∀ remaining index : Nat,
      b.skipWithoutSet remaining index allOnes = (b.skipUnits 0 remaining index, allOnes) := by
  intro remaining
  induction remaining with
  | zero => intro index; rfl
  | succ r ih =>
    intro index
    have hand : b.readUnit index &&& allOnes = b.readUnit index := by
      show b.readUnit index &&& (2 ^ 64 - 1) = _
      rw [Nat.and_pow_two_sub_one_eq_mod, Nat.mod_eq_of_lt (hunits index)]
    simp only [BitArray.Private.skipWithoutSet, BitArray.Private.skipUnits, hand]
    by_cases c : b.readUnit index = 0
    · rw [if_pos c, if_pos c, ih]
    · rw [if_neg c, if_neg c]

theorem skipWithoutCleared_zero (b : BitArray.Private) :
    ∀ remaining index : Nat,
      b.skipWithoutCleared remaining index 0 = (b.skipUnits allOnes remaining index, 0) := by
  intro remaining
  induction remaining with
  | zero => intro index; rfl
  | succ r ih =>
    intro index
    simp only [BitArray.Private.skipWithoutCleared, BitArray.Private.skipUnits, Nat.or_zero]
    by_cases c : b.readUnit index = allOnes
    · rw [if_pos c, if_pos c, ih]
    · rw [if_neg c, if_neg c]

theorem firstSetBit_eq_from_zero (mode : WideShift) (b : BitArray.Private) (hv : b.Valid) :
    b.firstSetBit mode = b.firstSetBitFrom mode 0 := by
  obtain ⟨v1, v2, _, _, v5⟩ := hv
  by_cases c : b.data ≠ none
  · by_cases c2 : 0 < b.bitLength
    · have e1 : (allOnes <<< (0 % allocationUnitSize)) % 2 ^ 64 = allOnes := by decide
      have e2 : 0 / allocationUnitSize = 0 := by decide
      have hand : ∀ u, b.readUnit u &&& allOnes = b.readUnit u := by
        intro u
        show b.readUnit u &&& (2 ^ 64 - 1) = _
        rw [Nat.and_pow_two_sub_one_eq_mod, Nat.mod_eq_of_lt (v5 u)]
      have l : b.firstSetBit mode =
          if b.skipUnits 0 b.dataLength 0 < b.dataLength then
            b.located mode (b.skipUnits 0 b.dataLength 0)
              (maskLsbOne 64 (b.readUnit (b.skipUnits 0 b.dataLength 0)))
          else invalidIndex := by
        unfold BitArray.Private.firstSetBit
        rw [if_pos c]
      have r : b.firstSetBitFrom mode 0 =
          if b.skipUnits 0 b.dataLength 0 < b.dataLength then
            b.located mode (b.skipUnits 0 b.dataLength 0)
              (maskLsbOne 64 (b.readUnit (b.skipUnits 0 b.dataLength 0)))
          else invalidIndex := by
        unfold BitArray.Private.firstSetBitFrom
        rw [if_pos ⟨c, c2⟩]
        simp only [e1, e2, Nat.sub_zero, skipWithoutSet_allOnes b v5, hand]
      rw [l, r]
    · have h0 : b.bitLength = 0 := by omega
      have hd : b.dataLength = 0 := by
        rw [v1, h0]
        decide
      have l : b.firstSetBit mode = invalidIndex := by
        unfold BitArray.Private.firstSetBit
        rw [if_pos c, hd]
        rfl
      have r : b.firstSetBitFrom mode 0 = invalidIndex := by
        unfold BitArray.Private.firstSetBitFrom
        rw [if_neg (fun h => c2 h.2)]
      rw [l, r]
  · have l : b.firstSetBit mode = invalidIndex := by
      unfold BitArray.Private.firstSetBit
      rw [if_neg c]
    have r : b.firstSetBitFrom mode 0 = invalidIndex := by
      unfold BitArray.Private.firstSetBitFrom
      rw [if_neg (fun h => c h.1)]
    rw [l, r]

theorem firstClearedBit_eq_from_zero (mode : WideShift) (b : BitArray.Private) (hv : b.Valid) :
    b.firstClearedBit mode = b.firstClearedBitFrom mode 0 := by
  obtain ⟨v1, v2, _, _, v5⟩ := hv
  by_cases c : b.data ≠ none
  · by_cases c2 : 0 < b.bitLength
    · have e1 : (1 <<< (0 % allocationUnitSize)) % 2 ^ 64 - 1 = 0 := by decide
      have e2 : 0 / allocationUnitSize = 0 := by decide
      have l : b.firstClearedBit mode =
          if b.skipUnits allOnes b.dataLength 0 < b.dataLength then
            b.located mode (b.skipUnits allOnes b.dataLength 0)
              (maskLsbZero 64 (b.readUnit (b.skipUnits allOnes b.dataLength 0)))
          else invalidIndex := by
        unfold BitArray.Private.firstClearedBit
        rw [if_pos c]
      have r : b.firstClearedBitFrom mode 0 =
          if b.skipUnits allOnes b.dataLength 0 < b.dataLength then
            b.located mode (b.skipUnits allOnes b.dataLength 0)
              (maskLsbZero 64 (b.readUnit (b.skipUnits allOnes b.dataLength 0)))
          else invalidIndex := by
        unfold BitArray.Private.firstClearedBitFrom
        rw [if_pos ⟨c, c2⟩]
        simp only [e1, e2, Nat.sub_zero, skipWithoutCleared_zero b, Nat.or_zero]
      rw [l, r]
    · have h0 : b.bitLength = 0 := by omega
      have hd : b.dataLength = 0 := by
        rw [v1, h0]
        decide
      have l : b.firstClearedBit mode = invalidIndex := by
        unfold BitArray.Private.firstClearedBit
        rw [if_pos c, hd]
        rfl
      have r : b.firstClearedBitFrom mode 0 = invalidIndex := by
        unfold BitArray.Private.firstClearedBitFrom
        rw [if_neg (fun h => c2 h.2)]
      rw [l, r]
  · have l : b.firstClearedBit mode = invalidIndex := by
      unfold BitArray.Private.firstClearedBit
      rw [if_neg c]
    have r : b.firstClearedBitFrom mode 0 = invalidIndex := by
      unfold BitArray.Private.firstClearedBitFrom
      rw [if_neg (fun h => c h.1)]
    rw [l, r]

/-- C31.  For every bit array in a valid state and every starting index `s`,
`firstSetBit(s)` is the smallest index `i` with `s ≤ i < size` at which `isSet` holds, and
`invalidIndex`, which no index below the size equals, when there is none, as when
`s ≥ size`; `firstClearedBit(s)` is the smallest such index at which `isClear` holds, and
`invalidIndex` when there is none; and the forms without argument return what the forms
with `s = 0` return.  This holds for either result of the shift by 64 bits in
`msbLocation64`. -/
theorem firstSetBit_finds_smallest (mode : WideShift) (b : BitArray.Private) (hv : b.Valid)
    (s : Nat) :
    b.size < invalidIndex ∧
      ((b.firstSetBitFrom mode s = invalidIndex ∧
          ∀ i, s ≤ i → i < b.size → b.isSet i = false) ∨
        (s ≤ b.firstSetBitFrom mode s ∧ b.firstSetBitFrom mode s < b.size ∧
          b.isSet (b.firstSetBitFrom mode s) = true ∧
          ∀ i, s ≤ i → i < b.firstSetBitFrom mode s → b.isSet i = false)) ∧
      ((b.firstClearedBitFrom mode s = invalidIndex ∧
          ∀ i, s ≤ i → i < b.size → b.isClear i = false) ∨
        (s ≤ b.firstClearedBitFrom mode s ∧ b.firstClearedBitFrom mode s < b.size ∧
          b.isClear (b.firstClearedBitFrom mode s) = true ∧
          ∀ i, s ≤ i → i < b.firstClearedBitFrom mode s → b.isClear i = false)) ∧
      b.firstSetBit mode = b.firstSetBitFrom mode 0 ∧
      b.firstClearedBit mode = b.firstClearedBitFrom mode 0 := by
  refine ⟨?_, firstSetBitFrom_spec mode b hv s, firstClearedBitFrom_spec mode b hv s,
    firstSetBit_eq_from_zero mode b hv, firstClearedBit_eq_from_zero mode b hv⟩
  have := hv.2.1
  show b.bitLength < 2 ^ 64 - 1
  omega

theorem firstSetBit_finds_smallest_witness :
    (BitArray.Private.empty.setBits 70 130 true).firstSetBitFrom WideShift.countMasked 3 = 70 ∧
      (BitArray.Private.empty.setBits 70 130 true).firstSetBit WideShift.countMasked =
        (BitArray.Private.empty.setBits 70 130 true).firstSetBitFrom WideShift.countMasked 0 := by
  have h := firstSetBit_finds_smallest WideShift.countMasked
    (BitArray.Private.empty.setBits 70 130 true)
    (setBits_valid _ valid_empty 70 130 true (by decide) (by decide)) 3
  refine ⟨?_, h.2.2.2.1⟩
  have hset : (BitArray.Private.empty.setBits 70 130 true).isSet 70 = true := by decide
  have hsize : (BitArray.Private.empty.setBits 70 130 true).size = 131 := by decide
  have hclear : ∀ i, i < 70 → (BitArray.Private.empty.setBits 70 130 true).isSet i = false := by
    decide
  rcases h.2.1 with ⟨_, r2⟩ | ⟨r1, r2, r3, r4⟩
  · have := r2 70 (by decide) (by rw [hsize]; decide)
    rw [hset] at this
    exact Bool.noConfusion this
  · by_contra hne
    by_cases c : (BitArray.Private.empty.setBits 70 130 true).firstSetBitFrom
        WideShift.countMasked 3 < 70
    · rw [hclear _ c] at r3
      exact Bool.noConfusion r3
    · have := r4 70 (by decide) (by omega)
      rw [hset] at this
      exact Bool.noConfusion this

/-! ## The iterators of `BitSet` -/

/-! ### Iteration along a sorted list of positions -/

theorem getElem?_of_mem_sorted (R : Nat → Nat → Prop) (positions : List Nat)
    (hs : positions.Pairwise R) (n m : Nat) (hnm : n < m) (hm : m < positions.length) :
    R (positions.getD n 0) (positions.getD m 0) := by
  have hn : n < positions.length := by omega
  rw [List.getD_eq_getElem?_getD, List.getD_eq_getElem?_getD, List.getElem?_eq_getElem hn,
    List.getElem?_eq_getElem hm]
  exact (List.pairwise_iff_getElem.1 hs) n m hn hm hnm

theorem exists_index_of_mem (positions : List Nat) (q : Nat) (hq : q ∈ positions) :
    ∃ m, m < positions.length ∧ positions.getD m 0 = q := by
  obtain ⟨m, hm⟩ := List.mem_iff_getElem?.1 hq
  refine ⟨m, (List.getElem?_eq_some_iff.1 hm).1, ?_⟩
  rw [List.getD_eq_getElem?_getD, hm]
  rfl

theorem getD_mem (positions : List Nat) (n : Nat) (hn : n < positions.length) :
    positions.getD n 0 ∈ positions := by
  rw [List.getD_eq_getElem?_getD, List.getElem?_eq_getElem hn]
  exact List.getElem_mem hn

theorem iterate_positions {State : Type} (R : Nat → Nat → Prop) (hirr : ∀ a, ¬ R a a)
    (hasym : ∀ a b, R a b → ¬ R b a) (positions : List Nat) (hs : positions.Pairwise R)
    (at_ : Nat → State → Prop) (ended : State → Prop) (start : State) (next : State → State)
    (hstart :
      (∃ q, q ∈ positions ∧ (∀ r, R r q → r ∉ positions) ∧ at_ q start) ∨
        ((∀ r, r ∉ positions) ∧ ended start))
    (hstep : ∀ p it, p ∈ positions → at_ p it →
      (∃ q, q ∈ positions ∧ R p q ∧ (∀ r, R p r → R r q → r ∉ positions) ∧ at_ q (next it)) ∨
        ((∀ r, R p r → r ∉ positions) ∧ ended (next it))) :
    (∀ n, n < positions.length → at_ (positions.getD n 0) (next^[n] start)) ∧
      ended (next^[positions.length] start) := by
  have hat : ∀ n, n < positions.length → at_ (positions.getD n 0) (next^[n] start) := by
    intro n
    induction n with
    | zero =>
      intro h0
      rcases hstart with ⟨q, hq, hfirst, hatq⟩ | ⟨hnone, _⟩
      · obtain ⟨m, hm, he⟩ := exists_index_of_mem positions q hq
        have hm0 : m = 0 := by
          by_contra hne
          have hr := getElem?_of_mem_sorted R positions hs 0 m (by omega) hm
          rw [he] at hr
          exact hfirst _ hr (getD_mem positions 0 h0)
        rw [hm0] at he
        rw [he]
        exact hatq
      · exact absurd (getD_mem positions 0 h0) (hnone _)
    | succ n ih =>
      intro hn
      have ihn := ih (by omega)
      rw [Function.iterate_succ_apply']
      rcases hstep _ _ (getD_mem positions n (by omega)) ihn with
        ⟨q, hq, hpq, hbetween, hatq⟩ | ⟨hnone, _⟩
      · obtain ⟨m, hm, he⟩ := exists_index_of_mem positions q hq
        have hnm : n < m := by
          by_contra hno
          by_cases c : m = n
          · rw [c] at he
            rw [he] at hpq
            exact hirr _ hpq
          · have hr := getElem?_of_mem_sorted R positions hs m n (by omega) (by omega)
            rw [he] at hr
            exact hasym _ _ hpq hr
        have hm1 : m = n + 1 := by
          by_contra hne
          have h1 := getElem?_of_mem_sorted R positions hs n (n + 1) (by omega) hn
          have h2 := getElem?_of_mem_sorted R positions hs (n + 1) m (by omega) hm
          rw [he] at h2
          exact hbetween _ h1 h2 (getD_mem positions (n + 1) hn)
        rw [← hm1, he]
        exact hatq
      · have h1 := getElem?_of_mem_sorted R positions hs n (n + 1) (by omega) hn
        exact absurd (getD_mem positions (n + 1) hn) (hnone _ h1)
  refine ⟨hat, ?_⟩
  cases hk : positions.length with
  | zero =>
    rcases hstart with ⟨q, hq, _, _⟩ | ⟨_, hend⟩
    · have : positions = [] := List.length_eq_zero.1 hk
      rw [this] at hq
      exact absurd hq (List.not_mem_nil q)
    · exact hend
  | succ n =>
    have ihn := hat n (by omega)
    rw [Function.iterate_succ_apply']
    rcases hstep _ _ (getD_mem positions n (by omega)) ihn with
      ⟨q, hq, hpq, _, _⟩ | ⟨_, hend⟩
    · exfalso
      obtain ⟨m, hm, he⟩ := exists_index_of_mem positions q hq
      by_cases c : m = n
      · rw [c] at he
        rw [he] at hpq
        exact hirr _ hpq
      · have hr := getElem?_of_mem_sorted R positions hs m n (by omega) (by omega)
        rw [he] at hr
        exact hasym _ _ hpq hr
    · exact hend

/-! ### Words, their lowest and their top bit -/

theorem wordBit_lt (bitArray : List Nat) (q : Nat) (h : wordBit bitArray q = true) :
    q < 32 * bitArray.length := by
  by_contra hno
  unfold wordBit at h
  rw [getD_of_length_le bitArray _ (by omega)] at h
  simp at h

theorem mem_setPositions (bitArray : List Nat) (q : Nat) :
    q ∈ setPositions bitArray ↔ wordBit bitArray q = true := by
  unfold setPositions
  rw [List.mem_filter, List.mem_range]
  constructor
  · exact fun h => h.2
  · exact fun h => ⟨wordBit_lt bitArray q h, h⟩

theorem setPositions_sorted (bitArray : List Nat) :
    (setPositions bitArray).Pairwise (fun a b => a < b) :=
  List.Pairwise.filter _ (List.pairwise_lt_range _)

theorem getD_lt (bitArray : List Nat) (hwords : ∀ word ∈ bitArray, word < 2 ^ 32) (i : Nat) :
    bitArray.getD i 0 < 2 ^ 32 := by
  by_cases c : i < bitArray.length
  · rw [List.getD_eq_getElem?_getD, List.getElem?_eq_getElem c]
    exact hwords _ (List.getElem_mem c)
  · rw [getD_of_length_le _ _ (by omega)]
    norm_num

theorem testBit_of_lt (w j : Nat) (hw : w < 2 ^ 32) (h : w.testBit j = true) : j < 32 := by
  by_contra hno
  rw [Nat.testBit_lt_two_pow (lt_of_lt_of_le hw (Nat.pow_le_pow_right (by norm_num) (by omega)))]
    at h
  exact Bool.noConfusion h

theorem lowest_bit_of_word (w : Nat) (hw : w < 2 ^ 32) (h0 : w ≠ 0) :
    ∃ k, k < 32 ∧ w.testBit k = true ∧ (∀ i, i < k → w.testBit i = false) ∧
      maskLsbOne 32 w = 2 ^ k := by
  obtain ⟨k, m, he, h1, h2⟩ := exists_lowest_one_bit w h0
  refine ⟨k, testBit_of_lt w k hw h1, h1, h2, ?_⟩
  rw [he]
  exact maskLsbOne_eq 32 k m (by rw [← he]; exact hw)

theorem maskMsbOne32_eq (v k : Nat) (h1 : 2 ^ k ≤ v) (h2 : v < 2 ^ (k + 1)) (hk : k < 32) :
    maskMsbOne 32 v = 2 ^ k := by
  have s1 := smeared_step v 1 v (smeared_self v)
  have s2 := smeared_step v 2 _ s1
  have s4 := smeared_step v 4 _ s2
  have s8 := smeared_step v 8 _ s4
  have s16 := smeared_step v 16 _ s8
  have hall := smeared_all v k _ h1 h2 32 hk s16
  unfold maskMsbOne
  simp only [Nat.reduceEqDiff, if_false, if_true]
  apply Nat.eq_of_testBit_eq
  intro i
  rw [Nat.testBit_and, complement_testBit, Nat.testBit_shiftRight, hall i, hall (1 + i),
    Nat.testBit_two_pow]
  by_cases c1 : i ≤ k
  · by_cases c2 : 1 + i ≤ k
    · have c3 : ¬ k = i := by omega
      simp [c1, c2, c3]
    · have c3 : k = i := by omega
      have c4 : i < 32 := by omega
      simp [c1, c2, c3, c4]
  · have c2 : ¬ 1 + i ≤ k := by omega
    have c3 : ¬ k = i := by omega
    simp [c1, c2, c3]

theorem top_bit_of_word (w : Nat) (hw : w < 2 ^ 32) (h0 : w ≠ 0) :
    ∃ k, k < 32 ∧ w.testBit k = true ∧ (∀ i, k < i → w.testBit i = false) ∧
      maskMsbOne 32 w = 2 ^ k := by
  obtain ⟨h1, h2, h3, h4⟩ := exists_top_bit w h0
  have hk := testBit_of_lt w _ hw h3
  exact ⟨w.log2, hk, h3, h4, maskMsbOne32_eq w _ h1 h2 hk⟩

theorem ne_zero_of_testBit (w j : Nat) (h : w.testBit j = true) : w ≠ 0 := by
  intro h0
  rw [h0] at h
  simp at h

theorem eq_zero_of_testBit (w : Nat) (h : ∀ j, w.testBit j = false) : w = 0 := by
  apply Nat.eq_of_testBit_eq
  intro j
  rw [h j]
  simp

/-! ### The words of a set with one bit -/

theorem length_singleBit (numberWords position : Nat) :
    (singleBit numberWords position).length = numberWords := by
  unfold singleBit
  rw [List.length_set, List.length_replicate]

theorem getD_replicate_zero (n i : Nat) : (List.replicate n (0 : Nat)).getD i 0 = 0 := by
  rw [List.getD_eq_getElem?_getD, List.getElem?_replicate]
  by_cases c : i < n <;> simp [c]

theorem getD_singleBit (numberWords position i : Nat) :
    (singleBit numberWords position).getD i 0 =
      if i = position / 32 ∧ position / 32 < numberWords then 2 ^ (position % 32) else 0 := by
  unfold singleBit
  rw [getD_set, List.length_replicate, getD_replicate_zero]

theorem singleBit_of_set (numberWords c k : Nat) (hk : k < 32) (words : List Nat)
    (hlen : words.length = numberWords)
    (hzero : ∀ i, i ≠ c → words.getD i 0 = 0) :
    words.set c (2 ^ k) = singleBit numberWords (32 * c + k) := by
  apply ext_getD
  · rw [List.length_set, length_singleBit, hlen]
  · intro i
    have e1 : (32 * c + k) / 32 = c := by omega
    have e2 : (32 * c + k) % 32 = k := by omega
    rw [getD_set, getD_singleBit, e1, e2, hlen]
    by_cases ci : i = c
    · by_cases cl : c < numberWords
      · rw [if_pos ⟨ci, cl⟩, if_pos ⟨ci, cl⟩]
      · rw [if_neg (fun h => cl h.2), if_neg (fun h => cl h.2),
          getD_of_length_le words i (by omega)]
    · rw [if_neg (fun h => ci h.1), if_neg (fun h => ci h.1)]
      exact hzero i ci

theorem zeros_of_set_zero (numberWords position : Nat) :
    (singleBit numberWords position).set (position / 32) 0 = List.replicate numberWords 0 := by
  apply ext_getD
  · rw [List.length_set, length_singleBit, List.length_replicate]
  · intro i
    rw [getD_set, getD_singleBit, getD_replicate_zero, length_singleBit]
    by_cases c : i = position / 32 ∧ position / 32 < numberWords
    · rw [if_pos c]
    · rw [if_neg c, if_neg c]

/-! ### The loops that skip zero words -/

theorem skipZeroWords_spec (workingArray : List Nat) :
    ∀ remaining index : Nat,
      index ≤ skipZeroWords workingArray remaining index ∧
        skipZeroWords workingArray remaining index ≤ index + remaining ∧
        (∀ u, index ≤ u → u < skipZeroWords workingArray remaining index →
          workingArray.getD u 0 = 0) ∧
        (skipZeroWords workingArray remaining index < index + remaining →
          workingArray.getD (skipZeroWords workingArray remaining index) 0 ≠ 0) := by
  intro remaining
  induction remaining with
  | zero =>
    intro index
    refine ⟨le_refl _, le_refl _, ?_, ?_⟩
    · intro u h1 h2
      simp only [skipZeroWords] at h2
      omega
    · intro h
      simp only [skipZeroWords] at h
      omega
  | succ r ih =>
    intro index
    by_cases c : workingArray.getD index 0 = 0
    · have e : skipZeroWords workingArray (r + 1) index =
          skipZeroWords workingArray r (index + 1) := by
        simp only [skipZeroWords, if_pos c]
      obtain ⟨h1, h2, h3, h4⟩ := ih (index + 1)
      rw [e]
      refine ⟨by omega, by omega, ?_, fun h => h4 (by omega)⟩
      intro u hu1 hu2
      by_cases cu : u = index
      · rw [cu]
        exact c
      · exact h3 u (by omega) hu2
    · have e : skipZeroWords workingArray (r + 1) index = index := by
        simp only [skipZeroWords, if_neg c]
      rw [e]
      refine ⟨le_refl _, by omega, ?_, fun _ => c⟩
      intro u h1 h2
      omega

theorem skipZeroWordsDown_spec (workingArray : List Nat) :
    ∀ index : Nat,
      skipZeroWordsDown workingArray index ≤ index ∧
        (∀ u, skipZeroWordsDown workingArray index ≤ u → u < index →
          workingArray.getD u 0 = 0) ∧
        (0 < skipZeroWordsDown workingArray index →
          workingArray.getD (skipZeroWordsDown workingArray index - 1) 0 ≠ 0) := by
  intro index
  induction index with
  | zero =>
    refine ⟨le_refl _, ?_, ?_⟩
    · intro u _ h2
      omega
    · intro h
      simp only [skipZeroWordsDown] at h
      omega
  | succ r ih =>
    by_cases c : workingArray.getD r 0 = 0
    · have e : skipZeroWordsDown workingArray (r + 1) = skipZeroWordsDown workingArray r := by
        simp only [skipZeroWordsDown, if_pos c]
      obtain ⟨h1, h2, h3⟩ := ih
      rw [e]
      refine ⟨by omega, ?_, h3⟩
      intro u hu1 hu2
      by_cases cu : u = r
      · rw [cu]
        exact c
      · exact h2 u hu1 (by omega)
    · have e : skipZeroWordsDown workingArray (r + 1) = r + 1 := by
        simp only [skipZeroWordsDown, if_neg c]
      rw [e]
      refine ⟨le_refl _, ?_, fun _ => c⟩
      intro u h1 h2
      omega

/-! ### The forward iterator -/

theorem next_forward_eq (s : BitSet) (workingValue position : Nat)
    (hc : position / 32 < s.bitArray.length) :
    (⟨s, workingValue, position / 32, ⟨s.bitNames, singleBit s.bitArray.length position⟩⟩ :
        BitSetForwardIterator).next =
      if workingValue &&& complement 32 (2 ^ (position % 32)) = 0 then
        if skipZeroWords s.bitArray (s.bitArray.length - (position / 32 + 1)) (position / 32 + 1) <
            s.bitArray.length then
          ⟨s,
            s.bitArray.getD
              (skipZeroWords s.bitArray (s.bitArray.length - (position / 32 + 1))
                (position / 32 + 1)) 0,
            skipZeroWords s.bitArray (s.bitArray.length - (position / 32 + 1)) (position / 32 + 1),
            ⟨s.bitNames,
              (List.replicate s.bitArray.length 0).set
                (skipZeroWords s.bitArray (s.bitArray.length - (position / 32 + 1))
                  (position / 32 + 1))
                (maskLsbOne 32
                  (s.bitArray.getD
                    (skipZeroWords s.bitArray (s.bitArray.length - (position / 32 + 1))
                      (position / 32 + 1)) 0))⟩⟩
        else
          ⟨s, workingValue &&& complement 32 (2 ^ (position % 32)),
            skipZeroWords s.bitArray (s.bitArray.length - (position / 32 + 1)) (position / 32 + 1),
            ⟨s.bitNames, List.replicate s.bitArray.length 0⟩⟩
      else
        ⟨s, workingValue &&& complement 32 (2 ^ (position % 32)), position / 32,
          ⟨s.bitNames,
            (singleBit s.bitArray.length position).set (position / 32)
              (maskLsbOne 32 (workingValue &&& complement 32 (2 ^ (position % 32))))⟩⟩ := by
  have hmask : (singleBit s.bitArray.length position).getD (position / 32) 0 =
      2 ^ (position % 32) := by
    rw [getD_singleBit, if_pos ⟨rfl, hc⟩]
  unfold BitSetForwardIterator.next
  simp only [if_pos hc, hmask, zeros_of_set_zero]

theorem lt_of_bits_below (x : Nat) (w : Nat) (hw : w < 2 ^ 32)
    (h : ∀ i, x.testBit i = true → w.testBit i = true) : x < 2 ^ 32 := by
  apply Nat.lt_pow_two_of_testBit
  intro i hi
  cases hx : x.testBit i with
  | false => rfl
  | true =>
    have := testBit_of_lt w i hw (h i hx)
    omega

theorem replicate_append_singleton (n m x : Nat) :
    List.replicate n 0 ++ [x] ++ List.replicate m 0 = (List.replicate (n + 1 + m) 0).set n x := by
  induction n with
  | zero =>
    rw [show 0 + 1 + m = m + 1 by omega, List.replicate_succ]
    rfl
  | succ k ih =>
    rw [show k + 1 + 1 + m = (k + 1 + m) + 1 by omega, List.replicate_succ, List.replicate_succ,
      List.set_cons_succ, ← ih]
    rfl

theorem forward_step (s : BitSet) (hwords : ∀ word ∈ s.bitArray, word < 2 ^ 32) (p : Nat)
    (it : BitSetForwardIterator) (hp : p ∈ setPositions s.bitArray) (hat : ForwardAt s p it) :
    (∃ q, q ∈ setPositions s.bitArray ∧ p < q ∧
        (∀ r, p < r → r < q → r ∉ setPositions s.bitArray) ∧ ForwardAt s q it.next) ∨
      ((∀ r, p < r → r ∉ setPositions s.bitArray) ∧ it.next.isEnd = true) := by
  obtain ⟨wbs, wv, cw, rv⟩ := it
  obtain ⟨h1, h2, h3, hbits⟩ := hat
  simp only at h1 h2 h3 hbits
  subst h1 h2 h3
  have hbit : wordBit wbs.bitArray p = true := (mem_setPositions _ p).1 hp
  have hplt := wordBit_lt _ p hbit
  have hc : p / 32 < wbs.bitArray.length := by omega
  have hw := getD_lt wbs.bitArray hwords (p / 32)
  rw [next_forward_eq wbs wv p hc]
  have hbits' : ∀ i, (wv &&& complement 32 (2 ^ (p % 32))).testBit i =
      (decide (p % 32 < i) && (wbs.bitArray.getD (p / 32) 0).testBit i) := by
    intro i
    rw [Nat.testBit_and, hbits i, complement_testBit, Nat.testBit_two_pow]
    cases hwb : (wbs.bitArray.getD (p / 32) 0).testBit i with
    | false => simp
    | true =>
      have hi := testBit_of_lt _ i hw hwb
      by_cases c1 : p % 32 < i
      · have c2 : p % 32 ≤ i := by omega
        have c3 : ¬ p % 32 = i := by omega
        simp [c1, c2, c3, hi]
      · by_cases c2 : p % 32 = i
        · simp [c2]
        · have c3 : ¬ p % 32 ≤ i := by omega
          simp [c1, c3]
  have hnotmem : ∀ r, wordBit wbs.bitArray r = false → r ∉ setPositions wbs.bitArray := by
    intro r hr hmem
    rw [(mem_setPositions _ r).1 hmem] at hr
    exact Bool.noConfusion hr
  by_cases hz : wv &&& complement 32 (2 ^ (p % 32)) = 0
  · rw [if_pos hz]
    have hnoword : ∀ i, p % 32 < i → (wbs.bitArray.getD (p / 32) 0).testBit i = false := by
      intro i hi
      have := hbits' i
      rw [hz, Nat.zero_testBit, decide_eq_true hi, Bool.true_and] at this
      exact this.symm
    obtain ⟨s1, s2, s3, s4⟩ := skipZeroWords_spec wbs.bitArray
      (wbs.bitArray.length - (p / 32 + 1)) (p / 32 + 1)
    generalize skipZeroWords wbs.bitArray (wbs.bitArray.length - (p / 32 + 1)) (p / 32 + 1) = c'
      at s1 s2 s3 s4
    by_cases hc' : c' < wbs.bitArray.length
    · rw [if_pos hc']
      left
      obtain ⟨k, hk, hk1, hk2, hk3⟩ := lowest_bit_of_word _
        (getD_lt wbs.bitArray hwords c') (s4 (by omega))
      have e1 : (32 * c' + k) / 32 = c' := by omega
      have e2 : (32 * c' + k) % 32 = k := by omega
      refine ⟨32 * c' + k, ?_, by omega, ?_, ?_⟩
      · rw [mem_setPositions]
        unfold wordBit
        rw [e1, e2]
        exact hk1
      · intro r hr1 hr2
        apply hnotmem
        unfold wordBit
        by_cases c1 : r / 32 = p / 32
        · rw [c1]
          exact hnoword _ (by omega)
        · by_cases c2 : r / 32 < c'
          · rw [s3 _ (by omega) c2]
            simp
          · have c3 : r / 32 = c' := by omega
            rw [c3]
            exact hk2 _ (by omega)
      · refine ⟨rfl, ?_, ?_, ?_⟩
        · show c' = (32 * c' + k) / 32
          rw [e1]
        · show (⟨wbs.bitNames, _⟩ : BitSet) = ⟨wbs.bitNames, _⟩
          rw [hk3, singleBit_of_set wbs.bitArray.length c' k hk _ (List.length_replicate _ _)
            (fun i _ => getD_replicate_zero _ i)]
        · intro i
          show (wbs.bitArray.getD c' 0).testBit i = _
          rw [e1, e2]
          by_cases c1 : k ≤ i
          · simp [c1]
          · rw [hk2 i (by omega)]
            simp [c1]
    · rw [if_neg hc']
      right
      refine ⟨?_, ?_⟩
      · intro r hr hmem
        have hrb := (mem_setPositions _ r).1 hmem
        have hrl := wordBit_lt _ r hrb
        unfold wordBit at hrb
        by_cases c1 : r / 32 = p / 32
        · rw [c1, hnoword _ (by omega)] at hrb
          exact Bool.noConfusion hrb
        · rw [s3 _ (by omega) (by omega)] at hrb
          simp at hrb
      · show ((wv &&& complement 32 (2 ^ (p % 32))) == 0) = true
        rw [hz]
        rfl
  · rw [if_neg hz]
    left
    have hlt : wv &&& complement 32 (2 ^ (p % 32)) < 2 ^ 32 := by
      apply lt_of_bits_below _ _ hw
      intro i hi
      rw [hbits' i, Bool.and_eq_true] at hi
      exact hi.2
    obtain ⟨k, hk, hk1, hk2, hk3⟩ := lowest_bit_of_word _ hlt hz
    have hk1' := hk1
    rw [hbits' k, Bool.and_eq_true, decide_eq_true_eq] at hk1'
    have e1 : (32 * (p / 32) + k) / 32 = p / 32 := by omega
    have e2 : (32 * (p / 32) + k) % 32 = k := by omega
    refine ⟨32 * (p / 32) + k, ?_, by omega, ?_, ?_⟩
    · rw [mem_setPositions]
      unfold wordBit
      rw [e1, e2]
      exact hk1'.2
    · intro r hr1 hr2
      apply hnotmem
      unfold wordBit
      have c1 : r / 32 = p / 32 := by omega
      have hb := hbits' (r % 32)
      rw [hk2 _ (by omega), decide_eq_true (by omega : p % 32 < r % 32), Bool.true_and] at hb
      rw [c1]
      exact hb.symm
    · refine ⟨rfl, ?_, ?_, ?_⟩
      · show p / 32 = (32 * (p / 32) + k) / 32
        rw [e1]
      · show (⟨wbs.bitNames, _⟩ : BitSet) = ⟨wbs.bitNames, _⟩
        rw [hk3, singleBit_of_set wbs.bitArray.length (p / 32) k hk _ (length_singleBit _ _)
          (fun i hi => by rw [getD_singleBit, if_neg (fun h => hi h.1)])]
      · intro i
        show (wv &&& complement 32 (2 ^ (p % 32))).testBit i = _
        rw [e1, e2]
        by_cases c1 : k ≤ i
        · rw [hbits' i]
          have c2 : p % 32 < i := by omega
          simp [c1, c2]
        · rw [hk2 i (by omega)]
          simp [c1]

theorem forward_start (s : BitSet) (hwords : ∀ word ∈ s.bitArray, word < 2 ^ 32) :
    (∃ q, q ∈ setPositions s.bitArray ∧ (∀ r, r < q → r ∉ setPositions s.bitArray) ∧
        ForwardAt s q (BitSetForwardIterator.start s)) ∨
      ((∀ r, r ∉ setPositions s.bitArray) ∧ (BitSetForwardIterator.start s).isEnd = true) := by
  obtain ⟨s1, s2, s3, s4⟩ := skipZeroWords_spec s.bitArray s.bitArray.length 0
  unfold BitSetForwardIterator.start
  simp only
  generalize skipZeroWords s.bitArray s.bitArray.length 0 = index at s1 s2 s3 s4
  by_cases hc : index < s.bitArray.length
  · rw [if_pos hc]
    left
    obtain ⟨k, hk, hk1, hk2, hk3⟩ := lowest_bit_of_word _
      (getD_lt s.bitArray hwords index) (s4 (by omega))
    have e1 : (32 * index + k) / 32 = index := by omega
    have e2 : (32 * index + k) % 32 = k := by omega
    refine ⟨32 * index + k, ?_, ?_, ?_⟩
    · rw [mem_setPositions]
      unfold wordBit
      rw [e1, e2]
      exact hk1
    · intro r hr hmem
      have hrb := (mem_setPositions _ r).1 hmem
      unfold wordBit at hrb
      by_cases c1 : r / 32 < index
      · rw [s3 _ (by omega) c1] at hrb
        simp at hrb
      · have c2 : r / 32 = index := by omega
        rw [c2, hk2 _ (by omega)] at hrb
        exact Bool.noConfusion hrb
    · refine ⟨rfl, ?_, ?_, ?_⟩
      · show index = (32 * index + k) / 32
        rw [e1]
      · show (⟨s.bitNames, _⟩ : BitSet) = ⟨s.bitNames, _⟩
        rw [hk3, replicate_append_singleton,
          show index + 1 + (s.bitArray.length - (index + 1)) = s.bitArray.length by omega,
          singleBit_of_set s.bitArray.length index k hk _ (List.length_replicate _ _)
            (fun i _ => getD_replicate_zero _ i)]
      · intro i
        show (s.bitArray.getD index 0).testBit i = _
        rw [e1, e2]
        by_cases c1 : k ≤ i
        · simp [c1]
        · rw [hk2 i (by omega)]
          simp [c1]
  · rw [if_neg hc]
    right
    refine ⟨?_, rfl⟩
    intro r hmem
    have hrb := (mem_setPositions _ r).1 hmem
    have hrl := wordBit_lt _ r hrb
    unfold wordBit at hrb
    rw [s3 _ (by omega) (by omega)] at hrb
    simp at hrb

/-! ### The reverse iterator -/

theorem next_reverse_eq (s : BitSet) (workingValue position : Nat)
    (hc : position / 32 < s.bitArray.length) :
    (⟨s, workingValue, position / 32 + 1,
        ⟨s.bitNames, singleBit s.bitArray.length position⟩⟩ : BitSetReverseIterator).next =
      if workingValue &&& complement 32 (2 ^ (position % 32)) = 0 then
        if skipZeroWordsDown s.bitArray (position / 32) > 0 then
          ⟨s, s.bitArray.getD (skipZeroWordsDown s.bitArray (position / 32) - 1) 0,
            skipZeroWordsDown s.bitArray (position / 32),
            ⟨s.bitNames,
              (List.replicate s.bitArray.length 0).set
                (skipZeroWordsDown s.bitArray (position / 32) - 1)
                (maskMsbOne 32
                  (s.bitArray.getD (skipZeroWordsDown s.bitArray (position / 32) - 1) 0))⟩⟩
        else
          ⟨s, workingValue &&& complement 32 (2 ^ (position % 32)),
            skipZeroWordsDown s.bitArray (position / 32),
            ⟨s.bitNames, List.replicate s.bitArray.length 0⟩⟩
      else
        ⟨s, workingValue &&& complement 32 (2 ^ (position % 32)), position / 32 + 1,
          ⟨s.bitNames,
            (singleBit s.bitArray.length position).set (position / 32)
              (maskMsbOne 32 (workingValue &&& complement 32 (2 ^ (position % 32))))⟩⟩ := by
  have hmask : (singleBit s.bitArray.length position).getD (position / 32) 0 =
      2 ^ (position % 32) := by
    rw [getD_singleBit, if_pos ⟨rfl, hc⟩]
  have hpos : position / 32 + 1 > 0 := by omega
  unfold BitSetReverseIterator.next
  simp only [if_pos hpos, Nat.add_sub_cancel, hmask, zeros_of_set_zero]

theorem reverse_step (s : BitSet) (hwords : ∀ word ∈ s.bitArray, word < 2 ^ 32) (p : Nat)
    (it : BitSetReverseIterator) (hp : p ∈ setPositions s.bitArray) (hat : ReverseAt s p it) :
    (∃ q, q ∈ setPositions s.bitArray ∧ q < p ∧
        (∀ r, r < p → q < r → r ∉ setPositions s.bitArray) ∧ ReverseAt s q it.next) ∨
      ((∀ r, r < p → r ∉ setPositions s.bitArray) ∧ it.next.isEnd = true) := by
  obtain ⟨wbs, wv, cw, rv⟩ := it
  obtain ⟨h1, h2, h3, hbits⟩ := hat
  simp only at h1 h2 h3 hbits
  subst h1 h2 h3
  have hbit : wordBit wbs.bitArray p = true := (mem_setPositions _ p).1 hp
  have hplt := wordBit_lt _ p hbit
  have hc : p / 32 < wbs.bitArray.length := by omega
  have hw := getD_lt wbs.bitArray hwords (p / 32)
  rw [next_reverse_eq wbs wv p hc]
  have hbits' : ∀ i, (wv &&& complement 32 (2 ^ (p % 32))).testBit i =
      (decide (i < p % 32) && (wbs.bitArray.getD (p / 32) 0).testBit i) := by
    intro i
    rw [Nat.testBit_and, hbits i, complement_testBit, Nat.testBit_two_pow]
    cases hwb : (wbs.bitArray.getD (p / 32) 0).testBit i with
    | false => simp
    | true =>
      have hi := testBit_of_lt _ i hw hwb
      by_cases c1 : i < p % 32
      · have c2 : i ≤ p % 32 := by omega
        have c3 : ¬ p % 32 = i := by omega
        simp [c1, c2, c3, hi]
      · by_cases c2 : p % 32 = i
        · simp [c2]
        · have c3 : ¬ i ≤ p % 32 := by omega
          simp [c1, c3]
  have hnotmem : ∀ r, wordBit wbs.bitArray r = false → r ∉ setPositions wbs.bitArray := by
    intro r hr hmem
    rw [(mem_setPositions _ r).1 hmem] at hr
    exact Bool.noConfusion hr
  by_cases hz : wv &&& complement 32 (2 ^ (p % 32)) = 0
  · rw [if_pos hz]
    have hnoword : ∀ i, i < p % 32 → (wbs.bitArray.getD (p / 32) 0).testBit i = false := by
      intro i hi
      have := hbits' i
      rw [hz, Nat.zero_testBit, decide_eq_true hi, Bool.true_and] at this
      exact this.symm
    obtain ⟨s1, s3, s4⟩ := skipZeroWordsDown_spec wbs.bitArray (p / 32)
    generalize skipZeroWordsDown wbs.bitArray (p / 32) = c' at s1 s3 s4
    by_cases hc' : c' > 0
    · rw [if_pos hc']
      left
      obtain ⟨k, hk, hk1, hk2, hk3⟩ := top_bit_of_word _
        (getD_lt wbs.bitArray hwords (c' - 1)) (s4 hc')
      have e1 : (32 * (c' - 1) + k) / 32 = c' - 1 := by omega
      have e2 : (32 * (c' - 1) + k) % 32 = k := by omega
      refine ⟨32 * (c' - 1) + k, ?_, by omega, ?_, ?_⟩
      · rw [mem_setPositions]
        unfold wordBit
        rw [e1, e2]
        exact hk1
      · intro r hr1 hr2
        apply hnotmem
        unfold wordBit
        by_cases c1 : r / 32 = p / 32
        · rw [c1]
          exact hnoword _ (by omega)
        · by_cases c2 : c' ≤ r / 32
          · rw [s3 _ c2 (by omega)]
            simp
          · have c3 : r / 32 = c' - 1 := by omega
            rw [c3]
            exact hk2 _ (by omega)
      · refine ⟨rfl, ?_, ?_, ?_⟩
        · show c' = (32 * (c' - 1) + k) / 32 + 1
          rw [e1]
          omega
        · show (⟨wbs.bitNames, _⟩ : BitSet) = ⟨wbs.bitNames, _⟩
          rw [hk3, singleBit_of_set wbs.bitArray.length (c' - 1) k hk _
            (List.length_replicate _ _) (fun i _ => getD_replicate_zero _ i)]
        · intro i
          show (wbs.bitArray.getD (c' - 1) 0).testBit i = _
          rw [e1, e2]
          by_cases c1 : i ≤ k
          · simp [c1]
          · rw [hk2 i (by omega)]
            simp [c1]
    · rw [if_neg hc']
      right
      refine ⟨?_, ?_⟩
      · intro r hr hmem
        have hrb := (mem_setPositions _ r).1 hmem
        unfold wordBit at hrb
        by_cases c1 : r / 32 = p / 32
        · rw [c1, hnoword _ (by omega)] at hrb
          exact Bool.noConfusion hrb
        · rw [s3 _ (by omega) (by omega)] at hrb
          simp at hrb
      · show ((wv &&& complement 32 (2 ^ (p % 32))) == 0) = true
        rw [hz]
        rfl
  · rw [if_neg hz]
    left
    have hlt : wv &&& complement 32 (2 ^ (p % 32)) < 2 ^ 32 := by
      apply lt_of_bits_below _ _ hw
      intro i hi
      rw [hbits' i, Bool.and_eq_true] at hi
      exact hi.2
    obtain ⟨k, hk, hk1, hk2, hk3⟩ := top_bit_of_word _ hlt hz
    have hk1' := hk1
    rw [hbits' k, Bool.and_eq_true, decide_eq_true_eq] at hk1'
    have e1 : (32 * (p / 32) + k) / 32 = p / 32 := by omega
    have e2 : (32 * (p / 32) + k) % 32 = k := by omega
    refine ⟨32 * (p / 32) + k, ?_, by omega, ?_, ?_⟩
    · rw [mem_setPositions]
      unfold wordBit
      rw [e1, e2]
      exact hk1'.2
    · intro r hr1 hr2
      apply hnotmem
      unfold wordBit
      have c1 : r / 32 = p / 32 := by omega
      have hb := hbits' (r % 32)
      rw [hk2 _ (by omega), decide_eq_true (by omega : r % 32 < p % 32), Bool.true_and] at hb
      rw [c1]
      exact hb.symm
    · refine ⟨rfl, ?_, ?_, ?_⟩
      · show p / 32 + 1 = (32 * (p / 32) + k) / 32 + 1
        rw [e1]
      · show (⟨wbs.bitNames, _⟩ : BitSet) = ⟨wbs.bitNames, _⟩
        rw [hk3, singleBit_of_set wbs.bitArray.length (p / 32) k hk _ (length_singleBit _ _)
          (fun i hi => by rw [getD_singleBit, if_neg (fun h => hi h.1)])]
      · intro i
        show (wv &&& complement 32 (2 ^ (p % 32))).testBit i = _
        rw [e1, e2]
        by_cases c1 : i ≤ k
        · rw [hbits' i]
          have c2 : i < p % 32 := by omega
          simp [c1, c2]
        · rw [hk2 i (by omega)]
          simp [c1]

theorem reverse_start (s : BitSet) (hwords : ∀ word ∈ s.bitArray, word < 2 ^ 32) :
    (∃ q, q ∈ setPositions s.bitArray ∧ (∀ r, q < r → r ∉ setPositions s.bitArray) ∧
        ReverseAt s q (BitSetReverseIterator.start s)) ∨
      ((∀ r, r ∉ setPositions s.bitArray) ∧ (BitSetReverseIterator.start s).isEnd = true) := by
  obtain ⟨s1, s3, s4⟩ := skipZeroWordsDown_spec s.bitArray s.bitArray.length
  unfold BitSetReverseIterator.start
  simp only
  generalize skipZeroWordsDown s.bitArray s.bitArray.length = index at s1 s3 s4
  by_cases hc : index > 0
  · rw [if_pos hc]
    left
    obtain ⟨k, hk, hk1, hk2, hk3⟩ := top_bit_of_word _
      (getD_lt s.bitArray hwords (index - 1)) (s4 hc)
    have e1 : (32 * (index - 1) + k) / 32 = index - 1 := by omega
    have e2 : (32 * (index - 1) + k) % 32 = k := by omega
    refine ⟨32 * (index - 1) + k, ?_, ?_, ?_⟩
    · rw [mem_setPositions]
      unfold wordBit
      rw [e1, e2]
      exact hk1
    · intro r hr hmem
      have hrb := (mem_setPositions _ r).1 hmem
      have hrl := wordBit_lt _ r hrb
      unfold wordBit at hrb
      by_cases c1 : index ≤ r / 32
      · rw [s3 _ c1 (by omega)] at hrb
        simp at hrb
      · have c2 : r / 32 = index - 1 := by omega
        rw [c2, hk2 _ (by omega)] at hrb
        exact Bool.noConfusion hrb
    · refine ⟨rfl, ?_, ?_, ?_⟩
      · show index = (32 * (index - 1) + k) / 32 + 1
        rw [e1]
        omega
      · show (⟨s.bitNames, _⟩ : BitSet) = ⟨s.bitNames, _⟩
        rw [hk3, replicate_append_singleton,
          show index - 1 + 1 + (s.bitArray.length - index) = s.bitArray.length by omega,
          singleBit_of_set s.bitArray.length (index - 1) k hk _ (List.length_replicate _ _)
            (fun i _ => getD_replicate_zero _ i)]
      · intro i
        show (s.bitArray.getD (index - 1) 0).testBit i = _
        rw [e1, e2]
        by_cases c1 : i ≤ k
        · simp [c1]
        · rw [hk2 i (by omega)]
          simp [c1]
  · rw [if_neg hc]
    right
    refine ⟨?_, rfl⟩
    intro r hmem
    have hrb := (mem_setPositions _ r).1 hmem
    have hrl := wordBit_lt _ r hrb
    unfold wordBit at hrb
    rw [s3 _ (by omega) (by omega)] at hrb
    simp at hrb

/-! ### The number of set bits -/

theorem filter_eq_range (n p : Nat) :
    (List.range n).filter (fun q => decide (q = p)) = if p < n then [p] else [] := by
  induction n with
  | zero => rfl
  | succ m ih =>
    rw [List.range_succ, List.filter_append, ih]
    by_cases c1 : p < m
    · have c2 : p < m + 1 := by omega
      have c3 : ¬ m = p := by omega
      rw [if_pos c1, if_pos c2]
      simp [c3]
    · by_cases c2 : m = p
      · have c3 : p < m + 1 := by omega
        rw [if_neg c1, if_pos c3]
        simp [c2]
      · have c3 : ¬ p < m + 1 := by omega
        rw [if_neg c1, if_neg c3]
        simp [c2]

theorem wordBit_singleBit (numberWords p q : Nat) (hp : p < 32 * numberWords) :
    wordBit (singleBit numberWords p) q = decide (q = p) := by
  unfold wordBit
  rw [getD_singleBit]
  by_cases c : q / 32 = p / 32 ∧ p / 32 < numberWords
  · rw [if_pos c, Nat.testBit_two_pow]
    by_cases c2 : p % 32 = q % 32
    · have : q = p := by omega
      simp [c2, this]
    · have : ¬ q = p := by omega
      simp [c2, this]
  · rw [if_neg c]
    have : ¬ q = p := by omega
    simp [this]

theorem setPositions_singleBit (numberWords p : Nat) (hp : p < 32 * numberWords) :
    setPositions (singleBit numberWords p) = [p] := by
  unfold setPositions
  rw [length_singleBit]
  have h : wordBit (singleBit numberWords p) = fun q => decide (q = p) := by
    funext q
    exact wordBit_singleBit numberWords p q hp
  rw [h, filter_eq_range, if_pos hp]

theorem length_setPositions_cons (word : Nat) (rest : List Nat) :
    (setPositions (word :: rest)).length =
      ((List.range 32).filter (fun i => word.testBit i)).length + (setPositions rest).length := by
  have h1 : (List.range 32).filter (wordBit (word :: rest)) =
      (List.range 32).filter (fun i => word.testBit i) := by
    apply List.filter_congr
    intro q hq
    have hq' : q < 32 := List.mem_range.1 hq
    unfold wordBit
    have e1 : q / 32 = 0 := by omega
    have e2 : q % 32 = q := by omega
    rw [e1, e2]
    rfl
  have h2 : (List.range (32 * rest.length)).filter (wordBit (word :: rest) ∘ fun x => 32 + x) =
      (List.range (32 * rest.length)).filter (wordBit rest) := by
    apply List.filter_congr
    intro q _
    unfold wordBit
    have e1 : (32 + q) / 32 = q / 32 + 1 := by omega
    have e2 : (32 + q) % 32 = q % 32 := by omega
    simp only [Function.comp, e1, e2, List.getD_cons_succ]
  unfold setPositions
  rw [List.length_cons, show 32 * (rest.length + 1) = 32 + 32 * rest.length by omega,
    List.range_add, List.filter_append, List.length_append, List.filter_map, List.length_map,
    h1, h2]

theorem length_setPositions_le (bitArray : List Nat) :
    (setPositions bitArray).length ≤ 32 * bitArray.length := by
  unfold setPositions
  exact le_trans (List.length_filter_le _ _) (by rw [List.length_range])

theorem foldl_numberOnes (bitArray : List Nat) (hwords : ∀ word ∈ bitArray, word < 2 ^ 32) :
    ∀ count : Nat, count + (setPositions bitArray).length < 2 ^ 32 →
      bitArray.foldl (fun countBits word => (countBits + numberOnes32 word) % 2 ^ 32) count =
        count + (setPositions bitArray).length := by
  induction bitArray with
  | nil => intro count _; rfl
  | cons w rest ih =>
    intro count hc
    have hw : w < 2 ^ 32 := hwords w (List.mem_cons_self _ _)
    have hlen := length_setPositions_cons w rest
    have hone : numberOnes32 w = ((List.range 32).filter (fun i => w.testBit i)).length := by
      rw [numberOnes32_eq_oneBits w hw, oneBits_eq_count]
    rw [List.foldl_cons, hone, Nat.mod_eq_of_lt (by omega),
      ih (fun x hx => hwords x (List.mem_cons_of_mem _ hx)) _ (by omega)]
    omega

theorem numberSetBits_eq (s : BitSet) (hwords : ∀ word ∈ s.bitArray, word < 2 ^ 32)
    (hsize : 32 * s.bitArray.length < 2 ^ 32) :
    s.numberSetBits = (setPositions s.bitArray).length := by
  have h := foldl_numberOnes s.bitArray hwords 0 (by
    have := length_setPositions_le s.bitArray
    omega)
  unfold BitSet.numberSetBits
  rw [h, Nat.zero_add]

theorem isEnd_of_forwardAt (s : BitSet) (p : Nat) (it : BitSetForwardIterator)
    (hp : p ∈ setPositions s.bitArray) (hat : ForwardAt s p it) : it.isEnd = false := by
  have hbit : wordBit s.bitArray p = true := (mem_setPositions _ p).1 hp
  have h := hat.2.2.2 (p % 32)
  unfold wordBit at hbit
  rw [hbit] at h
  have hne := ne_zero_of_testBit _ _ (h.trans (by simp))
  unfold BitSetForwardIterator.isEnd
  simpa using hne

theorem isEnd_of_reverseAt (s : BitSet) (p : Nat) (it : BitSetReverseIterator)
    (hp : p ∈ setPositions s.bitArray) (hat : ReverseAt s p it) : it.isEnd = false := by
  have hbit : wordBit s.bitArray p = true := (mem_setPositions _ p).1 hp
  have h := hat.2.2.2 (p % 32)
  unfold wordBit at hbit
  rw [hbit] at h
  have hne := ne_zero_of_testBit _ _ (h.trans (by simp))
  unfold BitSetReverseIterator.isEnd
  simpa using hne

/-- C34.  For every bit set of 32-bit words with fewer than `2^32` bit numbers, `k` being
the value of `numberSetBits`: the bit numbers of its set bits form a strictly ascending
list of `k` entries; before each of the first `k` increments the forward iterator is not at
its end and reports the set over the same names whose words hold exactly the bit of the
next entry of the list, and after the `k`-th increment `isEnd()` is true; the reverse
iterator does the same along the reversed list, that is in descending order of the bit
numbers. -/
theorem bitSet_iterators_visit_set_bits (s : BitSet)
    (hwords : ∀ word ∈ s.bitArray, word < 2 ^ 32) (hsize : 32 * s.bitArray.length < 2 ^ 32) :
    (setPositions s.bitArray).length = s.numberSetBits ∧
      (setPositions s.bitArray).Pairwise (fun a b => a < b) ∧
      (∀ q, q ∈ setPositions s.bitArray ↔ wordBit s.bitArray q = true) ∧
      (∀ p, p ∈ setPositions s.bitArray →
        setPositions (singleBit s.bitArray.length p) = [p]) ∧
      (∀ n, n < s.numberSetBits →
        (BitSetForwardIterator.next^[n] (BitSetForwardIterator.start s)).isEnd = false ∧
          (BitSetForwardIterator.next^[n] (BitSetForwardIterator.start s)).reportedValue =
            ⟨s.bitNames, singleBit s.bitArray.length ((setPositions s.bitArray).getD n 0)⟩) ∧
      (BitSetForwardIterator.next^[s.numberSetBits] (BitSetForwardIterator.start s)).isEnd =
        true ∧
      (∀ n, n < s.numberSetBits →
        (BitSetReverseIterator.next^[n] (BitSetReverseIterator.start s)).isEnd = false ∧
          (BitSetReverseIterator.next^[n] (BitSetReverseIterator.start s)).reportedValue =
            ⟨s.bitNames,
              singleBit s.bitArray.length ((setPositions s.bitArray).reverse.getD n 0)⟩) ∧
      (BitSetReverseIterator.next^[s.numberSetBits] (BitSetReverseIterator.start s)).isEnd =
        true := by
  have hk := numberSetBits_eq s hwords hsize
  have hforward := iterate_positions (fun a b => a < b) (fun a => lt_irrefl a)
    (fun a b h1 h2 => lt_asymm h1 h2) (setPositions s.bitArray) (setPositions_sorted s.bitArray)
    (fun p it => ForwardAt s p it) (fun it => it.isEnd = true) (BitSetForwardIterator.start s)
    BitSetForwardIterator.next
    (by
      rcases forward_start s hwords with ⟨q, h1, h2, h3⟩ | h
      · exact Or.inl ⟨q, h1, h2, h3⟩
      · exact Or.inr h)
    (by
      intro p it hp hat
      rcases forward_step s hwords p it hp hat with ⟨q, h1, h2, h3, h4⟩ | h
      · exact Or.inl ⟨q, h1, h2, h3, h4⟩
      · exact Or.inr h)
  have hreverse := iterate_positions (fun a b => b < a) (fun a => lt_irrefl a)
    (fun a b h1 h2 => lt_asymm h1 h2) (setPositions s.bitArray).reverse
    (List.pairwise_reverse.2 (setPositions_sorted s.bitArray))
    (fun p it => ReverseAt s p it) (fun it => it.isEnd = true) (BitSetReverseIterator.start s)
    BitSetReverseIterator.next
    (by
      rcases reverse_start s hwords with ⟨q, h1, h2, h3⟩ | ⟨h1, h2⟩
      · exact Or.inl ⟨q, List.mem_reverse.2 h1,
          fun r hr hmem => h2 r hr (List.mem_reverse.1 hmem), h3⟩
      · exact Or.inr ⟨fun r hmem => h1 r (List.mem_reverse.1 hmem), h2⟩)
    (by
      intro p it hp hat
      rcases reverse_step s hwords p it (List.mem_reverse.1 hp) hat with
        ⟨q, h1, h2, h3, h4⟩ | ⟨h1, h2⟩
      · exact Or.inl ⟨q, List.mem_reverse.2 h1, h2,
          fun r hr1 hr2 hmem => h3 r hr1 hr2 (List.mem_reverse.1 hmem), h4⟩
      · exact Or.inr ⟨fun r hr hmem => h1 r hr (List.mem_reverse.1 hmem), h2⟩)
  rw [List.length_reverse] at hreverse
  rw [hk]
  refine ⟨rfl, setPositions_sorted s.bitArray, mem_setPositions s.bitArray, ?_, ?_, hforward.2,
    ?_, hreverse.2⟩
  · intro p hp
    exact setPositions_singleBit _ p (wordBit_lt _ p ((mem_setPositions _ p).1 hp))
  · intro n hn
    have hat := hforward.1 n hn
    exact ⟨isEnd_of_forwardAt s _ _ (getD_mem _ n hn) hat, hat.2.2.1⟩
  · intro n hn
    have hat := hreverse.1 n hn
    have hmem : (setPositions s.bitArray).reverse.getD n 0 ∈ setPositions s.bitArray :=
      List.mem_reverse.1 (getD_mem _ n (by rw [List.length_reverse]; exact hn))
    exact ⟨isEnd_of_reverseAt s _ _ hmem hat, hat.2.2.1⟩

theorem bitSet_iterators_visit_set_bits_witness :
    (BitSet.withBits (unaryBitNames 34) 0 [unaryWord 33, unaryWord 1, unaryWord 32]).bitArray =
        [2, 3] ∧
      (BitSetForwardIterator.next^[1] (BitSetForwardIterator.start
        (BitSet.withBits (unaryBitNames 34) 0
          [unaryWord 33, unaryWord 1, unaryWord 32]))).reportedValue = ⟨some 0, [0, 1]⟩ ∧
      (BitSetReverseIterator.start
        (BitSet.withBits (unaryBitNames 34) 0
          [unaryWord 33, unaryWord 1, unaryWord 32])).reportedValue = ⟨some 0, [0, 2]⟩ ∧
      (BitSetForwardIterator.next^[3] (BitSetForwardIterator.start
        (BitSet.withBits (unaryBitNames 34) 0
          [unaryWord 33, unaryWord 1, unaryWord 32]))).isEnd = true := by
  have hs : BitSet.withBits (unaryBitNames 34) 0 [unaryWord 33, unaryWord 1, unaryWord 32] =
      ⟨some 0, [2, 3]⟩ := by decide!
  have h := bitSet_iterators_visit_set_bits
    (BitSet.withBits (unaryBitNames 34) 0 [unaryWord 33, unaryWord 1, unaryWord 32])
    (by rw [hs]; decide) (by rw [hs]; decide)
  rw [hs] at h ⊢
  have hk : (⟨some 0, [2, 3]⟩ : BitSet).numberSetBits = 3 := by decide
  have hp : setPositions [2, 3] = [1, 32, 33] := by decide
  rw [hk, hp] at h
  exact ⟨rfl, (h.2.2.2.2.1 1 (by decide)).2.trans (by decide),
    (h.2.2.2.2.2.2.1 0 (by decide)).2.trans (by decide), h.2.2.2.2.2.1⟩

end Util
